import Mathlib

/-!
# Verification of the CPU tensor kernels

A shallow embedding of

* `onnxruntime/core/providers/cpu/ml/scaler.cc` (`ScalerOp`),
* `onnxruntime/core/util/math.h` (`Im2colNd<T, StorageOrder::NCHW>` and the integer helpers),
* `onnxruntime/test/providers/cpu/nn/qlinearconv_op_test.cc`
  (`QLinearConvOpTester`: `RoundHalfToEven`, `RequantizeOutput`, `ComputeExpectedOutput`),

followed by the theorems that settle the claims of the specification.

Conventions of the embedding.

* A raw buffer (`T*`) is a total map from indices to elements; a write `p[i] = v` is
  `Function.update p i v`.  Which indices are dereferenced is part of every statement.
* `int64_t` and `ptrdiff_t` values are `Int` (signed overflow is undefined behaviour in C++ and
  is not modelled); `/` and `%` on them are the truncating `Int.tdiv` and `Int.tmod`.
* Conversions with a defined result are modelled explicitly: `static_cast<int>` of a `size_t`
  keeps the low 32 bits (`toInt32`), and the `int32_t` accumulator of the reference convolution
  wraps (`toInt32`); `accumulateChecked` is the same accumulation with overflow as a failure.
* A finite `float` value is the rational number it represents.  A `float` operation whose result
  is rounded is followed by `roundFloat32` (round to nearest, ties to even, 24 bit significand,
  every operation rounded to `float`); a result of absolute value at least `2 ^ 128` stands for
  an infinity, and NaN is outside the embedding.
-/

namespace OnnxRuntime

/-! ## Machine integers -/

/-- The value of a 32 bit two's complement word holding the low 32 bits of `n`
(`static_cast<int>` of a wider integer, and `int32_t` arithmetic). -/
@[irreducible]
def toInt32 (n : Int) : Int := (n + 2147483648) % 4294967296 - 2147483648

/-- The value of a 64 bit unsigned word holding the low 64 bits of `n`
(`static_cast<uint64_t>` of an `int64_t`). -/
@[irreducible]
def toUInt64 (n : Int) : Int := n % 18446744073709551616

/-- The values of `int` and `int32_t`.  Signed arithmetic whose result is not such a value is
undefined behaviour. -/
def fitsInt32 (n : Int) : Prop := -2147483648 ≤ n ∧ n < 2147483648

instance (n : Int) : Decidable (fitsInt32 n) := by unfold fitsInt32; infer_instance

/-- The values of `int64_t`. -/
def fitsInt64 (n : Int) : Prop := -9223372036854775808 ≤ n ∧ n < 9223372036854775808

instance (n : Int) : Decidable (fitsInt64 n) := by unfold fitsInt64; infer_instance

/-! ## Thread pool helpers (`core/platform/threadpool.h`, not among the sources) -/

/-- The half-open range `[start, end_)` of `ThreadPool::WorkInfo`. -/
structure WorkInfo where
  start : Nat
  end_ : Nat
deriving DecidableEq, Repr

/-- Modelled from the spec: `ThreadPool::PartitionWork` is declared in `threadpool.h`, which is
not among the sources.  The spec (4.1) asks for `numPartitions` near-equal contiguous ranges:
the first `total % numPartitions` ranges hold one item more than the others. -/
def PartitionWork (batch_idx num_batches total_work : Nat) : WorkInfo :=
  let work_per_batch := total_work / num_batches
  let work_per_batch_extra := total_work % num_batches
  if batch_idx < work_per_batch_extra then
    ⟨(work_per_batch + 1) * batch_idx, (work_per_batch + 1) * batch_idx + work_per_batch + 1⟩
  else
    ⟨work_per_batch * batch_idx + work_per_batch_extra,
      work_per_batch * batch_idx + work_per_batch_extra + work_per_batch⟩

/-- Membership of a flat index in the half-open range of a `WorkInfo`. -/
def WorkInfo.contains (w : WorkInfo) (j : Nat) : Prop := w.start ≤ j ∧ j < w.end_

instance (w : WorkInfo) (j : Nat) : Decidable (w.contains j) := by
  unfold WorkInfo.contains; infer_instance

/-- The closed form of the boundary between partition `i - 1` and partition `i`, used to
reason about `PartitionWork`. -/
def partitionBound (num_batches total_work i : Nat) : Nat :=
  total_work / num_batches * i + min i (total_work % num_batches)

/-- Modelled from the spec: `ThreadPool::TrySimpleParallelFor` is declared in `threadpool.h`,
which is not among the sources.  The spec (4.1) says it invokes `fn(partitionIndex)` once for
each `partitionIndex` in `[0, numThreads)` and returns after all of them; the invocations are
run here one after the other in increasing order, each transforming the shared state. -/
def TrySimpleParallelFor {σ : Type} (num_threads : Int) (fn : Nat → σ → σ) (s : σ) : σ :=
  (List.range num_threads.toNat).foldl (fun acc batch_num => fn batch_num acc) s

/-! ## `ScalerOp` (`scaler.cc`) -/

/-- The two status codes `ScalerOp::Compute` returns. -/
inductive StatusCode where
  | OK
  | INVALID_ARGUMENT
deriving DecidableEq, Repr

/-- A tensor: its dimensions and its row-major data buffer. -/
structure Tensor (α : Type) where
  dims : List Nat
  data : Nat → α

/-- The `TensorShape::Size` of a shape: the product of the extents. -/
def TensorShape.Size (dims : List Nat) : Nat := dims.prod

/-- The attributes of a `ScalerOp<T>`. -/
structure ScalerOp (α : Type) where
  scale_ : List α
  offset_ : List α

/-- The constructor `ScalerOp<T>::ScalerOp`: the two `ORT_ENFORCE` checks throw (`none`). -/
def ScalerOp.create {α : Type} (scale offset : List α) : Option (ScalerOp α) :=
  if scale.isEmpty then none
  else if scale.length ≠ offset.length then none
  else some ⟨scale, offset⟩

/-- The `for (auto i = work.start; i < work.end; ++i) y_data[i] = f(i)` loop of a partition. -/
def scalerLoop {α : Type} (work : WorkInfo) (f : Nat → α) (y_data : Nat → α) : Nat → α :=
  ((List.range (work.end_ - work.start)).map (fun k => work.start + k)).foldl
    (fun y i => Function.update y i (f i)) y_data

/-- The element written by the first branch of `Compute`:
`(x_data[i] - offset_[i % stride]) * scale_[i % stride]`. -/
def scalerPerFeature {α : Type} [Sub α] [Mul α] [Inhabited α] (op : ScalerOp α)
    (x_data : Nat → α) (stride : Int) (i : Nat) : α :=
  (x_data i - op.offset_.getD (Int.tmod i stride).toNat default)
    * op.scale_.getD (Int.tmod i stride).toNat default

/-- The element written by the second branch of `Compute`:
`(x_data[i] - offset_[0]) * scale_[0]`. -/
def scalerBroadcast {α : Type} [Sub α] [Mul α] [Inhabited α] (op : ScalerOp α)
    (x_data : Nat → α) (i : Nat) : α :=
  (x_data i - op.offset_.getD 0 default) * op.scale_.getD 0 default

/-- The method `ScalerOp<T>::Compute`.  `dop` is the value of
`ThreadPool::DegreeOfParallelism(ttp)` and `y0` the content of the freshly allocated output
buffer; the result is the returned status and the output tensor. -/
def ScalerOp.Compute {α : Type} [Sub α] [Mul α] [Inhabited α] (op : ScalerOp α) (dop : Int)
    (X : Tensor α) (y0 : Nat → α) : StatusCode × Tensor α :=
  let x_dims := X.dims
  if x_dims.isEmpty then (StatusCode.INVALID_ARGUMENT, ⟨x_dims, y0⟩)
  else
    let x_size : Nat := TensorShape.Size x_dims
    let stride : Int := if x_dims.length = 1 then (x_dims.getD 0 0 : Nat) else (x_dims.getD 1 0 : Nat)
    let num_threads : Int := min dop (toInt32 x_size)
    if (op.offset_.length : Int) = stride ∧ (op.scale_.length : Int) = stride then
      (StatusCode.OK, ⟨x_dims, TrySimpleParallelFor num_threads
        (fun batch_num y_data =>
          scalerLoop (PartitionWork batch_num num_threads.toNat x_size)
            (scalerPerFeature op X.data stride) y_data) y0⟩)
    else if op.offset_.length = 1 ∧ op.scale_.length = 1 then
      (StatusCode.OK, ⟨x_dims, TrySimpleParallelFor num_threads
        (fun batch_num y_data =>
          scalerLoop (PartitionWork batch_num num_threads.toNat x_size)
            (scalerBroadcast op X.data) y_data) y0⟩)
    else (StatusCode.INVALID_ARGUMENT, ⟨x_dims, y0⟩)

/-- The local `stride` of `Compute`: `x_dims.size() == 1 ? x_dims[0] : x_dims[1]`. -/
def strideOf (x_dims : List Nat) : Int :=
  if x_dims.length = 1 then (x_dims.getD 0 0 : Nat) else (x_dims.getD 1 0 : Nat)

/-- The indices the loop `for (auto i = work.start; i < work.end; ++i)` of one partition writes,
in the order of the writes. -/
def partitionWrites (work : WorkInfo) : List Nat :=
  (List.range (work.end_ - work.start)).map (fun k => work.start + k)

/-- The partition bodies of `Compute` (the lambdas passed to `TrySimpleParallelFor`), run one
after the other for the values of `batch_num` listed in `order`, with an arbitrary partitioner
in the place of `ThreadPool::PartitionWork`.  `f i` is the element the body stores in
`y_data[i]`: `scalerPerFeature` in the first branch and `scalerBroadcast` in the second. -/
def runPartitions {α : Type} (partitioner : Nat → Nat → Nat → WorkInfo)
    (num_threads x_size : Nat) (f : Nat → α) (order : List Nat) (y_data : Nat → α) : Nat → α :=
  order.foldl
    (fun (y : Nat → α) (batch_num : Nat) =>
      scalerLoop (partitioner batch_num num_threads x_size) f y) y_data

/-- Every index written during `runPartitions`, in the order of the writes. -/
def writeTrace (partitioner : Nat → Nat → Nat → WorkInfo) (num_threads x_size : Nat)
    (order : List Nat) : List Nat :=
  order.flatMap
    (fun (batch_num : Nat) => partitionWrites (partitioner batch_num num_threads x_size))

/-- The flat index of the element at the multi-index `coords` of a row-major tensor of shape
`dims`. -/
def rowMajorIndex (dims coords : List Nat) : Nat :=
  (List.zip dims coords).foldl (fun (acc : Nat) (dc : Nat × Nat) => acc * dc.1 + dc.2) 0

/-! ## `Im2colNd<T, StorageOrder::NCHW>` (`math.h`) -/

/-- How a call that contains `ORT_ENFORCE` and a `for (bool incremented = true; incremented;)`
loop ends: it returns, it throws at a failed `ORT_ENFORCE`, or the loop budget of the model is
used up.  The state at the throw is kept. -/
inductive Outcome (σ : Type) where
  | done (s : σ)
  | enforceFailed (s : σ)
  | outOfFuel

/-- Element `i` of an `int64_t` array passed by pointer. -/
def at64 (xs : List Int) (i : Nat) : Int := xs.getD i 0

/-- The loop `kernel_size *= kernel_shape[i]` for `i < N`. -/
def kernelSize (kernel_shape : List Int) (N : Nat) : Int :=
  (List.range N).foldl (fun kernel_size i => kernel_size * at64 kernel_shape i) 1

/-- The loop over the spatial axes in reverse order that fills `d_offset` for one `c_col`:
`offset` is divided by `kernel_shape[d_i + 1]` on every axis but the last (`d_i < N - 1`), and
`d_offset[d_i] = offset % kernel_shape[d_i]`.  The state is `(offset, d_offset)`. -/
def computeDOffset (kernel_shape : List Int) (N : Nat) (c_col : Int) (d_offset : List Int) :
    List Int :=
  ((List.range N).reverse.foldl
    (fun (st : Int × List Int) d_i =>
      let offset := if d_i + 1 < N then Int.tdiv st.1 (at64 kernel_shape (d_i + 1)) else st.1
      (offset, st.2.set d_i (Int.tmod offset (at64 kernel_shape d_i))))
    (c_col, d_offset)).2

/-- The loop over the spatial axes in forward order that computes
`(index_col, index_im, is_padding)` for the current `d_iter`. -/
def computeIndices (im_shape col_shape stride dilation pad : List Int) (N : Nat)
    (c_col kernel_size : Int) (d_offset d_iter : List Int) : Int × Int × Bool :=
  (List.range N).foldl
    (fun (st : Int × Int × Bool) d_i =>
      let d := at64 d_iter d_i
      let d_im := d * at64 stride d_i - at64 pad d_i + at64 d_offset d_i * at64 dilation d_i
      (st.1 * at64 col_shape (d_i + 1) + d,
       st.2.1 * at64 im_shape (d_i + 1) + d_im,
       st.2.2 || (decide (d_im < 0) || decide (d_im ≥ at64 im_shape (d_i + 1)))))
    (c_col, Int.tdiv c_col kernel_size, false)

/-- The write of one iteration: in im2col mode `data_col[index_col]` receives `padding_value`
or `data_img[index_im]`; in col2im mode `data_col[index_im] += data_img[index_col]` unless the
position is padding. -/
def writeElement {α : Type} [Add α] (accumulate_output : Bool) (padding_value : α)
    (data_img : Int → α) (index_col index_im : Int) (is_padding : Bool) (data_col : Int → α) :
    Int → α :=
  if !accumulate_output then
    if is_padding then Function.update data_col index_col padding_value
    else Function.update data_col index_col (data_img index_im)
  else if !is_padding then
    Function.update data_col index_im (data_col index_im + data_img index_col)
  else data_col

/-- The loop over the spatial axes in reverse order that advances `d_iter` "like counting":
`nextIter col_shape k d_iter` runs it for `d_i = k - 1, ..., 0`.  The result is `none` when
`ORT_ENFORCE(d_iter[d_i] < d_max)` fails, and otherwise the new `d_iter` with the flag
`incremented`. -/
def nextIter (col_shape : List Int) : Nat → List Int → Option (List Int × Bool)
  | 0, d_iter => some (d_iter, false)
  | d_i + 1, d_iter =>
    let d_max := at64 col_shape (d_i + 1)
    if at64 d_iter d_i < d_max then
      if at64 d_iter d_i = d_max - 1 then nextIter col_shape d_i (d_iter.set d_i 0)
      else some (d_iter.set d_i (at64 d_iter d_i + 1), true)
    else none

/-- The variables of `Im2colNd` that change while it runs. -/
structure Im2colState (α : Type) where
  d_offset : List Int
  d_iter : List Int
  data_col : Int → α

/-- The loop `for (bool incremented = true; incremented;)` for one `c_col`, with a budget of
`fuel` iterations. -/
def positionLoop {α : Type} [Add α] (data_img : Int → α)
    (im_shape col_shape stride dilation pad : List Int) (N : Nat) (accumulate_output : Bool)
    (padding_value : α) (c_col kernel_size : Int) :
    Nat → Im2colState α → Outcome (Im2colState α)
  | 0, _ => Outcome.outOfFuel
  | fuel + 1, st =>
    let idx := computeIndices im_shape col_shape stride dilation pad N c_col kernel_size
      st.d_offset st.d_iter
    let data_col := writeElement accumulate_output padding_value data_img idx.1 idx.2.1 idx.2.2
      st.data_col
    match nextIter col_shape N st.d_iter with
    | none => Outcome.enforceFailed ⟨st.d_offset, st.d_iter, data_col⟩
    | some (d_iter, incremented) =>
      if incremented then
        positionLoop data_img im_shape col_shape stride dilation pad N accumulate_output
          padding_value c_col kernel_size fuel ⟨st.d_offset, d_iter, data_col⟩
      else Outcome.done ⟨st.d_offset, d_iter, data_col⟩

/-- The values `d_iter` takes at the successive iterations of the loop
`for (bool incremented = true; incremented;)`, with a budget of `fuel` iterations: the loop of
`positionLoop` without its writes.  The result is the list of the visited values, in the order
of the visits, and the value of `d_iter` when the loop ends. -/
def positionTrace (col_shape : List Int) (N : Nat) :
    Nat → List Int → Outcome (List (List Int) × List Int)
  | 0, _ => Outcome.outOfFuel
  | fuel + 1, d_iter =>
    match nextIter col_shape N d_iter with
    | none => Outcome.enforceFailed ([d_iter], d_iter)
    | some (d_next, incremented) =>
      if incremented then
        match positionTrace col_shape N fuel d_next with
        | Outcome.done (visited, d_final) => Outcome.done (d_iter :: visited, d_final)
        | Outcome.enforceFailed (visited, d_final) =>
          Outcome.enforceFailed (d_iter :: visited, d_final)
        | Outcome.outOfFuel => Outcome.outOfFuel
      else Outcome.done ([d_iter], d_next)

/-- The loop `for (c_col = 0; c_col < channels_col; ++c_col)` over the listed values of
`c_col`; the first failure ends it. -/
def channelLoop {α : Type} [Add α] (data_img : Int → α)
    (im_shape col_shape kernel_shape stride dilation pad : List Int) (N : Nat)
    (accumulate_output : Bool) (padding_value : α) (kernel_size : Int) (fuel : Nat) :
    List Nat → Im2colState α → Outcome (Im2colState α)
  | [], st => Outcome.done st
  | c_col :: rest, st =>
    match positionLoop data_img im_shape col_shape stride dilation pad N accumulate_output
        padding_value c_col kernel_size fuel
        ⟨computeDOffset kernel_shape N c_col st.d_offset, st.d_iter, st.data_col⟩ with
    | Outcome.done st2 =>
      channelLoop data_img im_shape col_shape kernel_shape stride dilation pad N
        accumulate_output padding_value kernel_size fuel rest st2
    | Outcome.enforceFailed st2 => Outcome.enforceFailed st2
    | Outcome.outOfFuel => Outcome.outOfFuel

/-- The call operator of `Im2colNd<T, StorageOrder::NCHW>` (the unused parameters `img_size`
and `col_size` are left out).  `N` is the number of spatial axes, `data_col` the content of the
written buffer at the call, `fuel` the iteration budget of each inner loop; the result is the
final content of the written buffer. -/
def Im2colNd {α : Type} [Add α] (data_img : Int → α)
    (im_shape col_shape kernel_shape stride dilation pad : List Int) (N : Nat)
    (data_col : Int → α) (accumulate_output : Bool) (padding_value : α) (fuel : Nat) :
    Outcome (Int → α) :=
  let kernel_size := kernelSize kernel_shape N
  let channels_col := at64 col_shape 0
  match channelLoop data_img im_shape col_shape kernel_shape stride dilation pad N
      accumulate_output padding_value kernel_size fuel (List.range channels_col.toNat)
      ⟨List.replicate N 0, List.replicate N 0, data_col⟩ with
  | Outcome.done st => Outcome.done st.data_col
  | Outcome.enforceFailed st => Outcome.enforceFailed st.data_col
  | Outcome.outOfFuel => Outcome.outOfFuel

/-! ### Row-major indexing (used to state the results about `Im2colNd`) -/

/-- The product of the extents `e 0, ..., e (k - 1)`. -/
def extentProd (e : Nat → Int) : Nat → Int
  | 0 => 1
  | k + 1 => extentProd e k * e k

/-- The row-major index of the coordinates `x 0, ..., x (k - 1)` in a block of extents
`e 0, ..., e (k - 1)` that follows the leading index `lead`. -/
def flatIndex (e x : Nat → Int) (lead : Int) : Nat → Int
  | 0 => lead
  | k + 1 => flatIndex e x lead k * e k + x k

/-- Digit `i` of `r` written as a mixed-radix number with the radices `e 0, ..., e (k - 1)`,
the first axis most significant: `(r / (e (i + 1) * ... * e (k - 1))) % e i`. -/
def mixedRadixDigit (e : Nat → Int) : Nat → Int → Nat → Int
  | 0, _, _ => 0
  | k + 1, r, i => if i = k then r % e k else mixedRadixDigit e k (r / e k) i

/-- The coordinates `x 0, ..., x (k - 1)` lie inside the extents: `0 ≤ x i < e i`. -/
def inExtents (e x : Nat → Int) (k : Nat) : Prop := ∀ i, i < k → 0 ≤ x i ∧ x i < e i

/-- The input coordinate on axis `i` of output position `o` under kernel tap `t`:
`o i * stride[i] - pad[i] + t i * dilation[i]`. -/
def inputCoord (stride dilation pad : List Int) (o t : Nat → Int) (i : Nat) : Int :=
  o i * at64 stride i - at64 pad i + t i * at64 dilation i

/-- Whether some of the input coordinates `coord 0, ..., coord (k - 1)` lies outside
`[0, im_shape[i + 1])`. -/
def isPadding (im_shape : List Int) (coord : Nat → Int) : Nat → Bool
  | 0 => false
  | k + 1 => isPadding im_shape coord k
      || (decide (coord k < 0) || decide (coord k ≥ at64 im_shape (k + 1)))

/-- The extents of the spatial axes of a shape whose first entry is the channel count. -/
def spatialExtent (shape : List Int) (i : Nat) : Int := at64 shape (i + 1)

/-- The write `Im2colNd` performs for column row `c_col` at the output position of row-major
rank `r`: the position is `mixedRadixDigit (spatialExtent col_shape) N r`, the kernel tap is
`mixedRadixDigit (at64 kernel_shape) N c_col`. -/
def im2colWrite {α : Type} [Add α] (data_img : Int → α)
    (im_shape col_shape kernel_shape stride dilation pad : List Int) (N : Nat)
    (accumulate_output : Bool) (padding_value : α) (c_col r : Int) (data_col : Int → α) :
    Int → α :=
  writeElement accumulate_output padding_value data_img
    (c_col * extentProd (spatialExtent col_shape) N + r)
    (flatIndex (spatialExtent im_shape)
      (inputCoord stride dilation pad (mixedRadixDigit (spatialExtent col_shape) N r)
        (mixedRadixDigit (at64 kernel_shape) N c_col))
      (c_col / extentProd (at64 kernel_shape) N) N)
    (isPadding im_shape
      (inputCoord stride dilation pad (mixedRadixDigit (spatialExtent col_shape) N r)
        (mixedRadixDigit (at64 kernel_shape) N c_col)) N)
    data_col

/-- The writes of one `c_col` in the order of the loop: ranks `r, r + 1, ..., r + n - 1`. -/
def im2colWrites {α : Type} [Add α] (data_img : Int → α)
    (im_shape col_shape kernel_shape stride dilation pad : List Int) (N : Nat)
    (accumulate_output : Bool) (padding_value : α) (c_col r : Int) (n : Nat)
    (data_col : Int → α) : Int → α :=
  (List.range n).foldl
    (fun (B : Int → α) (j : Nat) =>
      im2colWrite data_img im_shape col_shape kernel_shape stride dilation pad N
        accumulate_output padding_value c_col (r + (j : Int)) B) data_col

/-- All the writes of `Im2colNd` in the order of its loops: for each `c_col` in
`[0, channels_col)`, the writes of the output positions in row-major order. -/
def im2colAllWrites {α : Type} [Add α] (data_img : Int → α)
    (im_shape col_shape kernel_shape stride dilation pad : List Int) (N : Nat)
    (accumulate_output : Bool) (padding_value : α) (channels_col : Nat) (data_col : Int → α) :
    Int → α :=
  (List.range channels_col).foldl
    (fun (B : Int → α) (c_col : Nat) =>
      im2colWrites data_img im_shape col_shape kernel_shape stride dilation pad N
        accumulate_output padding_value (c_col : Int) 0
        (extentProd (spatialExtent col_shape) N).toNat B) data_col

/-- The kernel-tap offset of column row `c_col` on axis `i`: digit `i` of `c_col` in the
mixed-radix system of the kernel extents, `(c_col / (k (i + 1) * ... * k (N - 1))) % k i`. -/
def kernelTap (kernel_shape : List Int) (N : Nat) (c_col : Int) (i : Nat) : Int :=
  (c_col / ∏ j ∈ Finset.Ico (i + 1) N, at64 kernel_shape j) % at64 kernel_shape i

/-- The element `Im2colNd` stores, in im2col mode, for column row `c_col` at the output position
of row-major rank `r`. -/
def im2colValue {α : Type} (data_img : Int → α)
    (im_shape col_shape kernel_shape stride dilation pad : List Int) (N : Nat)
    (padding_value : α) (c_col r : Int) : α :=
  if isPadding im_shape
      (inputCoord stride dilation pad (mixedRadixDigit (spatialExtent col_shape) N r)
        (mixedRadixDigit (at64 kernel_shape) N c_col)) N then padding_value
  else data_img (flatIndex (spatialExtent im_shape)
      (inputCoord stride dilation pad (mixedRadixDigit (spatialExtent col_shape) N r)
        (mixedRadixDigit (at64 kernel_shape) N c_col))
      (c_col / extentProd (at64 kernel_shape) N) N)

/-! ### The pairs (column row, output position) of `Im2colNd` -/

/-- The output position of row-major rank `r`; the ranks `0, ..., P - 1` enumerate the positions
inside the output extents, each once. -/
def outputPosition (col_shape : List Int) (N : Nat) (r : Int) : Nat → Int :=
  mixedRadixDigit (spatialExtent col_shape) N r

/-- The input coordinate on axis `i` of the pair (column row `c_col`, output position of rank
`r`). -/
def pairCoord (col_shape kernel_shape stride dilation pad : List Int) (N : Nat) (c_col r : Int)
    (i : Nat) : Int :=
  inputCoord stride dilation pad (outputPosition col_shape N r) (kernelTap kernel_shape N c_col) i

/-- The input coordinates of the pair are in range on every axis. -/
def pairInRange (im_shape col_shape kernel_shape stride dilation pad : List Int) (N : Nat)
    (c_col r : Int) : Prop :=
  ∀ i, i < N → 0 ≤ pairCoord col_shape kernel_shape stride dilation pad N c_col r i ∧
    pairCoord col_shape kernel_shape stride dilation pad N c_col r i < spatialExtent im_shape i

instance (im_shape col_shape kernel_shape stride dilation pad : List Int) (N : Nat)
    (c_col r : Int) :
    Decidable (pairInRange im_shape col_shape kernel_shape stride dilation pad N c_col r) := by
  unfold pairInRange; infer_instance

/-- The row-major image index of the pair: channel `c_col / kernel_size`, then its input
coordinates. -/
def pairImageIndex (im_shape col_shape kernel_shape stride dilation pad : List Int) (N : Nat)
    (c_col r : Int) : Int :=
  flatIndex (spatialExtent im_shape)
    (pairCoord col_shape kernel_shape stride dilation pad N c_col r)
    (c_col / ∏ i ∈ Finset.range N, at64 kernel_shape i) N

/-- The row-major column index of the pair. -/
def pairColIndex (col_shape : List Int) (N : Nat) (c_col r : Int) : Int :=
  c_col * (∏ i ∈ Finset.range N, spatialExtent col_shape i) + r

/-- All pairs (column row, rank of an output position) that `Im2colNd` visits. -/
def allPairs (col_shape : List Int) (N : Nat) : Finset (Nat × Nat) :=
  Finset.range (at64 col_shape 0).toNat
    ×ˢ Finset.range (∏ i ∈ Finset.range N, spatialExtent col_shape i).toNat

/-! ### Counting windows -/

/-- Digit `i` of the natural number `r` in the mixed-radix system of the radices
`e 0, ..., e (k - 1)`, first axis most significant (`mixedRadixDigit` on natural numbers). -/
def natDigit (e : Nat → Nat) : Nat → Nat → Nat → Nat
  | 0, _, _ => 0
  | k + 1, r, i => if i = k then r % e k else natDigit e k (r / e k) i

/-- The number of (kernel tap `t`, output coordinate `o`) pairs on axis `i` whose input
coordinate `o * stride[i] - pad[i] + t * dilation[i]` is `x`. -/
def axisWindowCount (col_shape kernel_shape stride dilation pad : List Int) (i : Nat)
    (x : Int) : Nat :=
  ((Finset.range (at64 kernel_shape i).toNat
      ×ˢ Finset.range (spatialExtent col_shape i).toNat).filter
    (fun q => (q.2 : Int) * at64 stride i - at64 pad i + (q.1 : Int) * at64 dilation i = x)).card

/-- The (kernel tap, output position) pairs whose window covers the image position `p`: the
kernel tap is the one of rank `q.1` among the kernel taps, the output position the one of rank
`q.2`, and on every axis the input coordinate of the pair is `p i`. -/
def coveringPairs (col_shape kernel_shape stride dilation pad : List Int) (N : Nat)
    (p : Nat → Int) : Finset (Nat × Nat) :=
  ((Finset.range (∏ i ∈ Finset.range N, at64 kernel_shape i).toNat
      ×ˢ Finset.range (∏ i ∈ Finset.range N, spatialExtent col_shape i).toNat).filter
    (fun q => ∀ i, i < N →
      pairCoord col_shape kernel_shape stride dilation pad N (q.1 : Int) (q.2 : Int) i = p i))

/-! ## Integer helpers of `math.h` -/

/-- The function `is_a_ge_zero_and_a_lt_b`:
`static_cast<uint64_t>(a) < static_cast<uint64_t>(b)`. -/
def is_a_ge_zero_and_a_lt_b (a b : Int) : Bool := decide (toUInt64 a < toUInt64 b)

/-- The function `divUp`: `(a + b - (T)1) / b`. -/
def divUp (a b : Int) : Int := Int.tdiv (a + b - 1) b

/-- The function `roundUp`: `divUp<T>(a, b) * b`. -/
def roundUp (a b : Int) : Int := divUp a b * b

/-- The function (or macro) `integerIsPowerOf2`: `(v && !(v & (v - 1)))`.  The bitwise "and" of
two's complement integers is `Int.land`. -/
def integerIsPowerOf2 (v : Int) : Bool := decide (v ≠ 0) && !decide (Int.land v (v - 1) ≠ 0)

/-- The function `integerLog2`: `(n <= 1) ? p : integerLog2(n / 2, p + 1)`; the callers that
leave `p` out pass 0. -/
def integerLog2 (n p : Int) : Int :=
  if h : n ≤ 1 then p else integerLog2 (Int.tdiv n 2) (p + 1)
termination_by n.toNat
decreasing_by
  have h2 : Int.tdiv n 2 = n / 2 := Int.tdiv_eq_ediv (by omega) (by omega)
  rw [h2]
  omega

/-- The function `integerNextHighestPowerOf2`:
`integerIsPowerOf2(v) ? (T)2 * v : ((T)1 << (integerLog2(v) + 1))`. -/
def integerNextHighestPowerOf2 (v : Int) : Int :=
  if integerIsPowerOf2 v then 2 * v else (1 : Int) <<< (integerLog2 v 0 + 1)

/-- The function `roundUpPow2<T, b>`: `(a + (b - 1)) & (~(b - 1))`.  The bitwise complement of a
two's complement integer is `Int.lnot`. -/
def roundUpPow2 (b a : Int) : Int := Int.land (a + (b - 1)) (Int.lnot (b - 1))

/-- The call `copy(A + a, B + b, n)` of an element-wise copy: `B[b + k] = A[a + k]` for
`k = 0, ..., n - 1`.  The source `A` and the written buffer `B` are two buffers. -/
def copyElements {α : Type} (A : Int → α) (a : Int) (B : Int → α) (b : Int) (n : Nat) :
    Int → α :=
  (List.range n).foldl
    (fun (B : Int → α) (k : Nat) => Function.update B (b + (k : Int)) (A (a + (k : Int)))) B

/-- One iteration of the loop of `CopyMatrix`: `copy(A + lda * i, B + ldb * i, N)`.  The offsets
`lda * i` and `ldb * i` are products of `int` values: the result is `none` (undefined behaviour)
when one of them is not an `int` value. -/
def copyRowStep {α : Type} (N : Int) (A : Int → α) (lda ldb : Int) (st : Option (Int → α))
    (i : Nat) : Option (Int → α) :=
  match st with
  | none => none
  | some B =>
    if fitsInt32 (lda * (i : Int)) ∧ fitsInt32 (ldb * (i : Int)) then
      some (copyElements A (lda * (i : Int)) B (ldb * (i : Int)) (toUInt64 N).toNat)
    else none

/-- The loop `for (int i = 0; i < M; ++i) copy(A + lda * i, B + ldb * i, N)` of `CopyMatrix`;
`none` when an `int` product overflows. -/
def copyRows {α : Type} (M N : Int) (A : Int → α) (lda : Int) (B : Int → α) (ldb : Int) :
    Option (Int → α) :=
  (List.range M.toNat).foldl (copyRowStep N A lda ldb) (some B)

/-- The function `CopyMatrix` with `copy` an element-wise copy and `M`, `N`, `lda`, `ldb` values
of `int`; the result is the final content of the buffer `B`, or `none` when an `int` product
overflows (undefined behaviour): the count `static_cast<size_t>(N * M)` of the fast path is the
conversion of the `int` product `N * M`. -/
def CopyMatrix {α : Type} (M N : Int) (A : Int → α) (lda : Int) (B : Int → α) (ldb : Int) :
    Option (Int → α) :=
  if lda = N ∧ ldb = N then
    if fitsInt32 (N * M) then some (copyElements A 0 B 0 (toUInt64 (N * M)).toNat) else none
  else copyRows M N A lda B ldb

/-! ## `QLinearConvOpTester` (`qlinearconv_op_test.cc`) -/

/-- An integer storage type `T`: `std::numeric_limits<T>::min()` and `max()`. -/
structure IntType where
  min : Int
  max : Int
deriving DecidableEq, Repr

/-- The type `uint8_t`. -/
def IntType.uint8 : IntType := ⟨0, 255⟩

/-- The type `int8_t`. -/
def IntType.int8 : IntType := ⟨-128, 127⟩

/-- The values of `T` are those of the words of its width: a value outside `[min, max]` wraps. -/
def IntType.wrap (T : IntType) (n : Int) : Int := (n - T.min) % (T.max - T.min + 1) + T.min

/-- The conversion `static_cast<T>(f)` of a finite `float` to an integer type: the fraction is
discarded (truncation toward zero); a value outside the range of `T` wraps. -/
def staticCastFloat (T : IntType) (f : ℚ) : Int :=
  T.wrap (if 0 ≤ f then ⌊f⌋ else ⌈f⌉)

/-- The integer nearest to `q`, the even one when `q` lies half way between two integers. -/
def nearestInt (q : ℚ) : Int :=
  if q - ⌊q⌋ < 1 / 2 then ⌊q⌋
  else if 1 / 2 < q - ⌊q⌋ then ⌊q⌋ + 1
  else if ⌊q⌋ % 2 = 0 then ⌊q⌋ else ⌊q⌋ + 1

/-- The library function `std::remainderf` on finite values, as the comment in
`RoundHalfToEven` describes it: `x - n * y`, where `n` is the integral value nearest to `x / y`,
chosen even when `|x / y - n| = 0.5`. -/
def remainderf (x y : ℚ) : ℚ := x - (nearestInt (x / y) : ℚ) * y

/-- The method `RoundHalfToEven` on a finite input (a non-finite input is returned unchanged and
is outside this domain).  On finite `float` values both `std::remainderf` and the subtraction
are exact. -/
def RoundHalfToEven (input : ℚ) : ℚ := input - remainderf input 1

/-- The exponent `e` of the binade of a `float`: `2 ^ e ≤ |q| < 2 ^ (e + 1)` for a normal value,
`-126` below the normal range and `127` above it. -/
def floatExponent (q : ℚ) : Int := min 127 (max (-126) (Int.log 2 |q|))

/-- The rounding of the exact result of a `float` operation (and of the conversion of an
integer to `float`): the nearest multiple of `2 ^ (e - 23)`, the spacing of the `float` values
of the binade of `q` (24 bit significand, subnormal spacing `2 ^ (-149)`), the one with the even
significand when `q` lies half way between two of them.  A result of absolute value at least
`2 ^ 128` stands for an infinity. -/
def roundFloat32 (q : ℚ) : ℚ :=
  (nearestInt (q / (2 : ℚ) ^ (floatExponent q - 23)) : ℚ) * (2 : ℚ) ^ (floatExponent q - 23)

/-- A `float` value with the arithmetic of `float`: the result of every operation is rounded. -/
structure F32 where
  val : ℚ

instance : Sub F32 := ⟨fun a b => ⟨roundFloat32 (a.val - b.val)⟩⟩

instance : Mul F32 := ⟨fun a b => ⟨roundFloat32 (a.val * b.val)⟩⟩

instance : Inhabited F32 := ⟨⟨0⟩⟩

/-- The struct `RequantizeValues<T>`. -/
structure RequantizeValues where
  min_value_ : ℚ
  max_value_ : ℚ
  zero_point_ : ℚ

/-- The constructor `RequantizeValues<T>(zero_point)`: the three members are conversions of
`int32_t` values to `float`. -/
def RequantizeValues.create (T : IntType) (zero_point : Int) : RequantizeValues :=
  ⟨roundFloat32 ((T.min - zero_point : Int) : ℚ), roundFloat32 ((T.max - zero_point : Int) : ℚ),
    roundFloat32 (zero_point : ℚ)⟩

/-- The method `RequantizeOutput<T>`: `static_cast<float>(sum) * scale` is the rounded product of
the rounded conversion of `sum`, and the sum with `zero_point_` is a `float` addition. -/
def RequantizeOutput (T : IntType) (sum : Int) (scale : ℚ)
    (requantize_values : RequantizeValues) : Int :=
  let f : ℚ := roundFloat32 (roundFloat32 (sum : ℚ) * scale)
  let f := min f requantize_values.max_value_
  let f := max f requantize_values.min_value_
  staticCastFloat T (roundFloat32 (RoundHalfToEven f + requantize_values.zero_point_))

/-- The requantization formula as the specification words it: the product is rounded half to
even, the rounded value is clamped to the range `[Tmin, Tmax]` of the destination type, the zero
point is added, and the result is narrowed to the destination width. -/
def specRequantize (T : IntType) (sum : Int) (s : ℚ) (zp : Int) : Int :=
  staticCastFloat T
    (max (T.min : ℚ) (min (T.max : ℚ) (RoundHalfToEven ((sum : ℚ) * s))) + (zp : ℚ))

/-- A `QuantizedTensor<T>` of the tester; the elements are kept as integers. -/
structure QuantizedTensor where
  data_ : List Int
  shape_ : List Int
  scale_ : List ℚ
  zero_point_ : Int

/-- The members of `QLinearConvOpTester<T1, T2>` that `ComputeExpectedOutput` reads. -/
structure QLinearConvOpTester where
  X_ : QuantizedTensor
  W_ : QuantizedTensor
  B_ : List Int
  pads_ : List Int
  strides_ : List Int
  dilations_ : List Int
  groups_ : Int
  output_scale_ : ℚ
  output_zero_point_ : Int

/-- The function `ShapeSize`: the product of the extents, converted to `size_t` (64 bits). -/
def ShapeSize (shape : List Int) : Int := toUInt64 (shape.foldl (fun acc d => acc * d) 1)

/-- Element `i` of a data buffer read through a pointer. -/
def readAt (xs : List Int) (i : Int) : Int := xs.getD i.toNat 0

/-- The expected shape of the output: `batch_count`, `output_channels`, and for each spatial
axis `n` the extent
`((input_shape[n] + pads[n] + pads[kernel_rank + n]) - (dilations[n] * (kernel_shape[n] - 1) + 1))
/ strides[n] + 1`. -/
def expectedShape (X_shape W_shape pads dilations strides : List Int) (kernel_rank : Nat) :
    List Int :=
  (List.range kernel_rank).foldl
    (fun Y_shape n =>
      Y_shape ++ [Int.tdiv
        ((at64 X_shape (n + 2) + at64 pads n + at64 pads (kernel_rank + n))
          - (at64 dilations n * (at64 W_shape (n + 2) - 1) + 1))
        (at64 strides n) + 1])
    [at64 X_shape 0, at64 W_shape 0]

/-- The local constants of `ComputeExpectedOutput` that its loops read. -/
structure ConvLocals where
  batch_count : Int
  group_count : Int
  group_input_channels : Int
  group_output_channels : Int
  input_h : Int
  input_w : Int
  kernel_h : Int
  kernel_w : Int
  output_h : Int
  output_w : Int
  pad_t : Int
  pad_l : Int
  dilation_h : Int
  dilation_w : Int
  stride_h : Int
  stride_w : Int
  X_zero_point : Int

/-- The state of the three innermost loops: the accumulator `sum` and the pointers
`input_image` and `weight_data` (as offsets into the data of `X_` and `W_`). -/
structure TapState where
  sum : Int
  input_image : Int
  weight_data : Int

/-- One iteration of the loop over `kw`. -/
def tapStep (L : ConvLocals) (Xdata Wdata : List Int) (ow ih : Int) (st : TapState)
    (kw : Nat) : TapState :=
  let iw := (kw : Int) * L.dilation_w + ow * L.stride_w - L.pad_l
  let w_value := toInt32 (readAt Wdata st.weight_data)
  if toUInt64 ih < toUInt64 L.input_h ∧ toUInt64 iw < toUInt64 L.input_w then
    let x_value := toInt32 (toInt32 (readAt Xdata (st.input_image + (ih * L.input_w + iw)))
      - L.X_zero_point)
    ⟨toInt32 (st.sum + toInt32 (x_value * w_value)), st.input_image, st.weight_data + 1⟩
  else ⟨st.sum, st.input_image, st.weight_data + 1⟩

/-- One iteration of the loop over `kh`: the loop over `kw`. -/
def rowStep (L : ConvLocals) (Xdata Wdata : List Int) (oh ow : Int) (st : TapState)
    (kh : Nat) : TapState :=
  (List.range L.kernel_w.toNat).foldl
    (tapStep L Xdata Wdata ow ((kh : Int) * L.dilation_h + oh * L.stride_h - L.pad_t)) st

/-- One iteration of the loop over `ic`: the loop over `kh`, then
`input_image += input_image_size`. -/
def channelStep (L : ConvLocals) (Xdata Wdata : List Int) (oh ow : Int) (st : TapState)
    (_ic : Nat) : TapState :=
  let st2 := (List.range L.kernel_h.toNat).foldl (rowStep L Xdata Wdata oh ow) st
  ⟨st2.sum, st2.input_image + L.input_h * L.input_w, st2.weight_data⟩

/-- The accumulator passed to `RequantizeOutput` for the output position `(oh, ow)`: `sum`
starts at `bias`, `input_image` at `Xdata` and `weight_data` at `weight_row`. -/
def accumulate (L : ConvLocals) (Xdata Wdata : List Int) (oh ow bias xdata weight_row : Int) :
    Int :=
  ((List.range L.group_input_channels.toNat).foldl (channelStep L Xdata Wdata oh ow)
    ⟨bias, xdata, weight_row⟩).sum

/-- The state of the outer loops: the pointers `Xdata`, `weight_group` and `weight_row` (as
offsets) and the elements stored through `*Ydata++` so far, in the order of the stores. -/
structure OutputState (β : Type) where
  xdata : Int
  weight_group : Int
  weight_row : Int
  ydata : List β

/-- The loops over `oh` and `ow` for one output channel; `emit sum` is the element stored for the
accumulator `sum`. -/
def positionsOf {β : Type} (L : ConvLocals) (Xdata Wdata : List Int) (emit : Int → β)
    (bias xdata weight_row : Int) (ydata : List β) : List β :=
  (List.range L.output_h.toNat).foldl
    (fun (yd : List β) (oh : Nat) =>
      (List.range L.output_w.toNat).foldl
        (fun (yd : List β) (ow : Nat) =>
          yd ++ [emit (accumulate L Xdata Wdata (oh : Int) (ow : Int) bias xdata weight_row)])
        yd)
    ydata

/-- One iteration of the loop over `oc`. -/
def outputChannelStep {β : Type} (L : ConvLocals) (Xdata Wdata B : List Int)
    (emit : Int → Int → β) (group : Nat) (st : OutputState β) (oc : Nat) : OutputState β :=
  let channel_index : Int := (group : Int) * L.group_output_channels + (oc : Int)
  let bias : Int := if B.isEmpty then 0 else toInt32 (readAt B channel_index)
  ⟨st.xdata, st.weight_group,
    st.weight_row + L.group_input_channels * (L.kernel_h * L.kernel_w),
    positionsOf L Xdata Wdata (emit channel_index) bias st.xdata st.weight_row st.ydata⟩

/-- One iteration of the loop over `group`. -/
def groupStep {β : Type} (L : ConvLocals) (Xdata Wdata B : List Int) (emit : Int → Int → β)
    (st : OutputState β) (group : Nat) : OutputState β :=
  let st2 := (List.range L.group_output_channels.toNat).foldl
    (outputChannelStep L Xdata Wdata B emit group)
    ⟨st.xdata, st.weight_group, st.weight_group, st.ydata⟩
  ⟨st2.xdata + L.group_input_channels * (L.input_h * L.input_w),
    st2.weight_group
      + L.group_output_channels * L.group_input_channels * (L.kernel_h * L.kernel_w),
    st2.weight_row, st2.ydata⟩

/-- One iteration of the loop over `batch`: `weight_group` restarts at the weights. -/
def batchStep {β : Type} (L : ConvLocals) (Xdata Wdata B : List Int) (emit : Int → Int → β)
    (st : OutputState β) (_batch : Nat) : OutputState β :=
  (List.range L.group_count.toNat).foldl (groupStep L Xdata Wdata B emit)
    ⟨st.xdata, 0, st.weight_row, st.ydata⟩

/-- The five output loops of `ComputeExpectedOutput` (lines 401 to 442): the elements stored
through `*Ydata++`, in the order of the stores.  `emit channel_index sum` is the element stored
for the accumulator `sum` of an output channel. -/
def convLoops {β : Type} (L : ConvLocals) (Xdata Wdata B : List Int) (emit : Int → Int → β) :
    List β :=
  ((List.range L.batch_count.toNat).foldl (batchStep L Xdata Wdata B emit) ⟨0, 0, 0, []⟩).ydata

/-- The scale `requantize_scale` of an output channel:
`(X_.scale_[0] * weight_scale) / output_scale_`, with
`weight_scale = W_.scale_[(W_.scale_.size() == 1) ? 0 : channel_index]`; the product and the
quotient are `float` operations.  A zero `output_scale_` (the quotient is then an infinity or
NaN) is outside the embedding. -/
def requantizeScale (t : QLinearConvOpTester) (channel_index : Int) : ℚ :=
  roundFloat32
    (roundFloat32 (t.X_.scale_.getD 0 0
        * t.W_.scale_.getD (if t.W_.scale_.length = 1 then 0 else channel_index.toNat) 0)
      / t.output_scale_)

/-- The local constants of `ComputeExpectedOutput` for the tester `t` and the output shape
`Y_shape`. -/
def convLocals (t : QLinearConvOpTester) (pads dilations strides Y_shape : List Int) :
    ConvLocals :=
  ⟨at64 t.X_.shape_ 0, max t.groups_ 1, at64 t.W_.shape_ 1,
    Int.tdiv (at64 t.W_.shape_ 0) (max t.groups_ 1),
    at64 t.X_.shape_ 2, at64 t.X_.shape_ 3, at64 t.W_.shape_ 2, at64 t.W_.shape_ 3,
    at64 Y_shape 2, at64 Y_shape 3, at64 pads 0, at64 pads 1,
    at64 dilations 0, at64 dilations 1, at64 strides 0, at64 strides 1,
    toInt32 t.X_.zero_point_⟩

/-- The vector `pads` of `ComputeExpectedOutput`: `pads_`, or zeros when `pads_` is empty. -/
def effectivePads (t : QLinearConvOpTester) (kernel_rank : Nat) : List Int :=
  if t.pads_.isEmpty then List.replicate (kernel_rank * 2) 0 else t.pads_

/-- The vector `dilations` of `ComputeExpectedOutput`: `dilations_`, or ones when it is empty. -/
def effectiveDilations (t : QLinearConvOpTester) (kernel_rank : Nat) : List Int :=
  if t.dilations_.isEmpty then List.replicate kernel_rank 1 else t.dilations_

/-- The vector `strides` of `ComputeExpectedOutput`: `strides_`, or ones when it is empty. -/
def effectiveStrides (t : QLinearConvOpTester) (kernel_rank : Nat) : List Int :=
  if t.strides_.isEmpty then List.replicate kernel_rank 1 else t.strides_

/-- The method `ComputeExpectedOutput` for the storage type `T1` of the input and the output:
`none` when an `ORT_ENFORCE` fails, and otherwise `(Y_data, Y_shape)`.  The embedding covers the
calls the method is written for: tensors of rank 4 (the loops read `input_shape[1]`,
`kernel_shape[1]`, `output_shape[1]`, `dilations[1]` and `strides[1]`, which lie outside the
vectors for rank 3 and are `at64` defaults here) and an output shape the allocation
`Y_data.resize(ShapeSize(Y_shape))` succeeds on (it throws `std::length_error` when the product
of the extents, converted to `size_t`, is too large): `Y_data` has `ShapeSize(Y_shape)`
elements, zero where the loops store nothing. -/
def ComputeExpectedOutput (T1 : IntType) (t : QLinearConvOpTester) :
    Option (List Int × List Int) :=
  if ¬ (2 < t.W_.shape_.length) then none
  else if ¬ (t.X_.shape_.length = t.W_.shape_.length) then none
  else
    let kernel_rank := t.W_.shape_.length - 2
    let input_channels := at64 t.X_.shape_ 1
    let output_channels := at64 t.W_.shape_ 0
    let group_count := max t.groups_ 1
    let group_input_channels := at64 t.W_.shape_ 1
    let group_output_channels := Int.tdiv output_channels group_count
    if ¬ (input_channels = group_input_channels * group_count) then none
    else if ¬ (output_channels = group_output_channels * group_count) then none
    else
      let pads := effectivePads t kernel_rank
      let dilations := effectiveDilations t kernel_rank
      let strides := effectiveStrides t kernel_rank
      let Y_shape := expectedShape t.X_.shape_ t.W_.shape_ pads dilations strides kernel_rank
      let requantize_values := RequantizeValues.create T1 t.output_zero_point_
      let stored := convLoops (convLocals t pads dilations strides Y_shape) t.X_.data_
        t.W_.data_ t.B_
        (fun channel_index sum =>
          RequantizeOutput T1 sum (requantizeScale t channel_index) requantize_values)
      some (stored ++ List.replicate ((ShapeSize Y_shape).toNat - stored.length) 0, Y_shape)

/-! ### The accumulator of the reference convolution, as a sum -/

/-- The contribution of the kernel tap `(kh, kw)` of input channel `ic` (of group `g`) to the
accumulator of output channel `oc` (of group `g`) at the output position `(oh, ow)` of batch
`b`: `(X[b, g * gic + ic, ih, iw] - X_zero_point) * W[g * goc + oc, ic, kh, kw]` when the input
coordinate `(ih, iw)` lies inside the input, and zero otherwise. -/
def tapTerm (L : ConvLocals) (Xdata Wdata : List Int) (b g oc oh ow ic kh kw : Nat) : Int :=
  if 0 ≤ (kh : Int) * L.dilation_h + (oh : Int) * L.stride_h - L.pad_t ∧
      (kh : Int) * L.dilation_h + (oh : Int) * L.stride_h - L.pad_t < L.input_h ∧
      0 ≤ (kw : Int) * L.dilation_w + (ow : Int) * L.stride_w - L.pad_l ∧
      (kw : Int) * L.dilation_w + (ow : Int) * L.stride_w - L.pad_l < L.input_w then
    (readAt Xdata
        ((((b : Int) * (L.group_input_channels * L.group_count)
            + ((g : Int) * L.group_input_channels + (ic : Int))) * L.input_h
          + ((kh : Int) * L.dilation_h + (oh : Int) * L.stride_h - L.pad_t)) * L.input_w
          + ((kw : Int) * L.dilation_w + (ow : Int) * L.stride_w - L.pad_l))
      - L.X_zero_point)
    * readAt Wdata
        (((((g : Int) * L.group_output_channels + (oc : Int)) * L.group_input_channels
            + (ic : Int)) * L.kernel_h + (kh : Int)) * L.kernel_w + (kw : Int))
  else 0

/-- The exact value of the accumulator: the bias of the output channel (0 when there is no bias)
plus the contributions of every input channel of the group and every kernel tap. -/
def expectedAccumulator (L : ConvLocals) (Xdata Wdata B : List Int) (b g oc oh ow : Nat) : Int :=
  (if B.isEmpty then 0 else readAt B ((g : Int) * L.group_output_channels + (oc : Int)))
  + ∑ ic ∈ Finset.range L.group_input_channels.toNat,
      ∑ kh ∈ Finset.range L.kernel_h.toNat,
        ∑ kw ∈ Finset.range L.kernel_w.toNat, tapTerm L Xdata Wdata b g oc oh ow ic kh kw

/-- The pointer form of a tap contribution: the input is read at `input_image[ih * input_w + iw]`
and the weight at `weight_data`. -/
def ptrTerm (L : ConvLocals) (Xdata Wdata : List Int) (input_image weight_data ih iw : Int) :
    Int :=
  if 0 ≤ ih ∧ ih < L.input_h ∧ 0 ≤ iw ∧ iw < L.input_w then
    (readAt Xdata (input_image + (ih * L.input_w + iw)) - L.X_zero_point)
      * readAt Wdata weight_data
  else 0

/-- The offset of `Xdata` while the loops are in group `g` of batch `b`. -/
def xdataAt (L : ConvLocals) (b g : Nat) : Int :=
  ((b : Int) * (L.group_count.toNat : Int) + (g : Int))
    * (L.group_input_channels * (L.input_h * L.input_w))

/-- The offset of `weight_row` while the loops are in output channel `oc` of group `g`. -/
def weightRowAt (L : ConvLocals) (g oc : Nat) : Int :=
  (g : Int) * (L.group_output_channels * L.group_input_channels * (L.kernel_h * L.kernel_w))
    + (oc : Int) * (L.group_input_channels * (L.kernel_h * L.kernel_w))

/-- The bias of an output channel: `B_.empty() ? 0 : B_[channel_index]`, an `int32_t`. -/
def biasOf (B : List Int) (channel_index : Int) : Int :=
  if B.isEmpty then 0 else toInt32 (readAt B channel_index)

/-- The elements stored for one output channel, in the order of the stores, when `Xdata` and
`weight_row` are at the offsets `xdata` and `weight_row`. -/
def positionBlock {β : Type} (L : ConvLocals) (Xdata Wdata : List Int) (emit : Int → β)
    (bias xdata weight_row : Int) : List β :=
  (List.range L.output_h.toNat).flatMap
    (fun (oh : Nat) => (List.range L.output_w.toNat).map
      (fun (ow : Nat) =>
        emit (accumulate L Xdata Wdata (oh : Int) (ow : Int) bias xdata weight_row)))

/-- The elements stored by the five output loops, as nested blocks. -/
def convBlocks {β : Type} (L : ConvLocals) (Xdata Wdata B : List Int) (emit : Int → Int → β) :
    List β :=
  (List.range L.batch_count.toNat).flatMap (fun (b : Nat) =>
    (List.range L.group_count.toNat).flatMap (fun (g : Nat) =>
      (List.range L.group_output_channels.toNat).flatMap (fun (oc : Nat) =>
        positionBlock L Xdata Wdata
          (emit ((g : Int) * L.group_output_channels + (oc : Int)))
          (biasOf B ((g : Int) * L.group_output_channels + (oc : Int)))
          (xdataAt L b g) (weightRowAt L g oc))))

/-! ### The single-channel convolutions of a depthwise convolution -/

/-- The tester of the `group = 1` convolution of input channel `g` alone, as the depthwise check
of the specification words it, for a tester `t` with input shape `[N, C, H, W]`, weight shape
`[C * goc, 1, KH, KW]` and `C` groups: the input is channel `g` of every batch (shape `[N, 1, H, W]`), the weights are
the `g`-th block of `goc` weight rows (shape `[goc, 1, KH, KW]`), the bias and the per-channel
weight scales are the matching slices (a single shared weight scale is kept), and the pads,
strides, dilations and quantization parameters are those of `t`. -/
def groupTester (t : QLinearConvOpTester) (g : Nat) : QLinearConvOpTester :=
  let N := (at64 t.X_.shape_ 0).toNat
  let C := (at64 t.X_.shape_ 1).toNat
  let image := (at64 t.X_.shape_ 2).toNat * (at64 t.X_.shape_ 3).toNat
  let goc := (Int.tdiv (at64 t.W_.shape_ 0) (max t.groups_ 1)).toNat
  let kernel := (at64 t.W_.shape_ 2).toNat * (at64 t.W_.shape_ 3).toNat
  { X_ := { data_ := (List.range (N * image)).map
              (fun (k : Nat) => readAt t.X_.data_
                (((k / image * C + g) * image + k % image : Nat) : Int))
            shape_ := [at64 t.X_.shape_ 0, 1, at64 t.X_.shape_ 2, at64 t.X_.shape_ 3]
            scale_ := t.X_.scale_
            zero_point_ := t.X_.zero_point_ }
    W_ := { data_ := (t.W_.data_.drop (g * (goc * kernel))).take (goc * kernel)
            shape_ := [(goc : Int), 1, at64 t.W_.shape_ 2, at64 t.W_.shape_ 3]
            scale_ := if t.W_.scale_.length = 1 then t.W_.scale_
              else (t.W_.scale_.drop (g * goc)).take goc
            zero_point_ := t.W_.zero_point_ }
    B_ := (t.B_.drop (g * goc)).take goc
    pads_ := t.pads_
    strides_ := t.strides_
    dilations_ := t.dilations_
    groups_ := 1
    output_scale_ := t.output_scale_
    output_zero_point_ := t.output_zero_point_ }

/-! ### The index triples of `Im2colNd` -/

/-- The triples `(index_col, index_im, is_padding)` of the successive executions of the loop
body of `Im2colNd`, in their order, for the listed values of `c_col`: the loops of `channelLoop`
without the accesses to the buffers.  Each execution of the body computes its triple with
`computeIndices` from the current `c_col`, `d_offset` and `d_iter`.  A failure of `ORT_ENFORCE`
ends the trace with the triples of the executions that came before it. -/
def indexTrace (im_shape col_shape kernel_shape stride dilation pad : List Int) (N : Nat)
    (kernel_size : Int) (fuel : Nat) :
    List Nat → List Int → List Int → Outcome (List (Int × Int × Bool))
  | [], _, _ => Outcome.done []
  | c_col :: rest, d_offset, d_iter =>
    match positionTrace col_shape N fuel d_iter with
    | Outcome.done (visited, d_final) =>
      match indexTrace im_shape col_shape kernel_shape stride dilation pad N kernel_size fuel
          rest (computeDOffset kernel_shape N c_col d_offset) d_final with
      | Outcome.done log =>
        Outcome.done (visited.map (computeIndices im_shape col_shape stride dilation pad N
          c_col kernel_size (computeDOffset kernel_shape N c_col d_offset)) ++ log)
      | Outcome.enforceFailed log =>
        Outcome.enforceFailed (visited.map (computeIndices im_shape col_shape stride dilation
          pad N c_col kernel_size (computeDOffset kernel_shape N c_col d_offset)) ++ log)
      | Outcome.outOfFuel => Outcome.outOfFuel
    | Outcome.enforceFailed (visited, _) =>
      Outcome.enforceFailed (visited.map (computeIndices im_shape col_shape stride dilation pad
        N c_col kernel_size (computeDOffset kernel_shape N c_col d_offset)))
    | Outcome.outOfFuel => Outcome.outOfFuel

/-- The triples `(index_col, index_im, is_padding)` of the executions of the loop body in one
call of `Im2colNd`, in their order. -/
def Im2colNdIndices (im_shape col_shape kernel_shape stride dilation pad : List Int) (N : Nat)
    (fuel : Nat) : Outcome (List (Int × Int × Bool)) :=
  indexTrace im_shape col_shape kernel_shape stride dilation pad N (kernelSize kernel_shape N)
    fuel (List.range (at64 col_shape 0).toNat) (List.replicate N 0) (List.replicate N 0)

/-- The index triple of column row `c_col` at the output position of row-major rank `r`: the
row-major column index, the row-major image index and the padding flag. -/
def im2colIndices (im_shape col_shape kernel_shape stride dilation pad : List Int) (N : Nat)
    (c_col r : Int) : Int × Int × Bool :=
  (c_col * extentProd (spatialExtent col_shape) N + r,
   flatIndex (spatialExtent im_shape)
     (inputCoord stride dilation pad (mixedRadixDigit (spatialExtent col_shape) N r)
       (mixedRadixDigit (at64 kernel_shape) N c_col))
     (c_col / extentProd (at64 kernel_shape) N) N,
   isPadding im_shape
     (inputCoord stride dilation pad (mixedRadixDigit (spatialExtent col_shape) N r)
       (mixedRadixDigit (at64 kernel_shape) N c_col)) N)

/-! ### The accumulator as an im2col transform followed by a matrix product -/

/-- The call of `Im2colNd<NCHW>` with two spatial axes on the input slice of group `g` of batch
`b`: the image is the `group_input_channels` channels of the group, the column buffer has
`group_input_channels * kernel_h * kernel_w` rows of `output_h * output_w` elements, the pads
are `(pad_t, pad_l)`, `accumulate_output` is false and the padding value is `X_zero_point`. -/
def im2colOfGroup (L : ConvLocals) (Xdata : List Int) (b g : Nat) (data_col : Int → Int)
    (fuel : Nat) : Outcome (Int → Int) :=
  Im2colNd (fun (i : Int) => readAt Xdata (xdataAt L b g + i))
    [L.group_input_channels, L.input_h, L.input_w]
    [L.group_input_channels * L.kernel_h * L.kernel_w, L.output_h, L.output_w]
    [L.kernel_h, L.kernel_w] [L.stride_h, L.stride_w] [L.dilation_h, L.dilation_w]
    [L.pad_t, L.pad_l] 2 data_col false L.X_zero_point fuel

/-- The accumulator in the words of the specification, as a row of a matrix product: the bias
of the output channel (0 when there is no bias) plus the sum, over the column rows `c_col` in
`[0, group_input_channels * kernel_h * kernel_w)`, of `W_row[ch][c_col]` times
`col[c_col, oh, ow] - X_zero_point`, where `col` is a column buffer in the layout of
`Im2colNd`. -/
def im2colGemmAccumulator (L : ConvLocals) (Wdata B : List Int) (col : Int → Int)
    (g oc oh ow : Nat) : Int :=
  (if B.isEmpty then 0 else readAt B ((g : Int) * L.group_output_channels + (oc : Int)))
  + ∑ c_col ∈ Finset.range (L.group_input_channels * L.kernel_h * L.kernel_w).toNat,
      readAt Wdata (weightRowAt L g oc + (c_col : Int))
        * (col (((c_col : Int) * L.output_h + (oh : Int)) * L.output_w + (ow : Int))
            - L.X_zero_point)

/-! ### The accumulator when `int32_t` overflow is a failure -/

/-- One iteration of the loop over `kw`, as `tapStep`, with the signed `int32_t` operations
undefined on overflow: the result is `none` when the subtraction of `X_zero_point`, the product
`x_value * w_value` or the addition to `sum` leaves the range of `int32_t`. -/
def tapStepChecked (L : ConvLocals) (Xdata Wdata : List Int) (ow ih : Int)
    (st : Option TapState) (kw : Nat) : Option TapState :=
  match st with
  | none => none
  | some st =>
    let iw := (kw : Int) * L.dilation_w + ow * L.stride_w - L.pad_l
    let w_value := toInt32 (readAt Wdata st.weight_data)
    if toUInt64 ih < toUInt64 L.input_h ∧ toUInt64 iw < toUInt64 L.input_w then
      let x_value := toInt32 (readAt Xdata (st.input_image + (ih * L.input_w + iw)))
        - L.X_zero_point
      if fitsInt32 x_value ∧ fitsInt32 (x_value * w_value)
          ∧ fitsInt32 (st.sum + x_value * w_value) then
        some ⟨st.sum + x_value * w_value, st.input_image, st.weight_data + 1⟩
      else none
    else some ⟨st.sum, st.input_image, st.weight_data + 1⟩

/-- One iteration of the loop over `kh`, with overflow as a failure. -/
def rowStepChecked (L : ConvLocals) (Xdata Wdata : List Int) (oh ow : Int)
    (st : Option TapState) (kh : Nat) : Option TapState :=
  (List.range L.kernel_w.toNat).foldl
    (tapStepChecked L Xdata Wdata ow ((kh : Int) * L.dilation_h + oh * L.stride_h - L.pad_t)) st

/-- One iteration of the loop over `ic`, with overflow as a failure. -/
def channelStepChecked (L : ConvLocals) (Xdata Wdata : List Int) (oh ow : Int)
    (st : Option TapState) (_ic : Nat) : Option TapState :=
  match (List.range L.kernel_h.toNat).foldl (rowStepChecked L Xdata Wdata oh ow) st with
  | none => none
  | some st2 => some ⟨st2.sum, st2.input_image + L.input_h * L.input_w, st2.weight_data⟩

/-- The accumulator for the output position `(oh, ow)`, with overflow as a failure: `none` when
some intermediate value of the `int32_t` arithmetic overflows. -/
def accumulateChecked (L : ConvLocals) (Xdata Wdata : List Int)
    (oh ow bias xdata weight_row : Int) : Option Int :=
  match (List.range L.group_input_channels.toNat).foldl (channelStepChecked L Xdata Wdata oh ow)
      (some ⟨bias, xdata, weight_row⟩) with
  | none => none
  | some st => some st.sum

/-! ### Shape validation of the quantized convolution engine (specification 4.6 and 7)

The `QLinearConv` operator that `qlinearconv_op_test.cc` runs through
`OpTester test("QLinearConv", 10)`, and its shape inference, are code of the repository that
is not among the sources; only the test is.  The test's own reference `ComputeExpectedOutput`
is called on configurations with positive output extents only and does not validate them.  The
validation of the operator is modelled from the specification. -/

/-- Modelled from the spec: the configuration of one spatial axis of the `QLinearConv` operator
(missing from the sources), the input and kernel extents and the `ConvConfig` entries of the
axis (3, 4.6). -/
structure ConvAxisConfig where
  inputExtent : Int
  kernelExtent : Int
  padBefore : Int
  padAfter : Int
  stride : Int
  dilation : Int

/-- Modelled from the spec: the shape inference of the `QLinearConv` operator (missing from the
sources) for one spatial axis (4.6),
`outputExtent = floor((inputExtent + padBefore + padAfter - (dilation*(kernelExtent-1)+1))
/ stride) + 1`. -/
def inferredOutputExtent (a : ConvAxisConfig) : Int :=
  Int.fdiv (a.inputExtent + a.padBefore + a.padAfter - (a.dilation * (a.kernelExtent - 1) + 1))
    a.stride + 1

/-- Modelled from the spec: the entry of the `QLinearConv` operator (missing from the sources)
as 4.6 and 7 describe it.  The output extents are inferred first; a configuration producing a
non-positive output extent on any axis is a configuration error, detected before compute and
reported without any output (`none`); otherwise the operator returns the inferred extents and
the data `compute` produces for them. -/
def quantizedConvolution {β : Type} (axes : List ConvAxisConfig) (compute : List Int → β) :
    Option (List Int × β) :=
  if (axes.map inferredOutputExtent).all (fun (e : Int) => decide (1 ≤ e)) then
    some (axes.map inferredOutputExtent, compute (axes.map inferredOutputExtent))
  else none

/-! # Theorems -/

/-! ## The work partitioner -/

theorem PartitionWork_eq_bounds (i n total : Nat) :
    PartitionWork i n total = ⟨partitionBound n total i, partitionBound n total (i + 1)⟩ := by
  unfold PartitionWork partitionBound
  simp only
  split_ifs with h
  · have h1 : min i (total % n) = i := by omega
    have h2 : min (i + 1) (total % n) = i + 1 := by omega
    rw [h1, h2]
    congr 1 <;> ring
  · have h1 : min i (total % n) = total % n := by omega
    have h2 : min (i + 1) (total % n) = total % n := by omega
    rw [h1, h2]
    congr 1
    ring

theorem partitionBound_zero (n total : Nat) : partitionBound n total 0 = 0 := by
  simp [partitionBound]

theorem partitionBound_last (n total : Nat) (hn : 1 ≤ n) : partitionBound n total n = total := by
  unfold partitionBound
  have h : total % n < n := Nat.mod_lt _ (by omega)
  have h1 : min n (total % n) = total % n := by omega
  rw [h1]
  exact Nat.div_add_mod' total n

theorem partitionBound_mono (n total : Nat) {i j : Nat} (h : i ≤ j) :
    partitionBound n total i ≤ partitionBound n total j := by
  unfold partitionBound
  have h1 : total / n * i ≤ total / n * j := Nat.mul_le_mul_left _ h
  have h2 : min i (total % n) ≤ min j (total % n) := by omega
  omega

theorem partitionBound_cover (n total j k : Nat) (hj : j < partitionBound n total k) :
    ∃ i, i < k ∧ partitionBound n total i ≤ j ∧ j < partitionBound n total (i + 1) := by
  induction k with
  | zero => simp [partitionBound_zero] at hj
  | succ k ih =>
    by_cases h : j < partitionBound n total k
    · obtain ⟨i, hi, h1, h2⟩ := ih h
      exact ⟨i, by omega, h1, h2⟩
    · exact ⟨k, by omega, by omega, hj⟩

theorem PartitionWork_contains_unique (n total : Nat) {i i2 j : Nat}
    (h1 : (PartitionWork i n total).contains j) (h2 : (PartitionWork i2 n total).contains j) :
    i = i2 := by
  rw [PartitionWork_eq_bounds] at h1 h2
  unfold WorkInfo.contains at h1 h2
  simp only at h1 h2
  by_contra hne
  rcases Nat.lt_or_gt_of_ne hne with h | h
  · have := partitionBound_mono n total (show i + 1 ≤ i2 by omega)
    omega
  · have := partitionBound_mono n total (show i2 + 1 ≤ i by omega)
    omega

theorem PartitionWork_contains_exists (n total j : Nat) (hn : 1 ≤ n) (hj : j < total) :
    ∃ i, i < n ∧ (PartitionWork i n total).contains j := by
  have hj2 : j < partitionBound n total n := by rw [partitionBound_last n total hn]; exact hj
  obtain ⟨i, hi, h1, h2⟩ := partitionBound_cover n total j n hj2
  refine ⟨i, hi, ?_⟩
  rw [PartitionWork_eq_bounds]
  exact ⟨h1, h2⟩

theorem PartitionWork_contains_lt (n total : Nat) (hn : 1 ≤ n) {i j : Nat} (hi : i < n)
    (h : (PartitionWork i n total).contains j) : j < total := by
  rw [PartitionWork_eq_bounds] at h
  unfold WorkInfo.contains at h
  simp only at h
  have := partitionBound_mono n total (show i + 1 ≤ n by omega)
  rw [partitionBound_last n total hn] at this
  omega

/-- C10: for `numPartitions ≥ 1` the ranges `PartitionWork(i, numPartitions, total)`,
`i < numPartitions`, lie inside `[0, total)`, are pairwise disjoint, and every index of
`[0, total)` belongs to one of them: each flat index belongs to exactly one partition. -/
theorem PartitionWork_partitions (numPartitions total : Nat) (hn : 1 ≤ numPartitions) :
    (∀ i j, i < numPartitions → (PartitionWork i numPartitions total).contains j → j < total) ∧
    (∀ i i2 j, i < numPartitions → i2 < numPartitions → i ≠ i2 →
      ¬ ((PartitionWork i numPartitions total).contains j ∧
         (PartitionWork i2 numPartitions total).contains j)) ∧
    (∀ j, j < total →
      ∃! i, i < numPartitions ∧ (PartitionWork i numPartitions total).contains j) := by
  refine ⟨fun i j hi h => PartitionWork_contains_lt _ _ hn hi h, ?_, ?_⟩
  · intro i i2 j _ _ hne h
    exact hne (PartitionWork_contains_unique _ _ h.1 h.2)
  · intro j hj
    obtain ⟨i, hi, hc⟩ := PartitionWork_contains_exists numPartitions total j hn hj
    exact ⟨i, ⟨hi, hc⟩, fun i2 h2 => PartitionWork_contains_unique _ _ h2.2 hc⟩

/-- Witness of C10: three partitions of ten items. -/
theorem PartitionWork_partitions_witness :
    (∀ i j, i < 3 → (PartitionWork i 3 10).contains j → j < 10) ∧
    (∀ i i2 j, i < 3 → i2 < 3 → i ≠ i2 →
      ¬ ((PartitionWork i 3 10).contains j ∧ (PartitionWork i2 3 10).contains j)) ∧
    (∀ j, j < 10 → ∃! i, i < 3 ∧ (PartitionWork i 3 10).contains j) :=
  PartitionWork_partitions 3 10 (by decide)
/-! ## The scaler -/

theorem foldl_update_apply {α : Type} (f : Nat → α) (l : List Nat) (y : Nat → α) (j : Nat) :
    (l.foldl (fun y i => Function.update y i (f i)) y) j = if j ∈ l then f j else y j := by
  induction l generalizing y with
  | nil => simp
  | cons a l ih =>
    rw [List.foldl_cons, ih]
    by_cases h : j ∈ l
    · simp [h]
    · by_cases h2 : j = a
      · subst h2; simp [h]
      · simp [h, h2, Function.update_noteq h2]

theorem scalerLoop_apply {α : Type} (work : WorkInfo) (f : Nat → α) (y : Nat → α) (j : Nat) :
    scalerLoop work f y j = if work.contains j then f j else y j := by
  unfold scalerLoop
  rw [foldl_update_apply]
  have h : j ∈ (List.range (work.end_ - work.start)).map (fun k => work.start + k)
      ↔ work.contains j := by
    unfold WorkInfo.contains
    simp only [List.mem_map, List.mem_range]
    constructor
    · rintro ⟨k, hk, rfl⟩; omega
    · intro h; exact ⟨j - work.start, by omega, by omega⟩
  by_cases hc : work.contains j
  · rw [if_pos (h.mpr hc), if_pos hc]
  · rw [if_neg (fun hm => hc (h.mp hm)), if_neg hc]

theorem foldl_scalerLoop_apply {α : Type} (W : Nat → WorkInfo) (f : Nat → α) (l : List Nat)
    (y : Nat → α) (j : Nat) :
    (l.foldl (fun acc batch_num => scalerLoop (W batch_num) f acc) y) j
      = if ∃ i, i ∈ l ∧ (W i).contains j then f j else y j := by
  induction l generalizing y with
  | nil => simp
  | cons a l ih =>
    rw [List.foldl_cons, ih, scalerLoop_apply]
    by_cases h : ∃ i, i ∈ l ∧ (W i).contains j
    · have h2 : ∃ i, i ∈ a :: l ∧ (W i).contains j := by
        obtain ⟨i, hi, hc⟩ := h
        exact ⟨i, List.mem_cons_of_mem _ hi, hc⟩
      rw [if_pos h, if_pos h2]
    · rw [if_neg h]
      by_cases hc : (W a).contains j
      · rw [if_pos hc, if_pos ⟨a, List.mem_cons_self _ _, hc⟩]
      · rw [if_neg hc, if_neg]
        rintro ⟨i, hi, hci⟩
        rcases List.mem_cons.mp hi with rfl | hi
        · exact hc hci
        · exact h ⟨i, hi, hci⟩

/-- All partitions together write exactly the indices of `[0, x_size)`, each with `f`. -/
theorem TrySimpleParallelFor_scalerLoop {α : Type} (num_threads : Int) (x_size : Nat)
    (f : Nat → α) (y0 : Nat → α) (hn : 1 ≤ num_threads) (j : Nat) :
    TrySimpleParallelFor num_threads
      (fun batch_num y_data =>
        scalerLoop (PartitionWork batch_num num_threads.toNat x_size) f y_data) y0 j
      = if j < x_size then f j else y0 j := by
  unfold TrySimpleParallelFor
  rw [foldl_scalerLoop_apply (fun b => PartitionWork b num_threads.toNat x_size)]
  have hn2 : 1 ≤ num_threads.toNat := by omega
  by_cases hj : j < x_size
  · obtain ⟨i, hi, hc⟩ := PartitionWork_contains_exists num_threads.toNat x_size j hn2 hj
    rw [if_pos ⟨i, List.mem_range.mpr hi, hc⟩, if_pos hj]
  · rw [if_neg hj, if_neg]
    rintro ⟨i, hi, hc⟩
    exact hj (PartitionWork_contains_lt _ _ hn2 (List.mem_range.mp hi) hc)

theorem TrySimpleParallelFor_nonpos {σ : Type} (num_threads : Int) (fn : Nat → σ → σ) (s : σ)
    (hn : num_threads ≤ 0) : TrySimpleParallelFor num_threads fn s = s := by
  unfold TrySimpleParallelFor
  have : num_threads.toNat = 0 := by omega
  rw [this]
  rfl

theorem toInt32_of_lt (n : Nat) (h : n < 2147483648) : toInt32 n = n := by
  unfold toInt32
  omega

/-- The stride `Compute` reads from the shape: `dims[0]` for rank 1, `dims[1]` otherwise. -/
theorem scalerPerFeature_eq {α : Type} [Sub α] [Mul α] [Inhabited α] (op : ScalerOp α)
    (x_data : Nat → α) (stride i : Nat) :
    scalerPerFeature op x_data (stride : Int) i
      = (x_data i - op.offset_.getD (i % stride) default) * op.scale_.getD (i % stride) default := by
  unfold scalerPerFeature
  have h : (Int.tmod (i : Int) (stride : Int)).toNat = i % stride := by
    rw [Int.tmod_eq_emod (by omega) (by omega)]
    omega
  rw [h]

theorem Compute_per_feature_eq {α : Type} [Sub α] [Mul α] [Inhabited α] (op : ScalerOp α)
    (dop : Int) (X : Tensor α) (y0 : Nat → α) (stride : Nat)
    (hdims : X.dims ≠ [])
    (hstride : stride = if X.dims.length = 1 then X.dims.getD 0 0 else X.dims.getD 1 0)
    (hscale : op.scale_.length = stride) (hoffset : op.offset_.length = stride) :
    op.Compute dop X y0 = (StatusCode.OK, ⟨X.dims,
      TrySimpleParallelFor (min dop (toInt32 (TensorShape.Size X.dims)))
        (fun batch_num y_data =>
          scalerLoop (PartitionWork batch_num
            (min dop (toInt32 (TensorShape.Size X.dims))).toNat (TensorShape.Size X.dims))
            (scalerPerFeature op X.data stride) y_data) y0⟩) := by
  have hne : ¬ (X.dims.isEmpty = true) := by
    cases hd : X.dims with
    | nil => exact absurd hd hdims
    | cons a l => simp
  have hst : (if X.dims.length = 1 then ((X.dims.getD 0 0 : Nat) : Int)
      else ((X.dims.getD 1 0 : Nat) : Int)) = (stride : Int) := by
    rw [hstride]; split_ifs <;> rfl
  unfold ScalerOp.Compute
  rw [if_neg hne]
  dsimp only
  rw [hst, if_pos ⟨by rw [hoffset], by rw [hscale]⟩]

theorem Compute_broadcast_eq {α : Type} [Sub α] [Mul α] [Inhabited α] (op : ScalerOp α)
    (dop : Int) (X : Tensor α) (y0 : Nat → α) (stride : Nat)
    (hdims : X.dims ≠ [])
    (hstride : stride = if X.dims.length = 1 then X.dims.getD 0 0 else X.dims.getD 1 0)
    (hne1 : stride ≠ 1)
    (hscale : op.scale_.length = 1) (hoffset : op.offset_.length = 1) :
    op.Compute dop X y0 = (StatusCode.OK, ⟨X.dims,
      TrySimpleParallelFor (min dop (toInt32 (TensorShape.Size X.dims)))
        (fun batch_num y_data =>
          scalerLoop (PartitionWork batch_num
            (min dop (toInt32 (TensorShape.Size X.dims))).toNat (TensorShape.Size X.dims))
            (scalerBroadcast op X.data) y_data) y0⟩) := by
  have hne : ¬ (X.dims.isEmpty = true) := by
    cases hd : X.dims with
    | nil => exact absurd hd hdims
    | cons a l => simp
  have hst : (if X.dims.length = 1 then ((X.dims.getD 0 0 : Nat) : Int)
      else ((X.dims.getD 1 0 : Nat) : Int)) = (stride : Int) := by
    rw [hstride]; split_ifs <;> rfl
  have h1 : ¬ ((op.offset_.length : Int) = (stride : Int) ∧
      (op.scale_.length : Int) = (stride : Int)) := by
    rw [hoffset]
    intro h
    exact hne1 (by omega)
  unfold ScalerOp.Compute
  rw [if_neg hne]
  dsimp only
  rw [hst, if_neg h1, if_pos ⟨hoffset, hscale⟩]

theorem Compute_per_feature_exists {α : Type} [Sub α] [Mul α] [Inhabited α] (op : ScalerOp α)
    (dop : Int) (X : Tensor α) (y0 : Nat → α) (stride : Nat)
    (hdims : X.dims ≠ [])
    (hstride : stride = if X.dims.length = 1 then X.dims.getD 0 0 else X.dims.getD 1 0)
    (hscale : op.scale_.length = stride) (hoffset : op.offset_.length = stride)
    (hdop : 1 ≤ dop) (hsize : TensorShape.Size X.dims < 2147483648) :
    ∃ y : Nat → α, op.Compute dop X y0 = (StatusCode.OK, ⟨X.dims, y⟩) ∧
      ∀ i, i < TensorShape.Size X.dims →
        y i = (X.data i - op.offset_.getD (i % stride) default)
            * op.scale_.getD (i % stride) default := by
  rw [Compute_per_feature_eq op dop X y0 stride hdims hstride hscale hoffset]
  refine ⟨_, rfl, ?_⟩
  intro i hi
  rw [toInt32_of_lt _ hsize, TrySimpleParallelFor_scalerLoop _ _ _ _ (by omega), if_pos hi,
    scalerPerFeature_eq]

theorem Compute_broadcast_exists {α : Type} [Sub α] [Mul α] [Inhabited α] (op : ScalerOp α)
    (dop : Int) (X : Tensor α) (y0 : Nat → α) (stride : Nat)
    (hdims : X.dims ≠ [])
    (hstride : stride = if X.dims.length = 1 then X.dims.getD 0 0 else X.dims.getD 1 0)
    (hne1 : stride ≠ 1)
    (hscale : op.scale_.length = 1) (hoffset : op.offset_.length = 1)
    (hdop : 1 ≤ dop) (hsize : TensorShape.Size X.dims < 2147483648) :
    ∃ y : Nat → α, op.Compute dop X y0 = (StatusCode.OK, ⟨X.dims, y⟩) ∧
      ∀ i, i < TensorShape.Size X.dims →
        y i = (X.data i - op.offset_.getD 0 default) * op.scale_.getD 0 default := by
  rw [Compute_broadcast_eq op dop X y0 stride hdims hstride hne1 hscale hoffset]
  refine ⟨_, rfl, ?_⟩
  intro i hi
  rw [toInt32_of_lt _ hsize, TrySimpleParallelFor_scalerLoop _ _ _ _ (by omega), if_pos hi]
  rfl

/-- Per-feature branch of `Compute` on an input of fewer than `2 ^ 31` elements: the status is
OK, `Y` has the shape of `X`, and every element is
`(X[i] - offset[i % stride]) * scale[i % stride]`. -/
theorem Compute_per_feature_small {α : Type} [Sub α] [Mul α] [Inhabited α] (op : ScalerOp α)
    (dop : Int) (X : Tensor α) (y0 : Nat → α) (stride : Nat)
    (hdims : X.dims ≠ [])
    (hstride : stride = if X.dims.length = 1 then X.dims.getD 0 0 else X.dims.getD 1 0)
    (hscale : op.scale_.length = stride) (hoffset : op.offset_.length = stride)
    (hdop : 1 ≤ dop) (hsize : TensorShape.Size X.dims < 2147483648) :
    (op.Compute dop X y0).1 = StatusCode.OK ∧
    (op.Compute dop X y0).2.dims = X.dims ∧
    ∀ i, i < TensorShape.Size X.dims →
      (op.Compute dop X y0).2.data i
        = (X.data i - op.offset_.getD (i % stride) default)
            * op.scale_.getD (i % stride) default := by
  obtain ⟨y, hy, h⟩ :=
    Compute_per_feature_exists op dop X y0 stride hdims hstride hscale hoffset hdop hsize
  rw [hy]
  exact ⟨rfl, rfl, h⟩

/-- Scalar-broadcast branch of `Compute` on an input of fewer than `2 ^ 31` elements whose stride
differs from 1: the status is OK and every element is `(X[i] - offset[0]) * scale[0]`. -/
theorem Compute_broadcast_small {α : Type} [Sub α] [Mul α] [Inhabited α] (op : ScalerOp α)
    (dop : Int) (X : Tensor α) (y0 : Nat → α) (stride : Nat)
    (hdims : X.dims ≠ [])
    (hstride : stride = if X.dims.length = 1 then X.dims.getD 0 0 else X.dims.getD 1 0)
    (hne1 : stride ≠ 1)
    (hscale : op.scale_.length = 1) (hoffset : op.offset_.length = 1)
    (hdop : 1 ≤ dop) (hsize : TensorShape.Size X.dims < 2147483648) :
    (op.Compute dop X y0).1 = StatusCode.OK ∧
    (op.Compute dop X y0).2.dims = X.dims ∧
    ∀ i, i < TensorShape.Size X.dims →
      (op.Compute dop X y0).2.data i
        = (X.data i - op.offset_.getD 0 default) * op.scale_.getD 0 default := by
  obtain ⟨y, hy, h⟩ :=
    Compute_broadcast_exists op dop X y0 stride hdims hstride hne1 hscale hoffset hdop hsize
  rw [hy]
  exact ⟨rfl, rfl, h⟩

/-- The example of the spec: scale = [2], offset = [1], X = [1, 2, 3] of shape [3] gives
Y = [0, 2, 4]. -/
theorem Compute_broadcast_example :
    (ScalerOp.Compute (⟨[2], [1]⟩ : ScalerOp Int) 4 ⟨[3], fun i => [1, 2, 3].getD i 0⟩
        (fun _ => 0)).1 = StatusCode.OK ∧
    (List.range 3).map (ScalerOp.Compute (⟨[2], [1]⟩ : ScalerOp Int) 4
        ⟨[3], fun i => [1, 2, 3].getD i 0⟩ (fun _ => 0)).2.data = [0, 2, 4] := by
  obtain ⟨h1, -, h3⟩ := Compute_broadcast_small (⟨[2], [1]⟩ : ScalerOp Int) 4
    ⟨[3], fun i => [1, 2, 3].getD i 0⟩ (fun _ => 0) 3 (by simp) (by simp) (by decide) rfl rfl
    (by decide) (by decide)
  refine ⟨h1, ?_⟩
  have e0 := h3 0 (by decide)
  have e1 := h3 1 (by decide)
  have e2 := h3 2 (by decide)
  simp only [List.range, List.range.loop, List.map, e0, e1, e2]
  decide

theorem toInt32_two_pow_31 : toInt32 ((2147483648 : Nat) : Int) = -2147483648 := by
  unfold toInt32
  norm_num

/-- C1, failing input: a per-feature input of shape [1073741824, 2] (2 ^ 31 elements, stride 2)
with scale = [1, 1] and offset = [0, 0].  `static_cast<int>(x_size)` is negative, so
`num_threads` is negative, no partition body runs, and `Compute` returns OK with `Y[0]` still
holding the initial content 0 of the buffer instead of `(X[0] - offset[0]) * scale[0] = 5`. -/
theorem Compute_per_feature_two_pow_31_elements :
    (ScalerOp.Compute (⟨[1, 1], [0, 0]⟩ : ScalerOp Int) 8 ⟨[1073741824, 2], fun _ => 5⟩
        (fun _ => 0)).1 = StatusCode.OK ∧
    (ScalerOp.Compute (⟨[1, 1], [0, 0]⟩ : ScalerOp Int) 8 ⟨[1073741824, 2], fun _ => 5⟩
        (fun _ => 0)).2.data 0 = 0 ∧
    ((5 : Int) - ([0, 0] : List Int).getD (0 % 2) default)
        * ([1, 1] : List Int).getD (0 % 2) default = 5 := by
  rw [Compute_per_feature_eq (⟨[1, 1], [0, 0]⟩ : ScalerOp Int) 8 ⟨[1073741824, 2], fun _ => 5⟩
    (fun _ => 0) 2 (by simp) (by simp) rfl rfl]
  refine ⟨rfl, ?_, by decide⟩
  have hsz : TensorShape.Size [1073741824, 2] = 2147483648 := by
    norm_num [TensorShape.Size]
  dsimp only
  rw [hsz, toInt32_two_pow_31, TrySimpleParallelFor_nonpos _ _ _ (by norm_num)]

/-- C2, failing input: a scalar-broadcast input of shape [2147483648] (2 ^ 31 elements) with
scale = [2] and offset = [1].  `static_cast<int>(x_size)` is negative, so no partition body
runs, and `Compute` returns OK with `Y[0]` still holding the initial content 0 of the buffer
instead of `(X[0] - offset[0]) * scale[0] = (3 - 1) * 2 = 4`. -/
theorem Compute_broadcast_two_pow_31_elements :
    (ScalerOp.Compute (⟨[2], [1]⟩ : ScalerOp Int) 8 ⟨[2147483648], fun _ => 3⟩
        (fun _ => 0)).1 = StatusCode.OK ∧
    (ScalerOp.Compute (⟨[2], [1]⟩ : ScalerOp Int) 8 ⟨[2147483648], fun _ => 3⟩
        (fun _ => 0)).2.data 0 = 0 ∧
    ((3 : Int) - ([1] : List Int).getD 0 default) * ([2] : List Int).getD 0 default = 4 := by
  rw [Compute_broadcast_eq (⟨[2], [1]⟩ : ScalerOp Int) 8 ⟨[2147483648], fun _ => 3⟩
    (fun _ => 0) 2147483648 (by simp) (by simp) (by norm_num) rfl rfl]
  refine ⟨rfl, ?_, by decide⟩
  have hsz : TensorShape.Size [2147483648] = 2147483648 := by
    norm_num [TensorShape.Size]
  dsimp only
  rw [hsz, toInt32_two_pow_31, TrySimpleParallelFor_nonpos _ _ _ (by norm_num)]
/-! ## Row-major indexing -/

theorem foldl_range_succ {β : Type} (f : β → Nat → β) (init : β) (k : Nat) :
    (List.range (k + 1)).foldl f init = f ((List.range k).foldl f init) k := by
  rw [List.range_succ, List.foldl_append]
  rfl

theorem extentProd_pos (e : Nat → Int) (k : Nat) (he : ∀ i, i < k → 1 ≤ e i) :
    1 ≤ extentProd e k := by
  induction k with
  | zero => simp [extentProd]
  | succ k ih =>
    have h1 := ih (fun i hi => he i (by omega))
    have h2 := he k (by omega)
    unfold extentProd
    nlinarith

theorem flatIndex_lead (e x : Nat → Int) (lead : Int) (k : Nat) :
    flatIndex e x lead k = lead * extentProd e k + flatIndex e x 0 k := by
  induction k with
  | zero => simp [flatIndex, extentProd]
  | succ k ih =>
    simp only [flatIndex, extentProd]
    rw [ih]
    ring

theorem flatIndex_congr (e x y : Nat → Int) (lead : Int) (k : Nat)
    (h : ∀ i, i < k → x i = y i) : flatIndex e x lead k = flatIndex e y lead k := by
  induction k with
  | zero => rfl
  | succ k ih =>
    simp only [flatIndex]
    rw [ih (fun i hi => h i (by omega)), h k (by omega)]

theorem flatIndex_bound (e x : Nat → Int) (k : Nat) (h : inExtents e x k) :
    0 ≤ flatIndex e x 0 k ∧ flatIndex e x 0 k < extentProd e k := by
  induction k with
  | zero => simp [flatIndex, extentProd]
  | succ k ih =>
    obtain ⟨h1, h2⟩ := ih (fun i hi => h i (by omega))
    obtain ⟨h3, h4⟩ := h k (by omega)
    simp only [flatIndex, extentProd]
    constructor
    · nlinarith
    · nlinarith

theorem mixedRadixDigit_flatIndex (e x : Nat → Int) (k : Nat) (h : inExtents e x k) :
    ∀ i, i < k → mixedRadixDigit e k (flatIndex e x 0 k) i = x i := by
  induction k with
  | zero => intro i hi; omega
  | succ k ih =>
    intro i hi
    obtain ⟨h3, h4⟩ := h k (by omega)
    have hek : e k ≠ 0 := by omega
    simp only [flatIndex, mixedRadixDigit]
    split_ifs with hik
    · subst hik
      rw [add_comm, Int.add_mul_emod_self]
      exact Int.emod_eq_of_lt h3 h4
    · have hdiv : (flatIndex e x 0 k * e k + x k) / e k = flatIndex e x 0 k := by
        rw [add_comm, Int.add_mul_ediv_right _ _ hek, Int.ediv_eq_zero_of_lt h3 h4, zero_add]
      rw [hdiv]
      exact ih (fun j hj => h j (by omega)) i (by omega)

theorem mixedRadixDigit_inExtents (e : Nat → Int) (k : Nat) (he : ∀ i, i < k → 1 ≤ e i)
    (r : Int) : inExtents e (mixedRadixDigit e k r) k := by
  induction k generalizing r with
  | zero => intro i hi; omega
  | succ k ih =>
    intro i hi
    have hek := he k (by omega)
    simp only [mixedRadixDigit]
    split_ifs with hik
    · subst hik
      exact ⟨Int.emod_nonneg _ (by omega), Int.emod_lt_of_pos _ (by omega)⟩
    · exact ih (fun j hj => he j (by omega)) (r / e k) i (by omega)

theorem flatIndex_mixedRadixDigit (e : Nat → Int) (k : Nat) (he : ∀ i, i < k → 1 ≤ e i)
    (r : Int) (h0 : 0 ≤ r) (h1 : r < extentProd e k) :
    flatIndex e (mixedRadixDigit e k r) 0 k = r := by
  induction k generalizing r with
  | zero =>
    simp only [extentProd] at h1
    simp only [flatIndex]
    omega
  | succ k ih =>
    have hek := he k (by omega)
    simp only [extentProd] at h1
    have hq0 : 0 ≤ r / e k := Int.ediv_nonneg h0 (by omega)
    have hq1 : r / e k < extentProd e k := by
      apply Int.ediv_lt_of_lt_mul (by omega)
      exact h1
    have hcongr : flatIndex e (mixedRadixDigit e (k + 1) r) 0 k
        = flatIndex e (mixedRadixDigit e k (r / e k)) 0 k := by
      apply flatIndex_congr
      intro i hi
      simp only [mixedRadixDigit]
      rw [if_neg (by omega)]
    simp only [flatIndex]
    rw [hcongr, ih (fun j hj => he j (by omega)) _ hq0 hq1]
    simp only [mixedRadixDigit, if_true]
    rw [mul_comm]
    exact Int.ediv_add_emod r (e k)

/-- Two coordinate vectors inside the extents with the same row-major index agree. -/
theorem flatIndex_injective (e x y : Nat → Int) (k : Nat) (hx : inExtents e x k)
    (hy : inExtents e y k) (h : flatIndex e x 0 k = flatIndex e y 0 k) :
    ∀ i, i < k → x i = y i := by
  intro i hi
  rw [← mixedRadixDigit_flatIndex e x k hx i hi, ← mixedRadixDigit_flatIndex e y k hy i hi, h]

theorem int_ediv_ediv (a b c : Int) (hb : 0 < b) (hc : 0 < c) : a / b / c = a / (b * c) := by
  have h1 := Int.emod_add_ediv a b
  have h2 := Int.emod_add_ediv (a / b) c
  have h3 := Int.emod_nonneg a (ne_of_gt hb)
  have h4 := Int.emod_lt_of_pos a hb
  have h5 := Int.emod_nonneg (a / b) (ne_of_gt hc)
  have h6 := Int.emod_lt_of_pos (a / b) hc
  have hbc : 0 < b * c := mul_pos hb hc
  symm
  generalize a / b / c = q at *
  generalize a / b % c = s at *
  generalize a % b = t at *
  generalize a / b = u at *
  refine ((Int.ediv_emod_unique (a := a) (b := b * c) (r := t + b * s)
    (q := q) hbc).mpr ⟨?_, ?_, ?_⟩).1
  · rw [← h1, ← h2]; ring
  · have := mul_nonneg (le_of_lt hb) h5
    linarith
  · have : b * s ≤ b * (c - 1) := mul_le_mul_of_nonneg_left (by omega) (le_of_lt hb)
    nlinarith
/-! ## The inner loops of `Im2colNd` -/

theorem at64_set (xs : List Int) (i j : Nat) (v : Int) (hi : i < xs.length) :
    at64 (xs.set i v) j = if j = i then v else at64 xs j := by
  unfold at64
  rw [List.getD_eq_getElem?_getD, List.getD_eq_getElem?_getD, List.getElem?_set]
  by_cases h : i = j
  · subst h
    simp [hi]
  · have h2 : ¬ j = i := fun e => h e.symm
    simp [h, h2]

theorem kernelSize_eq (kernel_shape : List Int) (N : Nat) :
    kernelSize kernel_shape N = extentProd (at64 kernel_shape) N := by
  unfold kernelSize
  induction N with
  | zero => rfl
  | succ k ih => rw [foldl_range_succ, ih]; rfl

theorem isPadding_iff (im_shape : List Int) (coord : Nat → Int) (k : Nat) :
    isPadding im_shape coord k = true
      ↔ ∃ i, i < k ∧ (coord i < 0 ∨ spatialExtent im_shape i ≤ coord i) := by
  induction k with
  | zero => simp [isPadding]
  | succ k ih =>
    simp only [isPadding, Bool.or_eq_true, decide_eq_true_eq, ih, ge_iff_le]
    constructor
    · rintro (⟨i, hi, h⟩ | h)
      · exact ⟨i, by omega, h⟩
      · exact ⟨k, by omega, h⟩
    · rintro ⟨i, hi, h⟩
      by_cases hik : i = k
      · subst hik; exact Or.inr h
      · exact Or.inl ⟨i, by omega, h⟩

theorem computeDOffset_fold (kernel_shape : List Int) (N : Nat)
    (hks : ∀ i, i < N → 1 ≤ at64 kernel_shape i) (k : Nat) (hk : k ≤ N)
    (st : Int × List Int) (hlen : st.2.length = N) (h0 : 0 ≤ st.1) :
    (((List.range k).reverse.foldl
      (fun (st : Int × List Int) d_i =>
        let offset := if d_i + 1 < N then Int.tdiv st.1 (at64 kernel_shape (d_i + 1)) else st.1
        (offset, st.2.set d_i (Int.tmod offset (at64 kernel_shape d_i)))) st).2.length = N) ∧
    ∀ i, i < N →
      at64 ((List.range k).reverse.foldl
        (fun (st : Int × List Int) d_i =>
          let offset := if d_i + 1 < N then Int.tdiv st.1 (at64 kernel_shape (d_i + 1)) else st.1
          (offset, st.2.set d_i (Int.tmod offset (at64 kernel_shape d_i)))) st).2 i
        = if i < k then
            mixedRadixDigit (at64 kernel_shape) k
              (if k < N then st.1 / at64 kernel_shape k else st.1) i
          else at64 st.2 i := by
  induction k generalizing st with
  | zero =>
    refine ⟨hlen, ?_⟩
    intro i _
    simp
  | succ k ih =>
    have hkN : k < N := by omega
    have hek : 1 ≤ at64 kernel_shape k := hks k hkN
    obtain ⟨r, hr1, hr2, hr0⟩ : ∃ r : Int,
        (if k + 1 < N then Int.tdiv st.1 (at64 kernel_shape (k + 1)) else st.1) = r ∧
        (if k + 1 < N then st.1 / at64 kernel_shape (k + 1) else st.1) = r ∧ 0 ≤ r := by
      by_cases h : k + 1 < N
      · have hpos := hks (k + 1) h
        refine ⟨st.1 / at64 kernel_shape (k + 1), ?_, ?_, Int.ediv_nonneg h0 (by omega)⟩
        · rw [if_pos h]; exact Int.tdiv_eq_ediv h0 (by omega)
        · rw [if_pos h]
      · exact ⟨st.1, by rw [if_neg h], by rw [if_neg h], h0⟩
    rw [List.range_succ, List.reverse_append, List.reverse_singleton, List.singleton_append,
      List.foldl_cons]
    dsimp only
    rw [hr1, hr2, Int.tmod_eq_emod hr0 (by omega)]
    obtain ⟨hl, hi⟩ := ih (by omega) (r, st.2.set k (r % at64 kernel_shape k))
      (by simp [hlen]) hr0
    refine ⟨hl, ?_⟩
    intro i hiN
    rw [hi i hiN]
    dsimp only
    rw [if_pos hkN]
    by_cases h1 : i < k
    · rw [if_pos h1, if_pos (show i < k + 1 by omega)]
      simp only [mixedRadixDigit]
      rw [if_neg (show ¬ i = k by omega)]
    · rw [if_neg h1, at64_set _ _ _ _ (show k < st.2.length by omega)]
      by_cases h2 : i = k
      · subst h2
        rw [if_pos rfl, if_pos (show i < i + 1 by omega)]
        simp only [mixedRadixDigit, if_true]
      · rw [if_neg h2, if_neg (show ¬ i < k + 1 by omega)]

/-- After the reverse loop, `d_offset[i]` is digit `i` of `c_col` in the mixed-radix system of
the kernel extents. -/
theorem computeDOffset_spec (kernel_shape : List Int) (N : Nat)
    (hks : ∀ i, i < N → 1 ≤ at64 kernel_shape i) (c_col : Int) (hc : 0 ≤ c_col)
    (d_offset : List Int) (hlen : d_offset.length = N) :
    (computeDOffset kernel_shape N c_col d_offset).length = N ∧
    ∀ i, i < N → at64 (computeDOffset kernel_shape N c_col d_offset) i
      = mixedRadixDigit (at64 kernel_shape) N c_col i := by
  obtain ⟨h1, h2⟩ := computeDOffset_fold kernel_shape N hks N (le_refl N) (c_col, d_offset)
    hlen hc
  refine ⟨h1, ?_⟩
  intro i hi
  have := h2 i hi
  rw [if_pos hi, if_neg (lt_irrefl N)] at this
  exact this

/-- The forward loop computes the row-major column index, the row-major image index and the
padding flag of the current position. -/
theorem computeIndices_spec (im_shape col_shape stride dilation pad : List Int) (N : Nat)
    (c_col kernel_size : Int) (d_offset d_iter : List Int) :
    computeIndices im_shape col_shape stride dilation pad N c_col kernel_size d_offset d_iter
      = (flatIndex (spatialExtent col_shape) (at64 d_iter) c_col N,
         flatIndex (spatialExtent im_shape)
           (inputCoord stride dilation pad (at64 d_iter) (at64 d_offset))
           (Int.tdiv c_col kernel_size) N,
         isPadding im_shape (inputCoord stride dilation pad (at64 d_iter) (at64 d_offset)) N) := by
  unfold computeIndices
  induction N with
  | zero => rfl
  | succ k ih =>
    rw [foldl_range_succ, ih]
    rfl
/-- One run of the counting loop on a position inside the output extents: either it moves to
the position of the next row-major rank, or the position was the last one and `d_iter` is back
at the origin.  `ORT_ENFORCE` does not fail. -/
theorem nextIter_spec (col_shape : List Int) (k : Nat) (d : List Int) (hlen : k ≤ d.length)
    (hv : inExtents (spatialExtent col_shape) (at64 d) k) :
    ∃ d2 inc, nextIter col_shape k d = some (d2, inc) ∧ d2.length = d.length ∧
      (∀ i, k ≤ i → at64 d2 i = at64 d i) ∧
      (inc = true → inExtents (spatialExtent col_shape) (at64 d2) k ∧
        flatIndex (spatialExtent col_shape) (at64 d2) 0 k
          = flatIndex (spatialExtent col_shape) (at64 d) 0 k + 1) ∧
      (inc = false →
        flatIndex (spatialExtent col_shape) (at64 d) 0 k + 1
          = extentProd (spatialExtent col_shape) k ∧
        ∀ i, i < k → at64 d2 i = 0) := by
  induction k generalizing d with
  | zero =>
    refine ⟨d, false, rfl, rfl, fun _ _ => rfl, ?_, ?_⟩
    · intro h; cases h
    · intro _
      exact ⟨by simp [flatIndex, extentProd], fun i hi => by omega⟩
  | succ k ih =>
    obtain ⟨hk0, hk1⟩ := hv k (by omega)
    have hk1b : at64 d k < at64 col_shape (k + 1) := hk1
    have hklen : k < d.length := by omega
    unfold nextIter
    simp only
    rw [if_pos hk1b]
    by_cases hlast : at64 d k = at64 col_shape (k + 1) - 1
    · rw [if_pos hlast]
      have hv2 : inExtents (spatialExtent col_shape) (at64 (d.set k 0)) k := by
        intro i hi
        rw [at64_set _ _ _ _ hklen, if_neg (show ¬ i = k by omega)]
        exact hv i (by omega)
      have hcongr : flatIndex (spatialExtent col_shape) (at64 (d.set k 0)) 0 k
          = flatIndex (spatialExtent col_shape) (at64 d) 0 k := by
        apply flatIndex_congr
        intro i hi
        rw [at64_set _ _ _ _ hklen, if_neg (show ¬ i = k by omega)]
      obtain ⟨d2, inc, h1, h2, h3, h4, h5⟩ := ih (d.set k 0) (by simp; omega) hv2
      have hd2k : at64 d2 k = 0 := by
        rw [h3 k (le_refl k), at64_set _ _ _ _ hklen, if_pos rfl]
      refine ⟨d2, inc, h1, by simpa using h2, ?_, ?_, ?_⟩
      · intro i hi
        rw [h3 i (by omega), at64_set _ _ _ _ hklen, if_neg (show ¬ i = k by omega)]
      · intro hinc
        obtain ⟨h6, h7⟩ := h4 hinc
        constructor
        · intro i hi
          by_cases hik : i = k
          · subst hik
            rw [hd2k]
            exact ⟨le_refl 0, by omega⟩
          · exact h6 i (by omega)
        · simp only [flatIndex]
          rw [h7, hcongr, hd2k, hlast]
          simp only [spatialExtent]
          ring
      · intro hinc
        obtain ⟨h6, h7⟩ := h5 hinc
        rw [hcongr] at h6
        constructor
        · simp only [flatIndex, extentProd]
          rw [← h6, hlast]
          simp only [spatialExtent]
          ring
        · intro i hi
          by_cases hik : i = k
          · subst hik; exact hd2k
          · exact h7 i (by omega)
    · rw [if_neg hlast]
      refine ⟨d.set k (at64 d k + 1), true, rfl, by simp, ?_, ?_, ?_⟩
      · intro i hi
        rw [at64_set _ _ _ _ hklen, if_neg (show ¬ i = k by omega)]
      · intro _
        constructor
        · intro i hi
          rw [at64_set _ _ _ _ hklen]
          by_cases hik : i = k
          · subst hik
            rw [if_pos rfl]
            constructor
            · omega
            · show at64 d i + 1 < at64 col_shape (i + 1)
              omega
          · rw [if_neg hik]
            exact hv i (by omega)
        · simp only [flatIndex]
          rw [at64_set _ _ _ _ hklen, if_pos rfl]
          have hcongr : flatIndex (spatialExtent col_shape)
              (at64 (d.set k (at64 d k + 1))) 0 k
              = flatIndex (spatialExtent col_shape) (at64 d) 0 k := by
            apply flatIndex_congr
            intro i hi
            rw [at64_set _ _ _ _ hklen, if_neg (show ¬ i = k by omega)]
          rw [hcongr]
          ring
      · intro h; cases h
theorem isPadding_congr (im_shape : List Int) (x y : Nat → Int) (k : Nat)
    (h : ∀ i, i < k → x i = y i) : isPadding im_shape x k = isPadding im_shape y k := by
  induction k with
  | zero => rfl
  | succ k ih =>
    simp only [isPadding]
    rw [ih (fun i hi => h i (by omega)), h k (by omega)]

theorem inputCoord_congr (stride dilation pad : List Int) (o o2 t t2 : Nat → Int) (k : Nat)
    (ho : ∀ i, i < k → o i = o2 i) (ht : ∀ i, i < k → t i = t2 i) :
    ∀ i, i < k → inputCoord stride dilation pad o t i = inputCoord stride dilation pad o2 t2 i := by
  intro i hi
  unfold inputCoord
  rw [ho i hi, ht i hi]

/-- The indices computed for a `d_iter` inside the output extents are those of `im2colWrite`
at the row-major rank of `d_iter`. -/
theorem computeIndices_rank (im_shape col_shape kernel_shape stride dilation pad : List Int)
    (N : Nat) (c_col : Int) (d_offset d_iter : List Int)
    (hks : ∀ i, i < N → 1 ≤ at64 kernel_shape i) (hc : 0 ≤ c_col)
    (hoff : ∀ i, i < N → at64 d_offset i = mixedRadixDigit (at64 kernel_shape) N c_col i)
    (hv : inExtents (spatialExtent col_shape) (at64 d_iter) N) :
    computeIndices im_shape col_shape stride dilation pad N c_col
        (kernelSize kernel_shape N) d_offset d_iter
      = (c_col * extentProd (spatialExtent col_shape) N
            + flatIndex (spatialExtent col_shape) (at64 d_iter) 0 N,
         flatIndex (spatialExtent im_shape)
           (inputCoord stride dilation pad
             (mixedRadixDigit (spatialExtent col_shape) N
               (flatIndex (spatialExtent col_shape) (at64 d_iter) 0 N))
             (mixedRadixDigit (at64 kernel_shape) N c_col))
           (c_col / extentProd (at64 kernel_shape) N) N,
         isPadding im_shape
           (inputCoord stride dilation pad
             (mixedRadixDigit (spatialExtent col_shape) N
               (flatIndex (spatialExtent col_shape) (at64 d_iter) 0 N))
             (mixedRadixDigit (at64 kernel_shape) N c_col)) N) := by
  have hcoord : ∀ i, i < N →
      inputCoord stride dilation pad (at64 d_iter) (at64 d_offset) i
        = inputCoord stride dilation pad
            (mixedRadixDigit (spatialExtent col_shape) N
              (flatIndex (spatialExtent col_shape) (at64 d_iter) 0 N))
            (mixedRadixDigit (at64 kernel_shape) N c_col) i :=
    inputCoord_congr stride dilation pad _ _ _ _ N
      (fun i hi => (mixedRadixDigit_flatIndex _ _ N hv i hi).symm) hoff
  have hpos := extentProd_pos (at64 kernel_shape) N hks
  rw [computeIndices_spec, kernelSize_eq, Int.tdiv_eq_ediv hc (by omega),
    flatIndex_lead (spatialExtent col_shape),
    flatIndex_congr (spatialExtent im_shape) _ _ _ N hcoord,
    isPadding_congr im_shape _ _ N hcoord]

theorem im2colWrites_succ {α : Type} [Add α] (data_img : Int → α)
    (im_shape col_shape kernel_shape stride dilation pad : List Int) (N : Nat)
    (accumulate_output : Bool) (padding_value : α) (c_col r : Int) (n : Nat)
    (data_col : Int → α) :
    im2colWrites data_img im_shape col_shape kernel_shape stride dilation pad N
        accumulate_output padding_value c_col r (n + 1) data_col
      = im2colWrites data_img im_shape col_shape kernel_shape stride dilation pad N
          accumulate_output padding_value c_col (r + 1) n
          (im2colWrite data_img im_shape col_shape kernel_shape stride dilation pad N
            accumulate_output padding_value c_col r data_col) := by
  unfold im2colWrites
  rw [List.range_succ_eq_map, List.foldl_cons, List.foldl_map]
  have h0 : r + ((0 : Nat) : Int) = r := by simp
  rw [h0]
  congr 1
  funext B j
  have : r + ((j.succ : Nat) : Int) = r + 1 + (j : Int) := by push_cast; ring
  rw [this]

/-- The inner loop of `Im2colNd`, started at a position of rank `r` inside the output extents
with at least `P - r` iterations of budget (`P` the number of output positions), returns after
performing the writes of the ranks `r, ..., P - 1` in this order, and leaves `d_iter` at the
origin. -/
theorem positionLoop_spec {α : Type} [Add α] (data_img : Int → α)
    (im_shape col_shape kernel_shape stride dilation pad : List Int) (N : Nat)
    (accumulate_output : Bool) (padding_value : α) (c_col : Int)
    (hks : ∀ i, i < N → 1 ≤ at64 kernel_shape i) (hc : 0 ≤ c_col)
    (fuel : Nat) (st : Im2colState α) (hlen : st.d_iter.length = N)
    (hoff : ∀ i, i < N → at64 st.d_offset i = mixedRadixDigit (at64 kernel_shape) N c_col i)
    (hv : inExtents (spatialExtent col_shape) (at64 st.d_iter) N)
    (hfuel : extentProd (spatialExtent col_shape) N
      - flatIndex (spatialExtent col_shape) (at64 st.d_iter) 0 N ≤ (fuel : Int)) :
    ∃ d2 : List Int, d2.length = N ∧ (∀ i, i < N → at64 d2 i = 0) ∧
      positionLoop data_img im_shape col_shape stride dilation pad N accumulate_output
          padding_value c_col (kernelSize kernel_shape N) fuel st
        = Outcome.done ⟨st.d_offset, d2,
            im2colWrites data_img im_shape col_shape kernel_shape stride dilation pad N
              accumulate_output padding_value c_col
              (flatIndex (spatialExtent col_shape) (at64 st.d_iter) 0 N)
              (extentProd (spatialExtent col_shape) N
                - flatIndex (spatialExtent col_shape) (at64 st.d_iter) 0 N).toNat
              st.data_col⟩ := by
  induction fuel generalizing st with
  | zero =>
    have := (flatIndex_bound _ _ N hv).2
    omega
  | succ fuel ih =>
    obtain ⟨hr0, hr1⟩ := flatIndex_bound _ _ N hv
    obtain ⟨d2, inc, hnext, hlen2, -, hinc, hlast⟩ :=
      nextIter_spec col_shape N st.d_iter (by omega) hv
    unfold positionLoop
    rw [computeIndices_rank im_shape col_shape kernel_shape stride dilation pad N c_col
      st.d_offset st.d_iter hks hc hoff hv, hnext]
    dsimp only
    cases inc with
    | true =>
      obtain ⟨hv2, hrank⟩ := hinc rfl
      have hr2 := (flatIndex_bound _ _ N hv2).2
      obtain ⟨d3, hlen3, hzero, hloop⟩ := ih
        ⟨st.d_offset, d2, writeElement accumulate_output padding_value data_img
          (c_col * extentProd (spatialExtent col_shape) N
            + flatIndex (spatialExtent col_shape) (at64 st.d_iter) 0 N)
          (flatIndex (spatialExtent im_shape)
            (inputCoord stride dilation pad
              (mixedRadixDigit (spatialExtent col_shape) N
                (flatIndex (spatialExtent col_shape) (at64 st.d_iter) 0 N))
              (mixedRadixDigit (at64 kernel_shape) N c_col))
            (c_col / extentProd (at64 kernel_shape) N) N)
          (isPadding im_shape
            (inputCoord stride dilation pad
              (mixedRadixDigit (spatialExtent col_shape) N
                (flatIndex (spatialExtent col_shape) (at64 st.d_iter) 0 N))
              (mixedRadixDigit (at64 kernel_shape) N c_col)) N)
          st.data_col⟩
        (by rw [hlen2, hlen]) hoff hv2 (by dsimp only; omega)
      refine ⟨d3, hlen3, hzero, ?_⟩
      rw [if_pos rfl, hloop]
      dsimp only
      rw [hrank]
      have hn : (extentProd (spatialExtent col_shape) N
          - flatIndex (spatialExtent col_shape) (at64 st.d_iter) 0 N).toNat
          = (extentProd (spatialExtent col_shape) N
            - (flatIndex (spatialExtent col_shape) (at64 st.d_iter) 0 N + 1)).toNat + 1 := by
        omega
      rw [hn, im2colWrites_succ]
      rfl
    | false =>
      obtain ⟨hrank, hzero⟩ := hlast rfl
      refine ⟨d2, by rw [hlen2, hlen], hzero, ?_⟩
      have hn : (extentProd (spatialExtent col_shape) N
          - flatIndex (spatialExtent col_shape) (at64 st.d_iter) 0 N).toNat = 0 + 1 := by
        omega
      rw [hn, im2colWrites_succ]
      rfl
theorem flatIndex_zero (e x : Nat → Int) (k : Nat) (h : ∀ i, i < k → x i = 0) :
    flatIndex e x 0 k = 0 := by
  induction k with
  | zero => rfl
  | succ k ih =>
    simp only [flatIndex]
    rw [ih (fun i hi => h i (by omega)), h k (by omega)]
    ring

theorem channelLoop_spec {α : Type} [Add α] (data_img : Int → α)
    (im_shape col_shape kernel_shape stride dilation pad : List Int) (N : Nat)
    (accumulate_output : Bool) (padding_value : α)
    (hks : ∀ i, i < N → 1 ≤ at64 kernel_shape i)
    (hcol : ∀ i, i < N → 1 ≤ spatialExtent col_shape i)
    (fuel : Nat) (hfuel : extentProd (spatialExtent col_shape) N ≤ (fuel : Int))
    (cs : List Nat) (st : Im2colState α) (hlen : st.d_iter.length = N)
    (hzero : ∀ i, i < N → at64 st.d_iter i = 0) (hlen2 : st.d_offset.length = N) :
    ∃ st2 : Im2colState α,
      channelLoop data_img im_shape col_shape kernel_shape stride dilation pad N
          accumulate_output padding_value (kernelSize kernel_shape N) fuel cs st
        = Outcome.done st2 ∧
      st2.data_col = cs.foldl
        (fun (B : Int → α) (c_col : Nat) =>
          im2colWrites data_img im_shape col_shape kernel_shape stride dilation pad N
            accumulate_output padding_value (c_col : Int) 0
            (extentProd (spatialExtent col_shape) N).toNat B) st.data_col := by
  induction cs generalizing st with
  | nil => exact ⟨st, rfl, rfl⟩
  | cons c rest ih =>
    obtain ⟨hl, hoff⟩ := computeDOffset_spec kernel_shape N hks (c : Int) (by omega)
      st.d_offset hlen2
    have hv : inExtents (spatialExtent col_shape) (at64 st.d_iter) N := by
      intro i hi
      rw [hzero i hi]
      have := hcol i hi
      exact ⟨le_refl 0, by omega⟩
    have hrank : flatIndex (spatialExtent col_shape) (at64 st.d_iter) 0 N = 0 :=
      flatIndex_zero _ _ N hzero
    obtain ⟨d2, hd2len, hd2zero, hloop⟩ := positionLoop_spec data_img im_shape col_shape
      kernel_shape stride dilation pad N accumulate_output padding_value (c : Int) hks
      (by omega) fuel ⟨computeDOffset kernel_shape N c st.d_offset, st.d_iter, st.data_col⟩
      hlen hoff hv (by dsimp only; rw [hrank]; omega)
    dsimp only at hloop
    rw [hrank, sub_zero] at hloop
    unfold channelLoop
    rw [hloop]
    dsimp only
    obtain ⟨st2, h1, h2⟩ := ih ⟨computeDOffset kernel_shape N c st.d_offset, d2,
      im2colWrites data_img im_shape col_shape kernel_shape stride dilation pad N
        accumulate_output padding_value (c : Int) 0
        (extentProd (spatialExtent col_shape) N).toNat st.data_col⟩ hd2len hd2zero hl
    exact ⟨st2, h1, by rw [h2]; rfl⟩

/-- Normal form of `Im2colNd`: with kernel extents and output extents at least 1 and a budget of
at least one iteration per output position, the call returns, and the written buffer is the
result of the writes `im2colWrite c_col r` for `c_col = 0, ..., channels_col - 1` and, for each
`c_col`, `r = 0, ..., P - 1` in this order. -/
theorem Im2colNd_eq_allWrites {α : Type} [Add α] (data_img : Int → α)
    (im_shape col_shape kernel_shape stride dilation pad : List Int) (N : Nat)
    (data_col : Int → α) (accumulate_output : Bool) (padding_value : α)
    (hks : ∀ i, i < N → 1 ≤ at64 kernel_shape i)
    (hcol : ∀ i, i < N → 1 ≤ spatialExtent col_shape i)
    (fuel : Nat) (hfuel : extentProd (spatialExtent col_shape) N ≤ (fuel : Int)) :
    Im2colNd data_img im_shape col_shape kernel_shape stride dilation pad N data_col
        accumulate_output padding_value fuel
      = Outcome.done (im2colAllWrites data_img im_shape col_shape kernel_shape stride dilation
          pad N accumulate_output padding_value (at64 col_shape 0).toNat data_col) := by
  obtain ⟨st2, h1, h2⟩ := channelLoop_spec data_img im_shape col_shape kernel_shape stride
    dilation pad N accumulate_output padding_value hks hcol fuel hfuel
    (List.range (at64 col_shape 0).toNat) ⟨List.replicate N 0, List.replicate N 0, data_col⟩
    (by simp) (by intro i hi; simp [at64, List.getD_eq_getElem?_getD, hi]) (by simp)
  unfold Im2colNd
  dsimp only
  rw [h1]
  dsimp only
  rw [h2]
  rfl
/-! ## `Im2colNd` in im2col mode -/

theorem extentProd_eq_prod (e : Nat → Int) (k : Nat) :
    extentProd e k = ∏ j ∈ Finset.range k, e j := by
  induction k with
  | zero => simp [extentProd]
  | succ k ih => rw [Finset.prod_range_succ, ← ih]; rfl

theorem mixedRadixDigit_eq (e : Nat → Int) (k : Nat) (he : ∀ i, i < k → 1 ≤ e i) (r : Int)
    (i : Nat) (hi : i < k) :
    mixedRadixDigit e k r i = (r / ∏ j ∈ Finset.Ico (i + 1) k, e j) % e i := by
  induction k generalizing r with
  | zero => omega
  | succ k ih =>
    simp only [mixedRadixDigit]
    by_cases hik : i = k
    · subst hik
      rw [if_pos rfl]
      simp
    · have hpos : 0 < ∏ j ∈ Finset.Ico (i + 1) k, e j := by
        apply Finset.prod_pos
        intro j hj
        have := he j (by have := Finset.mem_Ico.mp hj; omega)
        omega
      rw [if_neg hik, ih (fun j hj => he j (by omega)) (r / e k) (by omega),
        Finset.prod_Ico_succ_top (by omega : i + 1 ≤ k),
        int_ediv_ediv _ _ _ (by have := he k (by omega); omega) hpos, mul_comm]

theorem kernelTap_eq (kernel_shape : List Int) (N : Nat)
    (hks : ∀ i, i < N → 1 ≤ at64 kernel_shape i) (c_col : Int) (i : Nat) (hi : i < N) :
    mixedRadixDigit (at64 kernel_shape) N c_col i = kernelTap kernel_shape N c_col i :=
  mixedRadixDigit_eq (at64 kernel_shape) N hks c_col i hi

theorem im2colWrites_append {α : Type} [Add α] (data_img : Int → α)
    (im_shape col_shape kernel_shape stride dilation pad : List Int) (N : Nat)
    (accumulate_output : Bool) (padding_value : α) (c_col r : Int) (n : Nat)
    (data_col : Int → α) :
    im2colWrites data_img im_shape col_shape kernel_shape stride dilation pad N
        accumulate_output padding_value c_col r (n + 1) data_col
      = im2colWrite data_img im_shape col_shape kernel_shape stride dilation pad N
          accumulate_output padding_value c_col (r + (n : Int))
          (im2colWrites data_img im_shape col_shape kernel_shape stride dilation pad N
            accumulate_output padding_value c_col r n data_col) := by
  unfold im2colWrites
  rw [foldl_range_succ]

theorem im2colAllWrites_succ {α : Type} [Add α] (data_img : Int → α)
    (im_shape col_shape kernel_shape stride dilation pad : List Int) (N : Nat)
    (accumulate_output : Bool) (padding_value : α) (m : Nat) (data_col : Int → α) :
    im2colAllWrites data_img im_shape col_shape kernel_shape stride dilation pad N
        accumulate_output padding_value (m + 1) data_col
      = im2colWrites data_img im_shape col_shape kernel_shape stride dilation pad N
          accumulate_output padding_value (m : Int) 0
          (extentProd (spatialExtent col_shape) N).toNat
          (im2colAllWrites data_img im_shape col_shape kernel_shape stride dilation pad N
            accumulate_output padding_value m data_col) := by
  unfold im2colAllWrites
  rw [foldl_range_succ]

theorem im2colWrite_false {α : Type} [Add α] (data_img : Int → α)
    (im_shape col_shape kernel_shape stride dilation pad : List Int) (N : Nat)
    (padding_value : α) (c_col r : Int) (data_col : Int → α) :
    im2colWrite data_img im_shape col_shape kernel_shape stride dilation pad N false
        padding_value c_col r data_col
      = Function.update data_col (c_col * extentProd (spatialExtent col_shape) N + r)
          (im2colValue data_img im_shape col_shape kernel_shape stride dilation pad N
            padding_value c_col r) := by
  unfold im2colWrite writeElement im2colValue
  simp only [Bool.not_false, if_true]
  split_ifs <;> rfl

theorem im2colWrites_false_apply {α : Type} [Add α] (data_img : Int → α)
    (im_shape col_shape kernel_shape stride dilation pad : List Int) (N : Nat)
    (padding_value : α) (c_col : Int) (n : Nat) (data_col : Int → α) (j : Int) :
    im2colWrites data_img im_shape col_shape kernel_shape stride dilation pad N false
        padding_value c_col 0 n data_col j
      = if c_col * extentProd (spatialExtent col_shape) N ≤ j
            ∧ j < c_col * extentProd (spatialExtent col_shape) N + (n : Int) then
          im2colValue data_img im_shape col_shape kernel_shape stride dilation pad N
            padding_value c_col (j - c_col * extentProd (spatialExtent col_shape) N)
        else data_col j := by
  induction n with
  | zero =>
    have : ¬ (c_col * extentProd (spatialExtent col_shape) N ≤ j
        ∧ j < c_col * extentProd (spatialExtent col_shape) N + ((0 : Nat) : Int)) := by
      push_cast; omega
    rw [if_neg this]
    rfl
  | succ n ih =>
    rw [im2colWrites_append, im2colWrite_false, zero_add]
    by_cases hj : j = c_col * extentProd (spatialExtent col_shape) N + (n : Int)
    · rw [hj, Function.update_same, if_pos (by push_cast; omega)]
      congr 1
      ring
    · rw [Function.update_noteq hj, ih]
      by_cases h : c_col * extentProd (spatialExtent col_shape) N ≤ j
          ∧ j < c_col * extentProd (spatialExtent col_shape) N + (n : Int)
      · rw [if_pos h, if_pos (by push_cast; omega)]
      · rw [if_neg h, if_neg (by push_cast; omega)]

theorem im2colAllWrites_false_apply {α : Type} [Add α] (data_img : Int → α)
    (im_shape col_shape kernel_shape stride dilation pad : List Int) (N : Nat)
    (padding_value : α) (hP : 1 ≤ extentProd (spatialExtent col_shape) N)
    (m : Nat) (data_col : Int → α) (j : Int) :
    im2colAllWrites data_img im_shape col_shape kernel_shape stride dilation pad N false
        padding_value m data_col j
      = if 0 ≤ j ∧ j < (m : Int) * extentProd (spatialExtent col_shape) N then
          im2colValue data_img im_shape col_shape kernel_shape stride dilation pad N
            padding_value (j / extentProd (spatialExtent col_shape) N)
            (j % extentProd (spatialExtent col_shape) N)
        else data_col j := by
  induction m with
  | zero =>
    have : ¬ (0 ≤ j ∧ j < ((0 : Nat) : Int) * extentProd (spatialExtent col_shape) N) := by
      push_cast; omega
    rw [if_neg this]
    rfl
  | succ m ih =>
    rw [im2colAllWrites_succ, im2colWrites_false_apply, ih]
    have htoNat : (((extentProd (spatialExtent col_shape) N).toNat : Nat) : Int)
        = extentProd (spatialExtent col_shape) N := Int.toNat_of_nonneg (by omega)
    rw [htoNat]
    have hsucc : ((m + 1 : Nat) : Int) * extentProd (spatialExtent col_shape) N
        = (m : Int) * extentProd (spatialExtent col_shape) N
          + extentProd (spatialExtent col_shape) N := by push_cast; ring
    rw [hsucc]
    have hm0 : 0 ≤ (m : Int) * extentProd (spatialExtent col_shape) N :=
      mul_nonneg (by omega) (by omega)
    by_cases h : (m : Int) * extentProd (spatialExtent col_shape) N ≤ j
        ∧ j < (m : Int) * extentProd (spatialExtent col_shape) N
          + extentProd (spatialExtent col_shape) N
    · rw [if_pos h, if_pos ⟨by omega, h.2⟩]
      obtain ⟨hdiv, hmod⟩ := (Int.ediv_emod_unique (a := j)
        (b := extentProd (spatialExtent col_shape) N) (r := j - (m : Int)
          * extentProd (spatialExtent col_shape) N) (q := (m : Int)) (by omega)).mpr
        ⟨by ring, by omega, by omega⟩
      rw [hdiv, hmod]
    · rw [if_neg h]
      by_cases h2 : 0 ≤ j ∧ j < (m : Int) * extentProd (spatialExtent col_shape) N
      · rw [if_pos h2, if_pos ⟨h2.1, by omega⟩]
      · rw [if_neg h2, if_neg (by omega)]
/-- C3: `Im2colNd<T, NCHW>` with `accumulate_output = false`.  For kernel extents and output
extents at least 1 and a budget of one iteration per output position, the call returns, and
for every column row `c_col` in `[0, col_shape[0])` and every output position `o` inside the
output extents, the element of `data_col` at the row-major index `(c_col, o)` is
`padding_value` if on some axis the input coordinate
`o i * stride[i] - pad[i] + t i * dilation[i]` lies outside `[0, im_shape[i + 1])`, and
`data_img` at the row-major index `(c_col / kernel_size, coordinates)` otherwise, `t i` being
the kernel-tap offset of `c_col` on axis `i`. -/
theorem Im2colNd_im2col {α : Type} [Add α] (data_img : Int → α)
    (im_shape col_shape kernel_shape stride dilation pad : List Int) (N : Nat)
    (data_col : Int → α) (padding_value : α)
    (hks : ∀ i, i < N → 1 ≤ at64 kernel_shape i)
    (hcol : ∀ i, i < N → 1 ≤ spatialExtent col_shape i)
    (fuel : Nat) (hfuel : (∏ i ∈ Finset.range N, spatialExtent col_shape i) ≤ (fuel : Int)) :
    ∃ out : Int → α,
      Im2colNd data_img im_shape col_shape kernel_shape stride dilation pad N data_col false
        padding_value fuel = Outcome.done out ∧
      ∀ (c_col : Int) (o : Nat → Int), 0 ≤ c_col → c_col < at64 col_shape 0 →
        inExtents (spatialExtent col_shape) o N →
        ((∃ i, i < N ∧
            (inputCoord stride dilation pad o (kernelTap kernel_shape N c_col) i < 0 ∨
             spatialExtent im_shape i
               ≤ inputCoord stride dilation pad o (kernelTap kernel_shape N c_col) i)) →
          out (flatIndex (spatialExtent col_shape) o c_col N) = padding_value) ∧
        ((∀ i, i < N →
            0 ≤ inputCoord stride dilation pad o (kernelTap kernel_shape N c_col) i ∧
            inputCoord stride dilation pad o (kernelTap kernel_shape N c_col) i
              < spatialExtent im_shape i) →
          out (flatIndex (spatialExtent col_shape) o c_col N)
            = data_img (flatIndex (spatialExtent im_shape)
                (inputCoord stride dilation pad o (kernelTap kernel_shape N c_col))
                (c_col / ∏ i ∈ Finset.range N, at64 kernel_shape i) N)) := by
  rw [← extentProd_eq_prod] at hfuel
  have hP := extentProd_pos (spatialExtent col_shape) N hcol
  refine ⟨_, Im2colNd_eq_allWrites data_img im_shape col_shape kernel_shape stride dilation pad
    N data_col false padding_value hks hcol fuel hfuel, ?_⟩
  intro c_col o hc0 hc1 ho
  obtain ⟨hr0, hr1⟩ := flatIndex_bound _ _ N ho
  have hcoord : ∀ i, i < N →
      inputCoord stride dilation pad
          (mixedRadixDigit (spatialExtent col_shape) N
            (flatIndex (spatialExtent col_shape) o 0 N))
          (mixedRadixDigit (at64 kernel_shape) N c_col) i
        = inputCoord stride dilation pad o (kernelTap kernel_shape N c_col) i :=
    inputCoord_congr stride dilation pad _ _ _ _ N
      (fun i hi => mixedRadixDigit_flatIndex _ _ N ho i hi)
      (fun i hi => kernelTap_eq kernel_shape N hks c_col i hi)
  have hidx : flatIndex (spatialExtent col_shape) o c_col N
      = c_col * extentProd (spatialExtent col_shape) N
        + flatIndex (spatialExtent col_shape) o 0 N := flatIndex_lead _ _ _ _
  obtain ⟨hdiv, hmod⟩ := (Int.ediv_emod_unique
    (a := flatIndex (spatialExtent col_shape) o c_col N)
    (b := extentProd (spatialExtent col_shape) N)
    (r := flatIndex (spatialExtent col_shape) o 0 N) (q := c_col) (by omega)).mpr
    ⟨by rw [hidx]; ring, hr0, hr1⟩
  have hlt : flatIndex (spatialExtent col_shape) o c_col N
      < (((at64 col_shape 0).toNat : Nat) : Int) * extentProd (spatialExtent col_shape) N := by
    rw [Int.toNat_of_nonneg (by omega), hidx]
    nlinarith
  have hge : 0 ≤ flatIndex (spatialExtent col_shape) o c_col N := by
    rw [hidx]
    have := mul_nonneg hc0 (show (0 : Int) ≤ extentProd (spatialExtent col_shape) N by omega)
    omega
  rw [im2colAllWrites_false_apply _ _ _ _ _ _ _ _ _ hP, if_pos ⟨hge, hlt⟩, hdiv, hmod]
  unfold im2colValue
  rw [isPadding_congr im_shape _ _ N hcoord, flatIndex_congr (spatialExtent im_shape) _ _ _ N
    hcoord, ← extentProd_eq_prod]
  constructor
  · intro hpad
    rw [if_pos ((isPadding_iff im_shape _ N).mpr hpad)]
  · intro hin
    rw [if_neg]
    intro hpad
    obtain ⟨i, hi, h⟩ := (isPadding_iff im_shape _ N).mp hpad
    have := hin i hi
    omega

/-- Witness of C3: a 3 x 3 single-channel image, a 2 x 2 kernel, stride 1, dilation 1 and
padding 1 on both axes give a 4 x 4 output. -/
theorem Im2colNd_im2col_witness :
    ∃ out : Int → Int,
      Im2colNd (fun i => i + 1) [1, 3, 3] [4, 4, 4] [2, 2] [1, 1] [1, 1] [1, 1] 2
        (fun _ => 99) false 0 16 = Outcome.done out ∧
      ∀ (c_col : Int) (o : Nat → Int), 0 ≤ c_col → c_col < at64 [4, 4, 4] 0 →
        inExtents (spatialExtent [4, 4, 4]) o 2 →
        ((∃ i, i < 2 ∧
            (inputCoord [1, 1] [1, 1] [1, 1] o (kernelTap [2, 2] 2 c_col) i < 0 ∨
             spatialExtent [1, 3, 3] i
               ≤ inputCoord [1, 1] [1, 1] [1, 1] o (kernelTap [2, 2] 2 c_col) i)) →
          out (flatIndex (spatialExtent [4, 4, 4]) o c_col 2) = 0) ∧
        ((∀ i, i < 2 →
            0 ≤ inputCoord [1, 1] [1, 1] [1, 1] o (kernelTap [2, 2] 2 c_col) i ∧
            inputCoord [1, 1] [1, 1] [1, 1] o (kernelTap [2, 2] 2 c_col) i
              < spatialExtent [1, 3, 3] i) →
          out (flatIndex (spatialExtent [4, 4, 4]) o c_col 2)
            = (fun i => i + 1) (flatIndex (spatialExtent [1, 3, 3])
                (inputCoord [1, 1] [1, 1] [1, 1] o (kernelTap [2, 2] 2 c_col))
                (c_col / ∏ i ∈ Finset.range 2, at64 [2, 2] i) 2)) :=
  Im2colNd_im2col (fun i => i + 1) [1, 3, 3] [4, 4, 4] [2, 2] [1, 1] [1, 1] [1, 1] 2
    (fun _ => 99) 0 (by decide) (by decide) 16 (by decide)
/-! ## `Im2colNd` in col2im mode -/

theorem pairCoord_eq (col_shape kernel_shape stride dilation pad : List Int) (N : Nat)
    (hks : ∀ i, i < N → 1 ≤ at64 kernel_shape i) (c_col r : Int) (i : Nat) (hi : i < N) :
    inputCoord stride dilation pad (mixedRadixDigit (spatialExtent col_shape) N r)
        (mixedRadixDigit (at64 kernel_shape) N c_col) i
      = pairCoord col_shape kernel_shape stride dilation pad N c_col r i :=
  inputCoord_congr stride dilation pad _ _ _ _ N (fun _ _ => rfl)
    (fun j hj => kernelTap_eq kernel_shape N hks c_col j hj) i hi

theorem isPadding_eq_false_iff (im_shape col_shape kernel_shape stride dilation pad : List Int)
    (N : Nat) (hks : ∀ i, i < N → 1 ≤ at64 kernel_shape i) (c_col r : Int) :
    isPadding im_shape
        (inputCoord stride dilation pad (mixedRadixDigit (spatialExtent col_shape) N r)
          (mixedRadixDigit (at64 kernel_shape) N c_col)) N = false
      ↔ pairInRange im_shape col_shape kernel_shape stride dilation pad N c_col r := by
  rw [isPadding_congr im_shape _ _ N
    (pairCoord_eq col_shape kernel_shape stride dilation pad N hks c_col r)]
  rw [Bool.eq_false_iff]
  unfold pairInRange
  constructor
  · intro h i hi
    by_contra hc
    apply h
    exact (isPadding_iff im_shape _ N).mpr ⟨i, hi, by omega⟩
  · intro h hpad
    obtain ⟨i, hi, hc⟩ := (isPadding_iff im_shape _ N).mp hpad
    have := h i hi
    omega

/-- In col2im mode one write adds the column element of the pair to the image element it
addresses, and nothing when the pair falls in the padding. -/
theorem im2colWrite_true_apply {α : Type} [AddCommMonoid α] (data_img : Int → α)
    (im_shape col_shape kernel_shape stride dilation pad : List Int) (N : Nat)
    (hks : ∀ i, i < N → 1 ≤ at64 kernel_shape i)
    (padding_value : α) (c_col r : Int) (data_col : Int → α) (p : Int) :
    im2colWrite data_img im_shape col_shape kernel_shape stride dilation pad N true
        padding_value c_col r data_col p
      = data_col p +
        (if pairInRange im_shape col_shape kernel_shape stride dilation pad N c_col r ∧
            pairImageIndex im_shape col_shape kernel_shape stride dilation pad N c_col r = p
         then data_img (pairColIndex col_shape N c_col r) else 0) := by
  have hidx : flatIndex (spatialExtent im_shape)
      (inputCoord stride dilation pad (mixedRadixDigit (spatialExtent col_shape) N r)
        (mixedRadixDigit (at64 kernel_shape) N c_col))
      (c_col / extentProd (at64 kernel_shape) N) N
      = pairImageIndex im_shape col_shape kernel_shape stride dilation pad N c_col r := by
    unfold pairImageIndex
    rw [flatIndex_congr (spatialExtent im_shape) _ _ _ N
      (pairCoord_eq col_shape kernel_shape stride dilation pad N hks c_col r),
      extentProd_eq_prod]
  have hcol : c_col * extentProd (spatialExtent col_shape) N + r
      = pairColIndex col_shape N c_col r := by
    unfold pairColIndex
    rw [extentProd_eq_prod]
  unfold im2colWrite writeElement
  rw [hidx, hcol]
  simp only [Bool.not_true, Bool.false_eq_true, if_false]
  by_cases hin : pairInRange im_shape col_shape kernel_shape stride dilation pad N c_col r
  · have hpad := (isPadding_eq_false_iff im_shape col_shape kernel_shape stride dilation pad N
      hks c_col r).mpr hin
    rw [hpad]
    simp only [Bool.not_false, if_true]
    by_cases hp : pairImageIndex im_shape col_shape kernel_shape stride dilation pad N c_col r = p
    · rw [if_pos ⟨hin, hp⟩, ← hp, Function.update_same]
    · rw [if_neg (fun h => hp h.2), Function.update_noteq (fun h => hp h.symm), add_zero]
  · have hpad : isPadding im_shape
        (inputCoord stride dilation pad (mixedRadixDigit (spatialExtent col_shape) N r)
          (mixedRadixDigit (at64 kernel_shape) N c_col)) N = true := by
      by_contra h
      exact hin ((isPadding_eq_false_iff im_shape col_shape kernel_shape stride dilation pad N
        hks c_col r).mp (Bool.eq_false_iff.mpr h))
    rw [hpad]
    simp only [Bool.not_true, Bool.false_eq_true, if_false]
    rw [if_neg (show ¬ (pairInRange im_shape col_shape kernel_shape stride dilation pad N c_col r
      ∧ pairImageIndex im_shape col_shape kernel_shape stride dilation pad N c_col r = p)
      from fun h => hin h.1), add_zero]

theorem im2colWrites_true_apply {α : Type} [AddCommMonoid α] (data_img : Int → α)
    (im_shape col_shape kernel_shape stride dilation pad : List Int) (N : Nat)
    (hks : ∀ i, i < N → 1 ≤ at64 kernel_shape i)
    (padding_value : α) (c_col : Int) (n : Nat) (data_col : Int → α) (p : Int) :
    im2colWrites data_img im_shape col_shape kernel_shape stride dilation pad N true
        padding_value c_col 0 n data_col p
      = data_col p + ∑ r ∈ Finset.range n,
        (if pairInRange im_shape col_shape kernel_shape stride dilation pad N c_col (r : Int) ∧
            pairImageIndex im_shape col_shape kernel_shape stride dilation pad N c_col (r : Int)
              = p
         then data_img (pairColIndex col_shape N c_col (r : Int)) else 0) := by
  induction n with
  | zero => simp [im2colWrites]
  | succ n ih =>
    rw [im2colWrites_append, im2colWrite_true_apply _ _ _ _ _ _ _ _ hks, ih,
      Finset.sum_range_succ, zero_add, add_assoc]

theorem im2colAllWrites_true_apply {α : Type} [AddCommMonoid α] (data_img : Int → α)
    (im_shape col_shape kernel_shape stride dilation pad : List Int) (N : Nat)
    (hks : ∀ i, i < N → 1 ≤ at64 kernel_shape i)
    (padding_value : α) (m : Nat) (data_col : Int → α) (p : Int) :
    im2colAllWrites data_img im_shape col_shape kernel_shape stride dilation pad N true
        padding_value m data_col p
      = data_col p + ∑ c ∈ Finset.range m,
          ∑ r ∈ Finset.range (∏ i ∈ Finset.range N, spatialExtent col_shape i).toNat,
        (if pairInRange im_shape col_shape kernel_shape stride dilation pad N (c : Int) (r : Int)
            ∧ pairImageIndex im_shape col_shape kernel_shape stride dilation pad N (c : Int)
              (r : Int) = p
         then data_img (pairColIndex col_shape N (c : Int) (r : Int)) else 0) := by
  induction m with
  | zero => simp [im2colAllWrites]
  | succ m ih =>
    rw [im2colAllWrites_succ, im2colWrites_true_apply _ _ _ _ _ _ _ _ hks, ih,
      Finset.sum_range_succ, add_assoc, extentProd_eq_prod]

/-- C4: `Im2colNd<T, NCHW>` with `accumulate_output = true` (col2im).  The call returns, and the
final value of the image buffer (parameter `data_col`) at every index `p` is its initial value
plus the sum, over all pairs (column row, output position) whose input coordinates are in range
on every axis and whose image index is `p`, of the column buffer element (parameter `data_img`)
at the column index of the pair.  The result is the same for every `padding_value`. -/
theorem Im2colNd_col2im {α : Type} [AddCommMonoid α] (data_img : Int → α)
    (im_shape col_shape kernel_shape stride dilation pad : List Int) (N : Nat)
    (data_col : Int → α) (padding_value : α)
    (hks : ∀ i, i < N → 1 ≤ at64 kernel_shape i)
    (hcol : ∀ i, i < N → 1 ≤ spatialExtent col_shape i)
    (fuel : Nat) (hfuel : (∏ i ∈ Finset.range N, spatialExtent col_shape i) ≤ (fuel : Int)) :
    ∃ out : Int → α,
      (∀ padding_value2 : α,
        Im2colNd data_img im_shape col_shape kernel_shape stride dilation pad N data_col true
          padding_value2 fuel = Outcome.done out) ∧
      ∀ p : Int, out p = data_col p +
        ∑ q ∈ (allPairs col_shape N).filter (fun q =>
            pairInRange im_shape col_shape kernel_shape stride dilation pad N (q.1 : Int)
              (q.2 : Int) ∧
            pairImageIndex im_shape col_shape kernel_shape stride dilation pad N (q.1 : Int)
              (q.2 : Int) = p),
          data_img (pairColIndex col_shape N (q.1 : Int) (q.2 : Int)) := by
  rw [← extentProd_eq_prod] at hfuel
  refine ⟨im2colAllWrites data_img im_shape col_shape kernel_shape stride dilation pad N true
    padding_value (at64 col_shape 0).toNat data_col, ?_, ?_⟩
  · intro pv2
    rw [Im2colNd_eq_allWrites data_img im_shape col_shape kernel_shape stride dilation pad
      N data_col true pv2 hks hcol fuel hfuel]
    congr 1
  · intro p
    rw [im2colAllWrites_true_apply _ _ _ _ _ _ _ _ hks, Finset.sum_filter]
    unfold allPairs
    rw [Finset.sum_product]
/-! ## Counting the windows that cover an image position -/

theorem sum_range_mul_reindex {M : Type} [AddCommMonoid M] (A b : Nat) (f : Nat → M) :
    ∑ u ∈ Finset.range (A * b), f u
      = ∑ a ∈ Finset.range A, ∑ t ∈ Finset.range b, f (a * b + t) := by
  induction A with
  | zero => simp
  | succ A ih =>
    rw [Nat.succ_mul, Finset.sum_range_add, ih, Finset.sum_range_succ]

theorem natDigit_succ_last (e : Nat → Nat) (k a t : Nat) (ht : t < e k) :
    natDigit e (k + 1) (a * e k + t) k = t := by
  simp only [natDigit, if_true]
  rw [Nat.mul_add_mod_of_lt ht]

theorem natDigit_succ_init (e : Nat → Nat) (k a t i : Nat) (ht : t < e k) (hi : i < k) :
    natDigit e (k + 1) (a * e k + t) i = natDigit e k a i := by
  simp only [natDigit]
  rw [if_neg (by omega)]
  congr 1
  rw [Nat.add_comm, Nat.add_mul_div_right _ _ (by omega), Nat.div_eq_of_lt ht, Nat.zero_add]

theorem mixedRadixDigit_natCast (eI : Nat → Int) (eN : Nat → Nat) (k : Nat)
    (he : ∀ i, i < k → eI i = (eN i : Int)) (r i : Nat) :
    mixedRadixDigit eI k (r : Int) i = (natDigit eN k r i : Int) := by
  induction k generalizing r with
  | zero => rfl
  | succ k ih =>
    simp only [mixedRadixDigit, natDigit]
    rw [he k (by omega)]
    split_ifs with h
    · norm_cast
    · rw [← ih (fun j hj => he j (by omega)) (r / eN k)]
      norm_cast

/-- The number of pairs of mixed-radix numbers whose digits satisfy a condition axis by axis is
the product over the axes of the number of digit pairs that satisfy the condition. -/
theorem sum_mixedRadix (e1 e2 : Nat → Nat) (C : Nat → Nat → Nat → Prop)
    [∀ i t o, Decidable (C i t o)] (N : Nat) :
    ∑ u ∈ Finset.range (∏ i ∈ Finset.range N, e1 i),
      ∑ r ∈ Finset.range (∏ i ∈ Finset.range N, e2 i),
        (if ∀ i, i < N → C i (natDigit e1 N u i) (natDigit e2 N r i) then 1 else 0)
      = ∏ i ∈ Finset.range N,
          ∑ t ∈ Finset.range (e1 i), ∑ o ∈ Finset.range (e2 i), if C i t o then 1 else 0 := by
  induction N with
  | zero => simp
  | succ N ih =>
    rw [Finset.prod_range_succ, Finset.prod_range_succ, Finset.prod_range_succ,
      sum_range_mul_reindex, ← ih, Finset.sum_mul]
    apply Finset.sum_congr rfl
    intro a _
    rw [Finset.sum_mul]
    have hinner : ∀ t, t ∈ Finset.range (e1 N) →
        ∑ r ∈ Finset.range ((∏ i ∈ Finset.range N, e2 i) * e2 N),
          (if ∀ i, i < N + 1 →
              C i (natDigit e1 (N + 1) (a * e1 N + t) i) (natDigit e2 (N + 1) r i)
            then 1 else 0)
        = ∑ b ∈ Finset.range (∏ i ∈ Finset.range N, e2 i),
            (if ∀ i, i < N → C i (natDigit e1 N a i) (natDigit e2 N b i) then 1 else 0)
              * ∑ o ∈ Finset.range (e2 N), if C N t o then 1 else 0 := by
      intro t ht
      rw [sum_range_mul_reindex]
      apply Finset.sum_congr rfl
      intro b _
      rw [Finset.mul_sum]
      apply Finset.sum_congr rfl
      intro o ho
      have ht2 := Finset.mem_range.mp ht
      have ho2 := Finset.mem_range.mp ho
      have hiff : (∀ i, i < N + 1 →
            C i (natDigit e1 (N + 1) (a * e1 N + t) i) (natDigit e2 (N + 1) (b * e2 N + o) i))
          ↔ ((∀ i, i < N → C i (natDigit e1 N a i) (natDigit e2 N b i)) ∧ C N t o) := by
        constructor
        · intro h
          constructor
          · intro i hi
            have := h i (by omega)
            rwa [natDigit_succ_init e1 N a t i ht2 hi, natDigit_succ_init e2 N b o i ho2 hi]
              at this
          · have := h N (by omega)
            rwa [natDigit_succ_last e1 N a t ht2, natDigit_succ_last e2 N b o ho2] at this
        · rintro ⟨h1, h2⟩ i hi
          by_cases hiN : i = N
          · subst hiN
            rwa [natDigit_succ_last e1 i a t ht2, natDigit_succ_last e2 i b o ho2]
          · rw [natDigit_succ_init e1 N a t i ht2 (by omega),
              natDigit_succ_init e2 N b o i ho2 (by omega)]
            exact h1 i (by omega)
      by_cases hA : ∀ i, i < N → C i (natDigit e1 N a i) (natDigit e2 N b i)
      · by_cases hB : C N t o
        · rw [if_pos (hiff.mpr ⟨hA, hB⟩), if_pos hA, if_pos hB, Nat.mul_one]
        · rw [if_neg (fun h => hB (hiff.mp h).2), if_neg hB, Nat.mul_zero]
      · rw [if_neg (fun h => hA (hiff.mp h).1), if_neg hA, Nat.zero_mul]
    rw [Finset.sum_congr rfl hinner, Finset.sum_comm]
    apply Finset.sum_congr rfl
    intro b _
    rw [Finset.mul_sum]
theorem mixedRadixDigit_add_mul (e : Nat → Int) (k : Nat) (he : ∀ i, i < k → 1 ≤ e i)
    (a u : Int) (i : Nat) (hi : i < k) :
    mixedRadixDigit e k (a * extentProd e k + u) i = mixedRadixDigit e k u i := by
  induction k generalizing a u with
  | zero => omega
  | succ k ih =>
    have hek : e k ≠ 0 := by have := he k (by omega); omega
    simp only [mixedRadixDigit, extentProd]
    by_cases hik : i = k
    · rw [if_pos hik, if_pos hik, ← mul_assoc, add_comm, Int.add_mul_emod_self]
    · rw [if_neg hik, if_neg hik, ← mul_assoc, add_comm, Int.add_mul_ediv_right _ _ hek,
        add_comm]
      exact ih (fun j hj => he j (by omega)) _ _ (by omega)

theorem toNat_prod_range (f : Nat → Int) (N : Nat) (hf : ∀ i, i < N → 0 ≤ f i) :
    (∏ i ∈ Finset.range N, f i).toNat = ∏ i ∈ Finset.range N, (f i).toNat := by
  have h : ((∏ i ∈ Finset.range N, (f i).toNat : Nat) : Int) = ∏ i ∈ Finset.range N, f i := by
    rw [Nat.cast_prod]
    apply Finset.prod_congr rfl
    intro i hi
    exact Int.toNat_of_nonneg (hf i (Finset.mem_range.mp hi))
  rw [← h, Int.toNat_natCast]

/-- The number of covering pairs is the product over the axes of the per-axis counts. -/
theorem coveringPairs_card (col_shape kernel_shape stride dilation pad : List Int) (N : Nat)
    (hks : ∀ i, i < N → 1 ≤ at64 kernel_shape i)
    (hcol : ∀ i, i < N → 1 ≤ spatialExtent col_shape i) (p : Nat → Int) :
    (coveringPairs col_shape kernel_shape stride dilation pad N p).card
      = ∏ i ∈ Finset.range N,
          axisWindowCount col_shape kernel_shape stride dilation pad i (p i) := by
  have hk : ∀ i, i < N → at64 kernel_shape i = (((at64 kernel_shape i).toNat : Nat) : Int) :=
    fun i hi => (Int.toNat_of_nonneg (by have := hks i hi; omega)).symm
  have he : ∀ i, i < N →
      spatialExtent col_shape i = (((spatialExtent col_shape i).toNat : Nat) : Int) :=
    fun i hi => (Int.toNat_of_nonneg (by have := hcol i hi; omega)).symm
  unfold coveringPairs
  rw [Finset.card_filter, Finset.sum_product,
    toNat_prod_range _ N (fun i hi => by have := hks i hi; omega),
    toNat_prod_range _ N (fun i hi => by have := hcol i hi; omega)]
  have hcond : ∀ (u r : Nat),
      (∀ i, i < N → pairCoord col_shape kernel_shape stride dilation pad N (u : Int) (r : Int) i
        = p i)
      ↔ (∀ i, i < N →
          ((natDigit (fun j => (spatialExtent col_shape j).toNat) N r i : Nat) : Int)
              * at64 stride i - at64 pad i
            + ((natDigit (fun j => (at64 kernel_shape j).toNat) N u i : Nat) : Int)
              * at64 dilation i = p i) := by
    intro u r
    apply forall_congr'
    intro i
    apply imp_congr_right
    intro hi
    unfold pairCoord inputCoord outputPosition
    rw [← kernelTap_eq kernel_shape N hks _ i hi,
      mixedRadixDigit_natCast (at64 kernel_shape) (fun j => (at64 kernel_shape j).toNat) N hk,
      mixedRadixDigit_natCast (spatialExtent col_shape)
        (fun j => (spatialExtent col_shape j).toNat) N he]
  have hsum := sum_mixedRadix (fun j => (at64 kernel_shape j).toNat)
    (fun j => (spatialExtent col_shape j).toNat)
    (fun i t o => (o : Int) * at64 stride i - at64 pad i + (t : Int) * at64 dilation i = p i) N
  have haxis : ∀ i, axisWindowCount col_shape kernel_shape stride dilation pad i (p i)
      = ∑ t ∈ Finset.range (at64 kernel_shape i).toNat,
          ∑ o ∈ Finset.range (spatialExtent col_shape i).toNat,
            if (o : Int) * at64 stride i - at64 pad i + (t : Int) * at64 dilation i = p i
            then 1 else 0 := by
    intro i
    unfold axisWindowCount
    rw [Finset.card_filter, Finset.sum_product]
  rw [Finset.prod_congr rfl (fun i _ => haxis i), ← hsum]
  apply Finset.sum_congr rfl
  intro u _
  apply Finset.sum_congr rfl
  intro r _
  by_cases h : ∀ i, i < N →
      pairCoord col_shape kernel_shape stride dilation pad N (u : Int) (r : Int) i = p i
  · rw [if_pos h, if_pos ((hcond u r).mp h)]
  · rw [if_neg h, if_neg (fun h2 => h ((hcond u r).mpr h2))]
theorem flatIndex_lead_injective (e x y : Nat → Int) (a b : Int) (k : Nat)
    (hx : inExtents e x k) (hy : inExtents e y k)
    (h : flatIndex e x a k = flatIndex e y b k) :
    a = b ∧ ∀ i, i < k → x i = y i := by
  have hpos : 1 ≤ extentProd e k :=
    extentProd_pos e k (fun i hi => by have := hx i hi; omega)
  obtain ⟨hx0, hx1⟩ := flatIndex_bound e x k hx
  obtain ⟨hy0, hy1⟩ := flatIndex_bound e y k hy
  rw [flatIndex_lead e x a, flatIndex_lead e y b] at h
  obtain ⟨h1, h2⟩ := (Int.ediv_emod_unique (a := a * extentProd e k + flatIndex e x 0 k)
    (b := extentProd e k) (r := flatIndex e x 0 k) (q := a) (by omega)).mpr
    ⟨by ring, hx0, hx1⟩
  obtain ⟨h3, h4⟩ := (Int.ediv_emod_unique (a := a * extentProd e k + flatIndex e x 0 k)
    (b := extentProd e k) (r := flatIndex e y 0 k) (q := b) (by omega)).mpr
    ⟨by rw [h]; ring, hy0, hy1⟩
  refine ⟨by rw [← h1, h3], ?_⟩
  exact flatIndex_injective e x y k hx hy (by rw [← h2, h4])

/-- A pair adds to the image position `(c, p)` exactly when its column row belongs to channel
`c` and its input coordinates are `p`. -/
theorem pair_covers_iff (im_shape col_shape kernel_shape stride dilation pad : List Int)
    (N : Nat) (hks : ∀ i, i < N → 1 ≤ at64 kernel_shape i) (c : Nat) (p : Nat → Int)
    (hp : inExtents (spatialExtent im_shape) p N) (a u r : Nat)
    (hu : u < (∏ i ∈ Finset.range N, at64 kernel_shape i).toNat) :
    (pairInRange im_shape col_shape kernel_shape stride dilation pad N
        ((a * (∏ i ∈ Finset.range N, at64 kernel_shape i).toNat + u : Nat) : Int) (r : Int) ∧
      pairImageIndex im_shape col_shape kernel_shape stride dilation pad N
        ((a * (∏ i ∈ Finset.range N, at64 kernel_shape i).toNat + u : Nat) : Int) (r : Int)
        = flatIndex (spatialExtent im_shape) p (c : Int) N)
    ↔ (a = c ∧ ∀ i, i < N →
        pairCoord col_shape kernel_shape stride dilation pad N (u : Int) (r : Int) i = p i) := by
  have hK : 1 ≤ ∏ i ∈ Finset.range N, at64 kernel_shape i := by
    rw [← extentProd_eq_prod]; exact extentProd_pos _ N hks
  have hcast : (((a * (∏ i ∈ Finset.range N, at64 kernel_shape i).toNat + u : Nat)) : Int)
      = (a : Int) * extentProd (at64 kernel_shape) N + (u : Int) := by
    push_cast
    rw [Int.toNat_of_nonneg (by omega), extentProd_eq_prod]
  have hu2 : (u : Int) < ∏ i ∈ Finset.range N, at64 kernel_shape i := by omega
  have hcoord : ∀ i, i < N →
      pairCoord col_shape kernel_shape stride dilation pad N
        ((a * (∏ i ∈ Finset.range N, at64 kernel_shape i).toNat + u : Nat) : Int) (r : Int) i
      = pairCoord col_shape kernel_shape stride dilation pad N (u : Int) (r : Int) i := by
    intro i hi
    unfold pairCoord inputCoord
    rw [← kernelTap_eq kernel_shape N hks _ i hi, ← kernelTap_eq kernel_shape N hks _ i hi,
      hcast, mixedRadixDigit_add_mul _ N hks _ _ i hi]
  have hdiv : (((a * (∏ i ∈ Finset.range N, at64 kernel_shape i).toNat + u : Nat)) : Int)
      / (∏ i ∈ Finset.range N, at64 kernel_shape i) = (a : Int) := by
    rw [hcast, extentProd_eq_prod]
    exact ((Int.ediv_emod_unique (r := (u : Int)) (q := (a : Int)) (by omega)).mpr
      ⟨by ring, by omega, hu2⟩).1
  unfold pairInRange pairImageIndex
  rw [hdiv]
  constructor
  · rintro ⟨hin, hidx⟩
    obtain ⟨h1, h2⟩ := flatIndex_lead_injective _ _ _ _ _ N hin hp hidx
    refine ⟨by exact_mod_cast h1, ?_⟩
    intro i hi
    rw [← hcoord i hi]
    exact h2 i hi
  · rintro ⟨hac, hq⟩
    subst hac
    have hq2 : ∀ i, i < N →
        pairCoord col_shape kernel_shape stride dilation pad N
          ((a * (∏ i ∈ Finset.range N, at64 kernel_shape i).toNat + u : Nat) : Int) (r : Int) i
        = p i := fun i hi => by rw [hcoord i hi]; exact hq i hi
    constructor
    · intro i hi
      rw [hq2 i hi]
      exact hp i hi
    · exact flatIndex_congr _ _ _ _ N hq2

/-- C5: window-count round trip.  Running `Im2colNd` in accumulate (col2im) mode on an all-ones
column buffer into a zero image returns, and at every image position `(c, p)` the result is the
number of (kernel tap, output position) pairs whose window covers it, which is the product over
the axes `i` of the number of pairs `(t, o)` with `0 ≤ t < kernel_i`, `0 ≤ o < out_i` and
`o * stride_i - pad_i + t * dilation_i = p_i`. -/
theorem Im2colNd_window_count
    (im_shape col_shape kernel_shape stride dilation pad : List Int) (N : Nat)
    (channels : Nat) (padding_value : Nat)
    (hks : ∀ i, i < N → 1 ≤ at64 kernel_shape i)
    (hcol : ∀ i, i < N → 1 ≤ spatialExtent col_shape i)
    (hchan : at64 col_shape 0 = (channels : Int) * ∏ i ∈ Finset.range N, at64 kernel_shape i)
    (fuel : Nat) (hfuel : (∏ i ∈ Finset.range N, spatialExtent col_shape i) ≤ (fuel : Int)) :
    ∃ out : Int → Nat,
      Im2colNd (fun _ => 1) im_shape col_shape kernel_shape stride dilation pad N (fun _ => 0)
        true padding_value fuel = Outcome.done out ∧
      ∀ (c : Nat) (p : Nat → Int), c < channels → inExtents (spatialExtent im_shape) p N →
        out (flatIndex (spatialExtent im_shape) p (c : Int) N)
          = (coveringPairs col_shape kernel_shape stride dilation pad N p).card ∧
        (coveringPairs col_shape kernel_shape stride dilation pad N p).card
          = ∏ i ∈ Finset.range N,
              axisWindowCount col_shape kernel_shape stride dilation pad i (p i) := by
  have hfuel2 := hfuel
  rw [← extentProd_eq_prod] at hfuel2
  have hK : 1 ≤ ∏ i ∈ Finset.range N, at64 kernel_shape i := by
    rw [← extentProd_eq_prod]; exact extentProd_pos _ N hks
  refine ⟨_, Im2colNd_eq_allWrites (fun _ => 1) im_shape col_shape kernel_shape stride dilation
    pad N (fun _ => 0) true padding_value hks hcol fuel hfuel2, ?_⟩
  intro c p hc hp
  refine ⟨?_, coveringPairs_card col_shape kernel_shape stride dilation pad N hks hcol p⟩
  have hC : (at64 col_shape 0).toNat
      = channels * (∏ i ∈ Finset.range N, at64 kernel_shape i).toNat := by
    rw [hchan]
    have : ((channels : Int) * ∏ i ∈ Finset.range N, at64 kernel_shape i)
        = ((channels * (∏ i ∈ Finset.range N, at64 kernel_shape i).toNat : Nat) : Int) := by
      push_cast
      rw [Int.toNat_of_nonneg (by omega)]
    rw [this, Int.toNat_natCast]
  rw [im2colAllWrites_true_apply _ _ _ _ _ _ _ _ hks, hC, sum_range_mul_reindex, zero_add]
  unfold coveringPairs
  rw [Finset.card_filter, Finset.sum_product]
  rw [Finset.sum_eq_single c]
  · apply Finset.sum_congr rfl
    intro u hu
    apply Finset.sum_congr rfl
    intro r _
    have hiff := pair_covers_iff im_shape col_shape kernel_shape stride dilation pad N hks c p
      hp c u r (Finset.mem_range.mp hu)
    by_cases h : ∀ i, i < N →
        pairCoord col_shape kernel_shape stride dilation pad N (u : Int) (r : Int) i = p i
    · rw [if_pos (hiff.mpr ⟨rfl, h⟩), if_pos h]
    · rw [if_neg (fun h2 => h (hiff.mp h2).2), if_neg h]
  · intro a _ hac
    apply Finset.sum_eq_zero
    intro u hu
    apply Finset.sum_eq_zero
    intro r _
    have hiff := pair_covers_iff im_shape col_shape kernel_shape stride dilation pad N hks c p
      hp a u r (Finset.mem_range.mp hu)
    rw [if_neg (fun h2 => hac (hiff.mp h2).1)]
  · intro hcn
    exact absurd (Finset.mem_range.mpr hc) hcn
/-- Witness of C4: the column buffer of a 2 x 2 kernel over a 3 x 3 single-channel image,
accumulated into an image buffer. -/
theorem Im2colNd_col2im_witness :
    ∃ out : Int → Int,
      (∀ padding_value2 : Int,
        Im2colNd (fun i => i + 1) [1, 3, 3] [4, 2, 2] [2, 2] [1, 1] [1, 1] [0, 0] 2
          (fun _ => 10) true padding_value2 4 = Outcome.done out) ∧
      ∀ p : Int, out p = (fun _ => 10) p +
        ∑ q ∈ (allPairs [4, 2, 2] 2).filter (fun q =>
            pairInRange [1, 3, 3] [4, 2, 2] [2, 2] [1, 1] [1, 1] [0, 0] 2 (q.1 : Int)
              (q.2 : Int) ∧
            pairImageIndex [1, 3, 3] [4, 2, 2] [2, 2] [1, 1] [1, 1] [0, 0] 2 (q.1 : Int)
              (q.2 : Int) = p),
          (fun i => i + 1) (pairColIndex [4, 2, 2] 2 (q.1 : Int) (q.2 : Int)) :=
  Im2colNd_col2im (fun i => i + 1) [1, 3, 3] [4, 2, 2] [2, 2] [1, 1] [1, 1] [0, 0] 2
    (fun _ => 10) 0 (by decide) (by decide) 4 (by decide)

/-- Witness of C5: a 2 x 2 kernel with stride 1 over a 3 x 3 single-channel image. -/
theorem Im2colNd_window_count_witness :
    ∃ out : Int → Nat,
      Im2colNd (fun _ => 1) [1, 3, 3] [4, 2, 2] [2, 2] [1, 1] [1, 1] [0, 0] 2 (fun _ => 0)
        true 0 4 = Outcome.done out ∧
      ∀ (c : Nat) (p : Nat → Int), c < 1 → inExtents (spatialExtent [1, 3, 3]) p 2 →
        out (flatIndex (spatialExtent [1, 3, 3]) p (c : Int) 2)
          = (coveringPairs [4, 2, 2] [2, 2] [1, 1] [1, 1] [0, 0] 2 p).card ∧
        (coveringPairs [4, 2, 2] [2, 2] [1, 1] [1, 1] [0, 0] 2 p).card
          = ∏ i ∈ Finset.range 2, axisWindowCount [4, 2, 2] [2, 2] [1, 1] [1, 1] [0, 0] i (p i) :=
  Im2colNd_window_count [1, 3, 3] [4, 2, 2] [2, 2] [1, 1] [1, 1] [0, 0] 2 1 0
    (by decide) (by decide) (by decide) 4 (by decide)
/-! ## Rounding and requantization -/

theorem nearestInt_spec (q : ℚ) :
    |q - (nearestInt q : ℚ)| ≤ 1 / 2 ∧
    (|q - (nearestInt q : ℚ)| = 1 / 2 → nearestInt q % 2 = 0) := by
  have h1 : ((⌊q⌋ : Int) : ℚ) ≤ q := Int.floor_le q
  have h2 : q < ((⌊q⌋ : Int) : ℚ) + 1 := Int.lt_floor_add_one q
  unfold nearestInt
  split_ifs with ha hb hc
  · constructor
    · rw [abs_le]; constructor <;> linarith
    · intro h
      rw [abs_of_nonneg (by linarith)] at h
      linarith
  · constructor
    · rw [abs_le]; push_cast; constructor <;> linarith
    · intro h
      push_cast at h
      rw [abs_of_nonpos (by linarith)] at h
      linarith
  · exact ⟨by rw [abs_le]; constructor <;> linarith, fun _ => hc⟩
  · constructor
    · rw [abs_le]; push_cast; constructor <;> linarith
    · intro _
      omega

theorem RoundHalfToEven_eq (x : ℚ) : RoundHalfToEven x = (nearestInt x : ℚ) := by
  unfold RoundHalfToEven remainderf
  rw [div_one, mul_one]
  ring

/-- An integer within 1/2 of `x` that is even on a tie is the value of `RoundHalfToEven`. -/
theorem nearestInt_unique (x : ℚ) (n : Int) (h1 : |x - (n : ℚ)| ≤ 1 / 2)
    (h2 : |x - (n : ℚ)| = 1 / 2 → n % 2 = 0) : nearestInt x = n := by
  obtain ⟨h3, h4⟩ := nearestInt_spec x
  rw [abs_le] at h1 h3
  have hlt : ((nearestInt x : Int) : ℚ) - n < 2 := by linarith [h1.1, h1.2, h3.1, h3.2]
  have hgt : (n : ℚ) - (nearestInt x : Int) < 2 := by linarith [h1.1, h1.2, h3.1, h3.2]
  have hlt2 : nearestInt x - n < 2 := by exact_mod_cast hlt
  have hgt2 : n - nearestInt x < 2 := by exact_mod_cast hgt
  by_contra hne
  have hcases : nearestInt x = n + 1 ∨ n = nearestInt x + 1 := by omega
  rcases hcases with hc | hc
  · have hx : x = (n : ℚ) + 1 / 2 := by
      have : ((nearestInt x : Int) : ℚ) = (n : ℚ) + 1 := by rw [hc]; push_cast; ring
      linarith [h1.2, h3.1]
    have e1 : |x - (n : ℚ)| = 1 / 2 := by rw [hx]; ring_nf; norm_num
    have e2 : |x - ((nearestInt x : Int) : ℚ)| = 1 / 2 := by
      rw [hc, hx]; push_cast; ring_nf; norm_num
    have := h2 e1
    have := h4 e2
    omega
  · have hx : x = (n : ℚ) - 1 / 2 := by
      have : (n : ℚ) = ((nearestInt x : Int) : ℚ) + 1 := by
        have : (n : ℚ) = ((nearestInt x + 1 : Int) : ℚ) := by rw [← hc]
        rw [this]; push_cast; ring
      linarith [h1.1, h3.2]
    have e1 : |x - (n : ℚ)| = 1 / 2 := by rw [hx]; ring_nf; norm_num
    have e2 : |x - ((nearestInt x : Int) : ℚ)| = 1 / 2 := by
      have : ((nearestInt x : Int) : ℚ) = (n : ℚ) - 1 := by
        have : (n : ℚ) = ((nearestInt x + 1 : Int) : ℚ) := by rw [← hc]
        rw [this]; push_cast; ring
      rw [this, hx]; ring_nf; norm_num
    have := h2 e1
    have := h4 e2
    omega

/-- C8: for every finite input `x`, `RoundHalfToEven x` is an integer `n` with `|x - n| ≤ 1/2`,
and `n` is even when `|x - n| = 1/2`; in particular 0.5 gives 0, 1.5 gives 2 and -0.5 gives 0. -/
theorem RoundHalfToEven_nearest_even :
    (∀ x : ℚ, ∃ n : Int, RoundHalfToEven x = (n : ℚ) ∧ |x - (n : ℚ)| ≤ 1 / 2 ∧
      (|x - (n : ℚ)| = 1 / 2 → n % 2 = 0)) ∧
    RoundHalfToEven (1 / 2) = 0 ∧ RoundHalfToEven (3 / 2) = 2 ∧ RoundHalfToEven (-1 / 2) = 0 := by
  refine ⟨fun x => ⟨nearestInt x, RoundHalfToEven_eq x, nearestInt_spec x⟩, ?_, ?_, ?_⟩
  · rw [RoundHalfToEven_eq, nearestInt_unique (1 / 2) 0 (by norm_num [abs_le]) (by norm_num)]
    norm_num
  · rw [RoundHalfToEven_eq, nearestInt_unique (3 / 2) 2 (by norm_num [abs_le]) (by norm_num)]
    norm_num
  · rw [RoundHalfToEven_eq, nearestInt_unique (-1 / 2) 0 (by norm_num [abs_le]) (by norm_num)]
    norm_num
theorem nearestInt_intCast (k : Int) : nearestInt (k : ℚ) = k :=
  nearestInt_unique (k : ℚ) k (by simp) (by simp)

theorem nearestInt_mono {x y : ℚ} (h : x ≤ y) : nearestInt x ≤ nearestInt y := by
  obtain ⟨hx, -⟩ := nearestInt_spec x
  obtain ⟨hy, -⟩ := nearestInt_spec y
  rw [abs_le] at hx hy
  by_contra hlt
  have hm : nearestInt y + 1 ≤ nearestInt x := by omega
  have hmq : ((nearestInt y : Int) : ℚ) + 1 ≤ ((nearestInt x : Int) : ℚ) := by exact_mod_cast hm
  have hxy : x = y := by linarith [hx.1, hx.2, hy.1, hy.2]
  rw [hxy] at hlt
  exact hlt (le_refl _)

theorem nearestInt_min (f : ℚ) (k : Int) :
    nearestInt (min f (k : ℚ)) = min (nearestInt f) k := by
  rcases le_total f (k : ℚ) with h | h
  · have := nearestInt_mono h
    rw [nearestInt_intCast] at this
    rw [min_eq_left h, min_eq_left this]
  · have := nearestInt_mono h
    rw [nearestInt_intCast] at this
    rw [min_eq_right h, min_eq_right this, nearestInt_intCast]

theorem nearestInt_max (f : ℚ) (k : Int) :
    nearestInt (max f (k : ℚ)) = max (nearestInt f) k := by
  rcases le_total f (k : ℚ) with h | h
  · have := nearestInt_mono h
    rw [nearestInt_intCast] at this
    rw [max_eq_right h, max_eq_right this, nearestInt_intCast]
  · have := nearestInt_mono h
    rw [nearestInt_intCast] at this
    rw [max_eq_left h, max_eq_left this]

theorem staticCastFloat_intCast (T : IntType) (v : Int) (h1 : T.min ≤ v) (h2 : v ≤ T.max) :
    staticCastFloat T (v : ℚ) = v := by
  unfold staticCastFloat IntType.wrap
  have hv : (if (0 : ℚ) ≤ (v : ℚ) then ⌊(v : ℚ)⌋ else ⌈(v : ℚ)⌉) = v := by
    split_ifs
    · exact Int.floor_intCast v
    · exact Int.ceil_intCast v
  rw [hv, Int.emod_eq_of_lt (by omega) (by omega)]
  ring

/-! ## Rounding to `float` -/

theorem floatExponent_of_binade (q : ℚ) (e : Int) (he1 : -126 ≤ e) (he2 : e ≤ 127)
    (h1 : (2 : ℚ) ^ e ≤ |q|) (h2 : |q| < (2 : ℚ) ^ (e + 1)) : floatExponent q = e := by
  have hpos : (0 : ℚ) < |q| := lt_of_lt_of_le (zpow_pos (by norm_num) e) h1
  have hlog : Int.log 2 |q| = e := by
    have ha : e ≤ Int.log 2 |q| := by
      apply (Int.zpow_le_iff_le_log (by norm_num) hpos).mp
      exact_mod_cast h1
    have hb : Int.log 2 |q| < e + 1 := by
      apply (Int.lt_zpow_iff_log_lt (by norm_num) hpos).mp
      exact_mod_cast h2
    omega
  unfold floatExponent
  rw [hlog]
  omega

/-- A value of the binade of exponent `e` rounds to the multiple of `2 ^ (e - 23)` nearest to
it. -/
theorem roundFloat32_of_binade (q : ℚ) (e : Int) (he1 : -126 ≤ e) (he2 : e ≤ 127)
    (h1 : (2 : ℚ) ^ e ≤ |q|) (h2 : |q| < (2 : ℚ) ^ (e + 1)) (n : Int)
    (hn : nearestInt (q / (2 : ℚ) ^ (e - 23)) = n) :
    roundFloat32 q = (n : ℚ) * (2 : ℚ) ^ (e - 23) := by
  unfold roundFloat32
  rw [floatExponent_of_binade q e he1 he2 h1 h2, hn]

theorem roundFloat32_zero : roundFloat32 0 = 0 := by
  unfold roundFloat32
  rw [zero_div]
  have : nearestInt (0 : ℚ) = 0 := by
    have := nearestInt_intCast 0
    simpa using this
  rw [this]
  simp

/-- A multiple of the spacing of its binade is a `float` value: rounding does not change it. -/
theorem roundFloat32_of_multiple (q : ℚ) (e : Int) (he1 : -126 ≤ e) (he2 : e ≤ 127)
    (h1 : (2 : ℚ) ^ e ≤ |q|) (h2 : |q| < (2 : ℚ) ^ (e + 1)) (n : Int)
    (hn : q = (n : ℚ) * (2 : ℚ) ^ (e - 23)) : roundFloat32 q = q := by
  have hne : (2 : ℚ) ^ (e - 23) ≠ 0 := zpow_ne_zero _ (by norm_num)
  rw [roundFloat32_of_binade q e he1 he2 h1 h2 n, ← hn]
  rw [hn, mul_div_assoc, div_self hne, mul_one]
  exact nearestInt_intCast n

/-- An integer of absolute value at most `2 ^ 24` is a `float` value. -/
theorem roundFloat32_intCast (k : Int) (h1 : -16777216 ≤ k) (h2 : k ≤ 16777216) :
    roundFloat32 (k : ℚ) = (k : ℚ) := by
  by_cases hk : k = 0
  · subst hk
    simpa using roundFloat32_zero
  have hpos : (0 : ℚ) < |(k : ℚ)| := abs_pos.mpr (by exact_mod_cast hk)
  have habs : |(k : ℚ)| = ((k.natAbs : Nat) : ℚ) := by
    rw [← Int.cast_abs, Int.abs_eq_natAbs]
    rfl
  have hn1 : 1 ≤ k.natAbs := by omega
  have hn2 : k.natAbs ≤ 16777216 := by omega
  have hL0 : 0 ≤ Int.log 2 |(k : ℚ)| := by
    apply (Int.zpow_le_iff_le_log (by norm_num) hpos).mp
    rw [zpow_zero, habs]
    exact_mod_cast hn1
  have hL1 : Int.log 2 |(k : ℚ)| < 25 := by
    apply (Int.lt_zpow_iff_log_lt (by norm_num) hpos).mp
    rw [habs]
    have : ((k.natAbs : Nat) : ℚ) ≤ 16777216 := by exact_mod_cast hn2
    norm_num
    linarith
  have hlo : ((2 : ℕ) : ℚ) ^ Int.log 2 |(k : ℚ)| ≤ |(k : ℚ)| :=
    Int.zpow_log_le_self (by norm_num) hpos
  have hhi : |(k : ℚ)| < ((2 : ℕ) : ℚ) ^ (Int.log 2 |(k : ℚ)| + 1) :=
    Int.lt_zpow_succ_log_self (by norm_num) _
  generalize Int.log 2 |(k : ℚ)| = L at hL0 hL1 hlo hhi
  have hlo2 : (2 : ℚ) ^ L ≤ |(k : ℚ)| := by exact_mod_cast hlo
  have hhi2 : |(k : ℚ)| < (2 : ℚ) ^ (L + 1) := by exact_mod_cast hhi
  by_cases hL : L ≤ 23
  · obtain ⟨m, hm⟩ : ∃ m : Nat, (m : Int) = 23 - L := ⟨(23 - L).toNat, by omega⟩
    apply roundFloat32_of_multiple (k : ℚ) L (by omega) (by omega) hlo2 hhi2 (k * 2 ^ m)
    have hexp : L - 23 = -(m : Int) := by omega
    rw [hexp, zpow_neg, zpow_natCast]
    push_cast
    field_simp
  · have hL24 : L = 24 := by omega
    subst hL24
    have h24 : (16777216 : ℚ) ≤ |(k : ℚ)| := by
      have : ((2 : ℚ) ^ (24 : Int)) = 16777216 := by norm_num
      rw [← this]
      exact hlo2
    rw [habs] at h24
    have h24n : 16777216 ≤ k.natAbs := by exact_mod_cast h24
    have hk2 : k = 16777216 ∨ k = -16777216 := by omega
    rcases hk2 with rfl | rfl
    · apply roundFloat32_of_multiple _ 24 (by omega) (by omega) hlo2 hhi2 8388608
      norm_num
    · apply roundFloat32_of_multiple _ 24 (by omega) (by omega) hlo2 hhi2 (-8388608)
      norm_num

/-! ## `RequantizeOutput` -/

/-- For a storage type of at most 24 bits and a zero point in its range, the three conversions
of the constructor `RequantizeValues<T>` are exact. -/
theorem RequantizeValues_create_eq (T : IntType) (hlo : -8388608 ≤ T.min)
    (hhi : T.max ≤ 8388608) (zp : Int) (hzp0 : T.min ≤ zp) (hzp1 : zp ≤ T.max) :
    RequantizeValues.create T zp
      = ⟨((T.min - zp : Int) : ℚ), ((T.max - zp : Int) : ℚ), (zp : ℚ)⟩ := by
  unfold RequantizeValues.create
  rw [roundFloat32_intCast (T.min - zp) (by omega) (by omega),
    roundFloat32_intCast (T.max - zp) (by omega) (by omega),
    roundFloat32_intCast zp (by omega) (by omega)]

/-- The value `RequantizeOutput` returns is the rounded `float` product plus the zero point,
clamped to the range of `T`; the `float` product is
`roundFloat32 (roundFloat32 sum * scale)`. -/
theorem RequantizeOutput_eq (T : IntType) (hlo : -8388608 ≤ T.min) (hhi : T.max ≤ 8388608)
    (sum : Int) (scale : ℚ) (zp : Int) (hzp0 : T.min ≤ zp) (hzp1 : zp ≤ T.max) :
    RequantizeOutput T sum scale (RequantizeValues.create T zp)
      = max T.min (min T.max
          (nearestInt (roundFloat32 (roundFloat32 (sum : ℚ) * scale)) + zp)) := by
  unfold RequantizeOutput
  rw [RequantizeValues_create_eq T hlo hhi zp hzp0 hzp1]
  simp only
  rw [RoundHalfToEven_eq, nearestInt_max, nearestInt_min]
  have hval : ((max (min (nearestInt (roundFloat32 (roundFloat32 (sum : ℚ) * scale)))
        (T.max - zp)) (T.min - zp) : Int) : ℚ) + (zp : ℚ)
      = ((max T.min (min T.max
          (nearestInt (roundFloat32 (roundFloat32 (sum : ℚ) * scale)) + zp)) : Int) : ℚ) := by
    have : max (min (nearestInt (roundFloat32 (roundFloat32 (sum : ℚ) * scale))) (T.max - zp))
        (T.min - zp) + zp
        = max T.min (min T.max
            (nearestInt (roundFloat32 (roundFloat32 (sum : ℚ) * scale)) + zp)) := by
      omega
    rw [← this]
    push_cast
    ring
  have hT : T.min ≤ T.max := le_trans hzp0 hzp1
  have hb1 : T.min ≤ max T.min (min T.max
      (nearestInt (roundFloat32 (roundFloat32 (sum : ℚ) * scale)) + zp)) := le_max_left _ _
  have hb2 : max T.min (min T.max
      (nearestInt (roundFloat32 (roundFloat32 (sum : ℚ) * scale)) + zp)) ≤ T.max :=
    max_le hT (min_le_left _ _)
  rw [hval, roundFloat32_intCast _ (by omega) (by omega)]
  exact staticCastFloat_intCast T _ hb1 hb2

theorem roundFloat32_product_intCast (k : Int) (h1 : -16777216 ≤ k) (h2 : k ≤ 16777216) :
    roundFloat32 (roundFloat32 (k : ℚ) * 1) = (k : ℚ) := by
  rw [roundFloat32_intCast k h1 h2, mul_one, roundFloat32_intCast k h1 h2]

/-- C7, counterexample: for `uint8_t` with output zero point 128, the accumulator 200 and the
scale 1, `RequantizeOutput` gives 255 (the product is clamped to `[0 - 128, 255 - 128]`, rounded,
and moved by the zero point), while clamping the rounded value to `[0, 255]` before the zero
point is added, and narrowing afterwards, gives 328 mod 256 = 72. -/
theorem RequantizeOutput_not_specRequantize :
    RequantizeOutput IntType.uint8 200 1 (RequantizeValues.create IntType.uint8 128) = 255 ∧
    specRequantize IntType.uint8 200 1 128 = 72 ∧
    RequantizeOutput IntType.uint8 200 1 (RequantizeValues.create IntType.uint8 128)
      ≠ specRequantize IntType.uint8 200 1 128 := by
  have h200 : nearestInt (((200 : Int) : ℚ) * 1) = 200 := by
    rw [mul_one]; exact nearestInt_intCast 200
  have hf200 : nearestInt (roundFloat32 (roundFloat32 ((200 : Int) : ℚ) * 1)) = 200 := by
    rw [roundFloat32_product_intCast 200 (by decide) (by decide)]
    exact nearestInt_intCast 200
  have h1 : RequantizeOutput IntType.uint8 200 1 (RequantizeValues.create IntType.uint8 128)
      = 255 := by
    rw [RequantizeOutput_eq IntType.uint8 (by decide) (by decide) 200 1 128 (by decide)
      (by decide), hf200]
    decide
  have h2 : specRequantize IntType.uint8 200 1 128 = 72 := by
    unfold specRequantize
    rw [RoundHalfToEven_eq, h200]
    have e : max ((IntType.uint8.min : Int) : ℚ) (min ((IntType.uint8.max : Int) : ℚ)
        (((200 : Int) : ℚ))) + (((128 : Int) : ℚ)) = (((328 : Int)) : ℚ) := by
      simp only [IntType.uint8]
      norm_num
    rw [e]
    unfold staticCastFloat
    rw [if_pos (by norm_num), Int.floor_intCast]
    decide
  refine ⟨h1, h2, ?_⟩
  rw [h1, h2]
  decide

/-- C7, amended: for every accumulator `sum` and output zero point `zp` in the range of the
destination type (of at most 24 bits), the requantized output of an output channel is
`clamp(roundHalfToEven(sum * s) + zp, Tmin, Tmax)`: the zero point is added before the clamp to
the range of the destination type (the code clamps `sum * s` to `[Tmin - zp, Tmax - zp]`,
rounds, and then adds `zp`), and the conversion to the destination type changes nothing.  Here
`sum * s` is the `float` product of the code, the rounded product of `sum` converted to `float`
and `s`, and `s = (inputScale * weightScale[channel]) / outputScale` is computed in `float`, the
product and the quotient each rounded. -/
theorem RequantizeOutput_clamp_after_zero_point (T : IntType) (hlo : -8388608 ≤ T.min)
    (hhi : T.max ≤ 8388608) (t : QLinearConvOpTester) (channel_index sum : Int)
    (hzp0 : T.min ≤ t.output_zero_point_) (hzp1 : t.output_zero_point_ ≤ T.max) :
    (RequantizeOutput T sum (requantizeScale t channel_index)
        (RequantizeValues.create T t.output_zero_point_) : ℚ)
      = max (T.min : ℚ) (min (T.max : ℚ)
          (RoundHalfToEven (roundFloat32 (roundFloat32 (sum : ℚ)
            * requantizeScale t channel_index)) + (t.output_zero_point_ : ℚ))) ∧
    requantizeScale t channel_index
      = roundFloat32 (roundFloat32 (t.X_.scale_.getD 0 0
            * t.W_.scale_.getD (if t.W_.scale_.length = 1 then 0 else channel_index.toNat) 0)
          / t.output_scale_) ∧
    T.min ≤ RequantizeOutput T sum (requantizeScale t channel_index)
        (RequantizeValues.create T t.output_zero_point_) ∧
    RequantizeOutput T sum (requantizeScale t channel_index)
        (RequantizeValues.create T t.output_zero_point_) ≤ T.max := by
  rw [RequantizeOutput_eq T hlo hhi _ _ _ hzp0 hzp1, RoundHalfToEven_eq]
  refine ⟨?_, rfl, le_max_left _ _, max_le (le_trans hzp0 hzp1) (min_le_left _ _)⟩
  push_cast
  rfl

/-- Witness of C7 (amended): `uint8_t`, per-tensor weight scale. -/
theorem RequantizeOutput_clamp_after_zero_point_witness :
    (RequantizeOutput IntType.uint8 200
        (requantizeScale ⟨⟨[], [], [1], 0⟩, ⟨[], [], [1], 0⟩, [], [], [], [], 0, 1, 128⟩ 0)
        (RequantizeValues.create IntType.uint8 128) : ℚ)
      = max (IntType.uint8.min : ℚ) (min (IntType.uint8.max : ℚ)
          (RoundHalfToEven (roundFloat32 (roundFloat32 ((200 : Int) : ℚ)
            * requantizeScale ⟨⟨[], [], [1], 0⟩, ⟨[], [], [1], 0⟩, [], [], [], [], 0, 1, 128⟩
              0)) + ((128 : Int) : ℚ))) ∧
    requantizeScale ⟨⟨[], [], [1], 0⟩, ⟨[], [], [1], 0⟩, [], [], [], [], 0, 1, 128⟩ 0
      = roundFloat32 (roundFloat32 (([1] : List ℚ).getD 0 0
            * ([1] : List ℚ).getD (if ([1] : List ℚ).length = 1 then 0 else (0 : Int).toNat) 0)
          / 1) ∧
    IntType.uint8.min ≤ RequantizeOutput IntType.uint8 200
        (requantizeScale ⟨⟨[], [], [1], 0⟩, ⟨[], [], [1], 0⟩, [], [], [], [], 0, 1, 128⟩ 0)
        (RequantizeValues.create IntType.uint8 128) ∧
    RequantizeOutput IntType.uint8 200
        (requantizeScale ⟨⟨[], [], [1], 0⟩, ⟨[], [], [1], 0⟩, [], [], [], [], 0, 1, 128⟩ 0)
        (RequantizeValues.create IntType.uint8 128) ≤ IntType.uint8.max :=
  RequantizeOutput_clamp_after_zero_point IntType.uint8 (by decide) (by decide)
    ⟨⟨[], [], [1], 0⟩, ⟨[], [], [1], 0⟩, [], [], [], [], 0, 1, 128⟩ 0 200 (by decide) (by decide)

/-- The roundings of the `float` operations are part of `RequantizeOutput`: for `uint8_t`, zero
point 0, the accumulator `83886081 = 5 * 2 ^ 24 + 1` and the scale `2 ^ (-25)`, the conversion
of the accumulator to `float` gives `83886080`, the product is `2.5` exactly and the result is
2, where the exact product `2.50000003` would round to 3. -/
theorem RequantizeOutput_float_product_example :
    roundFloat32 ((83886081 : Int) : ℚ) = 83886080
    ∧ roundFloat32 (roundFloat32 ((83886081 : Int) : ℚ) * (1 / 33554432)) = 5 / 2
    ∧ RequantizeOutput IntType.uint8 83886081 (1 / 33554432)
        (RequantizeValues.create IntType.uint8 0) = 2
    ∧ nearestInt (((83886081 : Int) : ℚ) * (1 / 33554432)) = 3 := by
  have h1 : roundFloat32 ((83886081 : Int) : ℚ) = 83886080 := by
    rw [roundFloat32_of_binade _ 26 (by decide) (by decide) (by norm_num [abs_of_pos])
      (by norm_num [abs_of_pos]) 10485760
      (nearestInt_unique _ _ (by norm_num [abs_le]) (by norm_num [abs_of_pos]))]
    norm_num
  have h2 : roundFloat32 (roundFloat32 ((83886081 : Int) : ℚ) * (1 / 33554432)) = 5 / 2 := by
    rw [h1]
    have e : (83886080 : ℚ) * (1 / 33554432) = 5 / 2 := by norm_num
    rw [e]
    exact roundFloat32_of_multiple _ 1 (by decide) (by decide) (by norm_num [abs_of_pos])
      (by norm_num [abs_of_pos]) 10485760 (by norm_num)
  have h3 : nearestInt ((5 : ℚ) / 2) = 2 :=
    nearestInt_unique _ _ (by norm_num [abs_le]) (by norm_num)
  refine ⟨h1, h2, ?_, nearestInt_unique _ _ (by norm_num [abs_le]) (by norm_num [abs_of_pos])⟩
  rw [RequantizeOutput_eq IntType.uint8 (by decide) (by decide) _ _ 0 (by decide) (by decide),
    h2, h3]
  decide

/-- The scales of `TEST(QLinearConvTest, Conv2D_U8S8)`: input scale `.05f`, weight scale
`.125f`, output scale `.55f`, output zero point 54.  The `float` values are `13421773 / 2 ^ 28`,
`1 / 8` and `9227469 / 2 ^ 24`; the requantize scale is the `float` `12201612 / 2 ^ 30`; for the
accumulator -3124 the `float` product is `-35.5` exactly and the output is `-36 + 54 = 18`,
where the product of the three exact values, `-35.4999998`, would give 19. -/
theorem RequantizeOutput_test_scales_example :
    requantizeScale ⟨⟨[], [], [13421773 / 268435456], 4⟩, ⟨[], [], [1 / 8], 0⟩, [], [], [], [],
        1, 9227469 / 16777216, 54⟩ 0 = 12201612 / 1073741824
    ∧ roundFloat32 (roundFloat32 ((-3124 : Int) : ℚ) * (12201612 / 1073741824)) = -71 / 2
    ∧ RequantizeOutput IntType.uint8 (-3124)
        (requantizeScale ⟨⟨[], [], [13421773 / 268435456], 4⟩, ⟨[], [], [1 / 8], 0⟩, [], [], [],
          [], 1, 9227469 / 16777216, 54⟩ 0)
        (RequantizeValues.create IntType.uint8 54) = 18
    ∧ nearestInt (((-3124 : Int) : ℚ)
        * ((13421773 / 268435456) * (1 / 8) / (9227469 / 16777216))) + 54 = 19 := by
  have hs : requantizeScale ⟨⟨[], [], [13421773 / 268435456], 4⟩, ⟨[], [], [1 / 8], 0⟩, [], [],
      [], [], 1, 9227469 / 16777216, 54⟩ 0 = 12201612 / 1073741824 := by
    unfold requantizeScale
    simp only [List.getD_cons_zero, List.length_singleton, if_true]
    have e1 : ((13421773 : ℚ) / 268435456) * (1 / 8) = 13421773 / 2147483648 := by norm_num
    rw [e1, roundFloat32_of_multiple (13421773 / 2147483648) (-8) (by decide) (by decide)
      (by norm_num [abs_of_pos]) (by norm_num [abs_of_pos]) 13421773 (by norm_num)]
    have e2 : ((13421773 : ℚ) / 2147483648) / (9227469 / 16777216)
        = 13421773 / 1181116032 := by norm_num
    rw [e2, roundFloat32_of_binade (13421773 / 1181116032) (-7) (by decide) (by decide)
      (by norm_num [abs_of_pos]) (by norm_num [abs_of_pos]) 12201612
      (nearestInt_unique _ _ (by norm_num [abs_le]) (by norm_num [abs_of_pos]))]
    norm_num
  have hp : roundFloat32 (roundFloat32 ((-3124 : Int) : ℚ) * (12201612 / 1073741824))
      = -71 / 2 := by
    rw [roundFloat32_intCast (-3124) (by decide) (by decide)]
    have e3 : (((-3124 : Int) : ℚ)) * (12201612 / 1073741824) = -9529458972 / 268435456 := by
      norm_num
    rw [e3, roundFloat32_of_binade (-9529458972 / 268435456) 5 (by decide) (by decide)
      (by norm_num [abs_of_neg]) (by norm_num [abs_of_neg]) (-9306112)
      (nearestInt_unique _ _ (by norm_num [abs_le]) (by norm_num [abs_of_pos]))]
    norm_num
  have h36 : nearestInt ((-71 : ℚ) / 2) = -36 :=
    nearestInt_unique _ _ (by norm_num [abs_le]) (by norm_num)
  refine ⟨hs, hp, ?_, ?_⟩
  · rw [hs, RequantizeOutput_eq IntType.uint8 (by decide) (by decide) _ _ 54 (by decide)
      (by decide), hp, h36]
    decide
  · have h35 : nearestInt (((-3124 : Int) : ℚ)
        * ((13421773 / 268435456) * (1 / 8) / (9227469 / 16777216))) = -35 :=
      nearestInt_unique _ _ (by norm_num [abs_le]) (by norm_num [abs_of_pos])
    rw [h35]
    rfl
/-! ## Shape inference of the reference convolution -/

theorem at64_append_singleton (l : List Int) (x : Int) (i : Nat) :
    at64 (l ++ [x]) i = if i < l.length then at64 l i else if i = l.length then x else 0 := by
  unfold at64
  rw [List.getD_eq_getElem?_getD, List.getD_eq_getElem?_getD]
  by_cases h1 : i < l.length
  · rw [if_pos h1, List.getElem?_append_left h1]
  · rw [if_neg h1, List.getElem?_append_right (by omega)]
    by_cases h2 : i = l.length
    · rw [if_pos h2, h2]
      simp
    · rw [if_neg h2]
      have : i - l.length ≠ 0 := by omega
      obtain ⟨j, hj⟩ := Nat.exists_eq_succ_of_ne_zero this
      rw [hj]
      simp

theorem expectedShape_fold (X_shape W_shape pads dilations strides : List Int)
    (kernel_rank k : Nat) :
    ((List.range k).foldl
      (fun Y_shape n =>
        Y_shape ++ [Int.tdiv
          ((at64 X_shape (n + 2) + at64 pads n + at64 pads (kernel_rank + n))
            - (at64 dilations n * (at64 W_shape (n + 2) - 1) + 1))
          (at64 strides n) + 1])
      [at64 X_shape 0, at64 W_shape 0]).length = k + 2 ∧
    ∀ i, at64 ((List.range k).foldl
      (fun Y_shape n =>
        Y_shape ++ [Int.tdiv
          ((at64 X_shape (n + 2) + at64 pads n + at64 pads (kernel_rank + n))
            - (at64 dilations n * (at64 W_shape (n + 2) - 1) + 1))
          (at64 strides n) + 1])
      [at64 X_shape 0, at64 W_shape 0]) i
      = if i = 0 then at64 X_shape 0
        else if i = 1 then at64 W_shape 0
        else if i < k + 2 then
          Int.tdiv
            ((at64 X_shape i + at64 pads (i - 2) + at64 pads (kernel_rank + (i - 2)))
              - (at64 dilations (i - 2) * (at64 W_shape i - 1) + 1))
            (at64 strides (i - 2)) + 1
        else 0 := by
  induction k with
  | zero =>
    refine ⟨rfl, ?_⟩
    intro i
    match i with
    | 0 => rfl
    | 1 => rfl
    | j + 2 => simp [at64]
  | succ k ih =>
    obtain ⟨hlen, hval⟩ := ih
    rw [foldl_range_succ]
    refine ⟨by rw [List.length_append, hlen]; rfl, ?_⟩
    intro i
    rw [at64_append_singleton, hlen, hval i]
    by_cases h0 : i = 0
    · subst h0; simp
    · by_cases h1 : i = 1
      · subst h1; simp
      · rw [if_neg h0, if_neg h1, if_neg h0, if_neg h1]
        by_cases h2 : i < k + 2
        · rw [if_pos h2, if_pos h2, if_pos (by omega)]
        · rw [if_neg h2]
          by_cases h3 : i = k + 2
          · subst h3
            rw [if_pos rfl, if_pos (by omega)]
            simp
          · rw [if_neg h3, if_neg (by omega)]

/-- C9: when the `ORT_ENFORCE` checks of `ComputeExpectedOutput` hold, it returns an output shape
whose first entry is the batch count and whose second entry is the number of output channels,
and for every spatial axis `n` with `stride ≥ 1` and
`inputExtent + padBefore + padAfter ≥ dilation * (kernelExtent - 1) + 1` the entry `n + 2` is
`floor((inputExtent + padBefore + padAfter - (dilation * (kernelExtent - 1) + 1)) / stride) + 1`
and is at least 1. -/
theorem ComputeExpectedOutput_shape (T1 : IntType) (t : QLinearConvOpTester)
    (hrank : 2 < t.W_.shape_.length) (hsame : t.X_.shape_.length = t.W_.shape_.length)
    (hin : at64 t.X_.shape_ 1 = at64 t.W_.shape_ 1 * max t.groups_ 1)
    (hout : at64 t.W_.shape_ 0
      = Int.tdiv (at64 t.W_.shape_ 0) (max t.groups_ 1) * max t.groups_ 1) :
    ∃ Y_data Y_shape : List Int, ComputeExpectedOutput T1 t = some (Y_data, Y_shape) ∧
      Y_shape.length = t.W_.shape_.length ∧
      at64 Y_shape 0 = at64 t.X_.shape_ 0 ∧ at64 Y_shape 1 = at64 t.W_.shape_ 0 ∧
      ∀ n, n < t.W_.shape_.length - 2 →
        1 ≤ at64 (effectiveStrides t (t.W_.shape_.length - 2)) n →
        at64 (effectiveDilations t (t.W_.shape_.length - 2)) n * (at64 t.W_.shape_ (n + 2) - 1) + 1
          ≤ at64 t.X_.shape_ (n + 2) + at64 (effectivePads t (t.W_.shape_.length - 2)) n
            + at64 (effectivePads t (t.W_.shape_.length - 2)) (t.W_.shape_.length - 2 + n) →
        at64 Y_shape (n + 2)
          = (at64 t.X_.shape_ (n + 2) + at64 (effectivePads t (t.W_.shape_.length - 2)) n
              + at64 (effectivePads t (t.W_.shape_.length - 2)) (t.W_.shape_.length - 2 + n)
              - (at64 (effectiveDilations t (t.W_.shape_.length - 2)) n
                  * (at64 t.W_.shape_ (n + 2) - 1) + 1))
            / at64 (effectiveStrides t (t.W_.shape_.length - 2)) n + 1 ∧
        1 ≤ at64 Y_shape (n + 2) := by
  obtain ⟨hlen, hval⟩ := expectedShape_fold t.X_.shape_ t.W_.shape_
    (effectivePads t (t.W_.shape_.length - 2)) (effectiveDilations t (t.W_.shape_.length - 2))
    (effectiveStrides t (t.W_.shape_.length - 2)) (t.W_.shape_.length - 2)
    (t.W_.shape_.length - 2)
  have hsome : ∃ Y_data : List Int, ComputeExpectedOutput T1 t = some (Y_data,
      expectedShape t.X_.shape_ t.W_.shape_
        (effectivePads t (t.W_.shape_.length - 2))
        (effectiveDilations t (t.W_.shape_.length - 2))
        (effectiveStrides t (t.W_.shape_.length - 2)) (t.W_.shape_.length - 2)) := by
    unfold ComputeExpectedOutput
    rw [if_neg (not_not.mpr hrank), if_neg (not_not.mpr hsame)]
    dsimp only
    rw [if_neg (not_not.mpr hin), if_neg (not_not.mpr hout)]
    exact ⟨_, rfl⟩
  obtain ⟨Y_data, hY⟩ := hsome
  refine ⟨Y_data, _, hY, ?_, ?_, ?_, ?_⟩
  · unfold expectedShape
    rw [hlen]
    omega
  · unfold expectedShape
    rw [hval 0, if_pos rfl]
  · unfold expectedShape
    rw [hval 1, if_neg (by omega), if_pos rfl]
  · intro n hn hstride hnum
    unfold expectedShape
    rw [hval (n + 2), if_neg (by omega), if_neg (by omega), if_pos (by omega)]
    have hn2 : n + 2 - 2 = n := by omega
    rw [hn2, Int.tdiv_eq_ediv (by omega) (by omega)]
    refine ⟨rfl, ?_⟩
    have := Int.ediv_nonneg (a := at64 t.X_.shape_ (n + 2)
      + at64 (effectivePads t (t.W_.shape_.length - 2)) n
      + at64 (effectivePads t (t.W_.shape_.length - 2)) (t.W_.shape_.length - 2 + n)
      - (at64 (effectiveDilations t (t.W_.shape_.length - 2)) n
          * (at64 t.W_.shape_ (n + 2) - 1) + 1))
      (b := at64 (effectiveStrides t (t.W_.shape_.length - 2)) n) (by omega) (by omega)
    omega
/-! ## The accumulator of the reference convolution -/

theorem toInt32_modEq (a : Int) : toInt32 a ≡ a [ZMOD 4294967296] := by
  unfold toInt32 Int.ModEq
  omega

theorem toInt32_congr {a b : Int} (h : a ≡ b [ZMOD 4294967296]) : toInt32 a = toInt32 b := by
  unfold Int.ModEq at h
  unfold toInt32
  omega

theorem toInt32_idem (a : Int) : toInt32 (toInt32 a) = toInt32 a :=
  toInt32_congr (toInt32_modEq a)

theorem toUInt64_lt_iff (a b : Int) (ha : fitsInt64 a) (hb0 : 0 ≤ b) (hb : fitsInt64 b) :
    toUInt64 a < toUInt64 b ↔ 0 ≤ a ∧ a < b := by
  unfold fitsInt64 at ha hb
  unfold toUInt64
  constructor
  · intro h; omega
  · intro h; omega

/-- One tap in 32 bit arithmetic adds its exact contribution modulo `2 ^ 32`. -/
theorem tapStep_spec (L : ConvLocals) (Xdata Wdata : List Int) (ow ih : Int) (st : TapState)
    (kw : Nat) (S : Int) (hS : st.sum = toInt32 S)
    (hh0 : 0 ≤ L.input_h) (hh : fitsInt64 L.input_h) (hw0 : 0 ≤ L.input_w)
    (hw : fitsInt64 L.input_w) (hih : fitsInt64 ih)
    (hiw : fitsInt64 ((kw : Int) * L.dilation_w + ow * L.stride_w - L.pad_l)) :
    tapStep L Xdata Wdata ow ih st kw
      = ⟨toInt32 (S + ptrTerm L Xdata Wdata st.input_image st.weight_data ih
            ((kw : Int) * L.dilation_w + ow * L.stride_w - L.pad_l)),
          st.input_image, st.weight_data + 1⟩ := by
  have hiff : (toUInt64 ih < toUInt64 L.input_h ∧
      toUInt64 ((kw : Int) * L.dilation_w + ow * L.stride_w - L.pad_l) < toUInt64 L.input_w)
      ↔ (0 ≤ ih ∧ ih < L.input_h ∧
        0 ≤ (kw : Int) * L.dilation_w + ow * L.stride_w - L.pad_l ∧
        (kw : Int) * L.dilation_w + ow * L.stride_w - L.pad_l < L.input_w) := by
    rw [toUInt64_lt_iff _ _ hih hh0 hh, toUInt64_lt_iff _ _ hiw hw0 hw, and_assoc]
  unfold tapStep ptrTerm
  simp only
  by_cases hc : 0 ≤ ih ∧ ih < L.input_h ∧
      0 ≤ (kw : Int) * L.dilation_w + ow * L.stride_w - L.pad_l ∧
      (kw : Int) * L.dilation_w + ow * L.stride_w - L.pad_l < L.input_w
  · rw [if_pos (hiff.mpr hc), if_pos hc, hS]
    congr 1
    apply toInt32_congr
    exact (toInt32_modEq S).add ((toInt32_modEq _).trans
      ((((toInt32_modEq _).trans ((toInt32_modEq _).sub_right _))).mul (toInt32_modEq _)))
  · rw [if_neg (fun h => hc (hiff.mp h)), if_neg hc, add_zero, hS]

theorem rowStep_fold (L : ConvLocals) (Xdata Wdata : List Int) (ow ih : Int)
    (hh0 : 0 ≤ L.input_h) (hh : fitsInt64 L.input_h) (hw0 : 0 ≤ L.input_w)
    (hw : fitsInt64 L.input_w) (hih : fitsInt64 ih)
    (n : Nat)
    (hiw : ∀ kw : Nat, kw < n → fitsInt64 ((kw : Int) * L.dilation_w + ow * L.stride_w - L.pad_l))
    (st : TapState) (S : Int) (hS : st.sum = toInt32 S) :
    (List.range n).foldl (tapStep L Xdata Wdata ow ih) st
      = ⟨toInt32 (S + ∑ kw ∈ Finset.range n,
            ptrTerm L Xdata Wdata st.input_image (st.weight_data + (kw : Int)) ih
              ((kw : Int) * L.dilation_w + ow * L.stride_w - L.pad_l)),
          st.input_image, st.weight_data + (n : Int)⟩ := by
  induction n with
  | zero =>
    simp only [List.range_zero, List.foldl_nil, Finset.range_zero, Finset.sum_empty, add_zero,
      Nat.cast_zero]
    rw [← hS]
  | succ n ih2 =>
    rw [foldl_range_succ, ih2 (fun kw hkw => hiw kw (by omega)),
      tapStep_spec L Xdata Wdata ow ih _ n _ rfl hh0 hh hw0 hw hih (hiw n (by omega)),
      Finset.sum_range_succ]
    simp only [TapState.mk.injEq, and_true, true_and]
    constructor
    · congr 1; ring
    · push_cast; ring
theorem khLoop_fold (L : ConvLocals) (Xdata Wdata : List Int) (oh ow : Int)
    (hh0 : 0 ≤ L.input_h) (hh : fitsInt64 L.input_h) (hw0 : 0 ≤ L.input_w)
    (hw : fitsInt64 L.input_w)
    (hiw : ∀ kw : Nat, kw < L.kernel_w.toNat →
      fitsInt64 ((kw : Int) * L.dilation_w + ow * L.stride_w - L.pad_l))
    (n : Nat)
    (hih : ∀ kh : Nat, kh < n → fitsInt64 ((kh : Int) * L.dilation_h + oh * L.stride_h - L.pad_t))
    (st : TapState) (S : Int) (hS : st.sum = toInt32 S) :
    (List.range n).foldl (rowStep L Xdata Wdata oh ow) st
      = ⟨toInt32 (S + ∑ kh ∈ Finset.range n, ∑ kw ∈ Finset.range L.kernel_w.toNat,
            ptrTerm L Xdata Wdata st.input_image
              (st.weight_data + ((kh : Int) * (L.kernel_w.toNat : Int) + (kw : Int)))
              ((kh : Int) * L.dilation_h + oh * L.stride_h - L.pad_t)
              ((kw : Int) * L.dilation_w + ow * L.stride_w - L.pad_l)),
          st.input_image, st.weight_data + (n : Int) * (L.kernel_w.toNat : Int)⟩ := by
  induction n with
  | zero =>
    simp only [List.range_zero, List.foldl_nil, Finset.range_zero, Finset.sum_empty, add_zero,
      Nat.cast_zero, zero_mul]
    rw [← hS]
  | succ n ih2 =>
    rw [foldl_range_succ, ih2 (fun kh hkh => hih kh (by omega))]
    unfold rowStep
    rw [rowStep_fold L Xdata Wdata ow _ hh0 hh hw0 hw (hih n (by omega)) _ hiw _ _ rfl,
      Finset.sum_range_succ]
    simp only [TapState.mk.injEq, and_true, true_and]
    constructor
    · rw [add_assoc]
      congr 2
      congr 1
      apply Finset.sum_congr rfl
      intro kw _
      congr 1
      ring
    · push_cast; ring

theorem icLoop_fold (L : ConvLocals) (Xdata Wdata : List Int) (oh ow : Int)
    (hh0 : 0 ≤ L.input_h) (hh : fitsInt64 L.input_h) (hw0 : 0 ≤ L.input_w)
    (hw : fitsInt64 L.input_w)
    (hiw : ∀ kw : Nat, kw < L.kernel_w.toNat →
      fitsInt64 ((kw : Int) * L.dilation_w + ow * L.stride_w - L.pad_l))
    (hih : ∀ kh : Nat, kh < L.kernel_h.toNat →
      fitsInt64 ((kh : Int) * L.dilation_h + oh * L.stride_h - L.pad_t))
    (n : Nat) (st : TapState) (S : Int) (hS : st.sum = toInt32 S) :
    (List.range n).foldl (channelStep L Xdata Wdata oh ow) st
      = ⟨toInt32 (S + ∑ ic ∈ Finset.range n, ∑ kh ∈ Finset.range L.kernel_h.toNat,
            ∑ kw ∈ Finset.range L.kernel_w.toNat,
              ptrTerm L Xdata Wdata (st.input_image + (ic : Int) * (L.input_h * L.input_w))
                (st.weight_data + (((ic : Int) * (L.kernel_h.toNat : Int) + (kh : Int))
                  * (L.kernel_w.toNat : Int) + (kw : Int)))
                ((kh : Int) * L.dilation_h + oh * L.stride_h - L.pad_t)
                ((kw : Int) * L.dilation_w + ow * L.stride_w - L.pad_l)),
          st.input_image + (n : Int) * (L.input_h * L.input_w),
          st.weight_data + (n : Int) * ((L.kernel_h.toNat : Int) * (L.kernel_w.toNat : Int))⟩ := by
  induction n with
  | zero =>
    simp only [List.range_zero, List.foldl_nil, Finset.range_zero, Finset.sum_empty, add_zero,
      Nat.cast_zero, zero_mul]
    rw [← hS]
  | succ n ih2 =>
    rw [foldl_range_succ, ih2]
    unfold channelStep
    rw [khLoop_fold L Xdata Wdata oh ow hh0 hh hw0 hw hiw _ hih _ _ rfl, Finset.sum_range_succ]
    simp only [TapState.mk.injEq]
    refine ⟨?_, by push_cast; ring, by push_cast; ring⟩
    rw [add_assoc]
    congr 2
    congr 1
    apply Finset.sum_congr rfl
    intro kh _
    apply Finset.sum_congr rfl
    intro kw _
    congr 1
    ring

/-- The accumulator at `(oh, ow)` is, in 32 bit arithmetic, the bias plus the sum of the tap
contributions read through the pointers. -/
theorem accumulate_eq (L : ConvLocals) (Xdata Wdata : List Int) (oh ow : Int)
    (hh0 : 0 ≤ L.input_h) (hh : fitsInt64 L.input_h) (hw0 : 0 ≤ L.input_w)
    (hw : fitsInt64 L.input_w)
    (hiw : ∀ kw : Nat, kw < L.kernel_w.toNat →
      fitsInt64 ((kw : Int) * L.dilation_w + ow * L.stride_w - L.pad_l))
    (hih : ∀ kh : Nat, kh < L.kernel_h.toNat →
      fitsInt64 ((kh : Int) * L.dilation_h + oh * L.stride_h - L.pad_t))
    (bias S xdata weight_row : Int) (hS : bias = toInt32 S) :
    accumulate L Xdata Wdata oh ow bias xdata weight_row
      = toInt32 (S + ∑ ic ∈ Finset.range L.group_input_channels.toNat,
          ∑ kh ∈ Finset.range L.kernel_h.toNat, ∑ kw ∈ Finset.range L.kernel_w.toNat,
            ptrTerm L Xdata Wdata (xdata + (ic : Int) * (L.input_h * L.input_w))
              (weight_row + (((ic : Int) * (L.kernel_h.toNat : Int) + (kh : Int))
                * (L.kernel_w.toNat : Int) + (kw : Int)))
              ((kh : Int) * L.dilation_h + oh * L.stride_h - L.pad_t)
              ((kw : Int) * L.dilation_w + ow * L.stride_w - L.pad_l)) := by
  unfold accumulate
  rw [icLoop_fold L Xdata Wdata oh ow hh0 hh hw0 hw hiw hih _ ⟨bias, xdata, weight_row⟩ S hS]
/-! ## The output loops of the reference convolution -/

theorem foldl_append_singleton {β : Type} (f : Nat → β) (n : Nat) (yd : List β) :
    (List.range n).foldl (fun (yd : List β) (i : Nat) => yd ++ [f i]) yd
      = yd ++ (List.range n).map f := by
  induction n with
  | zero => simp
  | succ n ih => rw [foldl_range_succ, ih, List.range_succ, List.map_append]; simp

theorem foldl_append_block {β : Type} (F : Nat → List β) (n : Nat) (yd : List β) :
    (List.range n).foldl (fun (yd : List β) (i : Nat) => yd ++ F i) yd
      = yd ++ (List.range n).flatMap F := by
  induction n with
  | zero => simp
  | succ n ih => rw [foldl_range_succ, ih, List.range_succ, List.flatMap_append]; simp

theorem positionsOf_eq {β : Type} (L : ConvLocals) (Xdata Wdata : List Int) (emit : Int → β)
    (bias xdata weight_row : Int) (ydata : List β) :
    positionsOf L Xdata Wdata emit bias xdata weight_row ydata
      = ydata ++ positionBlock L Xdata Wdata emit bias xdata weight_row := by
  unfold positionsOf positionBlock
  rw [← foldl_append_block]
  congr 1
  funext yd oh
  rw [foldl_append_singleton]

theorem ocLoop_fold {β : Type} (L : ConvLocals) (Xdata Wdata B : List Int)
    (emit : Int → Int → β) (group n : Nat) (st : OutputState β) :
    (List.range n).foldl (outputChannelStep L Xdata Wdata B emit group) st
      = ⟨st.xdata, st.weight_group,
          st.weight_row + (n : Int) * (L.group_input_channels * (L.kernel_h * L.kernel_w)),
          st.ydata ++ (List.range n).flatMap (fun (oc : Nat) =>
            positionBlock L Xdata Wdata
              (emit ((group : Int) * L.group_output_channels + (oc : Int)))
              (biasOf B ((group : Int) * L.group_output_channels + (oc : Int)))
              st.xdata
              (st.weight_row
                + (oc : Int) * (L.group_input_channels * (L.kernel_h * L.kernel_w))))⟩ := by
  induction n with
  | zero => simp
  | succ n ih =>
    rw [foldl_range_succ, ih]
    unfold outputChannelStep
    simp only
    rw [positionsOf_eq, List.range_succ, List.flatMap_append]
    simp only [OutputState.mk.injEq, true_and]
    constructor
    · push_cast; ring
    · simp [biasOf, List.append_assoc]

theorem groupStep_proj {β : Type} (L : ConvLocals) (Xdata Wdata B : List Int)
    (emit : Int → Int → β) (st : OutputState β) (g : Nat) :
    (groupStep L Xdata Wdata B emit st g).xdata
      = st.xdata + L.group_input_channels * (L.input_h * L.input_w) ∧
    (groupStep L Xdata Wdata B emit st g).weight_group
      = st.weight_group
        + L.group_output_channels * L.group_input_channels * (L.kernel_h * L.kernel_w) ∧
    (groupStep L Xdata Wdata B emit st g).ydata
      = st.ydata ++ (List.range L.group_output_channels.toNat).flatMap (fun (oc : Nat) =>
          positionBlock L Xdata Wdata
            (emit ((g : Int) * L.group_output_channels + (oc : Int)))
            (biasOf B ((g : Int) * L.group_output_channels + (oc : Int)))
            st.xdata
            (st.weight_group
              + (oc : Int) * (L.group_input_channels * (L.kernel_h * L.kernel_w)))) := by
  unfold groupStep
  simp only
  rw [ocLoop_fold]
  exact ⟨rfl, rfl, rfl⟩

theorem groupLoop_fold {β : Type} (L : ConvLocals) (Xdata Wdata B : List Int)
    (emit : Int → Int → β) (n : Nat) (st : OutputState β) :
    ((List.range n).foldl (groupStep L Xdata Wdata B emit) st).xdata
      = st.xdata + (n : Int) * (L.group_input_channels * (L.input_h * L.input_w)) ∧
    ((List.range n).foldl (groupStep L Xdata Wdata B emit) st).weight_group
      = st.weight_group + (n : Int)
          * (L.group_output_channels * L.group_input_channels * (L.kernel_h * L.kernel_w)) ∧
    ((List.range n).foldl (groupStep L Xdata Wdata B emit) st).ydata
      = st.ydata ++ (List.range n).flatMap (fun (g : Nat) =>
          (List.range L.group_output_channels.toNat).flatMap (fun (oc : Nat) =>
            positionBlock L Xdata Wdata
              (emit ((g : Int) * L.group_output_channels + (oc : Int)))
              (biasOf B ((g : Int) * L.group_output_channels + (oc : Int)))
              (st.xdata + (g : Int) * (L.group_input_channels * (L.input_h * L.input_w)))
              (st.weight_group + (g : Int) * (L.group_output_channels
                  * L.group_input_channels * (L.kernel_h * L.kernel_w))
                + (oc : Int) * (L.group_input_channels * (L.kernel_h * L.kernel_w))))) := by
  induction n with
  | zero => simp
  | succ n ih =>
    obtain ⟨h1, h2, h3⟩ := ih
    obtain ⟨s1, s2, s3⟩ := groupStep_proj L Xdata Wdata B emit
      ((List.range n).foldl (groupStep L Xdata Wdata B emit) st) n
    rw [foldl_range_succ, s1, s2, s3, h1, h2, h3, List.range_succ, List.flatMap_append]
    refine ⟨by push_cast; ring, by push_cast; ring, ?_⟩
    simp [List.append_assoc]

theorem batchStep_proj {β : Type} (L : ConvLocals) (Xdata Wdata B : List Int)
    (emit : Int → Int → β) (st : OutputState β) (b : Nat) :
    (batchStep L Xdata Wdata B emit st b).xdata
      = st.xdata + (L.group_count.toNat : Int)
          * (L.group_input_channels * (L.input_h * L.input_w)) ∧
    (batchStep L Xdata Wdata B emit st b).ydata
      = st.ydata ++ (List.range L.group_count.toNat).flatMap (fun (g : Nat) =>
          (List.range L.group_output_channels.toNat).flatMap (fun (oc : Nat) =>
            positionBlock L Xdata Wdata
              (emit ((g : Int) * L.group_output_channels + (oc : Int)))
              (biasOf B ((g : Int) * L.group_output_channels + (oc : Int)))
              (st.xdata + (g : Int) * (L.group_input_channels * (L.input_h * L.input_w)))
              (weightRowAt L g oc))) := by
  obtain ⟨g1, -, g3⟩ := groupLoop_fold L Xdata Wdata B emit L.group_count.toNat
    ⟨st.xdata, 0, st.weight_row, st.ydata⟩
  unfold batchStep
  rw [g1, g3]
  refine ⟨rfl, ?_⟩
  simp [weightRowAt]

theorem batchLoop_fold {β : Type} (L : ConvLocals) (Xdata Wdata B : List Int)
    (emit : Int → Int → β) (n : Nat) (st : OutputState β) :
    ((List.range n).foldl (batchStep L Xdata Wdata B emit) st).xdata
      = st.xdata + (n : Int) * ((L.group_count.toNat : Int)
          * (L.group_input_channels * (L.input_h * L.input_w))) ∧
    ((List.range n).foldl (batchStep L Xdata Wdata B emit) st).ydata
      = st.ydata ++ (List.range n).flatMap (fun (b : Nat) =>
          (List.range L.group_count.toNat).flatMap (fun (g : Nat) =>
            (List.range L.group_output_channels.toNat).flatMap (fun (oc : Nat) =>
              positionBlock L Xdata Wdata
                (emit ((g : Int) * L.group_output_channels + (oc : Int)))
                (biasOf B ((g : Int) * L.group_output_channels + (oc : Int)))
                (st.xdata + (b : Int) * ((L.group_count.toNat : Int)
                    * (L.group_input_channels * (L.input_h * L.input_w)))
                  + (g : Int) * (L.group_input_channels * (L.input_h * L.input_w)))
                (weightRowAt L g oc)))) := by
  induction n with
  | zero => simp
  | succ n ih =>
    obtain ⟨h1, h2⟩ := ih
    obtain ⟨s1, s2⟩ := batchStep_proj L Xdata Wdata B emit
      ((List.range n).foldl (batchStep L Xdata Wdata B emit) st) n
    rw [foldl_range_succ, s1, s2, h1, h2, List.range_succ, List.flatMap_append]
    refine ⟨by push_cast; ring, ?_⟩
    simp [List.append_assoc]

/-- The output loops store the nested blocks of `convBlocks`. -/
theorem convLoops_eq_blocks {β : Type} (L : ConvLocals) (Xdata Wdata B : List Int)
    (emit : Int → Int → β) :
    convLoops L Xdata Wdata B emit = convBlocks L Xdata Wdata B emit := by
  obtain ⟨-, h⟩ := batchLoop_fold L Xdata Wdata B emit L.batch_count.toNat ⟨0, 0, 0, []⟩
  unfold convLoops convBlocks
  rw [h]
  simp only [List.nil_append, zero_add]
  apply congrArg
  funext b
  apply congrArg
  funext g
  apply congrArg
  funext oc
  congr 1
  unfold xdataAt
  ring
theorem length_flatMap_range {β : Type} (F : Nat → List β) (m n : Nat)
    (hlen : ∀ i, i < n → (F i).length = m) : ((List.range n).flatMap F).length = n * m := by
  induction n with
  | zero => simp
  | succ n ih =>
    rw [List.range_succ, List.flatMap_append, List.length_append,
      ih (fun i hi => hlen i (by omega))]
    simp only [List.flatMap_cons, List.flatMap_nil, List.append_nil]
    rw [hlen n (by omega), Nat.succ_mul]

theorem getElem?_flatMap_range {β : Type} (F : Nat → List β) (m n : Nat)
    (hlen : ∀ i, i < n → (F i).length = m) (i j : Nat) (hi : i < n) (hj : j < m) :
    ((List.range n).flatMap F)[i * m + j]? = (F i)[j]? := by
  induction n with
  | zero => omega
  | succ n ih =>
    have hl := length_flatMap_range F m n (fun k hk => hlen k (by omega))
    rw [List.range_succ, List.flatMap_append]
    by_cases hin : i < n
    · have hlt : i * m + j < ((List.range n).flatMap F).length := by
        rw [hl]
        calc i * m + j < i * m + m := by omega
          _ = (i + 1) * m := by ring
          _ ≤ n * m := Nat.mul_le_mul_right m (by omega)
      rw [List.getElem?_append_left hlt]
      exact ih (fun k hk => hlen k (by omega)) hin
    · have hieq : i = n := by omega
      subst hieq
      rw [List.getElem?_append_right (by rw [hl]; omega), hl]
      simp only [List.flatMap_cons, List.flatMap_nil, List.append_nil]
      congr 1
      omega

theorem positionBlock_length {β : Type} (L : ConvLocals) (Xdata Wdata : List Int)
    (emit : Int → β) (bias xdata weight_row : Int) :
    (positionBlock L Xdata Wdata emit bias xdata weight_row).length
      = L.output_h.toNat * L.output_w.toNat := by
  unfold positionBlock
  exact length_flatMap_range _ _ _ (fun i _ => by simp)

theorem positionBlock_getElem? {β : Type} (L : ConvLocals) (Xdata Wdata : List Int)
    (emit : Int → β) (bias xdata weight_row : Int) (oh ow : Nat)
    (hoh : oh < L.output_h.toNat) (how : ow < L.output_w.toNat) :
    (positionBlock L Xdata Wdata emit bias xdata weight_row)[oh * L.output_w.toNat + ow]?
      = some (emit (accumulate L Xdata Wdata (oh : Int) (ow : Int) bias xdata weight_row)) := by
  unfold positionBlock
  rw [getElem?_flatMap_range _ L.output_w.toNat _ (fun i _ => by simp) oh ow hoh how]
  simp [how]

/-- The pointer form of a tap contribution is the indexed form of `tapTerm`. -/
theorem ptrTerm_eq_tapTerm (L : ConvLocals) (Xdata Wdata : List Int) (b g oc oh ow ic kh kw : Nat)
    (hg : g < L.group_count.toNat) (hkh : kh < L.kernel_h.toNat) (hkw : kw < L.kernel_w.toNat) :
    ptrTerm L Xdata Wdata (xdataAt L b g + (ic : Int) * (L.input_h * L.input_w))
        (weightRowAt L g oc + (((ic : Int) * (L.kernel_h.toNat : Int) + (kh : Int))
          * (L.kernel_w.toNat : Int) + (kw : Int)))
        ((kh : Int) * L.dilation_h + (oh : Int) * L.stride_h - L.pad_t)
        ((kw : Int) * L.dilation_w + (ow : Int) * L.stride_w - L.pad_l)
      = tapTerm L Xdata Wdata b g oc oh ow ic kh kw := by
  have h1 : ((L.group_count.toNat : Nat) : Int) = L.group_count :=
    Int.toNat_of_nonneg (by omega)
  have h2 : ((L.kernel_h.toNat : Nat) : Int) = L.kernel_h := Int.toNat_of_nonneg (by omega)
  have h3 : ((L.kernel_w.toNat : Nat) : Int) = L.kernel_w := Int.toNat_of_nonneg (by omega)
  unfold ptrTerm tapTerm xdataAt weightRowAt
  rw [h1, h2, h3]
  have e1 : ((b : Int) * L.group_count + (g : Int))
        * (L.group_input_channels * (L.input_h * L.input_w))
        + (ic : Int) * (L.input_h * L.input_w)
        + (((kh : Int) * L.dilation_h + (oh : Int) * L.stride_h - L.pad_t) * L.input_w
          + ((kw : Int) * L.dilation_w + (ow : Int) * L.stride_w - L.pad_l))
      = (((b : Int) * (L.group_input_channels * L.group_count)
            + ((g : Int) * L.group_input_channels + (ic : Int))) * L.input_h
          + ((kh : Int) * L.dilation_h + (oh : Int) * L.stride_h - L.pad_t)) * L.input_w
          + ((kw : Int) * L.dilation_w + (ow : Int) * L.stride_w - L.pad_l) := by ring
  have e2 : (g : Int) * (L.group_output_channels * L.group_input_channels
          * (L.kernel_h * L.kernel_w))
        + (oc : Int) * (L.group_input_channels * (L.kernel_h * L.kernel_w))
        + (((ic : Int) * L.kernel_h + (kh : Int)) * L.kernel_w + (kw : Int))
      = ((((g : Int) * L.group_output_channels + (oc : Int)) * L.group_input_channels
            + (ic : Int)) * L.kernel_h + (kh : Int)) * L.kernel_w + (kw : Int) := by ring
  rw [e1, e2]

theorem biasOf_eq (B : List Int) (ch : Int) :
    biasOf B ch = toInt32 (if B.isEmpty then 0 else readAt B ch) := by
  unfold biasOf
  split_ifs
  · unfold toInt32; omega
  · rfl

/-- C6: quantized convolution accumulation of the reference `ComputeExpectedOutput` (2 spatial
axes).  For every batch `b`, group `g`, output channel `oc` of the group and output position
`(oh, ow)`, the element stored at the row-major index `(b, g * goc + oc, oh, ow)` is `emit` of
the output channel and of the 32 bit accumulator, and the accumulator is the bias of the channel
(0 when there is no bias) plus the sum, over every input channel `ic` of the group and every
kernel tap `(kh, kw)` whose input coordinate lies inside the input, of
`(X[b, g * gic + ic, ih, iw] - X_zero_point) * W[g * goc + oc, ic, kh, kw]`, as an `int32_t`;
it is this sum exactly when the sum is an `int32_t` value. -/
theorem convLoops_accumulator {β : Type} (L : ConvLocals) (Xdata Wdata B : List Int)
    (emit : Int → Int → β)
    (hh0 : 0 ≤ L.input_h) (hh : fitsInt64 L.input_h) (hw0 : 0 ≤ L.input_w)
    (hw : fitsInt64 L.input_w)
    (hih : ∀ kh : Nat, kh < L.kernel_h.toNat → ∀ oh : Nat, oh < L.output_h.toNat →
      fitsInt64 ((kh : Int) * L.dilation_h + (oh : Int) * L.stride_h - L.pad_t))
    (hiw : ∀ kw : Nat, kw < L.kernel_w.toNat → ∀ ow : Nat, ow < L.output_w.toNat →
      fitsInt64 ((kw : Int) * L.dilation_w + (ow : Int) * L.stride_w - L.pad_l))
    (b g oc oh ow : Nat) (hb : b < L.batch_count.toNat) (hg : g < L.group_count.toNat)
    (hoc : oc < L.group_output_channels.toNat) (hoh : oh < L.output_h.toNat)
    (how : ow < L.output_w.toNat) :
    (convLoops L Xdata Wdata B emit)[
        (((b * L.group_count.toNat + g) * L.group_output_channels.toNat + oc)
          * L.output_h.toNat + oh) * L.output_w.toNat + ow]?
      = some (emit ((g : Int) * L.group_output_channels + (oc : Int))
          (toInt32 (expectedAccumulator L Xdata Wdata B b g oc oh ow))) ∧
    (-2147483648 ≤ expectedAccumulator L Xdata Wdata B b g oc oh ow →
      expectedAccumulator L Xdata Wdata B b g oc oh ow < 2147483648 →
      toInt32 (expectedAccumulator L Xdata Wdata B b g oc oh ow)
        = expectedAccumulator L Xdata Wdata B b g oc oh ow) := by
  constructor
  · have hidx : (((b * L.group_count.toNat + g) * L.group_output_channels.toNat + oc)
          * L.output_h.toNat + oh) * L.output_w.toNat + ow
        = b * (L.group_count.toNat * (L.group_output_channels.toNat
            * (L.output_h.toNat * L.output_w.toNat)))
          + (g * (L.group_output_channels.toNat * (L.output_h.toNat * L.output_w.toNat))
            + (oc * (L.output_h.toNat * L.output_w.toNat)
              + (oh * L.output_w.toNat + ow))) := by ring
    have hlt1 : oh * L.output_w.toNat + ow < L.output_h.toNat * L.output_w.toNat := by
      calc oh * L.output_w.toNat + ow < oh * L.output_w.toNat + L.output_w.toNat := by omega
        _ = (oh + 1) * L.output_w.toNat := by ring
        _ ≤ L.output_h.toNat * L.output_w.toNat := Nat.mul_le_mul_right _ (by omega)
    have hlt2 : oc * (L.output_h.toNat * L.output_w.toNat) + (oh * L.output_w.toNat + ow)
        < L.group_output_channels.toNat * (L.output_h.toNat * L.output_w.toNat) := by
      calc oc * (L.output_h.toNat * L.output_w.toNat) + (oh * L.output_w.toNat + ow)
          < oc * (L.output_h.toNat * L.output_w.toNat)
            + L.output_h.toNat * L.output_w.toNat := by omega
        _ = (oc + 1) * (L.output_h.toNat * L.output_w.toNat) := by ring
        _ ≤ _ := Nat.mul_le_mul_right _ (by omega)
    have hlt3 : g * (L.group_output_channels.toNat * (L.output_h.toNat * L.output_w.toNat))
          + (oc * (L.output_h.toNat * L.output_w.toNat) + (oh * L.output_w.toNat + ow))
        < L.group_count.toNat * (L.group_output_channels.toNat
            * (L.output_h.toNat * L.output_w.toNat)) := by
      calc g * (L.group_output_channels.toNat * (L.output_h.toNat * L.output_w.toNat))
            + (oc * (L.output_h.toNat * L.output_w.toNat) + (oh * L.output_w.toNat + ow))
          < g * (L.group_output_channels.toNat * (L.output_h.toNat * L.output_w.toNat))
            + L.group_output_channels.toNat * (L.output_h.toNat * L.output_w.toNat) := by
            omega
        _ = (g + 1) * (L.group_output_channels.toNat
              * (L.output_h.toNat * L.output_w.toNat)) := by ring
        _ ≤ _ := Nat.mul_le_mul_right _ (by omega)
    have hlenOc : ∀ (b2 g2 : Nat) (i : Nat), i < L.group_output_channels.toNat →
        (positionBlock L Xdata Wdata
          (emit ((g2 : Int) * L.group_output_channels + (i : Int)))
          (biasOf B ((g2 : Int) * L.group_output_channels + (i : Int)))
          (xdataAt L b2 g2) (weightRowAt L g2 i)).length
          = L.output_h.toNat * L.output_w.toNat :=
      fun _ _ _ _ => positionBlock_length _ _ _ _ _ _ _
    have hlenG : ∀ (b2 : Nat) (i : Nat), i < L.group_count.toNat →
        ((List.range L.group_output_channels.toNat).flatMap (fun (oc : Nat) =>
          positionBlock L Xdata Wdata
            (emit ((i : Int) * L.group_output_channels + (oc : Int)))
            (biasOf B ((i : Int) * L.group_output_channels + (oc : Int)))
            (xdataAt L b2 i) (weightRowAt L i oc))).length
          = L.group_output_channels.toNat * (L.output_h.toNat * L.output_w.toNat) :=
      fun b2 i _ => length_flatMap_range _ _ _ (hlenOc b2 i)
    have hlenB : ∀ (i : Nat), i < L.batch_count.toNat →
        ((List.range L.group_count.toNat).flatMap (fun (g : Nat) =>
          (List.range L.group_output_channels.toNat).flatMap (fun (oc : Nat) =>
            positionBlock L Xdata Wdata
              (emit ((g : Int) * L.group_output_channels + (oc : Int)))
              (biasOf B ((g : Int) * L.group_output_channels + (oc : Int)))
              (xdataAt L i g) (weightRowAt L g oc)))).length
          = L.group_count.toNat * (L.group_output_channels.toNat
              * (L.output_h.toNat * L.output_w.toNat)) :=
      fun i _ => length_flatMap_range _ _ _ (hlenG i)
    rw [convLoops_eq_blocks, hidx]
    unfold convBlocks
    rw [getElem?_flatMap_range _ _ _ hlenB b _ hb hlt3,
      getElem?_flatMap_range _ _ _ (hlenG b) g _ hg hlt2,
      getElem?_flatMap_range _ _ _ (hlenOc b g) oc _ hoc hlt1,
      positionBlock_getElem? _ _ _ _ _ _ _ oh ow hoh how,
      accumulate_eq L Xdata Wdata (oh : Int) (ow : Int) hh0 hh hw0 hw
        (fun kw hkw => hiw kw hkw ow how) (fun kh hkh => hih kh hkh oh hoh) _ _ _ _
        (biasOf_eq B _)]
    congr 3
    unfold expectedAccumulator
    congr 1
    apply Finset.sum_congr rfl
    intro ic _
    apply Finset.sum_congr rfl
    intro kh hkh
    apply Finset.sum_congr rfl
    intro kw hkw
    exact ptrTerm_eq_tapTerm L Xdata Wdata b g oc oh ow ic kh kw hg (Finset.mem_range.mp hkh)
      (Finset.mem_range.mp hkw)
  · intro h1 h2
    unfold toInt32
    omega

/-- Witness of C6: one batch, one group, one input and one output channel, a 2 x 2 input and a
2 x 2 kernel without padding (a single output position). -/
theorem convLoops_accumulator_witness :
    (convLoops (⟨1, 1, 1, 1, 2, 2, 2, 2, 1, 1, 0, 0, 1, 1, 1, 1, 4⟩ : ConvLocals)
        [5, 6, 7, 8] [1, 2, 3, 4] [10] (fun _ (sum : Int) => sum))[
        (((0 * (1 : Int).toNat + 0) * (1 : Int).toNat + 0) * (1 : Int).toNat + 0)
          * (1 : Int).toNat + 0]?
      = some (toInt32 (expectedAccumulator ⟨1, 1, 1, 1, 2, 2, 2, 2, 1, 1, 0, 0, 1, 1, 1, 1, 4⟩
          [5, 6, 7, 8] [1, 2, 3, 4] [10] 0 0 0 0 0)) ∧
    (-2147483648 ≤ expectedAccumulator ⟨1, 1, 1, 1, 2, 2, 2, 2, 1, 1, 0, 0, 1, 1, 1, 1, 4⟩
        [5, 6, 7, 8] [1, 2, 3, 4] [10] 0 0 0 0 0 →
      expectedAccumulator ⟨1, 1, 1, 1, 2, 2, 2, 2, 1, 1, 0, 0, 1, 1, 1, 1, 4⟩
        [5, 6, 7, 8] [1, 2, 3, 4] [10] 0 0 0 0 0 < 2147483648 →
      toInt32 (expectedAccumulator ⟨1, 1, 1, 1, 2, 2, 2, 2, 1, 1, 0, 0, 1, 1, 1, 1, 4⟩
          [5, 6, 7, 8] [1, 2, 3, 4] [10] 0 0 0 0 0)
        = expectedAccumulator ⟨1, 1, 1, 1, 2, 2, 2, 2, 1, 1, 0, 0, 1, 1, 1, 1, 4⟩
          [5, 6, 7, 8] [1, 2, 3, 4] [10] 0 0 0 0 0) :=
  convLoops_accumulator ⟨1, 1, 1, 1, 2, 2, 2, 2, 1, 1, 0, 0, 1, 1, 1, 1, 4⟩
    [5, 6, 7, 8] [1, 2, 3, 4] [10] (fun _ (sum : Int) => sum)
    (by decide) (by decide) (by decide) (by decide) (by decide) (by decide)
    0 0 0 0 0 (by decide) (by decide) (by decide) (by decide) (by decide)
/-- Witness of C9: the `WithBias_2D` geometry, input `[1, 2, 5, 5]`, weights `[4, 2, 3, 3]`,
pads `[1, 1, 1, 1]`, default strides and dilations. -/
theorem ComputeExpectedOutput_shape_witness :
    ∃ Y_data Y_shape : List Int,
      ComputeExpectedOutput IntType.uint8
        ⟨⟨[], [1, 2, 5, 5], [1], 0⟩, ⟨[], [4, 2, 3, 3], [1], 0⟩, [], [1, 1, 1, 1], [], [], 0, 1, 0⟩
        = some (Y_data, Y_shape) ∧
      Y_shape.length = 4 ∧ at64 Y_shape 0 = 1 ∧ at64 Y_shape 1 = 4 ∧
      at64 Y_shape 2 = 5 ∧ at64 Y_shape 3 = 5 := by
  obtain ⟨Y_data, Y_shape, h, hlen, h0, h1, hn⟩ := ComputeExpectedOutput_shape IntType.uint8
    ⟨⟨[], [1, 2, 5, 5], [1], 0⟩, ⟨[], [4, 2, 3, 3], [1], 0⟩, [], [1, 1, 1, 1], [], [], 0, 1, 0⟩
    (by decide) (by decide) (by decide) (by decide)
  have h2 := (hn 0 (by decide) (by decide) (by decide)).1
  have h3 := (hn 1 (by decide) (by decide) (by decide)).1
  exact ⟨Y_data, Y_shape, h, hlen, h0, h1, h2.trans (by decide), h3.trans (by decide)⟩
/-- When the four `ORT_ENFORCE` checks hold, `ComputeExpectedOutput` returns the elements stored
by the output loops, each the requantized accumulator of its output channel, and the expected
shape. -/
theorem ComputeExpectedOutput_eq_convLoops (T1 : IntType) (t : QLinearConvOpTester)
    (hrank : 2 < t.W_.shape_.length) (hsame : t.X_.shape_.length = t.W_.shape_.length)
    (hin : at64 t.X_.shape_ 1 = at64 t.W_.shape_ 1 * max t.groups_ 1)
    (hout : at64 t.W_.shape_ 0
      = Int.tdiv (at64 t.W_.shape_ 0) (max t.groups_ 1) * max t.groups_ 1) :
    ∃ rest : List Int,
      ComputeExpectedOutput T1 t
        = some (convLoops
            (convLocals t (effectivePads t (t.W_.shape_.length - 2))
              (effectiveDilations t (t.W_.shape_.length - 2))
              (effectiveStrides t (t.W_.shape_.length - 2))
              (expectedShape t.X_.shape_ t.W_.shape_
                (effectivePads t (t.W_.shape_.length - 2))
                (effectiveDilations t (t.W_.shape_.length - 2))
                (effectiveStrides t (t.W_.shape_.length - 2)) (t.W_.shape_.length - 2)))
            t.X_.data_ t.W_.data_ t.B_
            (fun channel_index sum =>
              RequantizeOutput T1 sum (requantizeScale t channel_index)
                (RequantizeValues.create T1 t.output_zero_point_)) ++ rest,
          expectedShape t.X_.shape_ t.W_.shape_
            (effectivePads t (t.W_.shape_.length - 2))
            (effectiveDilations t (t.W_.shape_.length - 2))
            (effectiveStrides t (t.W_.shape_.length - 2)) (t.W_.shape_.length - 2)) := by
  unfold ComputeExpectedOutput
  rw [if_neg (not_not.mpr hrank), if_neg (not_not.mpr hsame)]
  dsimp only
  rw [if_neg (not_not.mpr hin), if_neg (not_not.mpr hout)]
  exact ⟨_, rfl⟩
/-! ## The scaler: independence of the degree of parallelism -/

theorem scalerLoop_eq_foldl {α : Type} (work : WorkInfo) (f : Nat → α) (y : Nat → α) :
    scalerLoop work f y
      = (partitionWrites work).foldl (fun y i => Function.update y i (f i)) y := rfl

theorem mem_partitionWrites (work : WorkInfo) (i : Nat) :
    i ∈ partitionWrites work ↔ work.contains i := by
  unfold partitionWrites WorkInfo.contains
  simp only [List.mem_map, List.mem_range]
  constructor
  · rintro ⟨k, hk, rfl⟩; omega
  · intro h; exact ⟨i - work.start, by omega, by omega⟩

theorem nodup_partitionWrites (work : WorkInfo) : (partitionWrites work).Nodup := by
  unfold partitionWrites
  refine List.Nodup.map ?_ (List.nodup_range _)
  intro a b h
  simpa using h

theorem count_partitionWrites (work : WorkInfo) (i : Nat) :
    (partitionWrites work).count i = if work.contains i then 1 else 0 := by
  by_cases h : work.contains i
  · rw [if_pos h]
    exact List.count_eq_one_of_mem (nodup_partitionWrites work) ((mem_partitionWrites work i).mpr h)
  · rw [if_neg h]
    exact List.count_eq_zero_of_not_mem (fun hm => h ((mem_partitionWrites work i).mp hm))

/-- The number of writes of index `i` by the partitions listed in `l`: one for each listed
partition whose range holds `i`. -/
theorem count_flatMap_partitionWrites (W : Nat → WorkInfo) (l : List Nat) (i : Nat) :
    (l.flatMap (fun (b : Nat) => partitionWrites (W b))).count i
      = (l.filter (fun b => decide ((W b).contains i))).length := by
  induction l with
  | nil => rfl
  | cons a l ih =>
    rw [List.flatMap_cons, List.count_append, ih, count_partitionWrites, List.filter_cons]
    by_cases h : (W a).contains i
    · simp [h]; omega
    · simp [h]

/-- The content of the buffer after the partitions listed in `order` have run. -/
theorem runPartitions_apply {α : Type} (partitioner : Nat → Nat → Nat → WorkInfo)
    (num_threads x_size : Nat) (f : Nat → α) (order : List Nat) (y0 : Nat → α) (j : Nat) :
    runPartitions partitioner num_threads x_size f order y0 j
      = if ∃ b, b ∈ order ∧ (partitioner b num_threads x_size).contains j then f j
        else y0 j := by
  unfold runPartitions
  exact foldl_scalerLoop_apply (fun b => partitioner b num_threads x_size) f order y0 j

/-- The loop `TrySimpleParallelFor` runs in `Compute` is `runPartitions` with `PartitionWork`
and the increasing order. -/
theorem TrySimpleParallelFor_eq_runPartitions {α : Type} (num_threads : Int) (x_size : Nat)
    (f : Nat → α) (y0 : Nat → α) :
    TrySimpleParallelFor num_threads
      (fun batch_num y_data =>
        scalerLoop (PartitionWork batch_num num_threads.toNat x_size) f y_data) y0
      = runPartitions PartitionWork num_threads.toNat x_size f
          (List.range num_threads.toNat) y0 := rfl

theorem filter_unique_length (l : List Nat) (hl : l.Nodup) (P : Nat → Prop) [DecidablePred P]
    (b0 : Nat) (hb0 : b0 ∈ l) (hP : P b0) (huniq : ∀ b, b ∈ l → P b → b = b0) :
    (l.filter (fun b => decide (P b))).length = 1 := by
  have h : l.filter (fun b => decide (P b)) = l.filter (fun b => b == b0) := by
    apply List.filter_congr
    intro b hb
    by_cases hbb : b = b0
    · subst hbb; simp [hP]
    · have : ¬ P b := fun hp => hbb (huniq b hb hp)
      simp [this, hbb]
  rw [h, List.filter_beq, List.length_replicate]
  exact List.count_eq_one_of_mem hl hb0

/-- C11: for every partitioner whose ranges for `(num_threads, x_size)` are pairwise disjoint and
cover exactly `[0, x_size)`, running the partition bodies of `Compute` for
`batch_num = 0 .. num_threads - 1` in any order (any permutation `order` of these values) yields
the same `Y` as the single sequential loop over `[0, x_size)`, writes every `Y[i]` with
`i < x_size` exactly once, and writes no other index.  It holds for the body `f` of either
branch, and for `num_threads = 0` too. -/
theorem runPartitions_eq_sequential {α : Type} (partitioner : Nat → Nat → Nat → WorkInfo)
    (num_threads x_size : Nat)
    (hdisjoint : ∀ a b, a < num_threads → b < num_threads → a ≠ b →
      ∀ i, ¬ ((partitioner a num_threads x_size).contains i
        ∧ (partitioner b num_threads x_size).contains i))
    (hcover : ∀ i, i < x_size
      ↔ ∃ b, b < num_threads ∧ (partitioner b num_threads x_size).contains i)
    (order : List Nat) (horder : order.Perm (List.range num_threads))
    (f : Nat → α) (y0 : Nat → α) :
    runPartitions partitioner num_threads x_size f order y0
        = scalerLoop ⟨0, x_size⟩ f y0
      ∧ (∀ i, i < x_size → (writeTrace partitioner num_threads x_size order).count i = 1)
      ∧ (∀ i, x_size ≤ i → (writeTrace partitioner num_threads x_size order).count i = 0) := by
  have hmem : ∀ b, b ∈ order ↔ b < num_threads := fun b => by
    rw [horder.mem_iff, List.mem_range]
  have hcount : ∀ i, (writeTrace partitioner num_threads x_size order).count i
      = ((List.range num_threads).filter
          (fun b => decide ((partitioner b num_threads x_size).contains i))).length := by
    intro i
    unfold writeTrace
    rw [(List.Perm.flatMap_right _ horder).count_eq,
      count_flatMap_partitionWrites (fun b => partitioner b num_threads x_size)]
  refine ⟨?_, ?_, ?_⟩
  · funext j
    rw [runPartitions_apply, scalerLoop_apply]
    have hiff : (∃ b, b ∈ order ∧ (partitioner b num_threads x_size).contains j)
        ↔ (⟨0, x_size⟩ : WorkInfo).contains j := by
      have h0 : (⟨0, x_size⟩ : WorkInfo).contains j ↔ j < x_size := by
        unfold WorkInfo.contains; simp
      rw [h0, hcover j]
      constructor
      · rintro ⟨b, hb, hc⟩; exact ⟨b, (hmem b).mp hb, hc⟩
      · rintro ⟨b, hb, hc⟩; exact ⟨b, (hmem b).mpr hb, hc⟩
    by_cases hc : (⟨0, x_size⟩ : WorkInfo).contains j
    · rw [if_pos (hiff.mpr hc), if_pos hc]
    · rw [if_neg (fun h => hc (hiff.mp h)), if_neg hc]
  · intro i hi
    obtain ⟨b0, hb0, hc0⟩ := (hcover i).mp hi
    rw [hcount i]
    refine filter_unique_length _ (List.nodup_range _)
      (fun b => (partitioner b num_threads x_size).contains i) b0 (List.mem_range.mpr hb0) hc0 ?_
    intro b hb hc
    by_contra hne
    exact hdisjoint b b0 (List.mem_range.mp hb) hb0 hne i ⟨hc, hc0⟩
  · intro i hi
    rw [hcount i, List.length_eq_zero, List.filter_eq_nil_iff]
    intro b hb hc
    have hc2 := of_decide_eq_true hc
    have : i < x_size := (hcover i).mpr ⟨b, List.mem_range.mp hb, hc2⟩
    omega

/-- Witness of C11: `PartitionWork` with three partitions of five elements, run in the order
2, 0, 1. -/
theorem runPartitions_eq_sequential_witness :
    runPartitions PartitionWork 3 5 (fun i => (i : Int) * 2) [2, 0, 1] (fun _ => 0)
        = scalerLoop ⟨0, 5⟩ (fun i => (i : Int) * 2) (fun _ => 0)
      ∧ (∀ i, i < 5 → (writeTrace PartitionWork 3 5 [2, 0, 1]).count i = 1)
      ∧ (∀ i, 5 ≤ i → (writeTrace PartitionWork 3 5 [2, 0, 1]).count i = 0) :=
  runPartitions_eq_sequential PartitionWork 3 5
    (fun a b ha hb hne i h => hne (PartitionWork_contains_unique 3 5 h.1 h.2))
    (fun i => ⟨fun hi => PartitionWork_contains_exists 3 5 i (by decide) hi,
      fun ⟨_, hb, hc⟩ => PartitionWork_contains_lt 3 5 (by decide) hb hc⟩)
    [2, 0, 1] (by decide) (fun i => (i : Int) * 2) (fun _ => 0)
/-! ## The scaler: construction and status -/

/-- What the constructor returns: it fails on an empty `scale` and on different sizes, and
keeps the two attributes otherwise. -/
theorem ScalerOp_create_some {α : Type} (scale offset : List α) :
    (ScalerOp.create scale offset = none ↔ scale = [] ∨ scale.length ≠ offset.length)
      ∧ (∀ op : ScalerOp α, ScalerOp.create scale offset = some op →
          op.scale_ = scale ∧ op.offset_ = offset
            ∧ op.scale_.length = op.offset_.length ∧ 1 ≤ op.scale_.length) := by
  have hemp : scale.isEmpty = true ↔ scale = [] := List.isEmpty_iff
  unfold ScalerOp.create
  by_cases h1 : scale = []
  · rw [if_pos (hemp.mpr h1)]
    exact ⟨⟨fun _ => Or.inl h1, fun _ => rfl⟩, fun op hop => by cases hop⟩
  · rw [if_neg (fun hh => h1 (hemp.mp hh))]
    by_cases h2 : scale.length ≠ offset.length
    · rw [if_pos h2]
      exact ⟨⟨fun _ => Or.inr h2, fun _ => rfl⟩, fun op hop => by cases hop⟩
    · rw [if_neg h2]
      refine ⟨⟨fun h => Option.noConfusion h, fun h => ?_⟩, fun op hop => ?_⟩
      · rcases h with h | h
        · exact absurd h h1
        · exact absurd h h2
      · cases hop
        refine ⟨rfl, rfl, not_not.mp h2, ?_⟩
        cases scale with
        | nil => exact absurd rfl h1
        | cons a l => simp

/-- C12: constructing a `ScalerOp` fails if and only if `scale` is empty or the sizes of `scale`
and `offset` differ; `scale = [2, 2]` with `offset = [1]` is rejected; and a constructed
`ScalerOp` holds the two attributes, which have one common length, at least 1. -/
theorem ScalerOp_create_fails_iff {α : Type} (scale offset : List α) :
    (ScalerOp.create scale offset = none ↔ scale = [] ∨ scale.length ≠ offset.length)
      ∧ ScalerOp.create ([2, 2] : List Int) [1] = none
      ∧ (∀ op : ScalerOp α, ScalerOp.create scale offset = some op →
          op.scale_ = scale ∧ op.offset_ = offset
            ∧ op.scale_.length = op.offset_.length ∧ 1 ≤ op.scale_.length) := by
  obtain ⟨h1, h2⟩ := ScalerOp_create_some scale offset
  refine ⟨h1, rfl, h2⟩

/-- The status `Compute` returns, and the output buffer it leaves when the status is an error. -/
theorem Compute_status {α : Type} [Sub α] [Mul α] [Inhabited α] (op : ScalerOp α) (dop : Int)
    (X : Tensor α) (y0 : Nat → α) :
    (X.dims = [] ∨
        (¬ ((op.offset_.length : Int) = strideOf X.dims ∧ (op.scale_.length : Int) = strideOf X.dims)
          ∧ ¬ (op.offset_.length = 1 ∧ op.scale_.length = 1)) →
      op.Compute dop X y0 = (StatusCode.INVALID_ARGUMENT, ⟨X.dims, y0⟩))
    ∧ (¬ (X.dims = [] ∨
        (¬ ((op.offset_.length : Int) = strideOf X.dims ∧ (op.scale_.length : Int) = strideOf X.dims)
          ∧ ¬ (op.offset_.length = 1 ∧ op.scale_.length = 1))) →
      ∃ y : Nat → α, op.Compute dop X y0 = (StatusCode.OK, ⟨X.dims, y⟩)) := by
  have hemp : X.dims.isEmpty = true ↔ X.dims = [] := List.isEmpty_iff
  constructor
  · intro h
    unfold ScalerOp.Compute
    by_cases h0 : X.dims = []
    · rw [if_pos (hemp.mpr h0)]
    · rw [if_neg (fun hh => h0 (hemp.mp hh))]
      rcases h with h | ⟨h1, h2⟩
      · exact absurd h h0
      · unfold strideOf at h1
        dsimp only
        rw [if_neg h1, if_neg h2]
  · intro h
    have h0 : ¬ X.dims = [] := fun hh => h (Or.inl hh)
    unfold ScalerOp.Compute
    rw [if_neg (fun hh => h0 (hemp.mp hh))]
    dsimp only
    by_cases h1 : (op.offset_.length : Int) = strideOf X.dims
        ∧ (op.scale_.length : Int) = strideOf X.dims
    · have h1b := h1
      unfold strideOf at h1b
      rw [if_pos h1b]; exact ⟨_, rfl⟩
    · have h1b := h1
      unfold strideOf at h1b
      rw [if_neg h1b]
      by_cases h2 : op.offset_.length = 1 ∧ op.scale_.length = 1
      · rw [if_pos h2]; exact ⟨_, rfl⟩
      · exact absurd (Or.inr ⟨h1, h2⟩) h

/-- C13: for a constructed `ScalerOp`, whose `scale` and `offset` have one common length
`n ≥ 1`, `Compute` returns `INVALID_ARGUMENT` if and only if the input shape has no dimensions
or `n` is neither the stride (`dims[0]` for rank 1, `dims[1]` otherwise) nor 1, and returns `OK`
in every other case. -/
theorem Compute_status_iff {α : Type} [Sub α] [Mul α] [Inhabited α] (scale offset : List α)
    (op : ScalerOp α) (hop : ScalerOp.create scale offset = some op) (dop : Int)
    (X : Tensor α) (y0 : Nat → α) :
    op.scale_.length = op.offset_.length ∧ 1 ≤ op.scale_.length
      ∧ ((op.Compute dop X y0).1 = StatusCode.INVALID_ARGUMENT
          ↔ X.dims = [] ∨ ((op.scale_.length : Int) ≠ strideOf X.dims ∧ op.scale_.length ≠ 1))
      ∧ (¬ (X.dims = [] ∨ ((op.scale_.length : Int) ≠ strideOf X.dims ∧ op.scale_.length ≠ 1))
          → (op.Compute dop X y0).1 = StatusCode.OK) := by
  have hlen : op.scale_.length = op.offset_.length ∧ 1 ≤ op.scale_.length :=
    ((ScalerOp_create_some scale offset).2 op hop).2.2
  have hcond : (X.dims = [] ∨
      (¬ ((op.offset_.length : Int) = strideOf X.dims ∧ (op.scale_.length : Int) = strideOf X.dims)
        ∧ ¬ (op.offset_.length = 1 ∧ op.scale_.length = 1)))
      ↔ (X.dims = [] ∨ ((op.scale_.length : Int) ≠ strideOf X.dims ∧ op.scale_.length ≠ 1)) := by
    rw [← hlen.1]
    constructor
    · rintro (h | ⟨h1, h2⟩)
      · exact Or.inl h
      · exact Or.inr ⟨fun h => h1 ⟨h, h⟩, fun h => h2 ⟨h, h⟩⟩
    · rintro (h | ⟨h1, h2⟩)
      · exact Or.inl h
      · exact Or.inr ⟨fun h => h1 h.1, fun h => h2 h.1⟩
  obtain ⟨herr, hok⟩ := Compute_status op dop X y0
  refine ⟨hlen.1, hlen.2, ⟨?_, ?_⟩, ?_⟩
  · intro hst
    by_contra hn
    obtain ⟨y, hy⟩ := hok (fun h => hn (hcond.mp h))
    rw [hy] at hst
    exact StatusCode.noConfusion hst
  · intro h
    rw [herr (hcond.mpr h)]
  · intro hn
    obtain ⟨y, hy⟩ := hok (fun h => hn (hcond.mp h))
    rw [hy]

/-- Witness of C13: `scale = [2, 3]`, `offset = [0, 1]` on an input of shape `[4, 3]`: the common
length 2 is neither the stride 3 nor 1, and the status is `INVALID_ARGUMENT`. -/
theorem Compute_status_iff_witness :
    (ScalerOp.Compute (⟨[2, 3], [0, 1]⟩ : ScalerOp Int) 4 ⟨[4, 3], fun _ => 7⟩
        (fun _ => 0)).1 = StatusCode.INVALID_ARGUMENT :=
  ((Compute_status_iff ([2, 3] : List Int) [0, 1] ⟨[2, 3], [0, 1]⟩ rfl 4 ⟨[4, 3], fun _ => 7⟩
    (fun _ => 0)).2.2.1).mpr (Or.inr ⟨by decide, by decide⟩)

/-- C14: whenever `Compute` returns an error status, the output buffer is exactly the buffer
`Compute` was given: no partition body has run and no element of `Y` has been written. -/
theorem Compute_error_writes_nothing {α : Type} [Sub α] [Mul α] [Inhabited α] (op : ScalerOp α)
    (dop : Int) (X : Tensor α) (y0 : Nat → α)
    (herror : (op.Compute dop X y0).1 ≠ StatusCode.OK) :
    op.Compute dop X y0 = (StatusCode.INVALID_ARGUMENT, ⟨X.dims, y0⟩)
      ∧ (op.Compute dop X y0).2.data = y0 := by
  obtain ⟨herr, hok⟩ := Compute_status op dop X y0
  by_cases h : X.dims = [] ∨
      (¬ ((op.offset_.length : Int) = strideOf X.dims ∧ (op.scale_.length : Int) = strideOf X.dims)
        ∧ ¬ (op.offset_.length = 1 ∧ op.scale_.length = 1))
  · rw [herr h]
    exact ⟨rfl, rfl⟩
  · obtain ⟨y, hy⟩ := hok h
    rw [hy] at herror
    exact absurd rfl herror

/-- Witness of C14: the mismatched `ScalerOp` of the witness of C13 leaves the buffer as it
was. -/
theorem Compute_error_writes_nothing_witness :
    ScalerOp.Compute (⟨[2, 3], [0, 1]⟩ : ScalerOp Int) 4 ⟨[4, 3], fun _ => 7⟩ (fun _ => 0)
        = (StatusCode.INVALID_ARGUMENT, ⟨[4, 3], fun _ => 0⟩)
      ∧ (ScalerOp.Compute (⟨[2, 3], [0, 1]⟩ : ScalerOp Int) 4 ⟨[4, 3], fun _ => 7⟩
          (fun _ => 0)).2.data = fun _ => 0 :=
  Compute_error_writes_nothing (⟨[2, 3], [0, 1]⟩ : ScalerOp Int) 4 ⟨[4, 3], fun _ => 7⟩
    (fun _ => 0)
    (by
      rw [(Compute_status (⟨[2, 3], [0, 1]⟩ : ScalerOp Int) 4 ⟨[4, 3], fun _ => 7⟩
        (fun _ => 0)).1 (Or.inr ⟨by decide, by decide⟩)]
      decide)
/-! ## The scaler: which parameters an element is transformed with -/

theorem rowMajorIndex_fold_lt (dims coords : List Nat)
    (h : List.Forall₂ (fun d c => c < d) dims coords) (acc : Nat) :
    (List.zip dims coords).foldl (fun (acc : Nat) (dc : Nat × Nat) => acc * dc.1 + dc.2) acc + 1
      ≤ (acc + 1) * dims.prod := by
  induction h generalizing acc with
  | nil => simp
  | @cons d c ds cs hcd _ ih =>
    rw [List.zip_cons_cons, List.foldl_cons, List.prod_cons]
    refine le_trans (ih (acc * d + c)) ?_
    have : acc * d + c + 1 ≤ (acc + 1) * d := by nlinarith
    calc (acc * d + c + 1) * ds.prod ≤ ((acc + 1) * d) * ds.prod := Nat.mul_le_mul_right _ this
      _ = (acc + 1) * (d * ds.prod) := by ring

/-- A multi-index whose coordinates lie inside the shape has a flat index below the size. -/
theorem rowMajorIndex_lt (dims coords : List Nat)
    (h : List.Forall₂ (fun d c => c < d) dims coords) :
    rowMajorIndex dims coords < TensorShape.Size dims := by
  have := rowMajorIndex_fold_lt dims coords h 0
  unfold rowMajorIndex TensorShape.Size
  omega

/-- The stride of an input of rank at least 2 is `dims[1]`. -/
theorem strideOf_rank_ge_two (dims : List Nat) (h : 2 ≤ dims.length) :
    strideOf dims = ((dims.getD 1 0 : Nat) : Int) := by
  unfold strideOf
  rw [if_neg (by omega)]

/-- C15, counterexample: an input of shape `[1, 2, 2]` (rank 3) with `scale = [1, 2]` and
`offset = [0, 0]`, every element 1.  The element at the multi-index `(0, 0, 1)` has the
coordinate `f = 0` along the second dimension and the flat index 1; `Compute` transforms it with
`offset[1 % 2]` and `scale[1 % 2]` and stores 2, where the parameters of feature 0 give 1. -/
theorem Compute_per_feature_rank_three :
    rowMajorIndex [1, 2, 2] [0, 0, 1] = 1 ∧
    (ScalerOp.Compute (⟨[1, 2], [0, 0]⟩ : ScalerOp Int) 4 ⟨[1, 2, 2], fun _ => 1⟩
        (fun _ => 0)).1 = StatusCode.OK ∧
    (ScalerOp.Compute (⟨[1, 2], [0, 0]⟩ : ScalerOp Int) 4 ⟨[1, 2, 2], fun _ => 1⟩
        (fun _ => 0)).2.data (rowMajorIndex [1, 2, 2] [0, 0, 1]) = 2 ∧
    (ScalerOp.Compute (⟨[1, 2], [0, 0]⟩ : ScalerOp Int) 4 ⟨[1, 2, 2], fun _ => 1⟩
        (fun _ => 0)).2.data (rowMajorIndex [1, 2, 2] [0, 0, 1])
      ≠ ((1 : Int) - ([0, 0] : List Int).getD 0 default) * ([1, 2] : List Int).getD 0 default := by
  obtain ⟨h1, -, h3⟩ := Compute_per_feature_small (⟨[1, 2], [0, 0]⟩ : ScalerOp Int) 4
    ⟨[1, 2, 2], fun _ => 1⟩ (fun _ => 0) 2 (by simp) (by simp) rfl rfl (by decide) (by decide)
  have hidx : rowMajorIndex [1, 2, 2] [0, 0, 1] = 1 := by decide
  have e1 := h3 1 (by decide)
  rw [hidx, e1]
  exact ⟨rfl, h1, by decide, by decide⟩

/-- C15, amended: for every input of rank at least 2 with fewer than `2 ^ 31` elements whose
`scale` and `offset` have length `dims[1]`, the element at a multi-index inside the shape, of
flat row-major index `i`, is transformed with the parameters at index `i % dims[1]`:
`Y = (X - offset[i % dims[1]]) * scale[i % dims[1]]`; for an input of rank exactly 2 this index
is `f`, the coordinate of the element along the second dimension. -/
theorem Compute_per_feature_multi_index {α : Type} [Sub α] [Mul α] [Inhabited α]
    (op : ScalerOp α) (dop : Int) (X : Tensor α) (y0 : Nat → α)
    (hrank : 2 ≤ X.dims.length)
    (hscale : op.scale_.length = X.dims.getD 1 0) (hoffset : op.offset_.length = X.dims.getD 1 0)
    (hdop : 1 ≤ dop) (hsize : TensorShape.Size X.dims < 2147483648) :
    (op.Compute dop X y0).1 = StatusCode.OK
      ∧ (∀ coords : List Nat, List.Forall₂ (fun d c => c < d) X.dims coords →
          (op.Compute dop X y0).2.data (rowMajorIndex X.dims coords)
            = (X.data (rowMajorIndex X.dims coords)
                - op.offset_.getD (rowMajorIndex X.dims coords % X.dims.getD 1 0) default)
              * op.scale_.getD (rowMajorIndex X.dims coords % X.dims.getD 1 0) default)
      ∧ (X.dims.length = 2 → ∀ n f : Nat, n < X.dims.getD 0 0 → f < X.dims.getD 1 0 →
          rowMajorIndex X.dims [n, f] % X.dims.getD 1 0 = f
            ∧ (op.Compute dop X y0).2.data (rowMajorIndex X.dims [n, f])
              = (X.data (rowMajorIndex X.dims [n, f]) - op.offset_.getD f default)
                * op.scale_.getD f default) := by
  have hdims : X.dims ≠ [] := by
    intro h; rw [h] at hrank; simp at hrank
  have hstride : X.dims.getD 1 0 = if X.dims.length = 1 then X.dims.getD 0 0
      else X.dims.getD 1 0 := by
    rw [if_neg (by omega)]
  obtain ⟨h1, -, h3⟩ := Compute_per_feature_small op dop X y0 (X.dims.getD 1 0) hdims hstride
    hscale hoffset hdop hsize
  refine ⟨h1, ?_, ?_⟩
  · intro coords hc
    exact h3 _ (rowMajorIndex_lt X.dims coords hc)
  · intro h2 n f hn hf
    obtain ⟨d0, d1, hd⟩ : ∃ d0 d1, X.dims = [d0, d1] := by
      match hX : X.dims, h2 with
      | [a, b], _ => exact ⟨a, b, rfl⟩
    rw [hd] at hn hf h3 ⊢
    simp only [List.getD_cons_zero, List.getD_cons_succ] at hn hf h3 ⊢
    have hidx : rowMajorIndex [d0, d1] [n, f] = n * d1 + f := by
      simp [rowMajorIndex]
    have hmod : (n * d1 + f) % d1 = f := by
      rw [Nat.add_comm, Nat.add_mul_mod_self_right, Nat.mod_eq_of_lt hf]
    have hlt : n * d1 + f < TensorShape.Size [d0, d1] := by
      unfold TensorShape.Size
      simp only [List.prod_cons, List.prod_nil, Nat.mul_one]
      nlinarith
    rw [hidx]
    refine ⟨hmod, ?_⟩
    rw [h3 _ hlt, hmod]

/-- Witness of C15: a rank 2 input of shape `[2, 3]`. -/
theorem Compute_per_feature_multi_index_witness :
    (ScalerOp.Compute (⟨[1, 2, 3], [0, 1, 2]⟩ : ScalerOp Int) 4 ⟨[2, 3], fun i => (i : Int)⟩
        (fun _ => 0)).1 = StatusCode.OK :=
  (Compute_per_feature_multi_index (⟨[1, 2, 3], [0, 1, 2]⟩ : ScalerOp Int) 4
    ⟨[2, 3], fun i => (i : Int)⟩ (fun _ => 0) (by decide) rfl rfl (by decide) (by decide)).1
/-! ## The unsigned comparison -/

/-- C20: for 64 bit signed `a` and `b` with `b ≥ 0`, `is_a_ge_zero_and_a_lt_b a b` is true if and
only if `0 ≤ a` and `a < b`; and the same test in the tap loop of the reference convolution
(input extents at least 0) accepts exactly the taps with `0 ≤ ih < input_h` and
`0 ≤ iw < input_w`: such a tap adds its product to `sum`, and every other tap leaves `sum` as it
is. -/
theorem is_a_ge_zero_and_a_lt_b_iff (a b : Int) (ha : fitsInt64 a) (hb : fitsInt64 b)
    (hb0 : 0 ≤ b) (L : ConvLocals) (Xdata Wdata : List Int) (ow ih : Int) (st : TapState)
    (kw : Nat) (hh0 : 0 ≤ L.input_h) (hh : fitsInt64 L.input_h) (hw0 : 0 ≤ L.input_w)
    (hw : fitsInt64 L.input_w) (hih : fitsInt64 ih)
    (hiw : fitsInt64 ((kw : Int) * L.dilation_w + ow * L.stride_w - L.pad_l)) :
    (is_a_ge_zero_and_a_lt_b a b = true ↔ 0 ≤ a ∧ a < b)
      ∧ tapStep L Xdata Wdata ow ih st kw
        = if 0 ≤ ih ∧ ih < L.input_h
              ∧ 0 ≤ (kw : Int) * L.dilation_w + ow * L.stride_w - L.pad_l
              ∧ (kw : Int) * L.dilation_w + ow * L.stride_w - L.pad_l < L.input_w then
            ⟨toInt32 (st.sum + toInt32
                (toInt32 (toInt32 (readAt Xdata (st.input_image
                    + (ih * L.input_w + ((kw : Int) * L.dilation_w + ow * L.stride_w - L.pad_l))))
                  - L.X_zero_point)
                * toInt32 (readAt Wdata st.weight_data))),
              st.input_image, st.weight_data + 1⟩
          else ⟨st.sum, st.input_image, st.weight_data + 1⟩ := by
  constructor
  · unfold is_a_ge_zero_and_a_lt_b
    rw [decide_eq_true_iff]
    exact toUInt64_lt_iff a b ha hb0 hb
  · have hiff : (toUInt64 ih < toUInt64 L.input_h ∧
        toUInt64 ((kw : Int) * L.dilation_w + ow * L.stride_w - L.pad_l) < toUInt64 L.input_w)
        ↔ (0 ≤ ih ∧ ih < L.input_h ∧
          0 ≤ (kw : Int) * L.dilation_w + ow * L.stride_w - L.pad_l ∧
          (kw : Int) * L.dilation_w + ow * L.stride_w - L.pad_l < L.input_w) := by
      rw [toUInt64_lt_iff _ _ hih hh0 hh, toUInt64_lt_iff _ _ hiw hw0 hw, and_assoc]
    unfold tapStep
    simp only
    by_cases hc : 0 ≤ ih ∧ ih < L.input_h ∧
        0 ≤ (kw : Int) * L.dilation_w + ow * L.stride_w - L.pad_l ∧
        (kw : Int) * L.dilation_w + ow * L.stride_w - L.pad_l < L.input_w
    · rw [if_pos (hiff.mpr hc), if_pos hc]
    · rw [if_neg (fun h => hc (hiff.mp h)), if_neg hc]

/-- Witness of C20: `a = -1` against `b = 5`, and the tap `kw = 0` of the output column 0 with a
left padding of 1, whose input column is -1. -/
theorem is_a_ge_zero_and_a_lt_b_iff_witness :
    (is_a_ge_zero_and_a_lt_b (-1) 5 = true ↔ (0 : Int) ≤ -1 ∧ (-1 : Int) < 5)
      ∧ tapStep ⟨1, 1, 1, 1, 3, 3, 3, 3, 3, 3, 1, 1, 1, 1, 1, 1, 0⟩ [1, 2, 3, 4, 5, 6, 7, 8, 9]
          [1, 1, 1, 1, 1, 1, 1, 1, 1] 0 0 ⟨0, 0, 0⟩ 0
        = ⟨0, 0, 1⟩ :=
  is_a_ge_zero_and_a_lt_b_iff (-1) 5 (by decide) (by decide) (by decide)
    ⟨1, 1, 1, 1, 3, 3, 3, 3, 3, 3, 1, 1, 1, 1, 1, 1, 0⟩ [1, 2, 3, 4, 5, 6, 7, 8, 9]
    [1, 1, 1, 1, 1, 1, 1, 1, 1] 0 0 ⟨0, 0, 0⟩ 0 (by decide) (by decide) (by decide) (by decide)
    (by decide) (by decide)
/-! ## The checks of `ComputeExpectedOutput` -/

/-- The value `ComputeExpectedOutput` returns when its four `ORT_ENFORCE` checks hold. -/
theorem ComputeExpectedOutput_of_checks (T1 : IntType) (t : QLinearConvOpTester)
    (hrank : 2 < t.W_.shape_.length) (hsame : t.X_.shape_.length = t.W_.shape_.length)
    (hin : at64 t.X_.shape_ 1 = at64 t.W_.shape_ 1 * max t.groups_ 1)
    (hout : at64 t.W_.shape_ 0
      = Int.tdiv (at64 t.W_.shape_ 0) (max t.groups_ 1) * max t.groups_ 1)
    (Y_shape : List Int)
    (hshape : Y_shape = expectedShape t.X_.shape_ t.W_.shape_
      (effectivePads t (t.W_.shape_.length - 2)) (effectiveDilations t (t.W_.shape_.length - 2))
      (effectiveStrides t (t.W_.shape_.length - 2)) (t.W_.shape_.length - 2))
    (stored : List Int)
    (hstored : stored = convLoops
      (convLocals t (effectivePads t (t.W_.shape_.length - 2))
        (effectiveDilations t (t.W_.shape_.length - 2))
        (effectiveStrides t (t.W_.shape_.length - 2)) Y_shape)
      t.X_.data_ t.W_.data_ t.B_
      (fun channel_index sum =>
        RequantizeOutput T1 sum (requantizeScale t channel_index)
          (RequantizeValues.create T1 t.output_zero_point_))) :
    ComputeExpectedOutput T1 t
      = some (stored ++ List.replicate ((ShapeSize Y_shape).toNat - stored.length) 0,
          Y_shape) := by
  subst hstored
  subst hshape
  unfold ComputeExpectedOutput
  rw [if_neg (not_not.mpr hrank), if_neg (not_not.mpr hsame)]
  dsimp only
  rw [if_neg (not_not.mpr hin), if_neg (not_not.mpr hout)]

/-! ## Groups -/

/-- The check `output_channels == (output_channels / group_count) * group_count` is divisibility
by the group count. -/
theorem tdiv_mul_eq_iff_dvd (a g : Int) : a = Int.tdiv a g * g ↔ g ∣ a := by
  constructor
  · intro h
    exact ⟨Int.tdiv a g, by rw [mul_comm]; exact h⟩
  · rintro ⟨k, rfl⟩
    by_cases hg : g = 0
    · subst hg; simp
    · rw [Int.mul_tdiv_cancel_left _ hg, mul_comm]

/-- A channel index below `G * n` lies in exactly one of the `G` contiguous blocks of `n`
channels. -/
theorem channel_block_unique (G n c : Nat) (hc : c < G * n) :
    ∃ g i, (g < G ∧ i < n ∧ c = g * n + i)
      ∧ ∀ g2 i2, g2 < G → i2 < n → c = g2 * n + i2 → g2 = g ∧ i2 = i := by
  have hn : 0 < n := by
    rcases Nat.eq_zero_or_pos n with h | h
    · subst h; simp at hc
    · exact h
  refine ⟨c / n, c % n, ⟨?_, Nat.mod_lt _ hn, ?_⟩, ?_⟩
  · exact Nat.div_lt_of_lt_mul (by rw [Nat.mul_comm]; exact hc)
  · rw [Nat.mul_comm]; exact (Nat.div_add_mod c n).symm
  · intro g2 i2 _ hi2 hc2
    subst hc2
    constructor
    · rw [Nat.add_comm, Nat.add_mul_div_right _ _ hn, Nat.div_eq_of_lt hi2, Nat.zero_add]
    · rw [Nat.add_comm, Nat.add_mul_mod_self_right, Nat.mod_eq_of_lt hi2]

/-- C17: with `G = max(group, 1)`, `ComputeExpectedOutput` fails unless the input channel count
is `W.shape[1] * G` and the output channel count `W.shape[0]` is divisible by `G`.  When it does
not fail, the input channels are `G` blocks of `gic = W.shape[1]` channels and the output
channels `G` blocks of `goc = W.shape[0] / G` channels: every channel index lies in exactly one
block `g`, at one place of the block, and the elements stored are the nested blocks of
`convBlocks`, in which the output channels `g * goc + oc` of group `g` are computed from the
input at the offset of the input channel block `g`. -/
theorem ComputeExpectedOutput_group_blocks (T1 : IntType) (t : QLinearConvOpTester) :
    (¬ (at64 t.X_.shape_ 1 = at64 t.W_.shape_ 1 * max t.groups_ 1
          ∧ max t.groups_ 1 ∣ at64 t.W_.shape_ 0) →
        ComputeExpectedOutput T1 t = none)
      ∧ (∀ Y_data Y_shape : List Int, ComputeExpectedOutput T1 t = some (Y_data, Y_shape) →
          at64 t.X_.shape_ 1 = max t.groups_ 1 * at64 t.W_.shape_ 1
          ∧ at64 t.W_.shape_ 0 = max t.groups_ 1 * Int.tdiv (at64 t.W_.shape_ 0) (max t.groups_ 1)
          ∧ (∀ c : Nat, (c : Int) < at64 t.X_.shape_ 1 →
              ∃ g ic, (g < (max t.groups_ 1).toNat ∧ ic < (at64 t.W_.shape_ 1).toNat
                  ∧ c = g * (at64 t.W_.shape_ 1).toNat + ic)
                ∧ ∀ g2 ic2, g2 < (max t.groups_ 1).toNat → ic2 < (at64 t.W_.shape_ 1).toNat →
                    c = g2 * (at64 t.W_.shape_ 1).toNat + ic2 → g2 = g ∧ ic2 = ic)
          ∧ (∀ c : Nat, (c : Int) < at64 t.W_.shape_ 0 →
              ∃ g oc, (g < (max t.groups_ 1).toNat
                  ∧ oc < (Int.tdiv (at64 t.W_.shape_ 0) (max t.groups_ 1)).toNat
                  ∧ c = g * (Int.tdiv (at64 t.W_.shape_ 0) (max t.groups_ 1)).toNat + oc)
                ∧ ∀ g2 oc2, g2 < (max t.groups_ 1).toNat →
                    oc2 < (Int.tdiv (at64 t.W_.shape_ 0) (max t.groups_ 1)).toNat →
                    c = g2 * (Int.tdiv (at64 t.W_.shape_ 0) (max t.groups_ 1)).toNat + oc2 →
                    g2 = g ∧ oc2 = oc)
          ∧ ∃ rest : List Int,
              Y_data = convBlocks
                (convLocals t (effectivePads t (t.W_.shape_.length - 2))
                  (effectiveDilations t (t.W_.shape_.length - 2))
                  (effectiveStrides t (t.W_.shape_.length - 2)) Y_shape)
                t.X_.data_ t.W_.data_ t.B_
                (fun channel_index sum =>
                  RequantizeOutput T1 sum (requantizeScale t channel_index)
                    (RequantizeValues.create T1 t.output_zero_point_)) ++ rest) := by
  have hG : 1 ≤ max t.groups_ 1 := le_max_right _ _
  constructor
  · intro h
    unfold ComputeExpectedOutput
    by_cases h1 : ¬ (2 < t.W_.shape_.length)
    · rw [if_pos h1]
    · rw [if_neg h1]
      by_cases h2 : ¬ (t.X_.shape_.length = t.W_.shape_.length)
      · rw [if_pos h2]
      · rw [if_neg h2]
        dsimp only
        by_cases h3 : ¬ (at64 t.X_.shape_ 1 = at64 t.W_.shape_ 1 * max t.groups_ 1)
        · rw [if_pos h3]
        · rw [if_neg h3, if_pos]
          intro h4
          exact h ⟨not_not.mp h3, (tdiv_mul_eq_iff_dvd _ _).mp h4⟩
  · intro Y_data Y_shape hY
    have hchecks : 2 < t.W_.shape_.length ∧ t.X_.shape_.length = t.W_.shape_.length
        ∧ at64 t.X_.shape_ 1 = at64 t.W_.shape_ 1 * max t.groups_ 1
        ∧ at64 t.W_.shape_ 0
          = Int.tdiv (at64 t.W_.shape_ 0) (max t.groups_ 1) * max t.groups_ 1 := by
      unfold ComputeExpectedOutput at hY
      by_cases h1 : ¬ (2 < t.W_.shape_.length)
      · rw [if_pos h1] at hY; exact Option.noConfusion hY
      · rw [if_neg h1] at hY
        by_cases h2 : ¬ (t.X_.shape_.length = t.W_.shape_.length)
        · rw [if_pos h2] at hY; exact Option.noConfusion hY
        · rw [if_neg h2] at hY
          dsimp only at hY
          by_cases h3 : ¬ (at64 t.X_.shape_ 1 = at64 t.W_.shape_ 1 * max t.groups_ 1)
          · rw [if_pos h3] at hY; exact Option.noConfusion hY
          · rw [if_neg h3] at hY
            by_cases h4 : ¬ (at64 t.W_.shape_ 0
                = Int.tdiv (at64 t.W_.shape_ 0) (max t.groups_ 1) * max t.groups_ 1)
            · rw [if_pos h4] at hY; exact Option.noConfusion hY
            · exact ⟨not_not.mp h1, not_not.mp h2, not_not.mp h3, not_not.mp h4⟩
    obtain ⟨hrank, hsame, hin, hout⟩ := hchecks
    have hval := ComputeExpectedOutput_of_checks T1 t hrank hsame hin hout _ rfl _ rfl
    rw [hval] at hY
    have hpair := Option.some.inj hY
    have hshape := (Prod.mk.inj hpair).2
    have hdata := (Prod.mk.inj hpair).1
    refine ⟨by rw [hin, mul_comm], by rw [mul_comm]; exact hout, ?_, ?_, ?_⟩
    · intro c hc
      apply channel_block_unique
      have h0 : 0 ≤ at64 t.W_.shape_ 1 := by
        by_contra hneg
        have : at64 t.W_.shape_ 1 * max t.groups_ 1 < 0 :=
          mul_neg_of_neg_of_pos (by omega) (by omega)
        omega
      have : ((c : Nat) : Int) < (((max t.groups_ 1).toNat * (at64 t.W_.shape_ 1).toNat : Nat) : Int) := by
        push_cast
        rw [Int.toNat_of_nonneg (by omega), Int.toNat_of_nonneg h0, mul_comm, ← hin]
        exact hc
      exact_mod_cast this
    · intro c hc
      apply channel_block_unique
      have h0 : 0 ≤ Int.tdiv (at64 t.W_.shape_ 0) (max t.groups_ 1) := by
        by_contra hneg
        have : Int.tdiv (at64 t.W_.shape_ 0) (max t.groups_ 1) * max t.groups_ 1 < 0 :=
          mul_neg_of_neg_of_pos (by omega) (by omega)
        omega
      have : ((c : Nat) : Int) < (((max t.groups_ 1).toNat
          * (Int.tdiv (at64 t.W_.shape_ 0) (max t.groups_ 1)).toNat : Nat) : Int) := by
        push_cast
        rw [Int.toNat_of_nonneg (by omega), Int.toNat_of_nonneg h0, mul_comm, ← hout]
        exact hc
      exact_mod_cast this
    · rw [← hdata, ← hshape, convLoops_eq_blocks]
      exact ⟨_, rfl⟩
/-! ## The stored elements, by index -/

/-- The element stored at the row-major index `(b, g * goc + oc, oh, ow)` is `emit` of the output
channel and of the accumulator of that output position. -/
theorem convLoops_getElem? {β : Type} (L : ConvLocals) (Xdata Wdata B : List Int)
    (emit : Int → Int → β) (b g oc oh ow : Nat) (hb : b < L.batch_count.toNat)
    (hg : g < L.group_count.toNat) (hoc : oc < L.group_output_channels.toNat)
    (hoh : oh < L.output_h.toNat) (how : ow < L.output_w.toNat) :
    (convLoops L Xdata Wdata B emit)[
        (((b * L.group_count.toNat + g) * L.group_output_channels.toNat + oc)
          * L.output_h.toNat + oh) * L.output_w.toNat + ow]?
      = some (emit ((g : Int) * L.group_output_channels + (oc : Int))
          (accumulate L Xdata Wdata (oh : Int) (ow : Int)
            (biasOf B ((g : Int) * L.group_output_channels + (oc : Int)))
            (xdataAt L b g) (weightRowAt L g oc))) := by
  have hidx : (((b * L.group_count.toNat + g) * L.group_output_channels.toNat + oc)
        * L.output_h.toNat + oh) * L.output_w.toNat + ow
      = b * (L.group_count.toNat * (L.group_output_channels.toNat
          * (L.output_h.toNat * L.output_w.toNat)))
        + (g * (L.group_output_channels.toNat * (L.output_h.toNat * L.output_w.toNat))
          + (oc * (L.output_h.toNat * L.output_w.toNat)
            + (oh * L.output_w.toNat + ow))) := by ring
  have hlt1 : oh * L.output_w.toNat + ow < L.output_h.toNat * L.output_w.toNat := by
    calc oh * L.output_w.toNat + ow < oh * L.output_w.toNat + L.output_w.toNat := by omega
      _ = (oh + 1) * L.output_w.toNat := by ring
      _ ≤ L.output_h.toNat * L.output_w.toNat := Nat.mul_le_mul_right _ (by omega)
  have hlt2 : oc * (L.output_h.toNat * L.output_w.toNat) + (oh * L.output_w.toNat + ow)
      < L.group_output_channels.toNat * (L.output_h.toNat * L.output_w.toNat) := by
    calc oc * (L.output_h.toNat * L.output_w.toNat) + (oh * L.output_w.toNat + ow)
        < oc * (L.output_h.toNat * L.output_w.toNat)
          + L.output_h.toNat * L.output_w.toNat := by omega
      _ = (oc + 1) * (L.output_h.toNat * L.output_w.toNat) := by ring
      _ ≤ _ := Nat.mul_le_mul_right _ (by omega)
  have hlt3 : g * (L.group_output_channels.toNat * (L.output_h.toNat * L.output_w.toNat))
        + (oc * (L.output_h.toNat * L.output_w.toNat) + (oh * L.output_w.toNat + ow))
      < L.group_count.toNat * (L.group_output_channels.toNat
          * (L.output_h.toNat * L.output_w.toNat)) := by
    calc g * (L.group_output_channels.toNat * (L.output_h.toNat * L.output_w.toNat))
          + (oc * (L.output_h.toNat * L.output_w.toNat) + (oh * L.output_w.toNat + ow))
        < g * (L.group_output_channels.toNat * (L.output_h.toNat * L.output_w.toNat))
          + L.group_output_channels.toNat * (L.output_h.toNat * L.output_w.toNat) := by
          omega
      _ = (g + 1) * (L.group_output_channels.toNat
            * (L.output_h.toNat * L.output_w.toNat)) := by ring
      _ ≤ _ := Nat.mul_le_mul_right _ (by omega)
  have hlenOc : ∀ (b2 g2 : Nat) (i : Nat), i < L.group_output_channels.toNat →
      (positionBlock L Xdata Wdata
        (emit ((g2 : Int) * L.group_output_channels + (i : Int)))
        (biasOf B ((g2 : Int) * L.group_output_channels + (i : Int)))
        (xdataAt L b2 g2) (weightRowAt L g2 i)).length
        = L.output_h.toNat * L.output_w.toNat :=
    fun _ _ _ _ => positionBlock_length _ _ _ _ _ _ _
  have hlenG : ∀ (b2 : Nat) (i : Nat), i < L.group_count.toNat →
      ((List.range L.group_output_channels.toNat).flatMap (fun (oc : Nat) =>
        positionBlock L Xdata Wdata
          (emit ((i : Int) * L.group_output_channels + (oc : Int)))
          (biasOf B ((i : Int) * L.group_output_channels + (oc : Int)))
          (xdataAt L b2 i) (weightRowAt L i oc))).length
        = L.group_output_channels.toNat * (L.output_h.toNat * L.output_w.toNat) :=
    fun b2 i _ => length_flatMap_range _ _ _ (hlenOc b2 i)
  have hlenB : ∀ (i : Nat), i < L.batch_count.toNat →
      ((List.range L.group_count.toNat).flatMap (fun (g : Nat) =>
        (List.range L.group_output_channels.toNat).flatMap (fun (oc : Nat) =>
          positionBlock L Xdata Wdata
            (emit ((g : Int) * L.group_output_channels + (oc : Int)))
            (biasOf B ((g : Int) * L.group_output_channels + (oc : Int)))
            (xdataAt L i g) (weightRowAt L g oc)))).length
        = L.group_count.toNat * (L.group_output_channels.toNat
            * (L.output_h.toNat * L.output_w.toNat)) :=
    fun i _ => length_flatMap_range _ _ _ (hlenG i)
  rw [convLoops_eq_blocks, hidx]
  unfold convBlocks
  rw [getElem?_flatMap_range _ _ _ hlenB b _ hb hlt3,
    getElem?_flatMap_range _ _ _ (hlenG b) g _ hg hlt2,
    getElem?_flatMap_range _ _ _ (hlenOc b g) oc _ hoc hlt1,
    positionBlock_getElem? _ _ _ _ _ _ _ oh ow hoh how]

/-- The number of elements the output loops store. -/
theorem convLoops_length {β : Type} (L : ConvLocals) (Xdata Wdata B : List Int)
    (emit : Int → Int → β) :
    (convLoops L Xdata Wdata B emit).length
      = L.batch_count.toNat * (L.group_count.toNat * (L.group_output_channels.toNat
          * (L.output_h.toNat * L.output_w.toNat))) := by
  rw [convLoops_eq_blocks]
  unfold convBlocks
  exact length_flatMap_range _ _ _ (fun b _ =>
    length_flatMap_range _ _ _ (fun g _ =>
      length_flatMap_range _ _ _ (fun oc _ => positionBlock_length _ _ _ _ _ _ _)))
/-! ## The single-tap convolution -/

/-- The accumulator of a convolution with a 1 x 1 kernel, one input channel per group, no padding
and unit strides: the bias plus one product, as an `int32_t`. -/
theorem accumulate_single_tap (L : ConvLocals) (Xdata Wdata : List Int) (oh ow : Nat)
    (hkh : L.kernel_h = 1) (hkw : L.kernel_w = 1) (hgic : L.group_input_channels = 1)
    (hpt : L.pad_t = 0) (hpl : L.pad_l = 0) (hsh : L.stride_h = 1) (hsw : L.stride_w = 1)
    (hh : fitsInt64 L.input_h) (hw : fitsInt64 L.input_w)
    (hoh : (oh : Int) < L.input_h) (how : (ow : Int) < L.input_w)
    (bias S xdata weight_row : Int) (hS : bias = toInt32 S) :
    accumulate L Xdata Wdata (oh : Int) (ow : Int) bias xdata weight_row
      = toInt32 (S + (readAt Xdata (xdata + ((oh : Int) * L.input_w + (ow : Int)))
          - L.X_zero_point) * readAt Wdata weight_row) := by
  have hfit : ∀ (k : Int), 0 ≤ k → k < 9223372036854775808 → fitsInt64 k := by
    intro k h1 h2
    unfold fitsInt64
    omega
  have hh2 := hh
  have hw2 := hw
  unfold fitsInt64 at hh2 hw2
  have hih : (0 : Int) * L.dilation_h + (oh : Int) * L.stride_h - L.pad_t = (oh : Int) := by
    rw [hsh, hpt]; ring
  have hiw : (0 : Int) * L.dilation_w + (ow : Int) * L.stride_w - L.pad_l = (ow : Int) := by
    rw [hsw, hpl]; ring
  have h1 : (1 : Int).toNat = 1 := rfl
  rw [accumulate_eq L Xdata Wdata (oh : Int) (ow : Int) (by omega) hh (by omega) hw
    (fun kw hlt => by
      rw [hkw, h1] at hlt
      have : kw = 0 := by omega
      subst this
      rw [Nat.cast_zero, hiw]
      exact hfit _ (by omega) (by omega))
    (fun kh hlt => by
      rw [hkh, h1] at hlt
      have : kh = 0 := by omega
      subst this
      rw [Nat.cast_zero, hih]
      exact hfit _ (by omega) (by omega))
    bias S xdata weight_row hS]
  rw [hgic, hkh, hkw, h1]
  simp only [Finset.sum_range_one, Nat.cast_zero, Nat.cast_one]
  rw [hih, hiw]
  simp only [zero_mul, add_zero, mul_one, zero_add]
  unfold ptrTerm
  rw [if_pos ⟨by omega, hoh, by omega, how⟩]
theorem getElem?_append_of_some {β : Type} (l r : List β) (i : Nat) (v : β)
    (h : l[i]? = some v) : (l ++ r)[i]? = some v := by
  have hlt : i < l.length := by
    by_contra hn
    rw [List.getElem?_eq_none (by omega)] at h
    exact Option.noConfusion h
  rw [List.getElem?_append_left hlt, h]

/-- The output shape of a convolution with a 1 x 1 kernel, no padding and unit strides is the
shape of the input with the number of output channels in the second place. -/
theorem expectedShape_single_tap (n c h w m gic : Int) (dilations : List Int) :
    expectedShape [n, c, h, w] [m, gic, 1, 1] [0, 0, 0, 0] dilations [1, 1] 2 = [n, m, h, w] := by
  have e : List.range 2 = [0, 1] := rfl
  unfold expectedShape
  rw [e]
  simp only [List.foldl_cons, List.foldl_nil, at64, List.getD_cons_zero, List.getD_cons_succ,
    sub_self, mul_zero, zero_add, add_zero, Int.tdiv_one, List.cons_append, List.nil_append,
    add_sub_cancel_right, sub_add_cancel]
/-- The single-tap convolution: every output element is the requantized accumulator
`bias + (X[i] - X_zero_point) * w`, `w` being the one weight element. -/
theorem ComputeExpectedOutput_single_tap (T1 : IntType) (t : QLinearConvOpTester)
    (N H Wd : Nat)
    (hX : t.X_.shape_ = [(N : Int), 1, (H : Int), (Wd : Int)])
    (hW : t.W_.shape_ = [1, 1, 1, 1]) (hG : t.groups_ ≤ 1)
    (hpads : effectivePads t 2 = [0, 0, 0, 0]) (hstrides : effectiveStrides t 2 = [1, 1])
    (hH : (H : Int) < 9223372036854775808) (hWd : (Wd : Int) < 9223372036854775808) :
    ∃ Y_data : List Int,
      ComputeExpectedOutput T1 t = some (Y_data, [(N : Int), 1, (H : Int), (Wd : Int)])
      ∧ ∀ b oh ow : Nat, b < N → oh < H → ow < Wd →
          Y_data[(b * H + oh) * Wd + ow]?
            = some (RequantizeOutput T1
                (toInt32 ((if t.B_.isEmpty then 0 else readAt t.B_ 0)
                  + (readAt t.X_.data_ (((b * H + oh) * Wd + ow : Nat) : Int)
                      - toInt32 t.X_.zero_point_) * readAt t.W_.data_ 0))
                (requantizeScale t 0) (RequantizeValues.create T1 t.output_zero_point_)) := by
  have hmax : max t.groups_ 1 = 1 := max_eq_right hG
  have hlenW : t.W_.shape_.length - 2 = 2 := by rw [hW]; rfl
  have hrank : 2 < t.W_.shape_.length := by rw [hW]; decide
  have hsame : t.X_.shape_.length = t.W_.shape_.length := by rw [hX, hW]; rfl
  have hin : at64 t.X_.shape_ 1 = at64 t.W_.shape_ 1 * max t.groups_ 1 := by
    rw [hX, hW, hmax]; rfl
  have hout : at64 t.W_.shape_ 0
      = Int.tdiv (at64 t.W_.shape_ 0) (max t.groups_ 1) * max t.groups_ 1 := by
    rw [hW, hmax]; rfl
  have hshape : [(N : Int), 1, (H : Int), (Wd : Int)]
      = expectedShape t.X_.shape_ t.W_.shape_
        (effectivePads t (t.W_.shape_.length - 2))
        (effectiveDilations t (t.W_.shape_.length - 2))
        (effectiveStrides t (t.W_.shape_.length - 2)) (t.W_.shape_.length - 2) := by
    rw [hlenW, hpads, hstrides, hX, hW, expectedShape_single_tap]
  have hval := ComputeExpectedOutput_of_checks T1 t hrank hsame hin hout _ hshape _ rfl
  refine ⟨_, hval, ?_⟩
  intro b oh ow hb hoh how
  apply getElem?_append_of_some
  rw [hlenW, hpads, hstrides]
  have hL : convLocals t [0, 0, 0, 0] (effectiveDilations t 2) [1, 1]
        [(N : Int), 1, (H : Int), (Wd : Int)]
      = ⟨(N : Int), 1, 1, 1, (H : Int), (Wd : Int), 1, 1, (H : Int), (Wd : Int), 0, 0,
          at64 (effectiveDilations t 2) 0, at64 (effectiveDilations t 2) 1, 1, 1,
          toInt32 t.X_.zero_point_⟩ := by
    unfold convLocals
    rw [hX, hW, hmax]
    rfl
  rw [hL]
  have hget := convLoops_getElem?
    (⟨(N : Int), 1, 1, 1, (H : Int), (Wd : Int), 1, 1, (H : Int), (Wd : Int), 0, 0,
      at64 (effectiveDilations t 2) 0, at64 (effectiveDilations t 2) 1, 1, 1,
      toInt32 t.X_.zero_point_⟩ : ConvLocals) t.X_.data_ t.W_.data_ t.B_
    (fun channel_index sum =>
      RequantizeOutput T1 sum (requantizeScale t channel_index)
        (RequantizeValues.create T1 t.output_zero_point_)) b 0 0 oh ow
    (show b < ((N : Int)).toNat by simpa using hb) (show 0 < (1 : Int).toNat by decide)
    (show 0 < (1 : Int).toNat by decide) (show oh < ((H : Int)).toNat by simpa using hoh)
    (show ow < ((Wd : Int)).toNat by simpa using how)
  have h1 : (1 : Int).toNat = 1 := rfl
  simp only [Int.toNat_ofNat, h1, Nat.mul_one, Nat.add_zero, Nat.cast_zero, zero_mul,
    add_zero] at hget
  rw [hget]
  have hfit : ∀ (k : Nat), (k : Int) < 9223372036854775808 → fitsInt64 (k : Int) := by
    intro k h2
    unfold fitsInt64
    omega
  rw [accumulate_single_tap _ _ _ oh ow rfl rfl rfl rfl rfl rfl rfl (hfit H hH) (hfit Wd hWd)
    (show (oh : Int) < (H : Int) by exact_mod_cast hoh)
    (show (ow : Int) < (Wd : Int) by exact_mod_cast how) _ _ _ _ (biasOf_eq t.B_ 0)]
  unfold xdataAt weightRowAt
  simp only [h1, Nat.cast_one, Nat.cast_zero, mul_one, add_zero, zero_mul, one_mul]
  have hidx : (b : Int) * ((H : Int) * (Wd : Int)) + ((oh : Int) * (Wd : Int) + (ow : Int))
      = (((b * H + oh) * Wd + ow : Nat) : Int) := by
    push_cast
    ring
  rw [hidx]
theorem toInt32_of_range (a : Int) (h1 : -2147483648 ≤ a) (h2 : a < 2147483648) :
    toInt32 a = a := by
  unfold toInt32
  omega

/-- The requantize scale of output channel 0 is the `float` quotient of the `float` product
`weightScale * inputScale` and `outputScale`. -/
theorem requantizeScale_zero (t : QLinearConvOpTester) :
    requantizeScale t 0
      = roundFloat32 (roundFloat32 (t.W_.scale_.getD 0 0 * t.X_.scale_.getD 0 0)
          / t.output_scale_) := by
  unfold requantizeScale
  have h : (if t.W_.scale_.length = 1 then 0 else (0 : Int).toNat) = 0 := by
    split_ifs <;> rfl
  rw [h, mul_comm]

theorem roundFloat32_one : roundFloat32 1 = 1 := by
  simpa using roundFloat32_intCast 1 (by decide) (by decide)

/-- A flat index below `N * H * W` is the row-major index of one `(b, oh, ow)`. -/
theorem flat_index_decompose (N H Wd i : Nat) (hi : i < N * H * Wd) :
    ∃ b oh ow, b < N ∧ oh < H ∧ ow < Wd ∧ i = (b * H + oh) * Wd + ow := by
  have hWd : 0 < Wd := by
    rcases Nat.eq_zero_or_pos Wd with h | h
    · subst h; simp at hi
    · exact h
  have hH : 0 < H := by
    rcases Nat.eq_zero_or_pos H with h | h
    · subst h; simp at hi
    · exact h
  refine ⟨i / Wd / H, i / Wd % H, i % Wd, ?_, Nat.mod_lt _ hH, Nat.mod_lt _ hWd, ?_⟩
  · apply Nat.div_lt_of_lt_mul
    apply Nat.div_lt_of_lt_mul
    calc i < N * H * Wd := hi
      _ = Wd * (H * N) := by ring
  · rw [Nat.mul_comm (i / Wd / H) H, Nat.div_add_mod, Nat.mul_comm, Nat.div_add_mod]

/-- C19, counterexample: a 1 x 1 input holding 3 and a 1 x 1 kernel holding the weight 2, all
scales 1 and all zero points 0, `uint8_t`.  The output element is 6, the requantized
`(3 - 0) * 2`, while the affine scaler value `(3 - 0) * (1 * 1 / 1)` put through the same step
is 3. -/
theorem ComputeExpectedOutput_single_tap_weight_two :
    (∀ Y_data Y_shape : List Int,
      ComputeExpectedOutput IntType.uint8
          ⟨⟨[3], [1, 1, 1, 1], [1], 0⟩, ⟨[2], [1, 1, 1, 1], [1], 0⟩, [], [], [], [], 1, 1, 0⟩
        = some (Y_data, Y_shape) → Y_data[0]? = some 6)
    ∧ ComputeExpectedOutput IntType.uint8
          ⟨⟨[3], [1, 1, 1, 1], [1], 0⟩, ⟨[2], [1, 1, 1, 1], [1], 0⟩, [], [], [], [], 1, 1, 0⟩
        ≠ none
    ∧ RequantizeOutput IntType.uint8 (3 - 0) (1 * 1 / 1)
        (RequantizeValues.create IntType.uint8 0) = 3 := by
  obtain ⟨Y, hY, hel⟩ := ComputeExpectedOutput_single_tap IntType.uint8
    ⟨⟨[3], [1, 1, 1, 1], [1], 0⟩, ⟨[2], [1, 1, 1, 1], [1], 0⟩, [], [], [], [], 1, 1, 0⟩ 1 1 1
    rfl rfl (by decide) rfl rfl (by decide) (by decide)
  have h0 := hel 0 0 0 (by decide) (by decide) (by decide)
  have hs : requantizeScale
      ⟨⟨[3], [1, 1, 1, 1], [1], 0⟩, ⟨[2], [1, 1, 1, 1], [1], 0⟩, [], [], [], [], 1, 1, 0⟩ 0
      = 1 := by
    rw [requantizeScale_zero]
    simp only [List.getD_cons_zero, mul_one, div_one]
    rw [roundFloat32_one, roundFloat32_one]
  have hn : ∀ k : Int, -16777216 ≤ k → k ≤ 16777216 →
      nearestInt (roundFloat32 (roundFloat32 (k : ℚ) * 1)) = k := by
    intro k h1 h2
    rw [roundFloat32_product_intCast k h1 h2]
    exact nearestInt_intCast k
  have hsum : toInt32 ((if ([] : List Int).isEmpty then 0 else readAt [] 0)
      + (readAt [3] (((0 * 1 + 0) * 1 + 0 : Nat) : Int) - toInt32 0) * readAt [2] 0) = 6 := by
    rw [toInt32_of_range 0 (by decide) (by decide)]
    exact toInt32_of_range 6 (by decide) (by decide)
  rw [hs] at h0
  simp only at h0
  rw [hsum, RequantizeOutput_eq IntType.uint8 (by decide) (by decide) 6 1 0 (by decide)
    (by decide), hn 6 (by decide) (by decide)] at h0
  refine ⟨?_, ?_, ?_⟩
  · intro Y_data Y_shape h
    rw [hY] at h
    have := (Prod.mk.inj (Option.some.inj h)).1
    rw [← this, h0]
    decide
  · rw [hY]
    exact fun hh => Option.noConfusion hh
  · have e : ((1 : ℚ) * 1 / 1) = 1 := by norm_num
    rw [e, RequantizeOutput_eq IntType.uint8 (by decide) (by decide) (3 - 0) 1 0 (by decide)
      (by decide), hn (3 - 0) (by decide) (by decide)]
    decide

/-- C19, amended: for every quantized convolution whose spatial kernel extents are all 1, with
`group = 1`, one input and one output channel, no padding and unit strides, each output element
`i` is the value `(bias + (X[i] - inputZeroPoint) * w) * s`, with `w` the one weight element,
`bias` the bias (0 when there is none), the sum taken as an `int32_t` and
`s = (weightScale * inputScale) / outputScale` computed in `float`, put through the clamp,
round-half-to-even and output-zero-point step of `RequantizeOutput`.  When `w = 1` and there is
no bias it is `(X[i] - inputZeroPoint) * s` put through that step, and the `float` product the
step starts from is the value the affine scaler for `float` computes from `X[i]`, the offset
`inputZeroPoint` and the scale `s` (input elements and zero point of absolute value at most
`2 ^ 24`, which are `float` values). -/
theorem ComputeExpectedOutput_single_tap_scaler (T1 : IntType) (t : QLinearConvOpTester)
    (N H Wd : Nat)
    (hX : t.X_.shape_ = [(N : Int), 1, (H : Int), (Wd : Int)])
    (hW : t.W_.shape_ = [1, 1, 1, 1]) (hG : t.groups_ ≤ 1)
    (hpads : effectivePads t 2 = [0, 0, 0, 0]) (hstrides : effectiveStrides t 2 = [1, 1])
    (hH : (H : Int) < 9223372036854775808) (hWd : (Wd : Int) < 9223372036854775808) :
    requantizeScale t 0
      = roundFloat32 (roundFloat32 (t.W_.scale_.getD 0 0 * t.X_.scale_.getD 0 0)
          / t.output_scale_)
    ∧ ∃ Y_data : List Int,
      ComputeExpectedOutput T1 t = some (Y_data, [(N : Int), 1, (H : Int), (Wd : Int)])
      ∧ ∀ i : Nat, i < N * H * Wd →
          Y_data[i]?
            = some (RequantizeOutput T1
                (toInt32 ((if t.B_.isEmpty then 0 else readAt t.B_ 0)
                  + (readAt t.X_.data_ (i : Int) - toInt32 t.X_.zero_point_)
                    * readAt t.W_.data_ 0))
                (requantizeScale t 0) (RequantizeValues.create T1 t.output_zero_point_))
          ∧ (t.B_ = [] → readAt t.W_.data_ 0 = 1 →
              -16777216 ≤ readAt t.X_.data_ (i : Int) →
              readAt t.X_.data_ (i : Int) ≤ 16777216 →
              -16777216 ≤ toInt32 t.X_.zero_point_ →
              toInt32 t.X_.zero_point_ ≤ 16777216 →
              Y_data[i]?
                  = some (RequantizeOutput T1
                      (readAt t.X_.data_ (i : Int) - toInt32 t.X_.zero_point_)
                      (requantizeScale t 0) (RequantizeValues.create T1 t.output_zero_point_))
                ∧ roundFloat32
                      (roundFloat32
                          ((readAt t.X_.data_ (i : Int) - toInt32 t.X_.zero_point_ : Int) : ℚ)
                        * requantizeScale t 0)
                    = (scalerBroadcast
                        (⟨[⟨requantizeScale t 0⟩],
                            [⟨roundFloat32 ((toInt32 t.X_.zero_point_ : Int) : ℚ)⟩]⟩ :
                          ScalerOp F32)
                        (fun j => ⟨roundFloat32 ((readAt t.X_.data_ (j : Int) : Int) : ℚ)⟩)
                        i).val) := by
  refine ⟨requantizeScale_zero t, ?_⟩
  obtain ⟨Y, hY, hel⟩ := ComputeExpectedOutput_single_tap T1 t N H Wd hX hW hG hpads hstrides
    hH hWd
  refine ⟨Y, hY, ?_⟩
  intro i hi
  obtain ⟨b, oh, ow, hb, hoh, how, rfl⟩ := flat_index_decompose N H Wd i hi
  have h := hel b oh ow hb hoh how
  refine ⟨h, ?_⟩
  intro hB hw h1 h2 h3 h4
  refine ⟨?_, ?_⟩
  · rw [h, hB, hw]
    simp only [List.isEmpty_nil, if_true, mul_one, zero_add]
    rw [toInt32_of_range _ (by omega) (by omega)]
  · unfold scalerBroadcast
    simp only [List.getD_cons_zero]
    rw [roundFloat32_intCast _ h1 h2, roundFloat32_intCast _ h3 h4]
    show _ = roundFloat32 (roundFloat32 (_ - _) * _)
    push_cast
    rfl

/-- Witness of C19 (amended): a 2 x 2 input and the weight 1, `uint8_t`. -/
theorem ComputeExpectedOutput_single_tap_scaler_witness :
    ∃ Y_data : List Int,
      ComputeExpectedOutput IntType.uint8
          ⟨⟨[3, 4, 5, 6], [1, 1, 2, 2], [1], 1⟩, ⟨[1], [1, 1, 1, 1], [1], 0⟩, [], [], [], [],
            1, 1, 0⟩
        = some (Y_data, [1, 1, 2, 2]) :=
  let ⟨Y, hY, _⟩ := (ComputeExpectedOutput_single_tap_scaler IntType.uint8
    ⟨⟨[3, 4, 5, 6], [1, 1, 2, 2], [1], 1⟩, ⟨[1], [1, 1, 1, 1], [1], 0⟩, [], [], [], [], 1, 1, 0⟩
    1 2 2 rfl rfl (by decide) rfl rfl (by decide) (by decide)).2
  ⟨Y, hY⟩
/-! ## The depthwise convolution -/

/-- The accumulator reads the input only inside the images of the group and the weights only
inside the weight row: it is the same for two data buffers that agree there. -/
theorem accumulate_congr_data (L : ConvLocals) (Xdata Wdata Xdata2 Wdata2 : List Int)
    (oh ow : Int)
    (hh0 : 0 ≤ L.input_h) (hh : fitsInt64 L.input_h) (hw0 : 0 ≤ L.input_w)
    (hw : fitsInt64 L.input_w)
    (hiw : ∀ kw : Nat, kw < L.kernel_w.toNat →
      fitsInt64 ((kw : Int) * L.dilation_w + ow * L.stride_w - L.pad_l))
    (hih : ∀ kh : Nat, kh < L.kernel_h.toNat →
      fitsInt64 ((kh : Int) * L.dilation_h + oh * L.stride_h - L.pad_t))
    (bias S xdata weight_row xdata2 weight_row2 : Int) (hS : bias = toInt32 S)
    (hX : ∀ ic : Nat, ic < L.group_input_channels.toNat → ∀ ih iw : Int,
      0 ≤ ih → ih < L.input_h → 0 ≤ iw → iw < L.input_w →
      readAt Xdata (xdata + (ic : Int) * (L.input_h * L.input_w) + (ih * L.input_w + iw))
        = readAt Xdata2 (xdata2 + (ic : Int) * (L.input_h * L.input_w) + (ih * L.input_w + iw)))
    (hW : ∀ ic kh kw : Nat, ic < L.group_input_channels.toNat → kh < L.kernel_h.toNat →
      kw < L.kernel_w.toNat →
      readAt Wdata (weight_row + (((ic : Int) * (L.kernel_h.toNat : Int) + (kh : Int))
          * (L.kernel_w.toNat : Int) + (kw : Int)))
        = readAt Wdata2 (weight_row2 + (((ic : Int) * (L.kernel_h.toNat : Int) + (kh : Int))
          * (L.kernel_w.toNat : Int) + (kw : Int)))) :
    accumulate L Xdata Wdata oh ow bias xdata weight_row
      = accumulate L Xdata2 Wdata2 oh ow bias xdata2 weight_row2 := by
  rw [accumulate_eq L Xdata Wdata oh ow hh0 hh hw0 hw hiw hih bias S xdata weight_row hS,
    accumulate_eq L Xdata2 Wdata2 oh ow hh0 hh hw0 hw hiw hih bias S xdata2 weight_row2 hS]
  congr 2
  apply Finset.sum_congr rfl
  intro ic hic
  apply Finset.sum_congr rfl
  intro kh hkh
  apply Finset.sum_congr rfl
  intro kw hkw
  unfold ptrTerm
  by_cases hc : 0 ≤ (kh : Int) * L.dilation_h + oh * L.stride_h - L.pad_t
      ∧ (kh : Int) * L.dilation_h + oh * L.stride_h - L.pad_t < L.input_h
      ∧ 0 ≤ (kw : Int) * L.dilation_w + ow * L.stride_w - L.pad_l
      ∧ (kw : Int) * L.dilation_w + ow * L.stride_w - L.pad_l < L.input_w
  · rw [if_pos hc, if_pos hc,
      hX ic (Finset.mem_range.mp hic) _ _ hc.1 hc.2.1 hc.2.2.1 hc.2.2.2,
      hW ic kh kw (Finset.mem_range.mp hic) (Finset.mem_range.mp hkh) (Finset.mem_range.mp hkw)]
  · rw [if_neg hc, if_neg hc]
theorem readAt_natCast (l : List Int) (i : Nat) : readAt l (i : Int) = l.getD i 0 := by
  unfold readAt
  rw [Int.toNat_ofNat]

theorem getD_map_range (f : Nat → Int) (n k : Nat) (hk : k < n) :
    ((List.range n).map f).getD k 0 = f k := by
  rw [List.getD_eq_getElem?_getD, List.getElem?_map, List.getElem?_range hk]
  rfl

theorem getD_take_drop {β : Type} (l : List β) (a n i : Nat) (hi : i < n) (d : β) :
    ((l.drop a).take n).getD i d = l.getD (a + i) d := by
  rw [List.getD_eq_getElem?_getD, List.getD_eq_getElem?_getD, List.getElem?_take_of_lt hi,
    List.getElem?_drop]

/-- The output shape for an input and a kernel of rank 4. -/
theorem expectedShape_rank_four (n c h w m k kh kw : Int) (pads dilations strides : List Int) :
    expectedShape [n, c, h, w] [m, k, kh, kw] pads dilations strides 2
      = [n, m,
          Int.tdiv ((h + at64 pads 0 + at64 pads 2) - (at64 dilations 0 * (kh - 1) + 1))
            (at64 strides 0) + 1,
          Int.tdiv ((w + at64 pads 1 + at64 pads 3) - (at64 dilations 1 * (kw - 1) + 1))
            (at64 strides 1) + 1] := by
  have e : List.range 2 = [0, 1] := rfl
  unfold expectedShape
  rw [e]
  simp only [List.foldl_cons, List.foldl_nil, at64, List.getD_cons_zero, List.getD_cons_succ,
    List.cons_append, List.nil_append]

/-- The tester `groupTester t g`, for a tester whose shapes are those of a depthwise
convolution. -/
theorem groupTester_eq (t : QLinearConvOpTester) (g N C H Wd goc KH KW : Nat)
    (hX : t.X_.shape_ = [(N : Int), (C : Int), (H : Int), (Wd : Int)])
    (hW : t.W_.shape_ = [((C * goc : Nat) : Int), 1, (KH : Int), (KW : Int)])
    (hG : t.groups_ = (C : Int)) (hC : 1 ≤ C) :
    groupTester t g
      = { X_ := { data_ := (List.range (N * (H * Wd))).map
                    (fun (k : Nat) => readAt t.X_.data_
                      (((k / (H * Wd) * C + g) * (H * Wd) + k % (H * Wd) : Nat) : Int))
                  shape_ := [(N : Int), 1, (H : Int), (Wd : Int)]
                  scale_ := t.X_.scale_
                  zero_point_ := t.X_.zero_point_ }
          W_ := { data_ := (t.W_.data_.drop (g * (goc * (KH * KW)))).take (goc * (KH * KW))
                  shape_ := [(goc : Int), 1, (KH : Int), (KW : Int)]
                  scale_ := if t.W_.scale_.length = 1 then t.W_.scale_
                    else (t.W_.scale_.drop (g * goc)).take goc
                  zero_point_ := t.W_.zero_point_ }
          B_ := (t.B_.drop (g * goc)).take goc
          pads_ := t.pads_
          strides_ := t.strides_
          dilations_ := t.dilations_
          groups_ := 1
          output_scale_ := t.output_scale_
          output_zero_point_ := t.output_zero_point_ } := by
  have hmax : max (C : Int) 1 = (C : Int) := max_eq_left (by exact_mod_cast hC)
  have hgoc : (Int.tdiv ((C * goc : Nat) : Int) (C : Int)).toNat = goc := by
    rw [Nat.cast_mul, Int.mul_tdiv_cancel_left _ (by omega), Int.toNat_ofNat]
  unfold groupTester
  simp only [hX, hW, hG, hmax, at64, List.getD_cons_zero, List.getD_cons_succ, Int.toNat_ofNat,
    hgoc]
/-- The accumulator of output channel `g * goc + oc` of a depthwise convolution is the
accumulator of output channel `oc` of the single-channel convolution of group `g`. -/
theorem accumulate_depthwise (N C H Wd goc KH KW : Nat)
    (e0 e1 p0 p1 d0 d1 s0 s1 zp : Int) (Xdata Wdata : List Int) (b g oc oh ow : Nat)
    (hb : b < N) (hoc : oc < goc)
    (hH : (H : Int) < 9223372036854775808) (hWd : (Wd : Int) < 9223372036854775808)
    (hih : ∀ kh : Nat, kh < KH → fitsInt64 ((kh : Int) * d0 + (oh : Int) * s0 - p0))
    (hiw : ∀ kw : Nat, kw < KW → fitsInt64 ((kw : Int) * d1 + (ow : Int) * s1 - p1))
    (bias S : Int) (hS : bias = toInt32 S) :
    accumulate ⟨(N : Int), (C : Int), 1, (goc : Int), (H : Int), (Wd : Int), (KH : Int),
        (KW : Int), e0, e1, p0, p1, d0, d1, s0, s1, zp⟩ Xdata Wdata (oh : Int) (ow : Int) bias
        (xdataAt ⟨(N : Int), (C : Int), 1, (goc : Int), (H : Int), (Wd : Int), (KH : Int),
          (KW : Int), e0, e1, p0, p1, d0, d1, s0, s1, zp⟩ b g)
        (weightRowAt ⟨(N : Int), (C : Int), 1, (goc : Int), (H : Int), (Wd : Int), (KH : Int),
          (KW : Int), e0, e1, p0, p1, d0, d1, s0, s1, zp⟩ g oc)
      = accumulate ⟨(N : Int), 1, 1, (goc : Int), (H : Int), (Wd : Int), (KH : Int),
          (KW : Int), e0, e1, p0, p1, d0, d1, s0, s1, zp⟩
        ((List.range (N * (H * Wd))).map
          (fun (k : Nat) => readAt Xdata
            (((k / (H * Wd) * C + g) * (H * Wd) + k % (H * Wd) : Nat) : Int)))
        ((Wdata.drop (g * (goc * (KH * KW)))).take (goc * (KH * KW)))
        (oh : Int) (ow : Int) bias
        (xdataAt ⟨(N : Int), 1, 1, (goc : Int), (H : Int), (Wd : Int), (KH : Int),
          (KW : Int), e0, e1, p0, p1, d0, d1, s0, s1, zp⟩ b 0)
        (weightRowAt ⟨(N : Int), 1, 1, (goc : Int), (H : Int), (Wd : Int), (KH : Int),
          (KW : Int), e0, e1, p0, p1, d0, d1, s0, s1, zp⟩ 0 oc) := by
  have hfit : ∀ (k : Nat), (k : Int) < 9223372036854775808 → fitsInt64 (k : Int) := by
    intro k h2
    unfold fitsInt64
    omega
  have h1 : (1 : Int).toNat = 1 := rfl
  have hgc : accumulate ⟨(N : Int), 1, 1, (goc : Int), (H : Int), (Wd : Int), (KH : Int),
        (KW : Int), e0, e1, p0, p1, d0, d1, s0, s1, zp⟩
        ((List.range (N * (H * Wd))).map
          (fun (k : Nat) => readAt Xdata
            (((k / (H * Wd) * C + g) * (H * Wd) + k % (H * Wd) : Nat) : Int)))
        ((Wdata.drop (g * (goc * (KH * KW)))).take (goc * (KH * KW)))
        (oh : Int) (ow : Int) bias
        (xdataAt ⟨(N : Int), 1, 1, (goc : Int), (H : Int), (Wd : Int), (KH : Int),
          (KW : Int), e0, e1, p0, p1, d0, d1, s0, s1, zp⟩ b 0)
        (weightRowAt ⟨(N : Int), 1, 1, (goc : Int), (H : Int), (Wd : Int), (KH : Int),
          (KW : Int), e0, e1, p0, p1, d0, d1, s0, s1, zp⟩ 0 oc)
      = accumulate ⟨(N : Int), (C : Int), 1, (goc : Int), (H : Int), (Wd : Int), (KH : Int),
          (KW : Int), e0, e1, p0, p1, d0, d1, s0, s1, zp⟩
        ((List.range (N * (H * Wd))).map
          (fun (k : Nat) => readAt Xdata
            (((k / (H * Wd) * C + g) * (H * Wd) + k % (H * Wd) : Nat) : Int)))
        ((Wdata.drop (g * (goc * (KH * KW)))).take (goc * (KH * KW)))
        (oh : Int) (ow : Int) bias
        (xdataAt ⟨(N : Int), 1, 1, (goc : Int), (H : Int), (Wd : Int), (KH : Int),
          (KW : Int), e0, e1, p0, p1, d0, d1, s0, s1, zp⟩ b 0)
        (weightRowAt ⟨(N : Int), 1, 1, (goc : Int), (H : Int), (Wd : Int), (KH : Int),
          (KW : Int), e0, e1, p0, p1, d0, d1, s0, s1, zp⟩ 0 oc) := rfl
  rw [hgc]
  apply accumulate_congr_data _ _ _ _ _ _ _ (Int.natCast_nonneg H) (hfit H hH)
    (Int.natCast_nonneg Wd) (hfit Wd hWd)
    (fun kw hkw => hiw kw (by simpa using hkw)) (fun kh hkh => hih kh (by simpa using hkh))
    bias S _ _ _ _ hS
  · intro ic hic ih iw hih0 hih1 hiw0 hiw1
    have hic0 : ic = 0 := by
      have : ic < (1 : Int).toNat := hic
      rw [h1] at this
      omega
    subst hic0
    obtain ⟨ihn, rfl⟩ := Int.eq_ofNat_of_zero_le hih0
    obtain ⟨iwn, rfl⟩ := Int.eq_ofNat_of_zero_le hiw0
    have hihn : ihn < H := by
      have : (ihn : Int) < (H : Int) := hih1
      exact_mod_cast this
    have hiwn : iwn < Wd := by
      have : (iwn : Int) < (Wd : Int) := hiw1
      exact_mod_cast this
    have hr : ihn * Wd + iwn < H * Wd := by
      calc ihn * Wd + iwn < ihn * Wd + Wd := by omega
        _ = (ihn + 1) * Wd := by ring
        _ ≤ H * Wd := Nat.mul_le_mul_right _ (by omega)
    have hk : b * (H * Wd) + (ihn * Wd + iwn) < N * (H * Wd) := by
      calc b * (H * Wd) + (ihn * Wd + iwn) < b * (H * Wd) + H * Wd := by omega
        _ = (b + 1) * (H * Wd) := by ring
        _ ≤ N * (H * Wd) := Nat.mul_le_mul_right _ (by omega)
    have hpos : 0 < H * Wd := by omega
    have hdiv : (b * (H * Wd) + (ihn * Wd + iwn)) / (H * Wd) = b := by
      rw [Nat.add_comm, Nat.add_mul_div_right _ _ hpos, Nat.div_eq_of_lt hr, Nat.zero_add]
    have hmod : (b * (H * Wd) + (ihn * Wd + iwn)) % (H * Wd) = ihn * Wd + iwn := by
      rw [Nat.add_comm, Nat.add_mul_mod_self_right, Nat.mod_eq_of_lt hr]
    have e1x : xdataAt ⟨(N : Int), (C : Int), 1, (goc : Int), (H : Int), (Wd : Int), (KH : Int),
          (KW : Int), e0, e1, p0, p1, d0, d1, s0, s1, zp⟩ b g
          + ((0 : Nat) : Int) * ((H : Int) * (Wd : Int)) + ((ihn : Int) * (Wd : Int) + (iwn : Int))
        = (((b * C + g) * (H * Wd) + (ihn * Wd + iwn) : Nat) : Int) := by
      unfold xdataAt
      simp only [Int.toNat_ofNat]
      push_cast
      ring
    have e2x : xdataAt ⟨(N : Int), 1, 1, (goc : Int), (H : Int), (Wd : Int), (KH : Int),
          (KW : Int), e0, e1, p0, p1, d0, d1, s0, s1, zp⟩ b 0
          + ((0 : Nat) : Int) * ((H : Int) * (Wd : Int)) + ((ihn : Int) * (Wd : Int) + (iwn : Int))
        = ((b * (H * Wd) + (ihn * Wd + iwn) : Nat) : Int) := by
      unfold xdataAt
      simp only [h1]
      push_cast
      ring
    show readAt Xdata (xdataAt _ b g + ((0 : Nat) : Int) * ((H : Int) * (Wd : Int))
        + ((ihn : Int) * (Wd : Int) + (iwn : Int)))
      = readAt _ (xdataAt _ b 0 + ((0 : Nat) : Int) * ((H : Int) * (Wd : Int))
        + ((ihn : Int) * (Wd : Int) + (iwn : Int)))
    rw [e1x, e2x, readAt_natCast _ (b * (H * Wd) + (ihn * Wd + iwn)), getD_map_range _ _ _ hk,
      hdiv, hmod]
  · intro ic kh kw hic hkh hkw
    have hic0 : ic = 0 := by
      have : ic < (1 : Int).toNat := hic
      rw [h1] at this
      omega
    subst hic0
    have hkh2 : kh < KH := by simpa using hkh
    have hkw2 : kw < KW := by simpa using hkw
    have hr : kh * KW + kw < KH * KW := by
      calc kh * KW + kw < kh * KW + KW := by omega
        _ = (kh + 1) * KW := by ring
        _ ≤ KH * KW := Nat.mul_le_mul_right _ (by omega)
    have hk : oc * (KH * KW) + (kh * KW + kw) < goc * (KH * KW) := by
      calc oc * (KH * KW) + (kh * KW + kw) < oc * (KH * KW) + KH * KW := by omega
        _ = (oc + 1) * (KH * KW) := by ring
        _ ≤ goc * (KH * KW) := Nat.mul_le_mul_right _ (by omega)
    have e1w : weightRowAt ⟨(N : Int), (C : Int), 1, (goc : Int), (H : Int), (Wd : Int),
          (KH : Int), (KW : Int), e0, e1, p0, p1, d0, d1, s0, s1, zp⟩ g oc
          + ((((0 : Nat) : Int) * (((KH : Int).toNat : Nat) : Int) + (kh : Int))
            * (((KW : Int).toNat : Nat) : Int) + (kw : Int))
        = ((g * (goc * (KH * KW)) + (oc * (KH * KW) + (kh * KW + kw)) : Nat) : Int) := by
      unfold weightRowAt
      simp only [Int.toNat_ofNat]
      push_cast
      ring
    have e2w : weightRowAt ⟨(N : Int), 1, 1, (goc : Int), (H : Int), (Wd : Int),
          (KH : Int), (KW : Int), e0, e1, p0, p1, d0, d1, s0, s1, zp⟩ 0 oc
          + ((((0 : Nat) : Int) * (((KH : Int).toNat : Nat) : Int) + (kh : Int))
            * (((KW : Int).toNat : Nat) : Int) + (kw : Int))
        = ((oc * (KH * KW) + (kh * KW + kw) : Nat) : Int) := by
      unfold weightRowAt
      simp only [Int.toNat_ofNat]
      push_cast
      ring
    show readAt Wdata (weightRowAt _ g oc
          + ((((0 : Nat) : Int) * (((KH : Int).toNat : Nat) : Int) + (kh : Int))
            * (((KW : Int).toNat : Nat) : Int) + (kw : Int)))
      = readAt _ (weightRowAt _ 0 oc
          + ((((0 : Nat) : Int) * (((KH : Int).toNat : Nat) : Int) + (kh : Int))
            * (((KW : Int).toNat : Nat) : Int) + (kw : Int)))
    rw [e1w, e2w, readAt_natCast, readAt_natCast, getD_take_drop _ _ _ _ hk]
/-- The bias of output channel `g * goc + oc` is the bias of channel `oc` of the slice of the
bias for group `g`. -/
theorem biasOf_slice (B : List Int) (g goc oc : Nat) (hoc : oc < goc) :
    biasOf B ((g : Int) * (goc : Int) + (oc : Int))
      = biasOf ((B.drop (g * goc)).take goc) (((0 : Nat) : Int) * (goc : Int) + (oc : Int)) := by
  have hread : readAt ((B.drop (g * goc)).take goc) (((0 : Nat) : Int) * (goc : Int) + (oc : Int))
      = readAt B ((g : Int) * (goc : Int) + (oc : Int)) := by
    have e1 : ((0 : Nat) : Int) * (goc : Int) + (oc : Int) = ((oc : Nat) : Int) := by
      push_cast; ring
    have e2 : (g : Int) * (goc : Int) + (oc : Int) = ((g * goc + oc : Nat) : Int) := by
      push_cast; ring
    rw [e1, e2, readAt_natCast, readAt_natCast, getD_take_drop _ _ _ _ hoc]
  unfold biasOf
  by_cases hB : B.isEmpty = true
  · have hB2 : B = [] := List.isEmpty_iff.mp hB
    subst hB2
    simp
  · rw [if_neg hB]
    by_cases hS : ((B.drop (g * goc)).take goc).isEmpty = true
    · rw [if_pos hS, ← hread]
      have hS2 : (B.drop (g * goc)).take goc = [] := List.isEmpty_iff.mp hS
      rw [hS2]
      unfold readAt toInt32
      simp
    · rw [if_neg hS, hread]

/-- The weight scale of output channel `g * goc + oc` is the weight scale of channel `oc` of the
slice of the weight scales for group `g`. -/
theorem weight_scale_slice (scale : List ℚ) (C g goc oc : Nat) (hg : g < C) (hoc : oc < goc)
    (hscale : scale.length = 1 ∨ scale.length = C * goc) :
    scale.getD (if scale.length = 1 then 0 else ((g : Int) * (goc : Int) + (oc : Int)).toNat) 0
      = (if scale.length = 1 then scale else (scale.drop (g * goc)).take goc).getD
          (if (if scale.length = 1 then scale else (scale.drop (g * goc)).take goc).length = 1
            then 0 else (((0 : Nat) : Int) * (goc : Int) + (oc : Int)).toNat) 0 := by
  have e1 : (((0 : Nat) : Int) * (goc : Int) + (oc : Int)).toNat = oc := by
    have : ((0 : Nat) : Int) * (goc : Int) + (oc : Int) = ((oc : Nat) : Int) := by
      push_cast; ring
    rw [this, Int.toNat_ofNat]
  have e2 : ((g : Int) * (goc : Int) + (oc : Int)).toNat = g * goc + oc := by
    have : (g : Int) * (goc : Int) + (oc : Int) = ((g * goc + oc : Nat) : Int) := by
      push_cast; ring
    rw [this, Int.toNat_ofNat]
  rw [e1, e2]
  by_cases h1 : scale.length = 1
  · rw [if_pos h1, if_pos h1, if_pos h1]
  · rw [if_neg h1, if_neg h1]
    have hlen : scale.length = C * goc := by
      rcases hscale with h | h
      · exact absurd h h1
      · exact h
    have hsl : ((scale.drop (g * goc)).take goc).length = goc := by
      rw [List.length_take, List.length_drop, hlen]
      have : (g + 1) * goc ≤ C * goc := Nat.mul_le_mul_right _ (by omega)
      have h2 : (g + 1) * goc = g * goc + goc := by ring
      omega
    rw [hsl]
    by_cases hg1 : goc = 1
    · rw [if_pos hg1]
      have hoc0 : oc = 0 := by omega
      subst hoc0
      rw [getD_take_drop _ _ _ _ hoc]
    · rw [if_neg hg1, getD_take_drop _ _ _ _ hoc]
/-- The elements `ComputeExpectedOutput` stores for a tester with input shape `[N, C, H, W]`,
weight shape `[M, gic, KH, KW]` whose checks hold: the requantized accumulators, by index. -/
theorem ComputeExpectedOutput_getElem? (T1 : IntType) (t : QLinearConvOpTester)
    (N C H Wd M gic KH KW G goc : Nat)
    (hX : t.X_.shape_ = [(N : Int), (C : Int), (H : Int), (Wd : Int)])
    (hW : t.W_.shape_ = [(M : Int), (gic : Int), (KH : Int), (KW : Int)])
    (hG : max t.groups_ 1 = (G : Int)) (hC : C = gic * G) (hM : M = goc * G)
    (E0 E1 : Int)
    (hshape : [(N : Int), (M : Int), E0, E1]
      = expectedShape t.X_.shape_ t.W_.shape_ (effectivePads t 2) (effectiveDilations t 2)
          (effectiveStrides t 2) 2) :
    ∃ Y_data : List Int,
      ComputeExpectedOutput T1 t = some (Y_data, [(N : Int), (M : Int), E0, E1])
      ∧ ∀ b g oc oh ow : Nat, b < N → g < G → oc < goc → oh < E0.toNat → ow < E1.toNat →
          Y_data[(((b * G + g) * goc + oc) * E0.toNat + oh) * E1.toNat + ow]?
            = some (RequantizeOutput T1
                (accumulate ⟨(N : Int), (G : Int), (gic : Int), (goc : Int), (H : Int), (Wd : Int),
                    (KH : Int), (KW : Int), E0, E1, at64 (effectivePads t 2) 0,
                    at64 (effectivePads t 2) 1, at64 (effectiveDilations t 2) 0,
                    at64 (effectiveDilations t 2) 1, at64 (effectiveStrides t 2) 0,
                    at64 (effectiveStrides t 2) 1, toInt32 t.X_.zero_point_⟩
                  t.X_.data_ t.W_.data_ (oh : Int) (ow : Int)
                  (biasOf t.B_ ((g : Int) * (goc : Int) + (oc : Int)))
                  (xdataAt ⟨(N : Int), (G : Int), (gic : Int), (goc : Int), (H : Int), (Wd : Int),
                    (KH : Int), (KW : Int), E0, E1, at64 (effectivePads t 2) 0,
                    at64 (effectivePads t 2) 1, at64 (effectiveDilations t 2) 0,
                    at64 (effectiveDilations t 2) 1, at64 (effectiveStrides t 2) 0,
                    at64 (effectiveStrides t 2) 1, toInt32 t.X_.zero_point_⟩ b g)
                  (weightRowAt ⟨(N : Int), (G : Int), (gic : Int), (goc : Int), (H : Int),
                    (Wd : Int), (KH : Int), (KW : Int), E0, E1, at64 (effectivePads t 2) 0,
                    at64 (effectivePads t 2) 1, at64 (effectiveDilations t 2) 0,
                    at64 (effectiveDilations t 2) 1, at64 (effectiveStrides t 2) 0,
                    at64 (effectiveStrides t 2) 1, toInt32 t.X_.zero_point_⟩ g oc))
                (requantizeScale t ((g : Int) * (goc : Int) + (oc : Int)))
                (RequantizeValues.create T1 t.output_zero_point_)) := by
  have hlenW : t.W_.shape_.length - 2 = 2 := by rw [hW]; rfl
  have hrank : 2 < t.W_.shape_.length := by rw [hW]; simp
  have hsame : t.X_.shape_.length = t.W_.shape_.length := by rw [hX, hW]; rfl
  have hG1 : 1 ≤ G := by
    have : (1 : Int) ≤ max t.groups_ 1 := le_max_right _ _
    rw [hG] at this
    exact_mod_cast this
  have hin : at64 t.X_.shape_ 1 = at64 t.W_.shape_ 1 * max t.groups_ 1 := by
    rw [hX, hW, hG]
    show (C : Int) = (gic : Int) * (G : Int)
    rw [hC]; push_cast; ring
  have hdiv : Int.tdiv (M : Int) (G : Int) = (goc : Int) := by
    rw [hM, Nat.cast_mul, Int.mul_tdiv_cancel _ (by omega)]
  have hout : at64 t.W_.shape_ 0
      = Int.tdiv (at64 t.W_.shape_ 0) (max t.groups_ 1) * max t.groups_ 1 := by
    rw [hW, hG]
    show (M : Int) = Int.tdiv (M : Int) (G : Int) * (G : Int)
    rw [hdiv, hM]; push_cast; ring
  have hshape2 : [(N : Int), (M : Int), E0, E1]
      = expectedShape t.X_.shape_ t.W_.shape_
        (effectivePads t (t.W_.shape_.length - 2))
        (effectiveDilations t (t.W_.shape_.length - 2))
        (effectiveStrides t (t.W_.shape_.length - 2)) (t.W_.shape_.length - 2) := by
    rw [hlenW]; exact hshape
  have hval := ComputeExpectedOutput_of_checks T1 t hrank hsame hin hout _ hshape2 _ rfl
  refine ⟨_, hval, ?_⟩
  intro b g oc oh ow hb hg hoc hoh how
  apply getElem?_append_of_some
  rw [hlenW]
  have hL : convLocals t (effectivePads t 2) (effectiveDilations t 2) (effectiveStrides t 2)
        [(N : Int), (M : Int), E0, E1]
      = ⟨(N : Int), (G : Int), (gic : Int), (goc : Int), (H : Int), (Wd : Int),
          (KH : Int), (KW : Int), E0, E1, at64 (effectivePads t 2) 0,
          at64 (effectivePads t 2) 1, at64 (effectiveDilations t 2) 0,
          at64 (effectiveDilations t 2) 1, at64 (effectiveStrides t 2) 0,
          at64 (effectiveStrides t 2) 1, toInt32 t.X_.zero_point_⟩ := by
    unfold convLocals
    rw [hX, hW, hG]
    show (⟨(N : Int), (G : Int), (gic : Int), Int.tdiv (M : Int) (G : Int), (H : Int), (Wd : Int),
          (KH : Int), (KW : Int), E0, E1, at64 (effectivePads t 2) 0,
          at64 (effectivePads t 2) 1, at64 (effectiveDilations t 2) 0,
          at64 (effectiveDilations t 2) 1, at64 (effectiveStrides t 2) 0,
          at64 (effectiveStrides t 2) 1, toInt32 t.X_.zero_point_⟩ : ConvLocals) = _
    rw [hdiv]
  rw [hL]
  have hget := convLoops_getElem?
    (⟨(N : Int), (G : Int), (gic : Int), (goc : Int), (H : Int), (Wd : Int),
      (KH : Int), (KW : Int), E0, E1, at64 (effectivePads t 2) 0,
      at64 (effectivePads t 2) 1, at64 (effectiveDilations t 2) 0,
      at64 (effectiveDilations t 2) 1, at64 (effectiveStrides t 2) 0,
      at64 (effectiveStrides t 2) 1, toInt32 t.X_.zero_point_⟩ : ConvLocals)
    t.X_.data_ t.W_.data_ t.B_
    (fun channel_index sum =>
      RequantizeOutput T1 sum (requantizeScale t channel_index)
        (RequantizeValues.create T1 t.output_zero_point_)) b g oc oh ow
    (show b < ((N : Int)).toNat by simpa using hb) (show g < ((G : Int)).toNat by simpa using hg)
    (show oc < ((goc : Int)).toNat by simpa using hoc) hoh how
  simp only [Int.toNat_ofNat] at hget
  exact hget
theorem effectivePads_groupTester (t : QLinearConvOpTester) (g k : Nat) :
    effectivePads (groupTester t g) k = effectivePads t k := rfl

theorem effectiveDilations_groupTester (t : QLinearConvOpTester) (g k : Nat) :
    effectiveDilations (groupTester t g) k = effectiveDilations t k := rfl

theorem effectiveStrides_groupTester (t : QLinearConvOpTester) (g k : Nat) :
    effectiveStrides (groupTester t g) k = effectiveStrides t k := rfl

/-- C18: depthwise convolution.  For the reference convolution with group count `C` equal to the
input channel count (input shape `[N, C, H, W]`, weight shape `[C * goc, 1, KH, KW]`, weight
scales shared or one per output channel), the output is, along the channel axis, the
concatenation for `g = 0 .. C - 1` of the outputs of the `group = 1` convolutions
`groupTester t g` of input channel `g` alone with the `g`-th block of `goc` weight rows and the
matching slices of bias and weight scales: in every batch `b` the output channel `g * goc + oc`
of the grouped convolution is the output channel `oc` of the convolution of group `g`, element
by element. -/
theorem ComputeExpectedOutput_depthwise (T1 : IntType) (t : QLinearConvOpTester)
    (N C H Wd goc KH KW : Nat)
    (hX : t.X_.shape_ = [(N : Int), (C : Int), (H : Int), (Wd : Int)])
    (hW : t.W_.shape_ = [((C * goc : Nat) : Int), 1, (KH : Int), (KW : Int)])
    (hG : t.groups_ = (C : Int)) (hC : 1 ≤ C)
    (hscale : t.W_.scale_.length = 1 ∨ t.W_.scale_.length = C * goc)
    (hH : (H : Int) < 9223372036854775808) (hWd : (Wd : Int) < 9223372036854775808)
    (Y_shape : List Int)
    (hshape : Y_shape = expectedShape t.X_.shape_ t.W_.shape_ (effectivePads t 2)
      (effectiveDilations t 2) (effectiveStrides t 2) 2)
    (hih : ∀ kh oh : Nat, kh < KH → oh < (at64 Y_shape 2).toNat →
      fitsInt64 ((kh : Int) * at64 (effectiveDilations t 2) 0
        + (oh : Int) * at64 (effectiveStrides t 2) 0 - at64 (effectivePads t 2) 0))
    (hiw : ∀ kw ow : Nat, kw < KW → ow < (at64 Y_shape 3).toNat →
      fitsInt64 ((kw : Int) * at64 (effectiveDilations t 2) 1
        + (ow : Int) * at64 (effectiveStrides t 2) 1 - at64 (effectivePads t 2) 1)) :
    ∃ Y_data : List Int,
      ComputeExpectedOutput T1 t = some (Y_data, Y_shape)
      ∧ Y_shape = [(N : Int), ((C * goc : Nat) : Int), at64 Y_shape 2, at64 Y_shape 3]
      ∧ ∀ g : Nat, g < C →
          ∃ Y_group : List Int,
            ComputeExpectedOutput T1 (groupTester t g)
              = some (Y_group, [(N : Int), (goc : Int), at64 Y_shape 2, at64 Y_shape 3])
            ∧ ∀ b oc oh ow : Nat, b < N → oc < goc → oh < (at64 Y_shape 2).toNat →
                ow < (at64 Y_shape 3).toNat →
                ∃ v : Int,
                  Y_data[(((b * C + g) * goc + oc) * (at64 Y_shape 2).toNat + oh)
                      * (at64 Y_shape 3).toNat + ow]? = some v
                  ∧ Y_group[((b * goc + oc) * (at64 Y_shape 2).toNat + oh)
                      * (at64 Y_shape 3).toNat + ow]? = some v := by
  have hmax : max t.groups_ 1 = (C : Int) := by
    rw [hG]; exact max_eq_left (by exact_mod_cast hC)
  have hW2 : t.W_.shape_ = [((C * goc : Nat) : Int), ((1 : Nat) : Int), (KH : Int), (KW : Int)] := by
    rw [hW]; rfl
  obtain ⟨E0, hE0⟩ : ∃ E0 : Int, E0 = at64 Y_shape 2 := ⟨_, rfl⟩
  obtain ⟨E1, hE1⟩ : ∃ E1 : Int, E1 = at64 Y_shape 3 := ⟨_, rfl⟩
  have hYs : Y_shape = [(N : Int), ((C * goc : Nat) : Int), E0, E1] := by
    rw [hE0, hE1, hshape, hX, hW, expectedShape_rank_four]
    rfl
  rw [← hE0] at hih
  rw [← hE1] at hiw
  rw [← hE0, ← hE1]
  have hshape_t : [(N : Int), ((C * goc : Nat) : Int), E0, E1]
      = expectedShape t.X_.shape_ t.W_.shape_ (effectivePads t 2) (effectiveDilations t 2)
          (effectiveStrides t 2) 2 := by
    rw [← hYs]; exact hshape
  obtain ⟨Y, hY, hel⟩ := ComputeExpectedOutput_getElem? T1 t N C H Wd (C * goc) 1 KH KW C goc
    hX hW2 hmax (by ring) (by ring) E0 E1 hshape_t
  refine ⟨Y, by rw [hY, hYs], hYs, ?_⟩
  intro g hg
  have hgt := groupTester_eq t g N C H Wd goc KH KW hX hW hG hC
  have hXg : (groupTester t g).X_.shape_
      = [(N : Int), ((1 : Nat) : Int), (H : Int), (Wd : Int)] := by rw [hgt]; rfl
  have hWg : (groupTester t g).W_.shape_
      = [((goc : Nat) : Int), ((1 : Nat) : Int), (KH : Int), (KW : Int)] := by rw [hgt]; rfl
  have hGg : max (groupTester t g).groups_ 1 = ((1 : Nat) : Int) := by rw [hgt]; rfl
  have hshape_g : [(N : Int), ((goc : Nat) : Int), E0, E1]
      = expectedShape (groupTester t g).X_.shape_ (groupTester t g).W_.shape_
          (effectivePads (groupTester t g) 2) (effectiveDilations (groupTester t g) 2)
          (effectiveStrides (groupTester t g) 2) 2 := by
    rw [hXg, hWg, effectivePads_groupTester, effectiveDilations_groupTester,
      effectiveStrides_groupTester, expectedShape_rank_four]
    have h2 := hshape_t
    rw [hX, hW, expectedShape_rank_four] at h2
    have h3 := List.cons.inj (List.cons.inj h2).2
    rw [← (List.cons.inj h3.2).1, ← (List.cons.inj (List.cons.inj h3.2).2).1]
  obtain ⟨Yg, hYg, helg⟩ := ComputeExpectedOutput_getElem? T1 (groupTester t g) N 1 H Wd goc 1
    KH KW 1 goc hXg hWg hGg (by ring) (by ring) E0 E1 hshape_g
  refine ⟨Yg, hYg, ?_⟩
  intro b oc oh ow hb hoc hoh how
  have h1 := hel b g oc oh ow hb hg hoc hoh how
  have h2 := helg b 0 oc oh ow hb (by decide) hoc hoh how
  have hidx : (((b * 1 + 0) * goc + oc) * E0.toNat + oh) * E1.toNat + ow
      = ((b * goc + oc) * E0.toNat + oh) * E1.toNat + ow := by ring
  rw [hidx] at h2
  refine ⟨_, h1, ?_⟩
  rw [h2]
  have hdX : (groupTester t g).X_.data_ = (List.range (N * (H * Wd))).map
      (fun (k : Nat) => readAt t.X_.data_
        (((k / (H * Wd) * C + g) * (H * Wd) + k % (H * Wd) : Nat) : Int)) := by rw [hgt]
  have hdW : (groupTester t g).W_.data_
      = (t.W_.data_.drop (g * (goc * (KH * KW)))).take (goc * (KH * KW)) := by rw [hgt]
  have hdB : (groupTester t g).B_ = (t.B_.drop (g * goc)).take goc := by rw [hgt]
  have hzp : (groupTester t g).X_.zero_point_ = t.X_.zero_point_ := rfl
  have hozp : (groupTester t g).output_zero_point_ = t.output_zero_point_ := rfl
  have hsc : requantizeScale (groupTester t g) (((0 : Nat) : Int) * (goc : Int) + (oc : Int))
      = requantizeScale t ((g : Int) * (goc : Int) + (oc : Int)) := by
    have hws : (groupTester t g).W_.scale_ = if t.W_.scale_.length = 1 then t.W_.scale_
        else (t.W_.scale_.drop (g * goc)).take goc := by rw [hgt]
    have hxs : (groupTester t g).X_.scale_ = t.X_.scale_ := rfl
    have hos : (groupTester t g).output_scale_ = t.output_scale_ := rfl
    unfold requantizeScale
    rw [hws, hxs, hos, ← weight_scale_slice t.W_.scale_ C g goc oc hg hoc hscale]
  rw [hdX, hdW, hdB, hzp, hozp, hsc, effectivePads_groupTester, effectiveDilations_groupTester,
    effectiveStrides_groupTester, ← biasOf_slice t.B_ g goc oc hoc]
  have hacc := accumulate_depthwise N C H Wd goc KH KW E0 E1 (at64 (effectivePads t 2) 0)
    (at64 (effectivePads t 2) 1) (at64 (effectiveDilations t 2) 0)
    (at64 (effectiveDilations t 2) 1) (at64 (effectiveStrides t 2) 0)
    (at64 (effectiveStrides t 2) 1) (toInt32 t.X_.zero_point_) t.X_.data_ t.W_.data_
    b g oc oh ow hb hoc hH hWd (fun kh hkh => hih kh oh hkh hoh) (fun kw hkw => hiw kw ow hkw how)
    (biasOf t.B_ ((g : Int) * (goc : Int) + (oc : Int))) _ (biasOf_eq t.B_ _)
  exact congrArg (fun s => some (RequantizeOutput T1 s
    (requantizeScale t ((g : Int) * (goc : Int) + (oc : Int)))
    (RequantizeValues.create T1 t.output_zero_point_))) hacc.symm

/-- Witness of C18: two input channels of 2 x 2 elements, two groups, one 1 x 1 weight per
group. -/
theorem ComputeExpectedOutput_depthwise_witness :
    ∃ Y_data : List Int,
      ComputeExpectedOutput IntType.uint8
          ⟨⟨[1, 2, 3, 4, 5, 6, 7, 8], [1, 2, 2, 2], [1], 0⟩, ⟨[2, 3], [2, 1, 1, 1], [1], 0⟩,
            [], [], [], [], 2, 1, 0⟩
        = some (Y_data, [1, 2, 2, 2]) := by
  obtain ⟨Y, hY, -⟩ := ComputeExpectedOutput_depthwise IntType.uint8
    ⟨⟨[1, 2, 3, 4, 5, 6, 7, 8], [1, 2, 2, 2], [1], 0⟩, ⟨[2, 3], [2, 1, 1, 1], [1], 0⟩,
      [], [], [], [], 2, 1, 0⟩ 1 2 2 2 1 1 1 rfl rfl rfl (by decide) (Or.inl rfl) (by decide)
    (by decide) [1, 2, 2, 2] (by decide)
    (fun kh oh hkh hoh => by
      have h2 : oh < 2 := hoh
      have h1 : kh < 1 := hkh
      show fitsInt64 ((kh : Int) * 1 + (oh : Int) * 1 - 0)
      unfold fitsInt64
      omega)
    (fun kw ow hkw how => by
      have h2 : ow < 2 := how
      have h1 : kw < 1 := hkw
      show fitsInt64 ((kw : Int) * 1 + (ow : Int) * 1 - 0)
      unfold fitsInt64
      omega)
  exact ⟨Y, hY⟩
/-! ## The integer helpers of `math.h` -/

/-- For `a ≥ 0` and `b ≥ 1` the truncating division of `divUp` is the floor division. -/
theorem divUp_eq (a b : Int) (ha : 0 ≤ a) (hb : 1 ≤ b) : divUp a b = (a + b - 1) / b := by
  unfold divUp
  exact Int.tdiv_eq_ediv (by omega) (by omega)

/-- The two bounds that characterise `divUp a b`: `a ≤ divUp a b * b < a + b`. -/
theorem divUp_bounds (a b : Int) (ha : 0 ≤ a) (hb : 1 ≤ b) :
    a ≤ divUp a b * b ∧ divUp a b * b < a + b := by
  rw [divUp_eq a b ha hb]
  have h1 := Int.emod_add_ediv (a + b - 1) b
  have h2 := Int.emod_nonneg (a + b - 1) (show b ≠ 0 by omega)
  have h3 := Int.emod_lt_of_pos (a + b - 1) (show 0 < b by omega)
  have h4 : (a + b - 1) / b * b = b * ((a + b - 1) / b) := mul_comm _ _
  constructor <;> omega

/-- C21: for all integers `a ≥ 0` and `b ≥ 1`, `divUp a b` is `ceil(a / b)`: it is the least
integer `q` with `q * b ≥ a`, and it is the ceiling of the rational `a / b`. -/
theorem divUp_eq_ceil (a b : Int) (ha : 0 ≤ a) (hb : 1 ≤ b) :
    a ≤ divUp a b * b
      ∧ (∀ q : Int, a ≤ q * b → divUp a b ≤ q)
      ∧ divUp a b = ⌈(a : ℚ) / (b : ℚ)⌉ := by
  obtain ⟨h1, h2⟩ := divUp_bounds a b ha hb
  have hleast : ∀ q : Int, a ≤ q * b → divUp a b ≤ q := by
    intro q hq
    by_contra hlt
    have h3 : q + 1 ≤ divUp a b := by omega
    have h4 : (q + 1) * b ≤ divUp a b * b := Int.mul_le_mul_of_nonneg_right h3 (by omega)
    have h5 : (q + 1) * b = q * b + b := by ring
    omega
  refine ⟨h1, hleast, ?_⟩
  symm
  rw [Int.ceil_eq_iff]
  have hbq : (0 : ℚ) < (b : ℚ) := by exact_mod_cast (show (0 : Int) < b by omega)
  constructor
  · rw [lt_div_iff₀ hbq]
    have : (divUp a b - 1) * b < a := by
      have h5 : (divUp a b - 1) * b = divUp a b * b - b := by ring
      omega
    exact_mod_cast this
  · rw [div_le_iff₀ hbq]
    exact_mod_cast h1

/-- Witness of C21: `divUp 7 3 = 3`. -/
theorem divUp_eq_ceil_witness :
    (7 : Int) ≤ divUp 7 3 * 3
      ∧ (∀ q : Int, 7 ≤ q * 3 → divUp 7 3 ≤ q)
      ∧ divUp 7 3 = ⌈((7 : Int) : ℚ) / ((3 : Int) : ℚ)⌉ :=
  divUp_eq_ceil 7 3 (by decide) (by decide)

/-- The value of `roundUp a b` is the smallest multiple of `b` that is at least `a`. -/
theorem roundUp_spec (a b : Int) (ha : 0 ≤ a) (hb : 1 ≤ b) :
    b ∣ roundUp a b
      ∧ a ≤ roundUp a b
      ∧ (∀ m : Int, b ∣ m → a ≤ m → roundUp a b ≤ m)
      ∧ roundUp a b < a + b
      ∧ (roundUp a b = a ↔ b ∣ a) := by
  obtain ⟨h1, h2⟩ := divUp_bounds a b ha hb
  have hdvd : b ∣ roundUp a b := ⟨divUp a b, by unfold roundUp; ring⟩
  have hleast : ∀ m : Int, b ∣ m → a ≤ m → roundUp a b ≤ m := by
    rintro m ⟨q, rfl⟩ hm
    unfold roundUp
    by_contra hlt
    have h3 : q + 1 ≤ divUp a b := by
      by_contra h4
      have h5 : divUp a b ≤ q := by omega
      have h6 : divUp a b * b ≤ q * b := Int.mul_le_mul_of_nonneg_right h5 (by omega)
      have h7 : b * q = q * b := mul_comm _ _
      omega
    have h4 : (q + 1) * b ≤ divUp a b * b := Int.mul_le_mul_of_nonneg_right h3 (by omega)
    have h5 : (q + 1) * b = b * q + b := by ring
    omega
  refine ⟨hdvd, h1, hleast, h2, ?_⟩
  constructor
  · intro h
    rw [← h]
    exact hdvd
  · intro h
    have := hleast a h (le_refl a)
    unfold roundUp at this ⊢
    omega

/-- C22: for all integers `a ≥ 0` and `b ≥ 1`, `roundUp a b` is the smallest multiple of `b`
that is at least `a`; hence `a ≤ roundUp a b < a + b`, and `roundUp a b = a` exactly when `b`
divides `a`. -/
theorem roundUp_smallest_multiple (a b : Int) (ha : 0 ≤ a) (hb : 1 ≤ b) :
    b ∣ roundUp a b
      ∧ a ≤ roundUp a b
      ∧ (∀ m : Int, b ∣ m → a ≤ m → roundUp a b ≤ m)
      ∧ roundUp a b < a + b
      ∧ (roundUp a b = a ↔ b ∣ a) :=
  roundUp_spec a b ha hb

/-- Witness of C22: `roundUp 7 4 = 8`. -/
theorem roundUp_smallest_multiple_witness :
    (4 : Int) ∣ roundUp 7 4
      ∧ (7 : Int) ≤ roundUp 7 4
      ∧ (∀ m : Int, 4 ∣ m → 7 ≤ m → roundUp 7 4 ≤ m)
      ∧ roundUp 7 4 < 7 + 4
      ∧ (roundUp 7 4 = 7 ↔ (4 : Int) ∣ 7) :=
  roundUp_smallest_multiple 7 4 (by decide) (by decide)
/-! ### Powers of two -/

theorem nat_land_pred_even (m : Nat) (hm : 1 ≤ m) :
    (2 * m) &&& (2 * m - 1) = 2 * (m &&& (m - 1)) := by
  have h1 : 2 * m = Nat.bit false m := by simp [Nat.bit_val]
  have h2 : 2 * m - 1 = Nat.bit true (m - 1) := by simp [Nat.bit_val]; omega
  have h3 : 2 * (m &&& (m - 1)) = Nat.bit false (m &&& (m - 1)) := by simp [Nat.bit_val]
  rw [h2, h1, h3, Nat.land_bit]
  rfl

theorem nat_land_pred_odd (m : Nat) : (2 * m + 1) &&& (2 * m + 1 - 1) = 2 * m := by
  have h1 : 2 * m + 1 = Nat.bit true m := by simp [Nat.bit_val]
  have h2 : 2 * m + 1 - 1 = Nat.bit false m := by simp [Nat.bit_val]
  have h3 : 2 * m = Nat.bit false (m &&& m) := by simp [Nat.bit_val]
  rw [h2, h1, Nat.land_bit, Nat.and_self]
  simp [Nat.bit_val]

/-- A positive natural number shares no bit with its predecessor exactly when it is a power of
two. -/
theorem nat_land_pred_eq_zero_iff (n : Nat) (hn : 1 ≤ n) :
    n &&& (n - 1) = 0 ↔ ∃ k : Nat, n = 2 ^ k := by
  induction n using Nat.strong_induction_on with
  | _ n ih =>
    rcases Nat.even_or_odd' n with ⟨m, rfl | rfl⟩
    · have hm : 1 ≤ m := by omega
      rw [nat_land_pred_even m hm]
      constructor
      · intro h
        obtain ⟨k, hk⟩ := (ih m (by omega) hm).mp (by omega)
        exact ⟨k + 1, by rw [hk, pow_succ]; ring⟩
      · rintro ⟨k, hk⟩
        cases k with
        | zero => simp at hk
        | succ k =>
          have : m = 2 ^ k := by rw [pow_succ] at hk; omega
          have h0 := (ih m (by omega) hm).mpr ⟨k, this⟩
          omega
    · rw [nat_land_pred_odd m]
      constructor
      · intro h
        have : m = 0 := by omega
        subst this
        exact ⟨0, rfl⟩
      · rintro ⟨k, hk⟩
        cases k with
        | zero => simp at hk; omega
        | succ k => rw [pow_succ] at hk; omega

/-- The value of `integerIsPowerOf2` on a natural number. -/
theorem integerIsPowerOf2_natCast (n : Nat) :
    integerIsPowerOf2 (n : Int) = true ↔ ∃ k : Nat, n = 2 ^ k := by
  unfold integerIsPowerOf2
  rcases Nat.eq_zero_or_pos n with h0 | hpos
  · subst h0
    simp only [Nat.cast_zero, ne_eq, not_true_eq_false, decide_False, Bool.false_and,
      Bool.false_eq_true, false_iff, not_exists]
    intro k hk
    have := Nat.pos_pow_of_pos k (show 0 < 2 by decide)
    omega
  · have hsub : (n : Int) - 1 = ((n - 1 : Nat) : Int) := by omega
    have hland : Int.land (n : Int) ((n - 1 : Nat) : Int) = ((n &&& (n - 1) : Nat) : Int) := rfl
    rw [hsub, hland, ← nat_land_pred_eq_zero_iff n hpos]
    have hne : (n : Int) ≠ 0 := by omega
    simp only [ne_eq, hne, not_false_eq_true, decide_True, Bool.true_and, Nat.cast_eq_zero,
      decide_not, Bool.not_not, decide_eq_true_eq]

/-- C24: for every integer `v ≥ 0`, `integerIsPowerOf2 v` is true if and only if `v = 2 ^ k`
for some `k ≥ 0`; it is false for 0. -/
theorem integerIsPowerOf2_iff (v : Int) (hv : 0 ≤ v) :
    (integerIsPowerOf2 v = true ↔ ∃ k : Nat, v = 2 ^ k) ∧ integerIsPowerOf2 0 = false := by
  refine ⟨?_, by decide⟩
  obtain ⟨n, rfl⟩ := Int.eq_ofNat_of_zero_le hv
  rw [integerIsPowerOf2_natCast]
  constructor
  · rintro ⟨k, hk⟩; exact ⟨k, by rw [hk]; push_cast; rfl⟩
  · rintro ⟨k, hk⟩; exact ⟨k, by exact_mod_cast hk⟩

/-- Witness of C24: 8 is a power of two. -/
theorem integerIsPowerOf2_iff_witness :
    (integerIsPowerOf2 8 = true ↔ ∃ k : Nat, (8 : Int) = 2 ^ k) ∧ integerIsPowerOf2 0 = false :=
  integerIsPowerOf2_iff 8 (by decide)
/-- The recursion equation of `integerLog2`. -/
theorem integerLog2_eq (n p : Int) :
    integerLog2 n p = if n ≤ 1 then p else integerLog2 (Int.tdiv n 2) (p + 1) := by
  rw [integerLog2]
  split_ifs <;> rfl

/-- `integerLog2 n p` is `p` plus the floor of the binary logarithm of `n`. -/
theorem integerLog2_spec (k : Nat) : ∀ (n p : Int), 1 ≤ n → n.toNat ≤ k →
    ∃ r : Nat, integerLog2 n p = p + (r : Int) ∧ (2 : Int) ^ r ≤ n ∧ n < (2 : Int) ^ (r + 1) := by
  induction k with
  | zero => intro n p h1 h2; omega
  | succ k ih =>
    intro n p h1 h2
    rw [integerLog2_eq]
    by_cases hn : n ≤ 1
    · rw [if_pos hn]
      exact ⟨0, by simp, by simpa using h1, by norm_num; omega⟩
    · rw [if_neg hn]
      have hdiv : Int.tdiv n 2 = n / 2 := Int.tdiv_eq_ediv (by omega) (by omega)
      rw [hdiv]
      obtain ⟨r, hr, hlo, hhi⟩ := ih (n / 2) (p + 1) (by omega) (by omega)
      refine ⟨r + 1, by rw [hr]; push_cast; ring, ?_, ?_⟩
      · rw [pow_succ]; omega
      · rw [pow_succ] at hhi ⊢
        rw [pow_succ]
        omega

theorem log2_unique (n : Int) (r r2 : Nat) (h1 : (2 : Int) ^ r ≤ n) (h2 : n < (2 : Int) ^ (r + 1))
    (h3 : (2 : Int) ^ r2 ≤ n) (h4 : n < (2 : Int) ^ (r2 + 1)) : r2 = r := by
  have hmono : ∀ a b : Nat, a + 1 ≤ b → (2 : Int) ^ (a + 1) ≤ (2 : Int) ^ b :=
    fun a b hab => pow_le_pow_right₀ (by norm_num) hab
  by_contra hne
  rcases Nat.lt_or_gt_of_ne hne with h | h
  · have := hmono r2 r (by omega); omega
  · have := hmono r r2 (by omega); omega

/-- C25: for every integer `n ≥ 1` the recursion of `integerLog2` ends and returns the unique
`r ≥ 0` with `2 ^ r ≤ n < 2 ^ (r + 1)`, the floor of the binary logarithm of `n`; for every
`m ≤ 1` it returns 0. -/
theorem integerLog2_floor (n : Int) (hn : 1 ≤ n) :
    (∃ r : Nat, integerLog2 n 0 = (r : Int) ∧ (2 : Int) ^ r ≤ n ∧ n < (2 : Int) ^ (r + 1)
        ∧ ∀ r2 : Nat, (2 : Int) ^ r2 ≤ n → n < (2 : Int) ^ (r2 + 1) → r2 = r)
      ∧ ∀ m : Int, m ≤ 1 → integerLog2 m 0 = 0 := by
  constructor
  · obtain ⟨r, hr, hlo, hhi⟩ := integerLog2_spec n.toNat n 0 hn (le_refl _)
    exact ⟨r, by rw [hr]; ring, hlo, hhi, fun r2 h3 h4 => log2_unique n r r2 hlo hhi h3 h4⟩
  · intro m hm
    rw [integerLog2_eq, if_pos hm]

/-- Witness of C25: the statement at `n = 5`. -/
theorem integerLog2_floor_witness :
    (∃ r : Nat, integerLog2 5 0 = (r : Int) ∧ (2 : Int) ^ r ≤ 5 ∧ (5 : Int) < (2 : Int) ^ (r + 1)
        ∧ ∀ r2 : Nat, (2 : Int) ^ r2 ≤ 5 → (5 : Int) < (2 : Int) ^ (r2 + 1) → r2 = r)
      ∧ ∀ m : Int, m ≤ 1 → integerLog2 m 0 = 0 :=
  integerLog2_floor 5 (by decide)

/-- C26: for every integer `v ≥ 1`, `integerNextHighestPowerOf2 v` is the smallest power of two
strictly greater than `v`; it is `2 * v` when `v` is itself a power of two. -/
theorem integerNextHighestPowerOf2_spec (v : Int) (hv : 1 ≤ v) :
    (∃ k : Nat, integerNextHighestPowerOf2 v = (2 : Int) ^ k)
      ∧ v < integerNextHighestPowerOf2 v
      ∧ (∀ j : Nat, v < (2 : Int) ^ j → integerNextHighestPowerOf2 v ≤ (2 : Int) ^ j)
      ∧ ((∃ k : Nat, v = (2 : Int) ^ k) → integerNextHighestPowerOf2 v = 2 * v) := by
  have hmono : ∀ a b : Nat, a ≤ b → (2 : Int) ^ a ≤ (2 : Int) ^ b :=
    fun a b hab => pow_le_pow_right₀ (by norm_num) hab
  obtain ⟨n, rfl⟩ := Int.eq_ofNat_of_zero_le (show 0 ≤ v by omega)
  have hiff := integerIsPowerOf2_natCast n
  unfold integerNextHighestPowerOf2
  by_cases hp : integerIsPowerOf2 (n : Int) = true
  · rw [if_pos hp]
    obtain ⟨k, hk⟩ := hiff.mp hp
    have hk2 : (n : Int) = (2 : Int) ^ k := by rw [hk]; push_cast; rfl
    refine ⟨⟨k + 1, by rw [hk2, pow_succ]; ring⟩, by omega, ?_, fun _ => rfl⟩
    intro j hj
    rw [hk2] at hj ⊢
    have hkj : k + 1 ≤ j := by
      by_contra hlt
      have := hmono j k (by omega)
      omega
    have := hmono (k + 1) j hkj
    rw [pow_succ] at this
    omega
  · rw [if_neg hp]
    obtain ⟨r, hr, hlo, hhi⟩ := integerLog2_spec n n 0 hv (by simp)
    have hshift : (1 : Int) <<< (integerLog2 (n : Int) 0 + 1) = (2 : Int) ^ (r + 1) := by
      rw [hr]
      have : (0 : Int) + (r : Int) + 1 = ((r + 1 : Nat) : Int) := by push_cast; ring
      rw [this, Int.one_shiftLeft]
      push_cast
      rfl
    rw [hshift]
    refine ⟨⟨r + 1, rfl⟩, hhi, ?_, ?_⟩
    · intro j hj
      apply hmono
      by_contra hlt
      have := hmono j r (by omega)
      omega
    · rintro ⟨k, hk⟩
      exact absurd (hiff.mpr ⟨k, by exact_mod_cast hk⟩) hp

/-- Witness of C26: the statement at `v = 5`. -/
theorem integerNextHighestPowerOf2_spec_witness :
    (∃ k : Nat, integerNextHighestPowerOf2 5 = (2 : Int) ^ k)
      ∧ (5 : Int) < integerNextHighestPowerOf2 5
      ∧ (∀ j : Nat, (5 : Int) < (2 : Int) ^ j → integerNextHighestPowerOf2 5 ≤ (2 : Int) ^ j)
      ∧ ((∃ k : Nat, (5 : Int) = (2 : Int) ^ k) → integerNextHighestPowerOf2 5 = 2 * 5) :=
  integerNextHighestPowerOf2_spec 5 (by decide)
/-- Clearing the `k` low bits of a natural number rounds it down to a multiple of `2 ^ k`. -/
theorem nat_ldiff_two_pow_sub_one (m k : Nat) :
    Nat.ldiff m (2 ^ k - 1) = 2 ^ k * (m / 2 ^ k) := by
  apply Nat.eq_of_testBit_eq
  intro i
  rw [Nat.testBit_ldiff, Nat.testBit_two_pow_sub_one, Nat.testBit_mul_pow_two,
    ← Nat.shiftRight_eq_div_pow, Nat.testBit_shiftRight]
  by_cases h : i < k
  · simp [h]
  · have h2 : k + (i - k) = i := by omega
    simp [h, h2]
    omega

/-- C23: for every `b` that is a power of two and every `a ≥ 0`,
`roundUpPow2<T, b>(a) = roundUp(a, b)`, the smallest multiple of `b` that is at least `a`. -/
theorem roundUpPow2_eq_roundUp (a b : Int) (ha : 0 ≤ a) (hb : ∃ k : Nat, b = (2 : Int) ^ k) :
    roundUpPow2 b a = roundUp a b
      ∧ b ∣ roundUpPow2 b a
      ∧ a ≤ roundUpPow2 b a
      ∧ (∀ m : Int, b ∣ m → a ≤ m → roundUpPow2 b a ≤ m) := by
  obtain ⟨k, rfl⟩ := hb
  obtain ⟨n, rfl⟩ := Int.eq_ofNat_of_zero_le ha
  have hpos : 1 ≤ 2 ^ k := Nat.one_le_two_pow
  have hb1 : (1 : Int) ≤ (2 : Int) ^ k := by exact_mod_cast hpos
  have heq : roundUpPow2 ((2 : Int) ^ k) (n : Int) = roundUp (n : Int) ((2 : Int) ^ k) := by
    have h2 : (2 : Int) ^ k - 1 = ((2 ^ k - 1 : Nat) : Int) := by
      rw [Nat.cast_sub hpos]
      push_cast
      rfl
    have h1 : (n : Int) + ((2 : Int) ^ k - 1) = ((n + (2 ^ k - 1) : Nat) : Int) := by
      rw [h2]
      push_cast
      rfl
    have h3 : Int.land ((n + (2 ^ k - 1) : Nat) : Int) (Int.lnot ((2 ^ k - 1 : Nat) : Int))
        = ((Nat.ldiff (n + (2 ^ k - 1)) (2 ^ k - 1) : Nat) : Int) := rfl
    unfold roundUpPow2
    rw [h1, h2, h3, nat_ldiff_two_pow_sub_one]
    unfold roundUp
    rw [divUp_eq _ _ ha hb1]
    have h4 : (n : Int) + (2 : Int) ^ k - 1 = ((n + (2 ^ k - 1) : Nat) : Int) := by
      rw [← h1]
      ring
    rw [h4]
    push_cast
    ring
  obtain ⟨h5, h6, h7, -, -⟩ := roundUp_spec (n : Int) ((2 : Int) ^ k) ha hb1
  rw [heq]
  exact ⟨rfl, h5, h6, h7⟩

/-- Witness of C23: `roundUpPow2<T, 8>(13) = roundUp(13, 8) = 16`. -/
theorem roundUpPow2_eq_roundUp_witness :
    roundUpPow2 8 13 = roundUp 13 8
      ∧ (8 : Int) ∣ roundUpPow2 8 13
      ∧ (13 : Int) ≤ roundUpPow2 8 13
      ∧ (∀ m : Int, 8 ∣ m → 13 ≤ m → roundUpPow2 8 13 ≤ m) :=
  roundUpPow2_eq_roundUp 13 8 (by decide) ⟨3, by decide⟩
/-! ## `CopyMatrix` -/

/-- The content of the written buffer after `copy(A + a, B + b, n)`. -/
theorem copyElements_apply {α : Type} (A : Int → α) (a : Int) (B : Int → α) (b : Int) (n : Nat)
    (p : Int) :
    copyElements A a B b n p
      = if b ≤ p ∧ p < b + (n : Int) then A (a + (p - b)) else B p := by
  unfold copyElements
  induction n with
  | zero =>
    rw [if_neg (by push_cast; omega)]
    rfl
  | succ n ih =>
    rw [foldl_range_succ]
    by_cases hp : p = b + (n : Int)
    · subst hp
      rw [Function.update_same, if_pos ⟨by omega, by push_cast; omega⟩]
      congr 1
      ring
    · rw [Function.update_noteq hp, ih]
      by_cases hc : b ≤ p ∧ p < b + (n : Int)
      · rw [if_pos hc, if_pos ⟨hc.1, by push_cast; omega⟩]
      · rw [if_neg hc, if_neg (by push_cast; omega)]

/-- The content of the written buffer after the first `m` rows of the loop of `CopyMatrix`, for
rows that do not overlap (`0 ≤ n ≤ ldb`). -/
theorem copyRows_fold {α : Type} (n : Nat) (A : Int → α) (lda : Int) (B : Int → α) (ldb : Int)
    (hldb : (n : Int) ≤ ldb) (m : Nat) (p : Int) :
    (∀ i : Nat, i < m → ldb * (i : Int) ≤ p → p < ldb * (i : Int) + (n : Int) →
        (List.range m).foldl
          (fun (B : Int → α) (i : Nat) => copyElements A (lda * (i : Int)) B (ldb * (i : Int)) n)
          B p = A (lda * (i : Int) + (p - ldb * (i : Int))))
      ∧ ((∀ i : Nat, i < m → ¬ (ldb * (i : Int) ≤ p ∧ p < ldb * (i : Int) + (n : Int))) →
        (List.range m).foldl
          (fun (B : Int → α) (i : Nat) => copyElements A (lda * (i : Int)) B (ldb * (i : Int)) n)
          B p = B p) := by
  induction m with
  | zero =>
    exact ⟨fun i hi => by omega, fun _ => rfl⟩
  | succ m ih =>
    obtain ⟨ih1, ih2⟩ := ih
    rw [foldl_range_succ, copyElements_apply]
    constructor
    · intro i hi h1 h2
      by_cases hm : ldb * (m : Int) ≤ p ∧ p < ldb * (m : Int) + (n : Int)
      · rw [if_pos hm]
        have him : i = m := by
          by_contra hne
          have hlt : i + 1 ≤ m := by omega
          have h3 : ldb * ((i : Int) + 1) ≤ ldb * (m : Int) :=
            Int.mul_le_mul_of_nonneg_left (by exact_mod_cast hlt) (by omega)
          have h4 : ldb * ((i : Int) + 1) = ldb * (i : Int) + ldb := by ring
          omega
        subst him
        rfl
      · rw [if_neg hm]
        have him : i < m := by
          by_contra hge
          have : i = m := by omega
          subst this
          exact hm ⟨h1, h2⟩
        exact ih1 i him h1 h2
    · intro hnone
      rw [if_neg (hnone m (by omega))]
      exact ih2 (fun i hi => hnone i (by omega))

/-- The loop of `CopyMatrix` when no offset `lda * i`, `ldb * i` overflows: the row copies one
after the other. -/
theorem copyRows_checked {α : Type} (N : Int) (A : Int → α) (lda : Int) (B : Int → α)
    (ldb : Int) (m : Nat)
    (h : ∀ i : Nat, i < m → fitsInt32 (lda * (i : Int)) ∧ fitsInt32 (ldb * (i : Int))) :
    (List.range m).foldl (copyRowStep N A lda ldb) (some B)
      = some ((List.range m).foldl
          (fun (B : Int → α) (i : Nat) =>
            copyElements A (lda * (i : Int)) B (ldb * (i : Int)) (toUInt64 N).toNat) B) := by
  induction m with
  | zero => rfl
  | succ m ih =>
    rw [foldl_range_succ, foldl_range_succ, ih (fun i hi => h i (by omega))]
    unfold copyRowStep
    simp only
    rw [if_pos (h m (by omega))]

/-- The function `CopyMatrix` when the `int` products do not overflow.  For `M, N ≥ 0` and
leading dimensions `lda ≥ N`, `ldb ≥ N` with `lda * M` and `ldb * M` values of `int`, the call
returns, `B[i * ldb + j] = A[i * lda + j]` for every `i < M` and `j < N`, every other element of
`B` is unchanged, and when `lda = ldb = N` the buffer of the single copy of the fast path is the
buffer of the row-by-row loop. -/
theorem CopyMatrix_spec {α : Type} (M N : Int) (A : Int → α) (lda : Int) (B : Int → α)
    (ldb : Int) (hM : 0 ≤ M) (hN : 0 ≤ N) (hM2 : M < 2147483648) (hN2 : N < 2147483648)
    (hlda : N ≤ lda) (hldb : N ≤ ldb)
    (hA : lda * M < 2147483648) (hB : ldb * M < 2147483648) :
    ∃ B2 : Int → α, CopyMatrix M N A lda B ldb = some B2
      ∧ (∀ i j : Int, 0 ≤ i → i < M → 0 ≤ j → j < N → B2 (i * ldb + j) = A (i * lda + j))
      ∧ (∀ p : Int, (¬ ∃ i j : Int, 0 ≤ i ∧ i < M ∧ 0 ≤ j ∧ j < N ∧ p = i * ldb + j) →
        B2 p = B p)
      ∧ (lda = N → ldb = N → copyRows M N A lda B ldb = some B2) := by
  obtain ⟨m, rfl⟩ := Int.eq_ofNat_of_zero_le hM
  obtain ⟨n, rfl⟩ := Int.eq_ofNat_of_zero_le hN
  have hsz : (toUInt64 (n : Int)).toNat = n := by
    unfold toUInt64
    rw [Int.emod_eq_of_lt (by omega) (by omega), Int.toNat_ofNat]
  have hprod : (toUInt64 ((n : Int) * (m : Int))).toNat = n * m := by
    unfold toUInt64
    have h1 : (n : Int) * (m : Int) = ((n * m : Nat) : Int) := by push_cast; rfl
    have h2 : (n : Int) * (m : Int) < 18446744073709551616 := by nlinarith
    rw [Int.emod_eq_of_lt (by nlinarith) h2, h1, Int.toNat_ofNat]
  have hfit : ∀ i : Nat, i < m → fitsInt32 (lda * (i : Int)) ∧ fitsInt32 (ldb * (i : Int)) := by
    intro i hi
    have hi2 : (i : Int) ≤ (m : Int) := by exact_mod_cast (Nat.le_of_lt hi)
    have h1 : lda * (i : Int) ≤ lda * (m : Int) :=
      Int.mul_le_mul_of_nonneg_left hi2 (by omega)
    have h2 : ldb * (i : Int) ≤ ldb * (m : Int) :=
      Int.mul_le_mul_of_nonneg_left hi2 (by omega)
    have h3 : 0 ≤ lda * (i : Int) := mul_nonneg (by omega) (by omega)
    have h4 : 0 ≤ ldb * (i : Int) := mul_nonneg (by omega) (by omega)
    unfold fitsInt32
    omega
  have hloop : copyRows (m : Int) (n : Int) A lda B ldb
      = some ((List.range m).foldl
          (fun (B : Int → α) (i : Nat) => copyElements A (lda * (i : Int)) B (ldb * (i : Int)) n)
          B) := by
    unfold copyRows
    rw [Int.toNat_ofNat, copyRows_checked (n : Int) A lda B ldb m hfit, hsz]
  have hrows := copyRows_fold n A lda B ldb hldb m
  have hfast : lda = (n : Int) → ldb = (n : Int) →
      CopyMatrix (m : Int) (n : Int) A lda B ldb = copyRows (m : Int) (n : Int) A lda B ldb := by
    intro h1 h2
    have hnm : fitsInt32 ((n : Int) * (m : Int)) := by
      have h0 : 0 ≤ (n : Int) * (m : Int) := mul_nonneg (by omega) (by omega)
      rw [h1] at hA
      unfold fitsInt32
      omega
    unfold CopyMatrix
    rw [if_pos ⟨h1, h2⟩, if_pos hnm, hprod, hloop]
    congr 1
    funext p
    rw [copyElements_apply]
    by_cases hp : (0 : Int) ≤ p ∧ p < 0 + ((n * m : Nat) : Int)
    · rw [if_pos hp]
      have hn0 : 0 < n := by
        rcases Nat.eq_zero_or_pos n with h | h
        · subst h; simp at hp; omega
        · exact h
      obtain ⟨q, rfl⟩ := Int.eq_ofNat_of_zero_le hp.1
      have hq : q < n * m := by
        have := hp.2
        rw [zero_add] at this
        exact_mod_cast this
      have hi : q / n < m := Nat.div_lt_of_lt_mul hq
      have hdm := Nat.div_add_mod q n
      have hmod := Nat.mod_lt q hn0
      have hcast : ((q : Nat) : Int)
          = (n : Int) * ((q / n : Nat) : Int) + ((q % n : Nat) : Int) := by
        exact_mod_cast hdm.symm
      rw [(hrows (q : Int)).1 (q / n) hi (by rw [h2]; omega) (by rw [h2]; omega), h1, h2]
      congr 1
      ring
    · rw [if_neg hp]
      symm
      apply (hrows p).2
      intro i hi hc
      apply hp
      rw [h2] at hc
      have h3 : (n : Int) * ((i : Int) + 1) ≤ (n : Int) * (m : Int) :=
        Int.mul_le_mul_of_nonneg_left (by exact_mod_cast hi) (by omega)
      have h4 : (n : Int) * ((i : Int) + 1) = (n : Int) * (i : Int) + (n : Int) := by ring
      have h5 : (0 : Int) ≤ (n : Int) * (i : Int) :=
        mul_nonneg (by omega) (by omega)
      constructor
      · omega
      · push_cast
        omega
  have hall : CopyMatrix (m : Int) (n : Int) A lda B ldb
      = copyRows (m : Int) (n : Int) A lda B ldb := by
    by_cases hc : lda = (n : Int) ∧ ldb = (n : Int)
    · exact hfast hc.1 hc.2
    · unfold CopyMatrix
      rw [if_neg hc]
  refine ⟨_, hall.trans hloop, ?_, ?_, fun _ _ => hloop⟩
  · intro i j hi0 hi1 hj0 hj1
    obtain ⟨i2, rfl⟩ := Int.eq_ofNat_of_zero_le hi0
    rw [(hrows _).1 i2 (by exact_mod_cast hi1) (by rw [mul_comm]; omega)
      (by rw [mul_comm]; omega)]
    congr 1
    ring
  · intro p hp
    apply (hrows p).2
    intro i hi hc
    apply hp
    exact ⟨(i : Int), p - ldb * (i : Int), by omega, by exact_mod_cast hi, by omega, by omega,
      by ring⟩

/-- A 2 x 3 matrix copied from rows of 4 elements into rows of 5 elements. -/
theorem CopyMatrix_spec_example :
    ∃ B2 : Int → Int, CopyMatrix 2 3 (fun i => i + 100) 4 (fun _ => (0 : Int)) 5 = some B2
      ∧ (∀ i j : Int, 0 ≤ i → i < 2 → 0 ≤ j → j < 3 →
          B2 (i * 5 + j) = (fun i => i + 100) (i * 4 + j))
      ∧ (∀ p : Int, (¬ ∃ i j : Int, 0 ≤ i ∧ i < 2 ∧ 0 ≤ j ∧ j < 3 ∧ p = i * 5 + j) →
        B2 p = (fun _ => (0 : Int)) p)
      ∧ ((4 : Int) = 3 → (5 : Int) = 3 →
        copyRows 2 3 (fun i => i + 100) 4 (fun _ => (0 : Int)) 5 = some B2) :=
  CopyMatrix_spec 2 3 (fun i => i + 100) 4 (fun _ => (0 : Int)) 5 (by decide) (by decide)
    (by decide) (by decide) (by decide) (by decide) (by decide) (by decide)

/-- C27, failing input: `M = N = lda = ldb = 65536`, a matrix of `2 ^ 32` elements.  The fast
path evaluates `N * M` as an `int` product, which is `2 ^ 32` and no value of `int`: the call
has undefined behaviour and no result (`none`).  With the product wrapped to 32 bits the count
`static_cast<size_t>(N * M)` is 0 and the single copy leaves `B` unchanged, `B[0]` keeping 0
where `A[0]` is 100.  The same happens in the row loop for `lda = 2 ^ 30`, `M = 4`, `N = 1`,
where the offset `lda * 2` is `2 ^ 31`. -/
theorem CopyMatrix_int_product_overflow :
    ¬ fitsInt32 (65536 * 65536)
    ∧ CopyMatrix 65536 65536 (fun i => i + 100) 65536 (fun _ => (0 : Int)) 65536 = none
    ∧ toInt32 (65536 * 65536) = 0
    ∧ copyElements (fun i => i + 100) 0 (fun _ => (0 : Int)) 0
        (toUInt64 (toInt32 (65536 * 65536))).toNat 0 = 0
    ∧ (fun i : Int => i + 100) (0 * 65536 + 0) = 100
    ∧ CopyMatrix 4 1 (fun i => i + 100) 1073741824 (fun _ => (0 : Int)) 1073741824 = none := by
  have hnot : ¬ fitsInt32 (65536 * 65536) := by
    unfold fitsInt32
    omega
  have hwrap : toInt32 (65536 * 65536) = 0 := by
    unfold toInt32
    omega
  refine ⟨hnot, ?_, hwrap, ?_, rfl, ?_⟩
  · unfold CopyMatrix
    rw [if_pos ⟨rfl, rfl⟩, if_neg hnot]
  · rw [hwrap, copyElements_apply]
    have h0 : (toUInt64 0).toNat = 0 := by
      unfold toUInt64
      rfl
    rw [h0, if_neg (by simp)]
  · unfold CopyMatrix
    rw [if_neg (by omega)]
    unfold copyRows
    have h4 : (4 : Int).toNat = 4 := rfl
    rw [h4, foldl_range_succ, foldl_range_succ, foldl_range_succ]
    have h2 : ¬ (fitsInt32 (1073741824 * ((2 : Nat) : Int))
        ∧ fitsInt32 (1073741824 * ((2 : Nat) : Int))) := by
      unfold fitsInt32
      omega
    have hstep : ∀ st : Option (Int → Int),
        copyRowStep 1 (fun i => i + 100) 1073741824 1073741824 st 2 = none := by
      intro st
      unfold copyRowStep
      cases st with
      | none => rfl
      | some B => simp only; rw [if_neg h2]
    rw [hstep]
    rfl
/-! ## The kernel-tap decomposition of `Im2colNd` -/

theorem int_emod_mul_split (r e P : Int) (he : 0 < e) (hP : 0 < P) :
    (r / e % P) * e + r % e = r % (P * e) := by
  have h1 := Int.emod_add_ediv r e
  have h2 := Int.emod_add_ediv (r / e) P
  have h3 := Int.emod_nonneg r (ne_of_gt he)
  have h4 := Int.emod_lt_of_pos r he
  have h5 := Int.emod_nonneg (r / e) (ne_of_gt hP)
  have h6 := Int.emod_lt_of_pos (r / e) hP
  have hPe : 0 < P * e := mul_pos hP he
  symm
  generalize r / e / P = q at *
  generalize r / e % P = s at *
  generalize r % e = t at *
  generalize r / e = u at *
  refine ((Int.ediv_emod_unique (a := r) (b := P * e) (r := s * e + t)
    (q := q) hPe).mpr ⟨?_, ?_, ?_⟩).2
  · rw [← h1, ← h2]; ring
  · have := mul_nonneg h5 (le_of_lt he)
    linarith
  · have : s * e ≤ (P - 1) * e := mul_le_mul_of_nonneg_right (by omega) (le_of_lt he)
    nlinarith

/-- The digits of `r` are the digits of `r` modulo the product of the radices: their row-major
index is `r % (e 0 * ... * e (k - 1))`. -/
theorem flatIndex_mixedRadixDigit_emod (e : Nat → Int) (k : Nat) (he : ∀ i, i < k → 1 ≤ e i)
    (r : Int) : flatIndex e (mixedRadixDigit e k r) 0 k = r % extentProd e k := by
  induction k generalizing r with
  | zero => simp [flatIndex, extentProd]
  | succ k ih =>
    have hek := he k (by omega)
    have hP := extentProd_pos e k (fun i hi => he i (by omega))
    have hcongr : flatIndex e (mixedRadixDigit e (k + 1) r) 0 k
        = flatIndex e (mixedRadixDigit e k (r / e k)) 0 k := by
      apply flatIndex_congr
      intro i hi
      simp only [mixedRadixDigit]
      rw [if_neg (by omega)]
    simp only [flatIndex, extentProd]
    rw [hcongr, ih (fun i hi => he i (by omega))]
    simp only [mixedRadixDigit, if_true]
    exact int_emod_mul_split r (e k) (extentProd e k) (by omega) (by omega)

/-- The row-major index as a weighted sum: coordinate `i` has the weight
`e (i + 1) * ... * e (k - 1)`. -/
theorem flatIndex_eq_sum (e x : Nat → Int) (k : Nat) :
    flatIndex e x 0 k = ∑ i ∈ Finset.range k, x i * ∏ j ∈ Finset.Ico (i + 1) k, e j := by
  induction k with
  | zero => simp [flatIndex]
  | succ k ih =>
    simp only [flatIndex]
    rw [ih, Finset.sum_range_succ, Finset.sum_mul]
    congr 1
    · apply Finset.sum_congr rfl
      intro i hi
      rw [Finset.prod_Ico_succ_top (by have := Finset.mem_range.mp hi; omega), mul_assoc]
    · simp

/-- C28: the kernel-tap decomposition of `Im2colNd`.  For kernel extents `k_0, ..., k_(N-1)` at
least 1 and `c_col ≥ 0`, the offsets the reverse loop stores satisfy `0 ≤ d_offset[i] < k_i` on
every axis, their weighted sum `sum_i d_offset[i] * (product of k_j for j > i)` is
`c_col mod kernel_size`, and
`c_col = (c_col div kernel_size) * kernel_size + sum_i d_offset[i] * (product of k_j for j > i)`:
`d_offset` is the mixed-radix representation of `c_col mod kernel_size`, first axis most
significant. -/
theorem computeDOffset_mixed_radix (kernel_shape : List Int) (N : Nat)
    (hks : ∀ i, i < N → 1 ≤ at64 kernel_shape i) (c_col : Int) (hc : 0 ≤ c_col)
    (d_offset : List Int) (hlen : d_offset.length = N) :
    (∀ i, i < N → 0 ≤ at64 (computeDOffset kernel_shape N c_col d_offset) i
        ∧ at64 (computeDOffset kernel_shape N c_col d_offset) i < at64 kernel_shape i)
      ∧ (∑ i ∈ Finset.range N, at64 (computeDOffset kernel_shape N c_col d_offset) i
            * ∏ j ∈ Finset.Ico (i + 1) N, at64 kernel_shape j)
          = Int.tmod c_col (kernelSize kernel_shape N)
      ∧ c_col = Int.tdiv c_col (kernelSize kernel_shape N) * kernelSize kernel_shape N
          + ∑ i ∈ Finset.range N, at64 (computeDOffset kernel_shape N c_col d_offset) i
            * ∏ j ∈ Finset.Ico (i + 1) N, at64 kernel_shape j := by
  obtain ⟨-, hdig⟩ := computeDOffset_spec kernel_shape N hks c_col hc d_offset hlen
  have hK := extentProd_pos (at64 kernel_shape) N hks
  have hsum : (∑ i ∈ Finset.range N, at64 (computeDOffset kernel_shape N c_col d_offset) i
        * ∏ j ∈ Finset.Ico (i + 1) N, at64 kernel_shape j)
      = c_col % extentProd (at64 kernel_shape) N := by
    rw [← flatIndex_mixedRadixDigit_emod (at64 kernel_shape) N hks c_col, flatIndex_eq_sum]
    apply Finset.sum_congr rfl
    intro i hi
    rw [hdig i (Finset.mem_range.mp hi)]
  rw [kernelSize_eq, Int.tmod_eq_emod hc (by omega), Int.tdiv_eq_ediv hc (by omega)]
  refine ⟨?_, hsum, ?_⟩
  · intro i hi
    rw [hdig i hi]
    exact mixedRadixDigit_inExtents (at64 kernel_shape) N hks c_col i hi
  · rw [hsum]
    have := Int.emod_add_ediv c_col (extentProd (at64 kernel_shape) N)
    rw [mul_comm]
    omega

/-- Witness of C28: a 2 x 3 kernel and `c_col = 11`: the offsets are `(1, 2)` and
`11 = 1 * 6 + (1 * 3 + 2)`. -/
theorem computeDOffset_mixed_radix_witness :
    (∀ i, i < 2 → 0 ≤ at64 (computeDOffset [2, 3] 2 11 [0, 0]) i
        ∧ at64 (computeDOffset [2, 3] 2 11 [0, 0]) i < at64 [2, 3] i)
      ∧ (∑ i ∈ Finset.range 2, at64 (computeDOffset [2, 3] 2 11 [0, 0]) i
            * ∏ j ∈ Finset.Ico (i + 1) 2, at64 [2, 3] j)
          = Int.tmod 11 (kernelSize [2, 3] 2)
      ∧ (11 : Int) = Int.tdiv 11 (kernelSize [2, 3] 2) * kernelSize [2, 3] 2
          + ∑ i ∈ Finset.range 2, at64 (computeDOffset [2, 3] 2 11 [0, 0]) i
            * ∏ j ∈ Finset.Ico (i + 1) 2, at64 [2, 3] j :=
  computeDOffset_mixed_radix [2, 3] 2 (by decide) 11 (by decide) [0, 0] rfl
/-! ## The odometer of `Im2colNd` -/

/-- The loop over the output positions performs, at the visited values of `d_iter` in their
order, the writes of `writeElement` at the indices `computeIndices` gives: `positionTrace` is the
loop of `positionLoop` without the writes. -/
theorem positionLoop_eq_trace {α : Type} [Add α] (data_img : Int → α)
    (im_shape col_shape stride dilation pad : List Int) (N : Nat) (accumulate_output : Bool)
    (padding_value : α) (c_col kernel_size : Int) (fuel : Nat) (st : Im2colState α) :
    positionLoop data_img im_shape col_shape stride dilation pad N accumulate_output
        padding_value c_col kernel_size fuel st
      = match positionTrace col_shape N fuel st.d_iter with
        | Outcome.done (visited, d_final) =>
          Outcome.done ⟨st.d_offset, d_final,
            visited.foldl
              (fun (B : Int → α) (d : List Int) =>
                writeElement accumulate_output padding_value data_img
                  (computeIndices im_shape col_shape stride dilation pad N c_col kernel_size
                    st.d_offset d).1
                  (computeIndices im_shape col_shape stride dilation pad N c_col kernel_size
                    st.d_offset d).2.1
                  (computeIndices im_shape col_shape stride dilation pad N c_col kernel_size
                    st.d_offset d).2.2 B) st.data_col⟩
        | Outcome.enforceFailed (visited, d_final) =>
          Outcome.enforceFailed ⟨st.d_offset, d_final,
            visited.foldl
              (fun (B : Int → α) (d : List Int) =>
                writeElement accumulate_output padding_value data_img
                  (computeIndices im_shape col_shape stride dilation pad N c_col kernel_size
                    st.d_offset d).1
                  (computeIndices im_shape col_shape stride dilation pad N c_col kernel_size
                    st.d_offset d).2.1
                  (computeIndices im_shape col_shape stride dilation pad N c_col kernel_size
                    st.d_offset d).2.2 B) st.data_col⟩
        | Outcome.outOfFuel => Outcome.outOfFuel := by
  induction fuel generalizing st with
  | zero => rfl
  | succ fuel ih =>
    unfold positionLoop positionTrace
    cases hnext : nextIter col_shape N st.d_iter with
    | none => rfl
    | some res =>
      obtain ⟨d_next, incremented⟩ := res
      dsimp only
      cases incremented with
      | false => rfl
      | true =>
        rw [if_pos rfl, if_pos rfl, ih]
        dsimp only
        cases positionTrace col_shape N fuel d_next with
        | outOfFuel => rfl
        | done res2 => rfl
        | enforceFailed res2 => rfl

/-- From a `d_iter` inside the output extents, of row-major rank `r`, the loop visits the
positions of ranks `r, r + 1, ..., P - 1` and ends with `d_iter` all zeros. -/
theorem positionTrace_spec (col_shape : List Int) (N : Nat) (fuel : Nat) (d : List Int)
    (hlen : d.length = N) (hv : inExtents (spatialExtent col_shape) (at64 d) N)
    (hfuel : extentProd (spatialExtent col_shape) N
      - flatIndex (spatialExtent col_shape) (at64 d) 0 N ≤ (fuel : Int)) :
    ∃ (visited : List (List Int)) (d_final : List Int),
      positionTrace col_shape N fuel d = Outcome.done (visited, d_final)
      ∧ d_final.length = N ∧ (∀ i, i < N → at64 d_final i = 0)
      ∧ visited.length = (extentProd (spatialExtent col_shape) N
          - flatIndex (spatialExtent col_shape) (at64 d) 0 N).toNat
      ∧ ∀ j, j < visited.length →
          (visited.getD j []).length = N
          ∧ inExtents (spatialExtent col_shape) (at64 (visited.getD j [])) N
          ∧ flatIndex (spatialExtent col_shape) (at64 (visited.getD j [])) 0 N
            = flatIndex (spatialExtent col_shape) (at64 d) 0 N + (j : Int) := by
  induction fuel generalizing d with
  | zero =>
    have := (flatIndex_bound _ _ N hv).2
    omega
  | succ fuel ih =>
    obtain ⟨hr0, hr1⟩ := flatIndex_bound _ _ N hv
    obtain ⟨d2, inc, hnext, hlen2, -, hinc, hlast⟩ :=
      nextIter_spec col_shape N d (by omega) hv
    unfold positionTrace
    rw [hnext]
    dsimp only
    cases inc with
    | true =>
      obtain ⟨hv2, hrank⟩ := hinc rfl
      obtain ⟨vis, d3, htr, hlen3, hzero, hvl, hel⟩ := ih d2 (by rw [hlen2, hlen]) hv2
        (by omega)
      rw [if_pos rfl, htr]
      refine ⟨d :: vis, d3, rfl, hlen3, hzero, ?_, ?_⟩
      · rw [List.length_cons, hvl, hrank]
        omega
      · intro j hj
        cases j with
        | zero =>
          refine ⟨hlen, hv, ?_⟩
          simp
        | succ j =>
          have hj2 : j < vis.length := by
            rw [List.length_cons] at hj
            omega
          obtain ⟨h0, h1, h2⟩ := hel j hj2
          rw [List.getD_cons_succ]
          refine ⟨h0, h1, ?_⟩
          rw [h2, hrank]
          push_cast
          ring
    | false =>
      obtain ⟨hrank, hzero⟩ := hlast rfl
      refine ⟨[d], d2, rfl, by rw [hlen2, hlen], hzero, ?_, ?_⟩
      · rw [List.length_singleton]
        omega
      · intro j hj
        have : j = 0 := by
          rw [List.length_singleton] at hj
          omega
        subst this
        refine ⟨hlen, hv, ?_⟩
        simp

theorem at64_replicate_zero (N i : Nat) : at64 (List.replicate N 0) i = 0 := by
  unfold at64
  rw [List.getD_eq_getElem?_getD]
  by_cases h : i < N
  · rw [List.getElem?_replicate, if_pos h]
    rfl
  · rw [List.getElem?_eq_none (by simpa using h)]
    rfl

theorem eq_replicate_zero (d : List Int) (N : Nat) (hlen : d.length = N)
    (hz : ∀ i, i < N → at64 d i = 0) : d = List.replicate N 0 := by
  apply List.ext_getElem
  · rw [hlen, List.length_replicate]
  · intro i h1 h2
    have := hz i (by omega)
    unfold at64 at this
    rw [List.getD_eq_getElem?_getD, List.getElem?_eq_getElem h1] at this
    rw [List.getElem_replicate]
    exact this

/-- Claim C29. When every output extent `col_shape[1..N]` is at least 1, the inner loop of
`Im2colNd`, started for a `c_col` with `d_iter` all zeros, terminates (fuel equal to the product
of the output extents is enough) after exactly that product of iterations; the `r`-th iteration
is at the output position of row-major rank `r` (last axis fastest), so only positions inside the
extents are visited and every such position is visited exactly once; `d_iter` is left at all
zeros; and `positionLoop` returns with exactly the writes of these iterations and the same
`d_iter`. -/
theorem Im2colNd_odometer (col_shape : List Int) (N : Nat)
    (hcol : ∀ i, i < N → 1 ≤ spatialExtent col_shape i) (fuel : Nat)
    (hfuel : extentProd (spatialExtent col_shape) N ≤ (fuel : Int)) :
    ∃ visited : List (List Int),
      positionTrace col_shape N fuel (List.replicate N 0)
        = Outcome.done (visited, List.replicate N 0)
      ∧ (visited.length : Int) = ∏ i ∈ Finset.range N, spatialExtent col_shape i
      ∧ (∀ r, r < visited.length →
          (visited.getD r []).length = N
          ∧ inExtents (spatialExtent col_shape) (at64 (visited.getD r [])) N
          ∧ flatIndex (spatialExtent col_shape) (at64 (visited.getD r [])) 0 N = (r : Int)
          ∧ ∀ i, i < N →
              at64 (visited.getD r []) i = mixedRadixDigit (spatialExtent col_shape) N r i)
      ∧ (∀ o : Nat → Int, inExtents (spatialExtent col_shape) o N →
          ∃ r, r < visited.length ∧ (∀ i, i < N → at64 (visited.getD r []) i = o i)
            ∧ ∀ r2, r2 < visited.length →
                (∀ i, i < N → at64 (visited.getD r2 []) i = o i) → r2 = r)
      ∧ ∀ {α : Type} [Add α] (data_img : Int → α) (im_shape stride dilation pad : List Int)
          (accumulate_output : Bool) (padding_value : α) (c_col kernel_size : Int)
          (d_offset : List Int) (data_col : Int → α),
          positionLoop data_img im_shape col_shape stride dilation pad N accumulate_output
              padding_value c_col kernel_size fuel ⟨d_offset, List.replicate N 0, data_col⟩
            = Outcome.done ⟨d_offset, List.replicate N 0,
                visited.foldl
                  (fun (B : Int → α) (d : List Int) =>
                    writeElement accumulate_output padding_value data_img
                      (computeIndices im_shape col_shape stride dilation pad N c_col
                        kernel_size d_offset d).1
                      (computeIndices im_shape col_shape stride dilation pad N c_col
                        kernel_size d_offset d).2.1
                      (computeIndices im_shape col_shape stride dilation pad N c_col
                        kernel_size d_offset d).2.2 B) data_col⟩ := by
  have hzero : flatIndex (spatialExtent col_shape) (at64 (List.replicate N 0)) 0 N = 0 :=
    flatIndex_zero _ _ N (fun i _ => at64_replicate_zero N i)
  have hv : inExtents (spatialExtent col_shape) (at64 (List.replicate N 0)) N := by
    intro i hi
    rw [at64_replicate_zero]
    have := hcol i hi
    omega
  have hP := extentProd_pos (spatialExtent col_shape) N hcol
  obtain ⟨visited, d_final, htr, hlen, hz, hvl, hel⟩ :=
    positionTrace_spec col_shape N fuel (List.replicate N 0) (List.length_replicate N 0) hv
      (by rw [hzero]; omega)
  have hfin : d_final = List.replicate N 0 := eq_replicate_zero d_final N hlen hz
  rw [hfin] at htr
  rw [hzero] at hvl
  have hlenP : (visited.length : Int) = extentProd (spatialExtent col_shape) N := by
    rw [hvl]
    omega
  have hrank : ∀ r, r < visited.length →
      flatIndex (spatialExtent col_shape) (at64 (visited.getD r [])) 0 N = (r : Int) := by
    intro r hr
    rw [(hel r hr).2.2, hzero]
    ring
  refine ⟨visited, htr, ?_, ?_, ?_, ?_⟩
  · rw [hlenP, extentProd_eq_prod]
  · intro r hr
    obtain ⟨h0, h1, -⟩ := hel r hr
    refine ⟨h0, h1, hrank r hr, ?_⟩
    intro i hi
    rw [← hrank r hr]
    exact (mixedRadixDigit_flatIndex _ _ N h1 i hi).symm
  · intro o ho
    obtain ⟨ho0, ho1⟩ := flatIndex_bound _ _ N ho
    have hr : (flatIndex (spatialExtent col_shape) o 0 N).toNat < visited.length := by
      omega
    refine ⟨(flatIndex (spatialExtent col_shape) o 0 N).toNat, hr, ?_, ?_⟩
    · apply flatIndex_injective _ _ _ N (hel _ hr).2.1 ho
      rw [hrank _ hr]
      omega
    · intro r2 hr2 heq
      have h2 := hrank r2 hr2
      rw [flatIndex_congr _ _ o 0 N heq] at h2
      omega
  · intro α _ data_img im_shape stride dilation pad accumulate_output padding_value c_col
      kernel_size d_offset data_col
    rw [positionLoop_eq_trace]
    dsimp only
    rw [htr]

/-- Claim C29 at the output extents 2 x 3: six iterations. -/
theorem Im2colNd_odometer_witness :
    ∃ visited : List (List Int),
      positionTrace [9, 2, 3] 2 6 (List.replicate 2 0)
        = Outcome.done (visited, List.replicate 2 0)
      ∧ (visited.length : Int) = ∏ i ∈ Finset.range 2, spatialExtent [9, 2, 3] i
      ∧ (∀ r, r < visited.length →
          (visited.getD r []).length = 2
          ∧ inExtents (spatialExtent [9, 2, 3]) (at64 (visited.getD r [])) 2
          ∧ flatIndex (spatialExtent [9, 2, 3]) (at64 (visited.getD r [])) 0 2 = (r : Int)
          ∧ ∀ i, i < 2 →
              at64 (visited.getD r []) i = mixedRadixDigit (spatialExtent [9, 2, 3]) 2 r i)
      ∧ (∀ o : Nat → Int, inExtents (spatialExtent [9, 2, 3]) o 2 →
          ∃ r, r < visited.length ∧ (∀ i, i < 2 → at64 (visited.getD r []) i = o i)
            ∧ ∀ r2, r2 < visited.length →
                (∀ i, i < 2 → at64 (visited.getD r2 []) i = o i) → r2 = r)
      ∧ ∀ {α : Type} [Add α] (data_img : Int → α) (im_shape stride dilation pad : List Int)
          (accumulate_output : Bool) (padding_value : α) (c_col kernel_size : Int)
          (d_offset : List Int) (data_col : Int → α),
          positionLoop data_img im_shape [9, 2, 3] stride dilation pad 2 accumulate_output
              padding_value c_col kernel_size 6 ⟨d_offset, List.replicate 2 0, data_col⟩
            = Outcome.done ⟨d_offset, List.replicate 2 0,
                visited.foldl
                  (fun (B : Int → α) (d : List Int) =>
                    writeElement accumulate_output padding_value data_img
                      (computeIndices im_shape [9, 2, 3] stride dilation pad 2 c_col
                        kernel_size d_offset d).1
                      (computeIndices im_shape [9, 2, 3] stride dilation pad 2 c_col
                        kernel_size d_offset d).2.1
                      (computeIndices im_shape [9, 2, 3] stride dilation pad 2 c_col
                        kernel_size d_offset d).2.2 B) data_col⟩ :=
  Im2colNd_odometer [9, 2, 3] 2 (by decide) 6 (by decide)
/-! ## Direct accumulation and im2col followed by a matrix product -/

theorem int_digit (a x e : Int) (h0 : 0 ≤ x) (h1 : x < e) :
    (a * e + x) / e = a ∧ (a * e + x) % e = x :=
  (Int.ediv_emod_unique (by omega)).mpr ⟨by ring, h0, h1⟩

theorem mixedRadixDigit_rank_two (e : Nat → Int) (a x0 x1 : Int)
    (h0 : 0 ≤ x0 ∧ x0 < e 0) (h1 : 0 ≤ x1 ∧ x1 < e 1) :
    mixedRadixDigit e 2 ((a * e 0 + x0) * e 1 + x1) 0 = x0
    ∧ mixedRadixDigit e 2 ((a * e 0 + x0) * e 1 + x1) 1 = x1
    ∧ ((a * e 0 + x0) * e 1 + x1) / extentProd e 2 = a := by
  obtain ⟨h2, h3⟩ := int_digit (a * e 0 + x0) x1 (e 1) h1.1 h1.2
  obtain ⟨h4, h5⟩ := int_digit a x0 (e 0) h0.1 h0.2
  refine ⟨?_, ?_, ?_⟩
  · simp only [mixedRadixDigit, if_true]
    rw [h2, h5, if_neg (by decide)]
  · simp only [mixedRadixDigit, if_true]
    rw [h3]
  · have : extentProd e 2 = e 1 * e 0 := by
      simp only [extentProd]
      ring
    rw [this, ← int_ediv_ediv _ _ _ (by omega) (by omega), h2, h4]

/-- The element `Im2colNd` stores with two spatial axes for the kernel tap `(kh, kw)` of channel
`ic` at the output position `(oh, ow)`: the input element at `(ic, ih, iw)` when the input
coordinate lies inside the input, the padding value otherwise. -/
theorem im2colValue_rank_two {α : Type} (data_img : Int → α)
    (C H W M OH OW KH KW sh sw dh dw pt pl : Int) (pv : α) (ic kh kw oh ow : Int)
    (hkh : 0 ≤ kh ∧ kh < KH) (hkw : 0 ≤ kw ∧ kw < KW)
    (hoh : 0 ≤ oh ∧ oh < OH) (how : 0 ≤ ow ∧ ow < OW) :
    im2colValue data_img [C, H, W] [M, OH, OW] [KH, KW] [sh, sw] [dh, dw] [pt, pl] 2 pv
        ((ic * KH + kh) * KW + kw) (oh * OW + ow)
      = if 0 ≤ kh * dh + oh * sh - pt ∧ kh * dh + oh * sh - pt < H
            ∧ 0 ≤ kw * dw + ow * sw - pl ∧ kw * dw + ow * sw - pl < W then
          data_img ((ic * H + (kh * dh + oh * sh - pt)) * W + (kw * dw + ow * sw - pl))
        else pv := by
  obtain ⟨ht0, ht1, hq⟩ := mixedRadixDigit_rank_two (at64 [KH, KW]) ic kh kw hkh hkw
  obtain ⟨hd0, hd1, -⟩ := mixedRadixDigit_rank_two (spatialExtent [M, OH, OW]) 0 oh ow hoh how
  have e0 : at64 [KH, KW] 0 = KH := rfl
  have e1 : at64 [KH, KW] 1 = KW := rfl
  have e2 : spatialExtent [M, OH, OW] 0 = OH := rfl
  have e3 : spatialExtent [M, OH, OW] 1 = OW := rfl
  rw [e0, e1] at ht0 ht1 hq
  rw [e2, e3] at hd0 hd1
  have hr : (0 * OH + oh) * OW + ow = oh * OW + ow := by ring
  rw [hr] at hd0 hd1
  have hc0 : inputCoord [sh, sw] [dh, dw] [pt, pl]
      (mixedRadixDigit (spatialExtent [M, OH, OW]) 2 (oh * OW + ow))
      (mixedRadixDigit (at64 [KH, KW]) 2 ((ic * KH + kh) * KW + kw)) 0
      = kh * dh + oh * sh - pt := by
    unfold inputCoord
    rw [hd0, ht0]
    show oh * sh - pt + kh * dh = _
    ring
  have hc1 : inputCoord [sh, sw] [dh, dw] [pt, pl]
      (mixedRadixDigit (spatialExtent [M, OH, OW]) 2 (oh * OW + ow))
      (mixedRadixDigit (at64 [KH, KW]) 2 ((ic * KH + kh) * KW + kw)) 1
      = kw * dw + ow * sw - pl := by
    unfold inputCoord
    rw [hd1, ht1]
    show ow * sw - pl + kw * dw = _
    ring
  unfold im2colValue
  rw [hq]
  simp only [isPadding, flatIndex, hc0, hc1]
  have e4 : at64 [C, H, W] (0 + 1) = H := rfl
  have e5 : at64 [C, H, W] (1 + 1) = W := rfl
  have e6 : spatialExtent [C, H, W] 0 = H := rfl
  have e7 : spatialExtent [C, H, W] 1 = W := rfl
  rw [e4, e5, e6, e7]
  by_cases h : 0 ≤ kh * dh + oh * sh - pt ∧ kh * dh + oh * sh - pt < H
      ∧ 0 ≤ kw * dw + ow * sw - pl ∧ kw * dw + ow * sw - pl < W
  · rw [if_pos h, if_neg]
    simp only [Bool.false_or, Bool.or_eq_true, decide_eq_true_eq, not_or, not_lt, ge_iff_le,
      not_le]
    omega
  · rw [if_neg h, if_pos]
    simp only [Bool.false_or, Bool.or_eq_true, decide_eq_true_eq, ge_iff_le]
    omega

theorem toNat_mul_three (a b c : Int) (hb : 1 ≤ b) (hc : 1 ≤ c) :
    (a * b * c).toNat = a.toNat * b.toNat * c.toNat := by
  by_cases ha : 0 ≤ a
  · have h : ((a.toNat * b.toNat * c.toNat : Nat) : Int) = a * b * c := by
      push_cast
      rw [Int.toNat_of_nonneg ha, Int.toNat_of_nonneg (by omega : 0 ≤ b),
        Int.toNat_of_nonneg (by omega : 0 ≤ c)]
    rw [← h, Int.toNat_natCast]
  · have h1 : a.toNat = 0 := Int.toNat_of_nonpos (by omega)
    have h2 : a * b * c ≤ 0 := by
      have : 1 ≤ b * c := by nlinarith
      have : a * (b * c) ≤ 0 := by nlinarith
      linarith [mul_assoc a b c]
    rw [h1, Int.toNat_of_nonpos h2]
    simp

/-- The call of `Im2colNd` on the slice of a group returns, and the column buffer holds the
writes of every column row. -/
theorem im2colOfGroup_eq (L : ConvLocals) (Xdata : List Int) (b g : Nat) (data_col : Int → Int)
    (fuel : Nat) (hkh : 1 ≤ L.kernel_h) (hkw : 1 ≤ L.kernel_w) (hoh : 1 ≤ L.output_h)
    (how : 1 ≤ L.output_w) (hfuel : L.output_h * L.output_w ≤ (fuel : Int)) :
    im2colOfGroup L Xdata b g data_col fuel
      = Outcome.done (im2colAllWrites (fun (i : Int) => readAt Xdata (xdataAt L b g + i))
          [L.group_input_channels, L.input_h, L.input_w]
          [L.group_input_channels * L.kernel_h * L.kernel_w, L.output_h, L.output_w]
          [L.kernel_h, L.kernel_w] [L.stride_h, L.stride_w] [L.dilation_h, L.dilation_w]
          [L.pad_t, L.pad_l] 2 false L.X_zero_point
          (L.group_input_channels * L.kernel_h * L.kernel_w).toNat data_col) := by
  unfold im2colOfGroup
  rw [Im2colNd_eq_allWrites]
  · rfl
  · intro i hi
    interval_cases i
    · exact hkh
    · exact hkw
  · intro i hi
    interval_cases i
    · exact hoh
    · exact how
  · have : extentProd (spatialExtent
        [L.group_input_channels * L.kernel_h * L.kernel_w, L.output_h, L.output_w]) 2
        = L.output_h * L.output_w := by
      simp only [extentProd]
      show 1 * L.output_h * L.output_w = _
      ring
    rw [this]
    exact hfuel

/-- The element of the column buffer at row `c_col` and output position `(oh, ow)`. -/
theorem im2colAllWrites_rank_two (data_img : Int → Int)
    (C H W M OH OW KH KW sh sw dh dw pt pl : Int) (pv : Int) (m : Nat) (data_col : Int → Int)
    (c oh ow : Int) (hc : 0 ≤ c ∧ c < (m : Int)) (hoh : 0 ≤ oh ∧ oh < OH)
    (how : 0 ≤ ow ∧ ow < OW) :
    im2colAllWrites data_img [C, H, W] [M, OH, OW] [KH, KW] [sh, sw] [dh, dw] [pt, pl] 2 false
        pv m data_col ((c * OH + oh) * OW + ow)
      = im2colValue data_img [C, H, W] [M, OH, OW] [KH, KW] [sh, sw] [dh, dw] [pt, pl] 2 pv
          c (oh * OW + ow) := by
  have hP : extentProd (spatialExtent [M, OH, OW]) 2 = OH * OW := by
    simp only [extentProd]
    show 1 * OH * OW = _
    ring
  have hr0 : 0 ≤ oh * OW + ow := by nlinarith
  have hr1 : oh * OW + ow < OH * OW := by nlinarith
  have hj : (c * OH + oh) * OW + ow = c * (OH * OW) + (oh * OW + ow) := by ring
  obtain ⟨hdiv, hmod⟩ := int_digit c (oh * OW + ow) (OH * OW) hr0 hr1
  rw [im2colAllWrites_false_apply _ _ _ _ _ _ _ _ _ (by rw [hP]; omega), hP, hj, hdiv, hmod,
    if_pos]
  constructor
  · nlinarith
  · have : (c + 1) * (OH * OW) ≤ (m : Int) * (OH * OW) :=
      mul_le_mul_of_nonneg_right (by omega) (by omega)
    linarith

/-- The sum of the tap contributions read through the pointers is the sum, over the rows of the
column buffer, of the weight times the column element less the zero point. -/
theorem ptrTerm_sum_eq_gemm (L : ConvLocals) (Xdata Wdata : List Int) (col : Int → Int)
    (xdata weight_row : Int) (oh ow : Nat)
    (hkh : 1 ≤ L.kernel_h) (hkw : 1 ≤ L.kernel_w)
    (hcol : ∀ ic kh kw : Nat, ic < L.group_input_channels.toNat → kh < L.kernel_h.toNat →
      kw < L.kernel_w.toNat →
      col (((((ic : Int) * L.kernel_h + (kh : Int)) * L.kernel_w + (kw : Int)) * L.output_h
          + (oh : Int)) * L.output_w + (ow : Int))
        = if 0 ≤ (kh : Int) * L.dilation_h + (oh : Int) * L.stride_h - L.pad_t
              ∧ (kh : Int) * L.dilation_h + (oh : Int) * L.stride_h - L.pad_t < L.input_h
              ∧ 0 ≤ (kw : Int) * L.dilation_w + (ow : Int) * L.stride_w - L.pad_l
              ∧ (kw : Int) * L.dilation_w + (ow : Int) * L.stride_w - L.pad_l < L.input_w then
            readAt Xdata (xdata + (((ic : Int) * L.input_h
              + ((kh : Int) * L.dilation_h + (oh : Int) * L.stride_h - L.pad_t)) * L.input_w
              + ((kw : Int) * L.dilation_w + (ow : Int) * L.stride_w - L.pad_l)))
          else L.X_zero_point) :
    ∑ ic ∈ Finset.range L.group_input_channels.toNat,
      ∑ kh ∈ Finset.range L.kernel_h.toNat, ∑ kw ∈ Finset.range L.kernel_w.toNat,
        ptrTerm L Xdata Wdata (xdata + (ic : Int) * (L.input_h * L.input_w))
          (weight_row + (((ic : Int) * (L.kernel_h.toNat : Int) + (kh : Int))
            * (L.kernel_w.toNat : Int) + (kw : Int)))
          ((kh : Int) * L.dilation_h + (oh : Int) * L.stride_h - L.pad_t)
          ((kw : Int) * L.dilation_w + (ow : Int) * L.stride_w - L.pad_l)
      = ∑ c_col ∈ Finset.range (L.group_input_channels * L.kernel_h * L.kernel_w).toNat,
          readAt Wdata (weight_row + (c_col : Int))
            * (col (((c_col : Int) * L.output_h + (oh : Int)) * L.output_w + (ow : Int))
                - L.X_zero_point) := by
  have h2 : ((L.kernel_h.toNat : Nat) : Int) = L.kernel_h := Int.toNat_of_nonneg (by omega)
  have h3 : ((L.kernel_w.toNat : Nat) : Int) = L.kernel_w := Int.toNat_of_nonneg (by omega)
  rw [toNat_mul_three _ _ _ hkh hkw, sum_range_mul_reindex, sum_range_mul_reindex]
  apply Finset.sum_congr rfl
  intro ic hic
  apply Finset.sum_congr rfl
  intro kh hkh2
  apply Finset.sum_congr rfl
  intro kw hkw2
  have hcast : (((ic * L.kernel_h.toNat + kh) * L.kernel_w.toNat + kw : Nat) : Int)
      = ((ic : Int) * L.kernel_h + (kh : Int)) * L.kernel_w + (kw : Int) := by
    push_cast
    rw [h2, h3]
  rw [hcast, hcol ic kh kw (Finset.mem_range.mp hic) (Finset.mem_range.mp hkh2)
    (Finset.mem_range.mp hkw2), h2, h3]
  unfold ptrTerm
  by_cases h : 0 ≤ (kh : Int) * L.dilation_h + (oh : Int) * L.stride_h - L.pad_t
      ∧ (kh : Int) * L.dilation_h + (oh : Int) * L.stride_h - L.pad_t < L.input_h
      ∧ 0 ≤ (kw : Int) * L.dilation_w + (ow : Int) * L.stride_w - L.pad_l
      ∧ (kw : Int) * L.dilation_w + (ow : Int) * L.stride_w - L.pad_l < L.input_w
  · rw [if_pos h, if_pos h, mul_comm]
    congr 3
    ring
  · rw [if_neg h, if_neg h]
    ring

/-- With kernel extents at least 1, the accumulator is the `int32_t` value of the matrix-product
form over the column buffer `Im2colNd` writes. -/
theorem accumulate_eq_gemm_of_pos (L : ConvLocals) (Xdata Wdata B : List Int)
    (data_col : Int → Int)
    (hh0 : 0 ≤ L.input_h) (hh : fitsInt64 L.input_h) (hw0 : 0 ≤ L.input_w)
    (hw : fitsInt64 L.input_w)
    (b g oc oh ow : Nat) (hoh : oh < L.output_h.toNat) (how : ow < L.output_w.toNat)
    (hih : ∀ kh : Nat, kh < L.kernel_h.toNat →
      fitsInt64 ((kh : Int) * L.dilation_h + (oh : Int) * L.stride_h - L.pad_t))
    (hiw : ∀ kw : Nat, kw < L.kernel_w.toNat →
      fitsInt64 ((kw : Int) * L.dilation_w + (ow : Int) * L.stride_w - L.pad_l))
    (hkh : 1 ≤ L.kernel_h) (hkw : 1 ≤ L.kernel_w) :
    accumulate L Xdata Wdata (oh : Int) (ow : Int)
      (biasOf B ((g : Int) * L.group_output_channels + (oc : Int)))
      (xdataAt L b g) (weightRowAt L g oc)
      = toInt32 (im2colGemmAccumulator L Wdata B
          (im2colAllWrites (fun (i : Int) => readAt Xdata (xdataAt L b g + i))
            [L.group_input_channels, L.input_h, L.input_w]
            [L.group_input_channels * L.kernel_h * L.kernel_w, L.output_h, L.output_w]
            [L.kernel_h, L.kernel_w] [L.stride_h, L.stride_w] [L.dilation_h, L.dilation_w]
            [L.pad_t, L.pad_l] 2 false L.X_zero_point
            (L.group_input_channels * L.kernel_h * L.kernel_w).toNat data_col) g oc oh ow) := by
  have hOH : (0 : Int) ≤ (oh : Int) ∧ (oh : Int) < L.output_h := by omega
  have hOW : (0 : Int) ≤ (ow : Int) ∧ (ow : Int) < L.output_w := by omega
  rw [accumulate_eq L Xdata Wdata (oh : Int) (ow : Int) hh0 hh hw0 hw hiw hih _ _ _ _
    (biasOf_eq B _)]
  unfold im2colGemmAccumulator
  congr 2
  apply ptrTerm_sum_eq_gemm L Xdata Wdata _ _ _ oh ow hkh hkw
  intro ic kh kw hic hkh2 hkw2
  have hc : (0 : Int) ≤ ((ic : Int) * L.kernel_h + (kh : Int)) * L.kernel_w + (kw : Int)
      ∧ ((ic : Int) * L.kernel_h + (kh : Int)) * L.kernel_w + (kw : Int)
        < (((L.group_input_channels * L.kernel_h * L.kernel_w).toNat : Nat) : Int) := by
    have h2 : ((L.kernel_h.toNat : Nat) : Int) = L.kernel_h :=
      Int.toNat_of_nonneg (by omega)
    have h3 : ((L.kernel_w.toNat : Nat) : Int) = L.kernel_w :=
      Int.toNat_of_nonneg (by omega)
    have hlt : (ic * L.kernel_h.toNat + kh) * L.kernel_w.toNat + kw
        < L.group_input_channels.toNat * L.kernel_h.toNat * L.kernel_w.toNat := by
      have h4 : ic * L.kernel_h.toNat + kh + 1
          ≤ L.group_input_channels.toNat * L.kernel_h.toNat := by
        calc ic * L.kernel_h.toNat + kh + 1 ≤ ic * L.kernel_h.toNat + L.kernel_h.toNat := by
              omega
          _ = (ic + 1) * L.kernel_h.toNat := by ring
          _ ≤ _ := Nat.mul_le_mul_right _ (by omega)
      calc (ic * L.kernel_h.toNat + kh) * L.kernel_w.toNat + kw
          < (ic * L.kernel_h.toNat + kh) * L.kernel_w.toNat + L.kernel_w.toNat := by omega
        _ = (ic * L.kernel_h.toNat + kh + 1) * L.kernel_w.toNat := by ring
        _ ≤ _ := Nat.mul_le_mul_right _ h4
    rw [toNat_mul_three _ _ _ hkh hkw]
    have hcast : (((ic * L.kernel_h.toNat + kh) * L.kernel_w.toNat + kw : Nat) : Int)
        = ((ic : Int) * L.kernel_h + (kh : Int)) * L.kernel_w + (kw : Int) := by
      push_cast
      rw [h2, h3]
    rw [← hcast]
    exact ⟨Int.natCast_nonneg _, by exact_mod_cast hlt⟩
  rw [im2colAllWrites_rank_two _ _ _ _ _ _ _ _ _ _ _ _ _ _ _ _ _ _ _ _ _ hc hOH hOW,
    im2colValue_rank_two _ _ _ _ _ _ _ _ _ _ _ _ _ _ _ _ _ _ _ _ _ (by omega) (by omega)
      hOH hOW]

/-- With a kernel extent equal to zero there is no kernel tap and no column row: `Im2colNd`
returns the column buffer unchanged and both forms of the accumulator are the bias. -/
theorem accumulate_eq_gemm_of_zero (L : ConvLocals) (Xdata Wdata B : List Int)
    (data_col : Int → Int) (fuel : Nat)
    (hh0 : 0 ≤ L.input_h) (hh : fitsInt64 L.input_h) (hw0 : 0 ≤ L.input_w)
    (hw : fitsInt64 L.input_w)
    (b g oc oh ow : Nat)
    (hih : ∀ kh : Nat, kh < L.kernel_h.toNat →
      fitsInt64 ((kh : Int) * L.dilation_h + (oh : Int) * L.stride_h - L.pad_t))
    (hiw : ∀ kw : Nat, kw < L.kernel_w.toNat →
      fitsInt64 ((kw : Int) * L.dilation_w + (ow : Int) * L.stride_w - L.pad_l))
    (hk : L.kernel_h = 0 ∨ L.kernel_w = 0) :
    im2colOfGroup L Xdata b g data_col fuel = Outcome.done data_col
    ∧ accumulate L Xdata Wdata (oh : Int) (ow : Int)
        (biasOf B ((g : Int) * L.group_output_channels + (oc : Int)))
        (xdataAt L b g) (weightRowAt L g oc)
      = toInt32 (im2colGemmAccumulator L Wdata B data_col g oc oh ow) := by
  have hprod : L.group_input_channels * L.kernel_h * L.kernel_w = 0 := by
    rcases hk with h | h
    · rw [h]
      ring
    · rw [h]
      ring
  constructor
  · unfold im2colOfGroup Im2colNd
    dsimp only
    have h0 : at64 [L.group_input_channels * L.kernel_h * L.kernel_w, L.output_h, L.output_w] 0
        = 0 := hprod
    rw [h0]
    rfl
  · rw [accumulate_eq L Xdata Wdata (oh : Int) (ow : Int) hh0 hh hw0 hw hiw hih _ _ _ _
      (biasOf_eq B _)]
    unfold im2colGemmAccumulator
    rw [hprod]
    congr 2
    rw [Int.toNat_zero, Finset.range_zero, Finset.sum_empty]
    apply Finset.sum_eq_zero
    intro ic _
    rcases hk with h | h
    · rw [h, Int.toNat_zero, Finset.range_zero, Finset.sum_empty]
    · apply Finset.sum_eq_zero
      intro kh _
      rw [h, Int.toNat_zero, Finset.range_zero, Finset.sum_empty]

/-- Claim C30. For two spatial axes, kernel extents that are not negative and every batch `b`,
group `g`, output channel `oc` of the group and output position `(oh, ow)`: the call of
`Im2colNd<NCHW>` (`N = 2`, `accumulate_output = false`, pads `(pad_t, pad_l)`, padding value
`X_zero_point`) on the input slice of the group returns a column buffer `col`, and the
accumulator of the reference `ComputeExpectedOutput`, which is passed to `emit` for the element
stored at the row-major index `(b, g * goc + oc, oh, ow)`, is the `int32_t` value of the bias of
the channel plus the sum over `c_col` in `[0, gic * kernel_h * kernel_w)` of
`W_row[ch][c_col] * (col[c_col, oh, ow] - X_zero_point)`; it is this number exactly when the
number is an `int32_t` value. -/
theorem accumulate_eq_im2col_gemm {β : Type} (L : ConvLocals) (Xdata Wdata B : List Int)
    (emit : Int → Int → β) (data_col : Int → Int) (fuel : Nat)
    (hh0 : 0 ≤ L.input_h) (hh : fitsInt64 L.input_h) (hw0 : 0 ≤ L.input_w)
    (hw : fitsInt64 L.input_w)
    (hih : ∀ kh : Nat, kh < L.kernel_h.toNat → ∀ oh : Nat, oh < L.output_h.toNat →
      fitsInt64 ((kh : Int) * L.dilation_h + (oh : Int) * L.stride_h - L.pad_t))
    (hiw : ∀ kw : Nat, kw < L.kernel_w.toNat → ∀ ow : Nat, ow < L.output_w.toNat →
      fitsInt64 ((kw : Int) * L.dilation_w + (ow : Int) * L.stride_w - L.pad_l))
    (hkh : 0 ≤ L.kernel_h) (hkw : 0 ≤ L.kernel_w)
    (hfuel : L.output_h * L.output_w ≤ (fuel : Int))
    (b g oc oh ow : Nat) (hb : b < L.batch_count.toNat) (hg : g < L.group_count.toNat)
    (hoc : oc < L.group_output_channels.toNat) (hoh : oh < L.output_h.toNat)
    (how : ow < L.output_w.toNat) :
    ∃ col : Int → Int,
      im2colOfGroup L Xdata b g data_col fuel = Outcome.done col
      ∧ accumulate L Xdata Wdata (oh : Int) (ow : Int)
          (biasOf B ((g : Int) * L.group_output_channels + (oc : Int)))
          (xdataAt L b g) (weightRowAt L g oc)
        = toInt32 (im2colGemmAccumulator L Wdata B col g oc oh ow)
      ∧ (convLoops L Xdata Wdata B emit)[
          (((b * L.group_count.toNat + g) * L.group_output_channels.toNat + oc)
            * L.output_h.toNat + oh) * L.output_w.toNat + ow]?
        = some (emit ((g : Int) * L.group_output_channels + (oc : Int))
            (toInt32 (im2colGemmAccumulator L Wdata B col g oc oh ow)))
      ∧ (-2147483648 ≤ im2colGemmAccumulator L Wdata B col g oc oh ow →
          im2colGemmAccumulator L Wdata B col g oc oh ow < 2147483648 →
          toInt32 (im2colGemmAccumulator L Wdata B col g oc oh ow)
            = im2colGemmAccumulator L Wdata B col g oc oh ow) := by
  have key : ∃ col : Int → Int,
      im2colOfGroup L Xdata b g data_col fuel = Outcome.done col
      ∧ accumulate L Xdata Wdata (oh : Int) (ow : Int)
          (biasOf B ((g : Int) * L.group_output_channels + (oc : Int)))
          (xdataAt L b g) (weightRowAt L g oc)
        = toInt32 (im2colGemmAccumulator L Wdata B col g oc oh ow) := by
    by_cases hk : 1 ≤ L.kernel_h ∧ 1 ≤ L.kernel_w
    · exact ⟨_, im2colOfGroup_eq L Xdata b g data_col fuel hk.1 hk.2 (by omega) (by omega)
        hfuel,
        accumulate_eq_gemm_of_pos L Xdata Wdata B data_col hh0 hh hw0 hw b g oc oh ow hoh how
          (fun kh hkh2 => hih kh hkh2 oh hoh) (fun kw hkw2 => hiw kw hkw2 ow how) hk.1 hk.2⟩
    · exact ⟨data_col, accumulate_eq_gemm_of_zero L Xdata Wdata B data_col fuel hh0 hh hw0 hw
        b g oc oh ow (fun kh hkh2 => hih kh hkh2 oh hoh) (fun kw hkw2 => hiw kw hkw2 ow how)
        (by omega)⟩
  obtain ⟨col, hcol, hacc⟩ := key
  refine ⟨col, hcol, hacc, ?_, ?_⟩
  · rw [convLoops_getElem? L Xdata Wdata B emit b g oc oh ow hb hg hoc hoh how, hacc]
  · intro h1 h2
    unfold toInt32
    omega

/-- Claim C30 for one batch, one group, one input and one output channel, a 2 x 2 input and a
2 x 2 kernel without padding (a single output position, four column rows). -/
theorem accumulate_eq_im2col_gemm_witness :
    ∃ col : Int → Int,
      im2colOfGroup (⟨1, 1, 1, 1, 2, 2, 2, 2, 1, 1, 0, 0, 1, 1, 1, 1, 4⟩ : ConvLocals)
          [5, 6, 7, 8] 0 0 (fun _ => 0) 1 = Outcome.done col
      ∧ accumulate ⟨1, 1, 1, 1, 2, 2, 2, 2, 1, 1, 0, 0, 1, 1, 1, 1, 4⟩ [5, 6, 7, 8]
          [1, 2, 3, 4] ((0 : Nat) : Int) ((0 : Nat) : Int)
          (biasOf [10] (((0 : Nat) : Int) * 1 + ((0 : Nat) : Int)))
          (xdataAt ⟨1, 1, 1, 1, 2, 2, 2, 2, 1, 1, 0, 0, 1, 1, 1, 1, 4⟩ 0 0)
          (weightRowAt ⟨1, 1, 1, 1, 2, 2, 2, 2, 1, 1, 0, 0, 1, 1, 1, 1, 4⟩ 0 0)
        = toInt32 (im2colGemmAccumulator ⟨1, 1, 1, 1, 2, 2, 2, 2, 1, 1, 0, 0, 1, 1, 1, 1, 4⟩
            [1, 2, 3, 4] [10] col 0 0 0 0)
      ∧ (convLoops (⟨1, 1, 1, 1, 2, 2, 2, 2, 1, 1, 0, 0, 1, 1, 1, 1, 4⟩ : ConvLocals)
          [5, 6, 7, 8] [1, 2, 3, 4] [10] (fun _ (sum : Int) => sum))[
          (((0 * (1 : Int).toNat + 0) * (1 : Int).toNat + 0) * (1 : Int).toNat + 0)
            * (1 : Int).toNat + 0]?
        = some (toInt32 (im2colGemmAccumulator
            ⟨1, 1, 1, 1, 2, 2, 2, 2, 1, 1, 0, 0, 1, 1, 1, 1, 4⟩ [1, 2, 3, 4] [10] col 0 0 0 0))
      ∧ (-2147483648 ≤ im2colGemmAccumulator
            ⟨1, 1, 1, 1, 2, 2, 2, 2, 1, 1, 0, 0, 1, 1, 1, 1, 4⟩ [1, 2, 3, 4] [10] col 0 0 0 0 →
          im2colGemmAccumulator ⟨1, 1, 1, 1, 2, 2, 2, 2, 1, 1, 0, 0, 1, 1, 1, 1, 4⟩
            [1, 2, 3, 4] [10] col 0 0 0 0 < 2147483648 →
          toInt32 (im2colGemmAccumulator ⟨1, 1, 1, 1, 2, 2, 2, 2, 1, 1, 0, 0, 1, 1, 1, 1, 4⟩
              [1, 2, 3, 4] [10] col 0 0 0 0)
            = im2colGemmAccumulator ⟨1, 1, 1, 1, 2, 2, 2, 2, 1, 1, 0, 0, 1, 1, 1, 1, 4⟩
              [1, 2, 3, 4] [10] col 0 0 0 0) :=
  accumulate_eq_im2col_gemm ⟨1, 1, 1, 1, 2, 2, 2, 2, 1, 1, 0, 0, 1, 1, 1, 1, 4⟩
    [5, 6, 7, 8] [1, 2, 3, 4] [10] (fun _ (sum : Int) => sum) (fun _ => 0) 1
    (by decide) (by decide) (by decide) (by decide) (by decide) (by decide)
    (by decide) (by decide) (by decide)
    0 0 0 0 0 (by decide) (by decide) (by decide) (by decide) (by decide)
/-! ## Saturation of `RequantizeOutput` -/

/-- The value `RequantizeOutput` passes to the narrowing conversion, for the `float` product
`f`: `f` clamped to `[Tmin - zp, Tmax - zp]`, rounded half to even, plus the zero point.  It is
the integer `clamp(nearestInt(f) + zp, Tmin, Tmax)`. -/
theorem requantize_precast_eq (T : IntType) (f : ℚ) (zp : Int) :
    RoundHalfToEven (max (min f ((T.max - zp : Int) : ℚ)) ((T.min - zp : Int) : ℚ)) + (zp : ℚ)
      = ((max T.min (min T.max (nearestInt f + zp)) : Int) : ℚ) := by
  rw [RoundHalfToEven_eq, nearestInt_max, nearestInt_min]
  have : max (min (nearestInt f) (T.max - zp)) (T.min - zp) + zp
      = max T.min (min T.max (nearestInt f + zp)) := by
    omega
  rw [← this]
  push_cast
  ring

/-- Claim C31. `RequantizeOutput` saturates.  For every accumulator `sum`, every finite scale
and every zero point `zp` in the range of the destination type `T` (of at most 24 bits, so that
the bounds `Tmin - zp`, `Tmax - zp` and `zp` are `float` values), with `sum * scale` the `float`
product of the code (`sum` converted to `float`, the product rounded to `float`): the value
`RoundHalfToEven(clamp(sum * scale, Tmin - zp, Tmax - zp)) + zp` that `RequantizeOutput` passes
to the narrowing conversion lies in `[Tmin, Tmax]`, it equals
`clamp(RoundHalfToEven(sum * scale) + zp, Tmin, Tmax)`, the `float` addition of `zp` is exact,
and the narrowing conversion does not change the value: the result of `RequantizeOutput` is this
value. -/
theorem RequantizeOutput_saturates (T : IntType) (hlo : -8388608 ≤ T.min)
    (hhi : T.max ≤ 8388608) (sum : Int) (scale : ℚ) (zp : Int) (hzp0 : T.min ≤ zp)
    (hzp1 : zp ≤ T.max) :
    (T.min : ℚ)
      ≤ RoundHalfToEven (max (min (roundFloat32 (roundFloat32 (sum : ℚ) * scale))
          ((T.max - zp : Int) : ℚ)) ((T.min - zp : Int) : ℚ)) + (zp : ℚ)
    ∧ RoundHalfToEven (max (min (roundFloat32 (roundFloat32 (sum : ℚ) * scale))
          ((T.max - zp : Int) : ℚ)) ((T.min - zp : Int) : ℚ)) + (zp : ℚ) ≤ (T.max : ℚ)
    ∧ RoundHalfToEven (max (min (roundFloat32 (roundFloat32 (sum : ℚ) * scale))
          ((T.max - zp : Int) : ℚ)) ((T.min - zp : Int) : ℚ)) + (zp : ℚ)
      = max (T.min : ℚ) (min (T.max : ℚ)
          (RoundHalfToEven (roundFloat32 (roundFloat32 (sum : ℚ) * scale)) + (zp : ℚ)))
    ∧ RequantizeValues.create T zp
      = ⟨((T.min - zp : Int) : ℚ), ((T.max - zp : Int) : ℚ), (zp : ℚ)⟩
    ∧ roundFloat32 (RoundHalfToEven (max (min (roundFloat32 (roundFloat32 (sum : ℚ) * scale))
          ((T.max - zp : Int) : ℚ)) ((T.min - zp : Int) : ℚ)) + (zp : ℚ))
      = RoundHalfToEven (max (min (roundFloat32 (roundFloat32 (sum : ℚ) * scale))
          ((T.max - zp : Int) : ℚ)) ((T.min - zp : Int) : ℚ)) + (zp : ℚ)
    ∧ RequantizeOutput T sum scale (RequantizeValues.create T zp)
      = staticCastFloat T (RoundHalfToEven
          (max (min (roundFloat32 (roundFloat32 (sum : ℚ) * scale))
            ((T.max - zp : Int) : ℚ)) ((T.min - zp : Int) : ℚ)) + (zp : ℚ))
    ∧ (RequantizeOutput T sum scale (RequantizeValues.create T zp) : ℚ)
      = RoundHalfToEven (max (min (roundFloat32 (roundFloat32 (sum : ℚ) * scale))
          ((T.max - zp : Int) : ℚ)) ((T.min - zp : Int) : ℚ)) + (zp : ℚ) := by
  have hT : T.min ≤ T.max := le_trans hzp0 hzp1
  have h1 : T.min ≤ max T.min (min T.max
      (nearestInt (roundFloat32 (roundFloat32 (sum : ℚ) * scale)) + zp)) := le_max_left _ _
  have h2 : max T.min (min T.max
      (nearestInt (roundFloat32 (roundFloat32 (sum : ℚ) * scale)) + zp)) ≤ T.max :=
    max_le hT (min_le_left _ _)
  rw [requantize_precast_eq, RequantizeOutput_eq T hlo hhi sum scale zp hzp0 hzp1]
  refine ⟨by exact_mod_cast h1, by exact_mod_cast h2, ?_,
    RequantizeValues_create_eq T hlo hhi zp hzp0 hzp1,
    roundFloat32_intCast _ (by omega) (by omega),
    (staticCastFloat_intCast T _ h1 h2).symm, rfl⟩
  rw [RoundHalfToEven_eq]
  push_cast
  rfl

/-- Claim C31 for `uint8_t`, zero point 128, the accumulator 200 and the scale 1: the value is
255. -/
theorem RequantizeOutput_saturates_witness :
    (IntType.uint8.min : ℚ)
      ≤ RoundHalfToEven (max (min (roundFloat32 (roundFloat32 ((200 : Int) : ℚ) * 1))
          ((IntType.uint8.max - 128 : Int) : ℚ)) ((IntType.uint8.min - 128 : Int) : ℚ))
          + ((128 : Int) : ℚ)
    ∧ RoundHalfToEven (max (min (roundFloat32 (roundFloat32 ((200 : Int) : ℚ) * 1))
          ((IntType.uint8.max - 128 : Int) : ℚ)) ((IntType.uint8.min - 128 : Int) : ℚ))
          + ((128 : Int) : ℚ) ≤ (IntType.uint8.max : ℚ)
    ∧ RoundHalfToEven (max (min (roundFloat32 (roundFloat32 ((200 : Int) : ℚ) * 1))
          ((IntType.uint8.max - 128 : Int) : ℚ)) ((IntType.uint8.min - 128 : Int) : ℚ))
          + ((128 : Int) : ℚ)
      = max (IntType.uint8.min : ℚ) (min (IntType.uint8.max : ℚ)
          (RoundHalfToEven (roundFloat32 (roundFloat32 ((200 : Int) : ℚ) * 1))
            + ((128 : Int) : ℚ)))
    ∧ RequantizeValues.create IntType.uint8 128
      = ⟨((IntType.uint8.min - 128 : Int) : ℚ), ((IntType.uint8.max - 128 : Int) : ℚ),
          ((128 : Int) : ℚ)⟩
    ∧ roundFloat32 (RoundHalfToEven
          (max (min (roundFloat32 (roundFloat32 ((200 : Int) : ℚ) * 1))
            ((IntType.uint8.max - 128 : Int) : ℚ)) ((IntType.uint8.min - 128 : Int) : ℚ))
          + ((128 : Int) : ℚ))
      = RoundHalfToEven (max (min (roundFloat32 (roundFloat32 ((200 : Int) : ℚ) * 1))
          ((IntType.uint8.max - 128 : Int) : ℚ)) ((IntType.uint8.min - 128 : Int) : ℚ))
          + ((128 : Int) : ℚ)
    ∧ RequantizeOutput IntType.uint8 200 1 (RequantizeValues.create IntType.uint8 128)
      = staticCastFloat IntType.uint8 (RoundHalfToEven
          (max (min (roundFloat32 (roundFloat32 ((200 : Int) : ℚ) * 1))
            ((IntType.uint8.max - 128 : Int) : ℚ)) ((IntType.uint8.min - 128 : Int) : ℚ))
          + ((128 : Int) : ℚ))
    ∧ (RequantizeOutput IntType.uint8 200 1 (RequantizeValues.create IntType.uint8 128) : ℚ)
      = RoundHalfToEven (max (min (roundFloat32 (roundFloat32 ((200 : Int) : ℚ) * 1))
          ((IntType.uint8.max - 128 : Int) : ℚ)) ((IntType.uint8.min - 128 : Int) : ℚ))
          + ((128 : Int) : ℚ) :=
  RequantizeOutput_saturates IntType.uint8 (by decide) (by decide) 200 1 128 (by decide)
    (by decide)
/-! ## The accumulation without overflow -/

theorem readAt_bounds (xs : List Int) (lo hi : Int) (hlo : lo ≤ 0) (hhi : 0 ≤ hi)
    (h : ∀ x, x ∈ xs → lo ≤ x ∧ x ≤ hi) (i : Int) : lo ≤ readAt xs i ∧ readAt xs i ≤ hi := by
  unfold readAt
  rw [List.getD_eq_getElem?_getD]
  cases hget : xs[i.toNat]? with
  | none => exact ⟨hlo, hhi⟩
  | some v => exact h v (List.getElem?_mem hget)

/-- A loop whose steps keep an invariant with a bound that grows by `c` per step: the loop with
failing steps does not fail while the bound stays below `B`, and agrees with the loop without
failures. -/
theorem foldl_checked {σ : Type} (f : σ → Nat → σ) (fc : Option σ → Nat → Option σ)
    (inv : σ → Int → Prop) (c B : Int) (hc : 0 ≤ c)
    (hstep : ∀ (st : σ) (v : Int) (i : Nat), inv st v → v + c ≤ B →
      fc (some st) i = some (f st i) ∧ inv (f st i) (v + c))
    (n : Nat) (st : σ) (v : Int) (h : inv st v) (hB : v + c * (n : Int) ≤ B) :
    (List.range n).foldl fc (some st) = some ((List.range n).foldl f st)
      ∧ inv ((List.range n).foldl f st) (v + c * (n : Int)) := by
  induction n with
  | zero =>
    refine ⟨rfl, ?_⟩
    have : v + c * ((0 : Nat) : Int) = v := by simp
    rw [this]
    exact h
  | succ n ih =>
    have hcn : 0 ≤ c * (n : Int) := mul_nonneg hc (by omega)
    have hB2 : v + c * (n : Int) + c ≤ B := by
      have : c * ((n + 1 : Nat) : Int) = c * (n : Int) + c := by push_cast; ring
      rw [this] at hB
      omega
    obtain ⟨h1, h2⟩ := ih (by omega)
    obtain ⟨h3, h4⟩ := hstep _ _ n h2 hB2
    rw [foldl_range_succ, foldl_range_succ, h1, h3]
    refine ⟨rfl, ?_⟩
    have : v + c * ((n + 1 : Nat) : Int) = v + c * (n : Int) + c := by push_cast; ring
    rw [this]
    exact h4

/-- One tap with `uint8_t` input and zero point and `int8_t` weight moves the accumulator by at
most 32640 and does not overflow while the bound stays an `int32_t` value. -/
theorem tapStepChecked_spec (L : ConvLocals) (Xdata Wdata : List Int) (ow ih : Int)
    (hx : ∀ i, 0 ≤ readAt Xdata i ∧ readAt Xdata i ≤ 255)
    (hzp0 : 0 ≤ L.X_zero_point) (hzp1 : L.X_zero_point ≤ 255)
    (hw : ∀ i, -128 ≤ readAt Wdata i ∧ readAt Wdata i ≤ 127)
    (st : TapState) (v : Int) (kw : Nat) (hinv : -v ≤ st.sum ∧ st.sum ≤ v)
    (hv : v + 32640 ≤ 2147483647) :
    tapStepChecked L Xdata Wdata ow ih (some st) kw = some (tapStep L Xdata Wdata ow ih st kw)
      ∧ (-(v + 32640) ≤ (tapStep L Xdata Wdata ow ih st kw).sum
        ∧ (tapStep L Xdata Wdata ow ih st kw).sum ≤ v + 32640) := by
  obtain ⟨hs1, hs2⟩ := hinv
  unfold tapStepChecked tapStep
  simp only
  by_cases hc : toUInt64 ih < toUInt64 L.input_h
      ∧ toUInt64 ((kw : Int) * L.dilation_w + ow * L.stride_w - L.pad_l) < toUInt64 L.input_w
  · rw [if_pos hc, if_pos hc]
    obtain ⟨hx0, hx1⟩ := hx (st.input_image
      + (ih * L.input_w + ((kw : Int) * L.dilation_w + ow * L.stride_w - L.pad_l)))
    obtain ⟨hw0, hw1⟩ := hw st.weight_data
    generalize readAt Xdata (st.input_image
      + (ih * L.input_w + ((kw : Int) * L.dilation_w + ow * L.stride_w - L.pad_l))) = x
      at hx0 hx1
    generalize readAt Wdata st.weight_data = w at hw0 hw1
    have e1 : toInt32 x = x := toInt32_of_range x (by omega) (by omega)
    have e2 : toInt32 w = w := toInt32_of_range w (by omega) (by omega)
    have e3 : toInt32 (x - L.X_zero_point) = x - L.X_zero_point :=
      toInt32_of_range _ (by omega) (by omega)
    have hp0 : -32640 ≤ (x - L.X_zero_point) * w := by nlinarith
    have hp1 : (x - L.X_zero_point) * w ≤ 32640 := by nlinarith
    have e4 : toInt32 ((x - L.X_zero_point) * w) = (x - L.X_zero_point) * w :=
      toInt32_of_range _ (by omega) (by omega)
    have e5 : toInt32 (st.sum + (x - L.X_zero_point) * w)
        = st.sum + (x - L.X_zero_point) * w :=
      toInt32_of_range _ (by omega) (by omega)
    rw [e1, e2, e3, e4, e5, if_pos]
    · refine ⟨rfl, ?_, ?_⟩
      · show -(v + 32640) ≤ st.sum + (x - L.X_zero_point) * w
        omega
      · show st.sum + (x - L.X_zero_point) * w ≤ v + 32640
        omega
    · unfold fitsInt32
      omega
  · rw [if_neg hc, if_neg hc]
    refine ⟨rfl, ?_, ?_⟩
    · show -(v + 32640) ≤ st.sum
      omega
    · show st.sum ≤ v + 32640
      omega

theorem rowStepChecked_spec (L : ConvLocals) (Xdata Wdata : List Int) (oh ow : Int)
    (hx : ∀ i, 0 ≤ readAt Xdata i ∧ readAt Xdata i ≤ 255)
    (hzp0 : 0 ≤ L.X_zero_point) (hzp1 : L.X_zero_point ≤ 255)
    (hw : ∀ i, -128 ≤ readAt Wdata i ∧ readAt Wdata i ≤ 127)
    (st : TapState) (v : Int) (kh : Nat) (hinv : -v ≤ st.sum ∧ st.sum ≤ v)
    (hv : v + 32640 * (L.kernel_w.toNat : Int) ≤ 2147483647) :
    rowStepChecked L Xdata Wdata oh ow (some st) kh = some (rowStep L Xdata Wdata oh ow st kh)
      ∧ (-(v + 32640 * (L.kernel_w.toNat : Int)) ≤ (rowStep L Xdata Wdata oh ow st kh).sum
        ∧ (rowStep L Xdata Wdata oh ow st kh).sum ≤ v + 32640 * (L.kernel_w.toNat : Int)) := by
  unfold rowStepChecked rowStep
  exact foldl_checked _ _ (fun (s : TapState) (u : Int) => -u ≤ s.sum ∧ s.sum ≤ u) 32640
    2147483647 (by omega)
    (fun s u i hs hu => tapStepChecked_spec L Xdata Wdata ow _ hx hzp0 hzp1 hw s u i hs hu)
    L.kernel_w.toNat st v hinv hv

theorem channelStepChecked_spec (L : ConvLocals) (Xdata Wdata : List Int) (oh ow : Int)
    (hx : ∀ i, 0 ≤ readAt Xdata i ∧ readAt Xdata i ≤ 255)
    (hzp0 : 0 ≤ L.X_zero_point) (hzp1 : L.X_zero_point ≤ 255)
    (hw : ∀ i, -128 ≤ readAt Wdata i ∧ readAt Wdata i ≤ 127)
    (st : TapState) (v : Int) (ic : Nat) (hinv : -v ≤ st.sum ∧ st.sum ≤ v)
    (hv : v + 32640 * (L.kernel_w.toNat : Int) * (L.kernel_h.toNat : Int) ≤ 2147483647) :
    channelStepChecked L Xdata Wdata oh ow (some st) ic
        = some (channelStep L Xdata Wdata oh ow st ic)
      ∧ (-(v + 32640 * (L.kernel_w.toNat : Int) * (L.kernel_h.toNat : Int))
          ≤ (channelStep L Xdata Wdata oh ow st ic).sum
        ∧ (channelStep L Xdata Wdata oh ow st ic).sum
          ≤ v + 32640 * (L.kernel_w.toNat : Int) * (L.kernel_h.toNat : Int)) := by
  obtain ⟨h1, h2⟩ := foldl_checked (rowStep L Xdata Wdata oh ow)
    (rowStepChecked L Xdata Wdata oh ow)
    (fun (s : TapState) (u : Int) => -u ≤ s.sum ∧ s.sum ≤ u)
    (32640 * (L.kernel_w.toNat : Int)) 2147483647 (by omega)
    (fun s u i hs hu => rowStepChecked_spec L Xdata Wdata oh ow hx hzp0 hzp1 hw s u i hs hu)
    L.kernel_h.toNat st v hinv hv
  unfold channelStepChecked channelStep
  rw [h1]
  exact ⟨rfl, h2⟩

theorem accumulateChecked_spec (L : ConvLocals) (Xdata Wdata : List Int) (oh ow : Int)
    (hx : ∀ i, 0 ≤ readAt Xdata i ∧ readAt Xdata i ≤ 255)
    (hzp0 : 0 ≤ L.X_zero_point) (hzp1 : L.X_zero_point ≤ 255)
    (hw : ∀ i, -128 ≤ readAt Wdata i ∧ readAt Wdata i ≤ 127)
    (bias xdata weight_row : Int)
    (hv : |bias| + 32640 * (L.kernel_w.toNat : Int) * (L.kernel_h.toNat : Int)
      * (L.group_input_channels.toNat : Int) ≤ 2147483647) :
    accumulateChecked L Xdata Wdata oh ow bias xdata weight_row
      = some (accumulate L Xdata Wdata oh ow bias xdata weight_row) := by
  obtain ⟨h1, -⟩ := foldl_checked (channelStep L Xdata Wdata oh ow)
    (channelStepChecked L Xdata Wdata oh ow)
    (fun (s : TapState) (u : Int) => -u ≤ s.sum ∧ s.sum ≤ u)
    (32640 * (L.kernel_w.toNat : Int) * (L.kernel_h.toNat : Int)) 2147483647
    (mul_nonneg (by omega) (by omega))
    (fun s u i hs hu => channelStepChecked_spec L Xdata Wdata oh ow hx hzp0 hzp1 hw s u i hs hu)
    L.group_input_channels.toNat ⟨bias, xdata, weight_row⟩ |bias|
    ⟨neg_abs_le bias, le_abs_self bias⟩ hv
  unfold accumulateChecked accumulate
  rw [h1]

theorem abs_sum_range_le (f : Nat → Int) (n : Nat) (c : Int)
    (h : ∀ i, i < n → |f i| ≤ c) : |∑ i ∈ Finset.range n, f i| ≤ (n : Int) * c := by
  induction n with
  | zero => simp
  | succ n ih =>
    rw [Finset.sum_range_succ]
    have h1 := ih (fun i hi => h i (by omega))
    have h2 := h n (by omega)
    have h3 := abs_add (∑ i ∈ Finset.range n, f i) (f n)
    have h4 : ((n + 1 : Nat) : Int) * c = (n : Int) * c + c := by push_cast; ring
    rw [h4]
    omega

/-- Every term `(x - X_zero_point) * w` of the accumulation has absolute value at most
`255 * 128 = 32640`. -/
theorem tapTerm_abs_le (L : ConvLocals) (Xdata Wdata : List Int)
    (hx : ∀ i, 0 ≤ readAt Xdata i ∧ readAt Xdata i ≤ 255)
    (hzp0 : 0 ≤ L.X_zero_point) (hzp1 : L.X_zero_point ≤ 255)
    (hw : ∀ i, -128 ≤ readAt Wdata i ∧ readAt Wdata i ≤ 127)
    (b g oc oh ow ic kh kw : Nat) :
    |tapTerm L Xdata Wdata b g oc oh ow ic kh kw| ≤ 32640 := by
  unfold tapTerm
  split_ifs
  · obtain ⟨hx0, hx1⟩ := hx ((((b : Int) * (L.group_input_channels * L.group_count)
            + ((g : Int) * L.group_input_channels + (ic : Int))) * L.input_h
          + ((kh : Int) * L.dilation_h + (oh : Int) * L.stride_h - L.pad_t)) * L.input_w
          + ((kw : Int) * L.dilation_w + (ow : Int) * L.stride_w - L.pad_l))
    obtain ⟨hw0, hw1⟩ := hw (((((g : Int) * L.group_output_channels + (oc : Int))
            * L.group_input_channels + (ic : Int)) * L.kernel_h + (kh : Int)) * L.kernel_w
            + (kw : Int))
    rw [abs_le]
    constructor <;> nlinarith
  · simp

/-- Claim C32. With `uint8_t` input elements and input zero point (values in `[0, 255]`) and
`int8_t` weights (values in `[-128, 127]`), every term `(x - X_zero_point) * w` has absolute
value at most `255 * 128 = 32640`; and whenever
`|bias| + 32640 * group_input_channels * kernel_h * kernel_w ≤ 2^31 - 1`, no subtraction,
product or addition of the `int32_t` accumulation overflows (the loops with overflow as a
failure return a value), and the computed accumulator is the exact integer sum: the bias plus
the sum of the terms of every input channel of the group and every kernel tap inside the
input. -/
theorem accumulate_no_overflow (L : ConvLocals) (Xdata Wdata B : List Int)
    (hh0 : 0 ≤ L.input_h) (hh : fitsInt64 L.input_h) (hw0 : 0 ≤ L.input_w)
    (hw : fitsInt64 L.input_w)
    (hx : ∀ x, x ∈ Xdata → 0 ≤ x ∧ x ≤ 255)
    (hzp0 : 0 ≤ L.X_zero_point) (hzp1 : L.X_zero_point ≤ 255)
    (hwt : ∀ w, w ∈ Wdata → -128 ≤ w ∧ w ≤ 127)
    (hgic : 0 ≤ L.group_input_channels) (hkh : 0 ≤ L.kernel_h) (hkw : 0 ≤ L.kernel_w)
    (b g oc oh ow : Nat) (hg : g < L.group_count.toNat)
    (hih : ∀ kh : Nat, kh < L.kernel_h.toNat →
      fitsInt64 ((kh : Int) * L.dilation_h + (oh : Int) * L.stride_h - L.pad_t))
    (hiw : ∀ kw : Nat, kw < L.kernel_w.toNat →
      fitsInt64 ((kw : Int) * L.dilation_w + (ow : Int) * L.stride_w - L.pad_l))
    (hbound :
      |if B.isEmpty then 0 else readAt B ((g : Int) * L.group_output_channels + (oc : Int))|
        + 32640 * (L.group_input_channels * L.kernel_h * L.kernel_w) ≤ 2147483647) :
    (∀ ic kh kw : Nat, |tapTerm L Xdata Wdata b g oc oh ow ic kh kw| ≤ 32640)
    ∧ accumulateChecked L Xdata Wdata (oh : Int) (ow : Int)
        (biasOf B ((g : Int) * L.group_output_channels + (oc : Int)))
        (xdataAt L b g) (weightRowAt L g oc)
      = some (expectedAccumulator L Xdata Wdata B b g oc oh ow)
    ∧ accumulate L Xdata Wdata (oh : Int) (ow : Int)
        (biasOf B ((g : Int) * L.group_output_channels + (oc : Int)))
        (xdataAt L b g) (weightRowAt L g oc)
      = expectedAccumulator L Xdata Wdata B b g oc oh ow := by
  have hx2 := readAt_bounds Xdata 0 255 (le_refl 0) (by omega) hx
  have hw2 := readAt_bounds Wdata (-128) 127 (by omega) (by omega) hwt
  have hterm := fun ic kh kw =>
    tapTerm_abs_le L Xdata Wdata hx2 hzp0 hzp1 hw2 b g oc oh ow ic kh kw
  have e1 : ((L.group_input_channels.toNat : Nat) : Int) = L.group_input_channels :=
    Int.toNat_of_nonneg hgic
  have e2 : ((L.kernel_h.toNat : Nat) : Int) = L.kernel_h := Int.toNat_of_nonneg hkh
  have e3 : ((L.kernel_w.toNat : Nat) : Int) = L.kernel_w := Int.toNat_of_nonneg hkw
  have hprod : 0 ≤ L.group_input_channels * L.kernel_h * L.kernel_w :=
    mul_nonneg (mul_nonneg hgic hkh) hkw
  generalize hb0 : (if B.isEmpty then 0
    else readAt B ((g : Int) * L.group_output_channels + (oc : Int))) = bias0 at hbound
  have habs := abs_le.mp (le_refl |bias0|)
  have hbias : biasOf B ((g : Int) * L.group_output_channels + (oc : Int)) = bias0 := by
    rw [biasOf_eq, hb0]
    exact toInt32_of_range bias0 (by omega) (by omega)
  have hacc : accumulate L Xdata Wdata (oh : Int) (ow : Int) bias0 (xdataAt L b g)
      (weightRowAt L g oc) = toInt32 (expectedAccumulator L Xdata Wdata B b g oc oh ow) := by
    rw [accumulate_eq L Xdata Wdata (oh : Int) (ow : Int) hh0 hh hw0 hw hiw hih bias0 bias0 _ _
      (toInt32_of_range bias0 (by omega) (by omega)).symm]
    unfold expectedAccumulator
    rw [hb0]
    congr 2
    apply Finset.sum_congr rfl
    intro ic _
    apply Finset.sum_congr rfl
    intro kh hkh2
    apply Finset.sum_congr rfl
    intro kw hkw2
    exact ptrTerm_eq_tapTerm L Xdata Wdata b g oc oh ow ic kh kw hg
      (Finset.mem_range.mp hkh2) (Finset.mem_range.mp hkw2)
  have hsum : |∑ ic ∈ Finset.range L.group_input_channels.toNat,
      ∑ kh ∈ Finset.range L.kernel_h.toNat, ∑ kw ∈ Finset.range L.kernel_w.toNat,
        tapTerm L Xdata Wdata b g oc oh ow ic kh kw|
      ≤ 32640 * (L.group_input_channels * L.kernel_h * L.kernel_w) := by
    have h1 : ∀ ic kh : Nat, |∑ kw ∈ Finset.range L.kernel_w.toNat,
        tapTerm L Xdata Wdata b g oc oh ow ic kh kw| ≤ L.kernel_w * 32640 := by
      intro ic kh
      have := abs_sum_range_le (fun kw => tapTerm L Xdata Wdata b g oc oh ow ic kh kw)
        L.kernel_w.toNat 32640 (fun kw _ => hterm ic kh kw)
      rw [e3] at this
      exact this
    have h2 : ∀ ic : Nat, |∑ kh ∈ Finset.range L.kernel_h.toNat,
        ∑ kw ∈ Finset.range L.kernel_w.toNat,
          tapTerm L Xdata Wdata b g oc oh ow ic kh kw| ≤ L.kernel_h * (L.kernel_w * 32640) := by
      intro ic
      have := abs_sum_range_le (fun kh => ∑ kw ∈ Finset.range L.kernel_w.toNat,
        tapTerm L Xdata Wdata b g oc oh ow ic kh kw) L.kernel_h.toNat (L.kernel_w * 32640)
        (fun kh _ => h1 ic kh)
      rw [e2] at this
      exact this
    have h3 := abs_sum_range_le (fun ic => ∑ kh ∈ Finset.range L.kernel_h.toNat,
      ∑ kw ∈ Finset.range L.kernel_w.toNat, tapTerm L Xdata Wdata b g oc oh ow ic kh kw)
      L.group_input_channels.toNat (L.kernel_h * (L.kernel_w * 32640)) (fun ic _ => h2 ic)
    rw [e1] at h3
    calc _ ≤ L.group_input_channels * (L.kernel_h * (L.kernel_w * 32640)) := h3
      _ = 32640 * (L.group_input_channels * L.kernel_h * L.kernel_w) := by ring
  have hE : expectedAccumulator L Xdata Wdata B b g oc oh ow
      = bias0 + ∑ ic ∈ Finset.range L.group_input_channels.toNat,
          ∑ kh ∈ Finset.range L.kernel_h.toNat, ∑ kw ∈ Finset.range L.kernel_w.toNat,
            tapTerm L Xdata Wdata b g oc oh ow ic kh kw := by
    unfold expectedAccumulator
    rw [hb0]
  have hexact : toInt32 (expectedAccumulator L Xdata Wdata B b g oc oh ow)
      = expectedAccumulator L Xdata Wdata B b g oc oh ow := by
    rw [hE]
    have hs := abs_le.mp hsum
    exact toInt32_of_range _ (by omega) (by omega)
  have hv : |bias0| + 32640 * (L.kernel_w.toNat : Int) * (L.kernel_h.toNat : Int)
      * (L.group_input_channels.toNat : Int) ≤ 2147483647 := by
    rw [e1, e2, e3]
    have : 32640 * L.kernel_w * L.kernel_h * L.group_input_channels
        = 32640 * (L.group_input_channels * L.kernel_h * L.kernel_w) := by ring
    omega
  rw [hbias, accumulateChecked_spec L Xdata Wdata (oh : Int) (ow : Int) hx2 hzp0 hzp1 hw2
    bias0 _ _ hv, hacc, hexact]
  exact ⟨hterm, rfl, rfl⟩

/-- Claim C32 for one group with one input channel, a 2 x 2 input `[5, 6, 7, 8]` with zero point
4, a 2 x 2 kernel `[1, 2, 3, 4]` and the bias 10: the accumulator is 40. -/
theorem accumulate_no_overflow_witness :
    (∀ ic kh kw : Nat,
      |tapTerm ⟨1, 1, 1, 1, 2, 2, 2, 2, 1, 1, 0, 0, 1, 1, 1, 1, 4⟩ [5, 6, 7, 8] [1, 2, 3, 4]
        0 0 0 0 0 ic kh kw| ≤ 32640)
    ∧ accumulateChecked ⟨1, 1, 1, 1, 2, 2, 2, 2, 1, 1, 0, 0, 1, 1, 1, 1, 4⟩ [5, 6, 7, 8]
        [1, 2, 3, 4] ((0 : Nat) : Int) ((0 : Nat) : Int)
        (biasOf [10] (((0 : Nat) : Int) * 1 + ((0 : Nat) : Int)))
        (xdataAt ⟨1, 1, 1, 1, 2, 2, 2, 2, 1, 1, 0, 0, 1, 1, 1, 1, 4⟩ 0 0)
        (weightRowAt ⟨1, 1, 1, 1, 2, 2, 2, 2, 1, 1, 0, 0, 1, 1, 1, 1, 4⟩ 0 0)
      = some (expectedAccumulator ⟨1, 1, 1, 1, 2, 2, 2, 2, 1, 1, 0, 0, 1, 1, 1, 1, 4⟩
          [5, 6, 7, 8] [1, 2, 3, 4] [10] 0 0 0 0 0)
    ∧ accumulate ⟨1, 1, 1, 1, 2, 2, 2, 2, 1, 1, 0, 0, 1, 1, 1, 1, 4⟩ [5, 6, 7, 8]
        [1, 2, 3, 4] ((0 : Nat) : Int) ((0 : Nat) : Int)
        (biasOf [10] (((0 : Nat) : Int) * 1 + ((0 : Nat) : Int)))
        (xdataAt ⟨1, 1, 1, 1, 2, 2, 2, 2, 1, 1, 0, 0, 1, 1, 1, 1, 4⟩ 0 0)
        (weightRowAt ⟨1, 1, 1, 1, 2, 2, 2, 2, 1, 1, 0, 0, 1, 1, 1, 1, 4⟩ 0 0)
      = expectedAccumulator ⟨1, 1, 1, 1, 2, 2, 2, 2, 1, 1, 0, 0, 1, 1, 1, 1, 4⟩
          [5, 6, 7, 8] [1, 2, 3, 4] [10] 0 0 0 0 0 :=
  accumulate_no_overflow ⟨1, 1, 1, 1, 2, 2, 2, 2, 1, 1, 0, 0, 1, 1, 1, 1, 4⟩
    [5, 6, 7, 8] [1, 2, 3, 4] [10]
    (by decide) (by decide) (by decide) (by decide) (by decide) (by decide) (by decide)
    (by decide) (by decide) (by decide) (by decide)
    0 0 0 0 0 (by decide) (by decide) (by decide) (by decide)
/-! ## The index triples of `Im2colNd` -/

/-- The loop over `c_col` performs the writes of `writeElement` at the triples of `indexTrace`,
in their order, and ends as `indexTrace` ends. -/
theorem channelLoop_eq_indexTrace {α : Type} [Add α] (data_img : Int → α)
    (im_shape col_shape kernel_shape stride dilation pad : List Int) (N : Nat)
    (accumulate_output : Bool) (padding_value : α) (kernel_size : Int) (fuel : Nat)
    (cs : List Nat) (st : Im2colState α) :
    (match channelLoop data_img im_shape col_shape kernel_shape stride dilation pad N
        accumulate_output padding_value kernel_size fuel cs st with
      | Outcome.done s => Outcome.done s.data_col
      | Outcome.enforceFailed s => Outcome.enforceFailed s.data_col
      | Outcome.outOfFuel => (Outcome.outOfFuel : Outcome (Int → α)))
      = match indexTrace im_shape col_shape kernel_shape stride dilation pad N kernel_size fuel
          cs st.d_offset st.d_iter with
        | Outcome.done log =>
          Outcome.done (log.foldl
            (fun (B : Int → α) (t : Int × Int × Bool) =>
              writeElement accumulate_output padding_value data_img t.1 t.2.1 t.2.2 B)
            st.data_col)
        | Outcome.enforceFailed log =>
          Outcome.enforceFailed (log.foldl
            (fun (B : Int → α) (t : Int × Int × Bool) =>
              writeElement accumulate_output padding_value data_img t.1 t.2.1 t.2.2 B)
            st.data_col)
        | Outcome.outOfFuel => Outcome.outOfFuel := by
  induction cs generalizing st with
  | nil => rfl
  | cons c rest ih =>
    unfold channelLoop indexTrace
    rw [positionLoop_eq_trace]
    dsimp only
    cases positionTrace col_shape N fuel st.d_iter with
    | outOfFuel => rfl
    | enforceFailed res =>
      dsimp only
      rw [List.foldl_map]
    | done res =>
      dsimp only
      rw [ih]
      dsimp only
      cases indexTrace im_shape col_shape kernel_shape stride dilation pad N kernel_size fuel
          rest (computeDOffset kernel_shape N (c : Int) st.d_offset) res.2 with
      | outOfFuel => rfl
      | enforceFailed log =>
        dsimp only
        rw [List.foldl_append, List.foldl_map]
      | done log =>
        dsimp only
        rw [List.foldl_append, List.foldl_map]

/-- The call of `Im2colNd` performs the writes of `writeElement` at the triples of
`Im2colNdIndices`, in their order, and ends as `Im2colNdIndices` ends. -/
theorem Im2colNd_eq_indices {α : Type} [Add α] (data_img : Int → α)
    (im_shape col_shape kernel_shape stride dilation pad : List Int) (N : Nat)
    (data_col : Int → α) (accumulate_output : Bool) (padding_value : α) (fuel : Nat) :
    Im2colNd data_img im_shape col_shape kernel_shape stride dilation pad N data_col
        accumulate_output padding_value fuel
      = match Im2colNdIndices im_shape col_shape kernel_shape stride dilation pad N fuel with
        | Outcome.done log =>
          Outcome.done (log.foldl
            (fun (B : Int → α) (t : Int × Int × Bool) =>
              writeElement accumulate_output padding_value data_img t.1 t.2.1 t.2.2 B)
            data_col)
        | Outcome.enforceFailed log =>
          Outcome.enforceFailed (log.foldl
            (fun (B : Int → α) (t : Int × Int × Bool) =>
              writeElement accumulate_output padding_value data_img t.1 t.2.1 t.2.2 B)
            data_col)
        | Outcome.outOfFuel => Outcome.outOfFuel := by
  unfold Im2colNd Im2colNdIndices
  exact channelLoop_eq_indexTrace data_img im_shape col_shape kernel_shape stride dilation pad
    N accumulate_output padding_value (kernelSize kernel_shape N) fuel
    (List.range (at64 col_shape 0).toNat) ⟨List.replicate N 0, List.replicate N 0, data_col⟩

/-- The triples of one `c_col` on the visited positions: the triples `im2colIndices c_col r`
for the ranks `r = 0, ..., P - 1`. -/
theorem map_computeIndices_eq (im_shape col_shape kernel_shape stride dilation pad : List Int)
    (N : Nat) (hks : ∀ i, i < N → 1 ≤ at64 kernel_shape i) (c_col : Nat)
    (d_offset : List Int) (hlen : d_offset.length = N) (visited : List (List Int)) (n : Nat)
    (hvl : visited.length = n)
    (hel : ∀ j, j < visited.length →
      (visited.getD j []).length = N
      ∧ inExtents (spatialExtent col_shape) (at64 (visited.getD j [])) N
      ∧ flatIndex (spatialExtent col_shape) (at64 (visited.getD j [])) 0 N = 0 + (j : Int)) :
    visited.map (computeIndices im_shape col_shape stride dilation pad N (c_col : Int)
        (kernelSize kernel_shape N) (computeDOffset kernel_shape N (c_col : Int) d_offset))
      = (List.range n).map (fun (r : Nat) =>
          im2colIndices im_shape col_shape kernel_shape stride dilation pad N (c_col : Int)
            (r : Int)) := by
  obtain ⟨-, hoff⟩ := computeDOffset_spec kernel_shape N hks (c_col : Int) (by omega) d_offset
    hlen
  apply List.ext_getElem
  · rw [List.length_map, List.length_map, List.length_range, hvl]
  · intro j h1 h2
    rw [List.length_map] at h1
    obtain ⟨-, hv, hrank⟩ := hel j h1
    rw [List.getD_eq_getElem _ _ h1] at hv hrank
    rw [List.getElem_map, List.getElem_map, List.getElem_range,
      computeIndices_rank im_shape col_shape kernel_shape stride dilation pad N (c_col : Int)
        _ _ hks (by omega) hoff hv, hrank, zero_add]
    rfl

/-- On a geometry with kernel and output extents at least 1 the index trace ends normally, and
its triples are, for each listed `c_col` in turn, the triples of the output positions in
row-major order. -/
theorem indexTrace_spec (im_shape col_shape kernel_shape stride dilation pad : List Int)
    (N : Nat) (hks : ∀ i, i < N → 1 ≤ at64 kernel_shape i)
    (hcol : ∀ i, i < N → 1 ≤ spatialExtent col_shape i)
    (fuel : Nat) (hfuel : extentProd (spatialExtent col_shape) N ≤ (fuel : Int))
    (cs : List Nat) (d_offset d_iter : List Int) (hlen : d_offset.length = N)
    (hd : d_iter = List.replicate N 0) :
    indexTrace im_shape col_shape kernel_shape stride dilation pad N (kernelSize kernel_shape N)
        fuel cs d_offset d_iter
      = Outcome.done (cs.flatMap (fun (c_col : Nat) =>
          (List.range (extentProd (spatialExtent col_shape) N).toNat).map (fun (r : Nat) =>
            im2colIndices im_shape col_shape kernel_shape stride dilation pad N (c_col : Int)
              (r : Int)))) := by
  induction cs generalizing d_offset d_iter with
  | nil => rfl
  | cons c rest ih =>
    subst hd
    have hzero : flatIndex (spatialExtent col_shape) (at64 (List.replicate N 0)) 0 N = 0 :=
      flatIndex_zero _ _ N (fun i _ => at64_replicate_zero N i)
    have hv : inExtents (spatialExtent col_shape) (at64 (List.replicate N 0)) N := by
      intro i hi
      rw [at64_replicate_zero]
      have := hcol i hi
      omega
    obtain ⟨visited, d_final, htr, hlenf, hz, hvl, hel⟩ :=
      positionTrace_spec col_shape N fuel (List.replicate N 0) (List.length_replicate N 0) hv
        (by rw [hzero]; omega)
    rw [hzero] at hvl hel
    rw [sub_zero] at hvl
    obtain ⟨hlen2, -⟩ := computeDOffset_spec kernel_shape N hks (c : Int) (by omega) d_offset
      hlen
    unfold indexTrace
    rw [htr]
    dsimp only
    rw [ih _ _ hlen2 (eq_replicate_zero d_final N hlenf hz)]
    dsimp only
    rw [map_computeIndices_eq im_shape col_shape kernel_shape stride dilation pad N hks c
      d_offset hlen visited _ hvl hel, List.flatMap_cons]

/-- On a geometry with kernel and output extents at least 1 and fuel for every output position,
the triples of the call of `Im2colNd` are those of the pairs (column row, output position),
the column rows in increasing order and, for each, the positions in row-major order. -/
theorem Im2colNdIndices_eq (im_shape col_shape kernel_shape stride dilation pad : List Int)
    (N : Nat) (hks : ∀ i, i < N → 1 ≤ at64 kernel_shape i)
    (hcol : ∀ i, i < N → 1 ≤ spatialExtent col_shape i)
    (fuel : Nat) (hfuel : extentProd (spatialExtent col_shape) N ≤ (fuel : Int)) :
    Im2colNdIndices im_shape col_shape kernel_shape stride dilation pad N fuel
      = Outcome.done ((List.range (at64 col_shape 0).toNat).flatMap (fun (c_col : Nat) =>
          (List.range (extentProd (spatialExtent col_shape) N).toNat).map (fun (r : Nat) =>
            im2colIndices im_shape col_shape kernel_shape stride dilation pad N (c_col : Int)
              (r : Int)))) := by
  unfold Im2colNdIndices
  exact indexTrace_spec im_shape col_shape kernel_shape stride dilation pad N hks hcol fuel
    hfuel _ _ _ (List.length_replicate N 0) rfl
/-! ## Index safety of `Im2colNd` -/

theorem prod_shape_eq (shape : List Int) (N : Nat) :
    ∏ i ∈ Finset.range (N + 1), at64 shape i
      = at64 shape 0 * extentProd (spatialExtent shape) N := by
  rw [Finset.prod_range_succ', extentProd_eq_prod, mul_comm]
  rfl

theorem mem_pair_triples (im_shape col_shape kernel_shape stride dilation pad : List Int)
    (N : Nat) (M Pn : Nat) (t : Int × Int × Bool)
    (ht : t ∈ (List.range M).flatMap (fun (c_col : Nat) =>
      (List.range Pn).map (fun (r : Nat) =>
        im2colIndices im_shape col_shape kernel_shape stride dilation pad N (c_col : Int)
          (r : Int)))) :
    ∃ c r : Nat, c < M ∧ r < Pn
      ∧ t = im2colIndices im_shape col_shape kernel_shape stride dilation pad N (c : Int)
          (r : Int) := by
  rw [List.mem_flatMap] at ht
  obtain ⟨c, hc, ht2⟩ := ht
  rw [List.mem_map] at ht2
  obtain ⟨r, hr, ht3⟩ := ht2
  exact ⟨c, r, List.mem_range.mp hc, List.mem_range.mp hr, ht3.symm⟩

/-- The index triple of a pair (column row, output position): the column index lies inside the
column buffer, and the image index lies inside the image when the position is not padding. -/
theorem im2colIndices_bounds (im_shape col_shape kernel_shape stride dilation pad : List Int)
    (N : Nat) (hks : ∀ i, i < N → 1 ≤ at64 kernel_shape i)
    (hcol : ∀ i, i < N → 1 ≤ spatialExtent col_shape i)
    (hshape : at64 col_shape 0 = at64 im_shape 0 * kernelSize kernel_shape N)
    (c r : Nat) (hc : (c : Int) < at64 col_shape 0)
    (hr : (r : Int) < extentProd (spatialExtent col_shape) N) :
    (0 ≤ (im2colIndices im_shape col_shape kernel_shape stride dilation pad N (c : Int)
          (r : Int)).1
      ∧ (im2colIndices im_shape col_shape kernel_shape stride dilation pad N (c : Int)
          (r : Int)).1 < ∏ i ∈ Finset.range (N + 1), at64 col_shape i)
    ∧ ((im2colIndices im_shape col_shape kernel_shape stride dilation pad N (c : Int)
          (r : Int)).2.2 = false →
        0 ≤ (im2colIndices im_shape col_shape kernel_shape stride dilation pad N (c : Int)
          (r : Int)).2.1
        ∧ (im2colIndices im_shape col_shape kernel_shape stride dilation pad N (c : Int)
          (r : Int)).2.1 < ∏ i ∈ Finset.range (N + 1), at64 im_shape i) := by
  have hP := extentProd_pos (spatialExtent col_shape) N hcol
  have hK := extentProd_pos (at64 kernel_shape) N hks
  rw [prod_shape_eq, prod_shape_eq]
  unfold im2colIndices
  dsimp only
  constructor
  · constructor
    · have : 0 ≤ (c : Int) * extentProd (spatialExtent col_shape) N :=
        mul_nonneg (by omega) (by omega)
      omega
    · have : ((c : Int) + 1) * extentProd (spatialExtent col_shape) N
          ≤ at64 col_shape 0 * extentProd (spatialExtent col_shape) N :=
        mul_le_mul_of_nonneg_right (by omega) (by omega)
      linarith
  · intro hpad
    have hin : inExtents (spatialExtent im_shape)
        (inputCoord stride dilation pad (mixedRadixDigit (spatialExtent col_shape) N (r : Int))
          (mixedRadixDigit (at64 kernel_shape) N (c : Int))) N := by
      intro i hi
      by_contra hcon
      have : isPadding im_shape
          (inputCoord stride dilation pad
            (mixedRadixDigit (spatialExtent col_shape) N (r : Int))
            (mixedRadixDigit (at64 kernel_shape) N (c : Int))) N = true :=
        (isPadding_iff im_shape _ N).mpr ⟨i, hi, by omega⟩
      rw [hpad] at this
      exact Bool.noConfusion this
    obtain ⟨h0, h1⟩ := flatIndex_bound _ _ N hin
    rw [kernelSize_eq] at hshape
    have hl0 : 0 ≤ (c : Int) / extentProd (at64 kernel_shape) N :=
      Int.ediv_nonneg (by omega) (by omega)
    have hl1 : (c : Int) / extentProd (at64 kernel_shape) N < at64 im_shape 0 :=
      Int.ediv_lt_of_lt_mul (by omega) (by rw [← hshape]; exact hc)
    rw [flatIndex_lead]
    constructor
    · have : 0 ≤ (c : Int) / extentProd (at64 kernel_shape) N
          * extentProd (spatialExtent im_shape) N := mul_nonneg hl0 (by omega)
      omega
    · have : ((c : Int) / extentProd (at64 kernel_shape) N + 1)
          * extentProd (spatialExtent im_shape) N
          ≤ at64 im_shape 0 * extentProd (spatialExtent im_shape) N :=
        mul_le_mul_of_nonneg_right (by omega) (by omega)
      linarith

/-- Claim C33. Index safety of `Im2colNd`.  With kernel extents at least 1, output extents at
least 1 and `col_shape[0] = im_shape[0] * kernel_size`, the call ends normally (no
`ORT_ENFORCE(d_iter[d_i] < d_max)` fails; fuel for every output position is enough), every
column index the loop body computes lies in `[0, product(col_shape))`, and every image index of
a position that is not padding, the only ones at which the image is accessed, lies in
`[0, product(im_shape))`; the buffer of the call is the result of the accesses at these
triples. -/
theorem Im2colNd_index_safety (im_shape col_shape kernel_shape stride dilation pad : List Int)
    (N : Nat) (hks : ∀ i, i < N → 1 ≤ at64 kernel_shape i)
    (hcol : ∀ i, i < N → 1 ≤ spatialExtent col_shape i)
    (hshape : at64 col_shape 0 = at64 im_shape 0 * kernelSize kernel_shape N)
    (fuel : Nat) (hfuel : (∏ i ∈ Finset.range N, spatialExtent col_shape i) ≤ (fuel : Int)) :
    ∃ log : List (Int × Int × Bool),
      Im2colNdIndices im_shape col_shape kernel_shape stride dilation pad N fuel
        = Outcome.done log
      ∧ (∀ t, t ∈ log → 0 ≤ t.1 ∧ t.1 < ∏ i ∈ Finset.range (N + 1), at64 col_shape i)
      ∧ (∀ t, t ∈ log → t.2.2 = false →
          0 ≤ t.2.1 ∧ t.2.1 < ∏ i ∈ Finset.range (N + 1), at64 im_shape i)
      ∧ ∀ {α : Type} [Add α] (data_img : Int → α) (data_col : Int → α)
          (accumulate_output : Bool) (padding_value : α),
          Im2colNd data_img im_shape col_shape kernel_shape stride dilation pad N data_col
              accumulate_output padding_value fuel
            = Outcome.done (log.foldl
                (fun (B : Int → α) (t : Int × Int × Bool) =>
                  writeElement accumulate_output padding_value data_img t.1 t.2.1 t.2.2 B)
                data_col) := by
  rw [← extentProd_eq_prod] at hfuel
  have hP := extentProd_pos (spatialExtent col_shape) N hcol
  have hlog := Im2colNdIndices_eq im_shape col_shape kernel_shape stride dilation pad N hks hcol
    fuel hfuel
  refine ⟨_, hlog, ?_, ?_, ?_⟩
  · intro t ht
    obtain ⟨c, r, hc, hr, rfl⟩ := mem_pair_triples _ _ _ _ _ _ _ _ _ t ht
    exact (im2colIndices_bounds im_shape col_shape kernel_shape stride dilation pad N hks hcol
      hshape c r (by omega) (by omega)).1
  · intro t ht
    obtain ⟨c, r, hc, hr, rfl⟩ := mem_pair_triples _ _ _ _ _ _ _ _ _ t ht
    exact (im2colIndices_bounds im_shape col_shape kernel_shape stride dilation pad N hks hcol
      hshape c r (by omega) (by omega)).2
  · intro α _ data_img data_col accumulate_output padding_value
    rw [Im2colNd_eq_indices, hlog]

/-- Claim C33 on a 3 x 3 image with one channel, a 2 x 2 kernel and 2 x 2 output positions. -/
theorem Im2colNd_index_safety_witness :
    ∃ log : List (Int × Int × Bool),
      Im2colNdIndices [1, 3, 3] [4, 2, 2] [2, 2] [1, 1] [1, 1] [0, 0] 2 4 = Outcome.done log
      ∧ (∀ t, t ∈ log → 0 ≤ t.1 ∧ t.1 < ∏ i ∈ Finset.range (2 + 1), at64 [4, 2, 2] i)
      ∧ (∀ t, t ∈ log → t.2.2 = false →
          0 ≤ t.2.1 ∧ t.2.1 < ∏ i ∈ Finset.range (2 + 1), at64 [1, 3, 3] i)
      ∧ ∀ {α : Type} [Add α] (data_img : Int → α) (data_col : Int → α)
          (accumulate_output : Bool) (padding_value : α),
          Im2colNd data_img [1, 3, 3] [4, 2, 2] [2, 2] [1, 1] [1, 1] [0, 0] 2 data_col
              accumulate_output padding_value 4
            = Outcome.done (log.foldl
                (fun (B : Int → α) (t : Int × Int × Bool) =>
                  writeElement accumulate_output padding_value data_img t.1 t.2.1 t.2.2 B)
                data_col) :=
  Im2colNd_index_safety [1, 3, 3] [4, 2, 2] [2, 2] [1, 1] [1, 1] [0, 0] 2
    (by decide) (by decide) (by decide) 4 (by decide)
/-! ## `Im2colNd` with an empty output -/

/-- One run of the counting loop when axis `j` has no valid coordinate (its extent is not
positive and `d_iter[j] = 0`) and the `m` axes after it have extents at least 1: the loop moves
to the next position of these `m` axes, and `ORT_ENFORCE` fails when the carry reaches axis
`j`.  It never ends with `incremented = false`. -/
theorem nextIter_blocked (col_shape : List Int) (j : Nat)
    (hj : spatialExtent col_shape j ≤ 0) (m : Nat) (d : List Int)
    (hlen : j + 1 + m ≤ d.length) (hdj : at64 d j = 0)
    (hv : inExtents (fun i => spatialExtent col_shape (j + 1 + i))
      (fun i => at64 d (j + 1 + i)) m) :
    (flatIndex (fun i => spatialExtent col_shape (j + 1 + i)) (fun i => at64 d (j + 1 + i)) 0 m
        + 1 < extentProd (fun i => spatialExtent col_shape (j + 1 + i)) m →
      ∃ d2, nextIter col_shape (j + 1 + m) d = some (d2, true) ∧ d2.length = d.length
        ∧ at64 d2 j = 0
        ∧ (∀ i, i < j → at64 d2 i = at64 d i)
        ∧ (∀ i, j + 1 + m ≤ i → at64 d2 i = at64 d i)
        ∧ inExtents (fun i => spatialExtent col_shape (j + 1 + i))
            (fun i => at64 d2 (j + 1 + i)) m
        ∧ flatIndex (fun i => spatialExtent col_shape (j + 1 + i))
            (fun i => at64 d2 (j + 1 + i)) 0 m
          = flatIndex (fun i => spatialExtent col_shape (j + 1 + i))
              (fun i => at64 d (j + 1 + i)) 0 m + 1)
    ∧ (flatIndex (fun i => spatialExtent col_shape (j + 1 + i)) (fun i => at64 d (j + 1 + i)) 0 m
        + 1 = extentProd (fun i => spatialExtent col_shape (j + 1 + i)) m →
      nextIter col_shape (j + 1 + m) d = none) := by
  induction m generalizing d with
  | zero =>
    constructor
    · intro h
      simp only [flatIndex, extentProd] at h
      omega
    · intro _
      have hlt : ¬ at64 d j < at64 col_shape (j + 1) := by
        rw [hdj]
        have : spatialExtent col_shape j = at64 col_shape (j + 1) := rfl
        omega
      show nextIter col_shape (j + 1) d = none
      unfold nextIter
      simp only
      rw [if_neg hlt]
  | succ m ih =>
    obtain ⟨hk0, hk1⟩ := hv m (by omega)
    dsimp only at hk0 hk1
    have hk1b : at64 d (j + 1 + m) < at64 col_shape (j + 1 + m + 1) := hk1
    have hklen : j + 1 + m < d.length := by omega
    obtain ⟨hr0, hr1⟩ := flatIndex_bound _ _ m (fun i hi => hv i (by omega))
    have hstep : nextIter col_shape (j + 1 + (m + 1)) d
        = if at64 d (j + 1 + m) = at64 col_shape (j + 1 + m + 1) - 1 then
            nextIter col_shape (j + 1 + m) (d.set (j + 1 + m) 0)
          else some (d.set (j + 1 + m) (at64 d (j + 1 + m) + 1), true) := by
      show nextIter col_shape (j + 1 + m + 1) d = _
      rw [nextIter, if_pos hk1b]
    rw [hstep]
    simp only [flatIndex, extentProd]
    by_cases hlast : at64 d (j + 1 + m) = at64 col_shape (j + 1 + m + 1) - 1
    · rw [if_pos hlast]
      have hlast2 : at64 d (j + 1 + m) = spatialExtent col_shape (j + 1 + m) - 1 := hlast
      have hset : ∀ i, i < m → at64 (d.set (j + 1 + m) 0) (j + 1 + i) = at64 d (j + 1 + i) := by
        intro i hi
        rw [at64_set _ _ _ _ hklen, if_neg (by omega)]
      have hv2 : inExtents (fun i => spatialExtent col_shape (j + 1 + i))
          (fun i => at64 (d.set (j + 1 + m) 0) (j + 1 + i)) m := by
        intro i hi
        dsimp only
        rw [hset i hi]
        exact hv i (by omega)
      have hcongr : flatIndex (fun i => spatialExtent col_shape (j + 1 + i))
          (fun i => at64 (d.set (j + 1 + m) 0) (j + 1 + i)) 0 m
          = flatIndex (fun i => spatialExtent col_shape (j + 1 + i))
              (fun i => at64 d (j + 1 + i)) 0 m :=
        flatIndex_congr _ _ _ 0 m hset
      have hdj2 : at64 (d.set (j + 1 + m) 0) j = 0 := by
        rw [at64_set _ _ _ _ hklen, if_neg (by omega), hdj]
      obtain ⟨ih1, ih2⟩ := ih (d.set (j + 1 + m) 0) (by simp; omega) hdj2 hv2
      rw [hcongr] at ih1 ih2
      constructor
      · intro h
        have hlt : flatIndex (fun i => spatialExtent col_shape (j + 1 + i))
            (fun i => at64 d (j + 1 + i)) 0 m + 1
            < extentProd (fun i => spatialExtent col_shape (j + 1 + i)) m := by
          by_contra hcon
          have heq : flatIndex (fun i => spatialExtent col_shape (j + 1 + i))
              (fun i => at64 d (j + 1 + i)) 0 m + 1
              = extentProd (fun i => spatialExtent col_shape (j + 1 + i)) m := by omega
          rw [← heq, hlast2] at h
          have : (flatIndex (fun i => spatialExtent col_shape (j + 1 + i))
              (fun i => at64 d (j + 1 + i)) 0 m + 1) * spatialExtent col_shape (j + 1 + m)
              = flatIndex (fun i => spatialExtent col_shape (j + 1 + i))
                (fun i => at64 d (j + 1 + i)) 0 m * spatialExtent col_shape (j + 1 + m)
                + (spatialExtent col_shape (j + 1 + m) - 1) + 1 := by ring
          omega
        obtain ⟨d2, h1, h2, h3, h7, h4, h5, h6⟩ := ih1 hlt
        have hd2k : at64 d2 (j + 1 + m) = 0 := by
          rw [h4 (j + 1 + m) (le_refl _), at64_set _ _ _ _ hklen, if_pos rfl]
        refine ⟨d2, h1, by simpa using h2, h3, ?_, ?_, ?_, ?_⟩
        · intro i hi
          rw [h7 i hi, at64_set _ _ _ _ hklen, if_neg (by omega)]
        · intro i hi
          rw [h4 i (by omega), at64_set _ _ _ _ hklen, if_neg (by omega)]
        · intro i hi
          by_cases hik : i = m
          · subst hik
            dsimp only
            rw [hd2k]
            exact ⟨le_refl 0, by omega⟩
          · exact h5 i (by omega)
        · rw [h6, hd2k, hlast2]
          ring
      · intro h
        apply ih2
        rw [hlast2] at h
        have hpos : 1 ≤ spatialExtent col_shape (j + 1 + m) := by omega
        have h2 : (flatIndex (fun i => spatialExtent col_shape (j + 1 + i))
            (fun i => at64 d (j + 1 + i)) 0 m + 1) * spatialExtent col_shape (j + 1 + m)
            = extentProd (fun i => spatialExtent col_shape (j + 1 + i)) m
              * spatialExtent col_shape (j + 1 + m) := by
          rw [← h]
          ring
        exact mul_right_cancel₀ (by omega) h2
    · rw [if_neg hlast]
      have hlast2 : at64 d (j + 1 + m) ≠ spatialExtent col_shape (j + 1 + m) - 1 := hlast
      have hset : ∀ i, i < m →
          at64 (d.set (j + 1 + m) (at64 d (j + 1 + m) + 1)) (j + 1 + i)
            = at64 d (j + 1 + i) := by
        intro i hi
        rw [at64_set _ _ _ _ hklen, if_neg (by omega)]
      have hle : (flatIndex (fun i => spatialExtent col_shape (j + 1 + i))
          (fun i => at64 d (j + 1 + i)) 0 m + 1) * spatialExtent col_shape (j + 1 + m)
          ≤ extentProd (fun i => spatialExtent col_shape (j + 1 + i)) m
            * spatialExtent col_shape (j + 1 + m) :=
        mul_le_mul_of_nonneg_right (by omega) (by omega)
      have hring : (flatIndex (fun i => spatialExtent col_shape (j + 1 + i))
          (fun i => at64 d (j + 1 + i)) 0 m + 1) * spatialExtent col_shape (j + 1 + m)
          = flatIndex (fun i => spatialExtent col_shape (j + 1 + i))
              (fun i => at64 d (j + 1 + i)) 0 m * spatialExtent col_shape (j + 1 + m)
            + spatialExtent col_shape (j + 1 + m) := by ring
      constructor
      · intro _
        refine ⟨_, rfl, by simp, ?_, ?_, ?_, ?_, ?_⟩
        · rw [at64_set _ _ _ _ hklen, if_neg (by omega), hdj]
        · intro i hi
          rw [at64_set _ _ _ _ hklen, if_neg (by omega)]
        · intro i hi
          rw [at64_set _ _ _ _ hklen, if_neg (by omega)]
        · intro i hi
          dsimp only
          by_cases hik : i = m
          · subst hik
            rw [at64_set _ _ _ _ hklen, if_pos rfl]
            exact ⟨by omega, by omega⟩
          · rw [hset i (by omega)]
            exact hv i (by omega)
        · rw [at64_set _ _ _ _ hklen, if_pos rfl,
            flatIndex_congr _ _ _ 0 m hset]
          ring
      · intro h
        exfalso
        omega

/-- The inner loop when axis `j` has no valid coordinate and the `m` axes after it have extents
at least 1: the loop never ends normally, and with fuel for the remaining positions of these
`m` axes it ends in the failure of `ORT_ENFORCE`, after one execution of the body for each of
these positions, the first at the starting `d_iter`: execution `k` is at the position that
agrees with the starting one on the axes up to `j` and has row-major rank `k` more on the axes
after `j`. -/
theorem positionTrace_blocked (col_shape : List Int) (j : Nat)
    (hj : spatialExtent col_shape j ≤ 0) (m : Nat) (fuel : Nat) (d : List Int)
    (hlen : j + 1 + m ≤ d.length) (hdj : at64 d j = 0)
    (hv : inExtents (fun i => spatialExtent col_shape (j + 1 + i))
      (fun i => at64 d (j + 1 + i)) m) :
    (∀ res, positionTrace col_shape (j + 1 + m) fuel d ≠ Outcome.done res)
    ∧ (extentProd (fun i => spatialExtent col_shape (j + 1 + i)) m
        - flatIndex (fun i => spatialExtent col_shape (j + 1 + i))
            (fun i => at64 d (j + 1 + i)) 0 m ≤ (fuel : Int) →
      ∃ (visited : List (List Int)) (d_final : List Int),
        positionTrace col_shape (j + 1 + m) fuel d = Outcome.enforceFailed (visited, d_final)
        ∧ (visited.length : Int)
          = extentProd (fun i => spatialExtent col_shape (j + 1 + i)) m
            - flatIndex (fun i => spatialExtent col_shape (j + 1 + i))
                (fun i => at64 d (j + 1 + i)) 0 m
        ∧ visited.head? = some d
        ∧ ∀ k : Nat, k < visited.length →
            ∃ dk : List Int, visited[k]? = some dk
              ∧ (∀ i, i ≤ j → at64 dk i = at64 d i)
              ∧ inExtents (fun i => spatialExtent col_shape (j + 1 + i))
                  (fun i => at64 dk (j + 1 + i)) m
              ∧ flatIndex (fun i => spatialExtent col_shape (j + 1 + i))
                  (fun i => at64 dk (j + 1 + i)) 0 m
                = flatIndex (fun i => spatialExtent col_shape (j + 1 + i))
                    (fun i => at64 d (j + 1 + i)) 0 m + (k : Int)) := by
  induction fuel generalizing d with
  | zero =>
    obtain ⟨-, hr1⟩ := flatIndex_bound _ _ m hv
    constructor
    · intro res h
      unfold positionTrace at h
      exact Outcome.noConfusion h
    · intro h
      omega
  | succ fuel ih =>
    obtain ⟨-, hr1⟩ := flatIndex_bound _ _ m hv
    obtain ⟨hn1, hn2⟩ := nextIter_blocked col_shape j hj m d hlen hdj hv
    by_cases hlt : flatIndex (fun i => spatialExtent col_shape (j + 1 + i))
        (fun i => at64 d (j + 1 + i)) 0 m + 1
        < extentProd (fun i => spatialExtent col_shape (j + 1 + i)) m
    · obtain ⟨d2, h1, h2, h3, h7, -, h5, h6⟩ := hn1 hlt
      obtain ⟨ih1, ih2⟩ := ih d2 (by omega) h3 h5
      unfold positionTrace
      rw [h1]
      dsimp only
      rw [if_pos rfl]
      constructor
      · intro res
        cases htr : positionTrace col_shape (j + 1 + m) fuel d2 with
        | done res2 => exact absurd htr (ih1 res2)
        | enforceFailed res2 =>
          intro h
          exact Outcome.noConfusion h
        | outOfFuel =>
          intro h
          exact Outcome.noConfusion h
      · intro hfuel
        obtain ⟨vis, df, htr, hl, -, hpos⟩ := ih2 (by rw [h6]; push_cast at hfuel; omega)
        rw [htr]
        refine ⟨d :: vis, df, rfl, ?_, rfl, ?_⟩
        · rw [List.length_cons]
          push_cast
          rw [hl, h6]
          ring
        · intro k hk
          cases k with
          | zero =>
            refine ⟨d, List.getElem?_cons_zero, fun _ _ => rfl, hv, ?_⟩
            push_cast
            ring
          | succ k =>
            obtain ⟨dk, e1, e2, e3, e4⟩ := hpos k (by simpa using hk)
            refine ⟨dk, by simpa using e1, ?_, e3, ?_⟩
            · intro i hi
              rw [e2 i hi]
              by_cases hij : i = j
              · rw [hij, h3, hdj]
              · exact h7 i (by omega)
            · rw [e4, h6]
              push_cast
              ring
    · have heq : flatIndex (fun i => spatialExtent col_shape (j + 1 + i))
          (fun i => at64 d (j + 1 + i)) 0 m + 1
          = extentProd (fun i => spatialExtent col_shape (j + 1 + i)) m := by omega
      unfold positionTrace
      rw [hn2 heq]
      constructor
      · intro res h
        exact Outcome.noConfusion h
      · intro _
        refine ⟨[d], d, rfl, ?_, rfl, ?_⟩
        · rw [List.length_singleton]
          push_cast
          omega
        · intro k hk
          have hk0 : k = 0 := by simpa using hk
          subst hk0
          refine ⟨d, rfl, fun _ _ => rfl, hv, ?_⟩
          push_cast
          ring

theorem exists_last_nonpos (e : Nat → Int) (N d : Nat) (hd : d < N) (h : e d ≤ 0) :
    ∃ j, d ≤ j ∧ j < N ∧ e j ≤ 0 ∧ ∀ i, j < i → i < N → 1 ≤ e i := by
  refine ⟨Nat.findGreatest (fun i => e i ≤ 0) (N - 1), ?_, ?_, ?_, ?_⟩
  · exact Nat.le_findGreatest (by omega) h
  · have := Nat.findGreatest_le (P := fun i => e i ≤ 0) (N - 1)
    omega
  · exact Nat.findGreatest_spec (P := fun i => e i ≤ 0) (show d ≤ N - 1 by omega) h
  · intro i hi hiN
    have := Nat.findGreatest_is_greatest (P := fun i => e i ≤ 0) hi (by omega)
    dsimp only at this
    omega

theorem indexTrace_cons_not_done (im_shape col_shape kernel_shape stride dilation pad : List Int)
    (N : Nat) (kernel_size : Int) (fuel : Nat) (c : Nat) (rest : List Nat)
    (d_offset d_iter : List Int)
    (h : ∀ res, positionTrace col_shape N fuel d_iter ≠ Outcome.done res)
    (log : List (Int × Int × Bool)) :
    indexTrace im_shape col_shape kernel_shape stride dilation pad N kernel_size fuel
      (c :: rest) d_offset d_iter ≠ Outcome.done log := by
  unfold indexTrace
  cases htr : positionTrace col_shape N fuel d_iter with
  | done res => exact absurd htr (h res)
  | enforceFailed res =>
    intro h2
    exact Outcome.noConfusion h2
  | outOfFuel =>
    intro h2
    exact Outcome.noConfusion h2

theorem indexTrace_cons_failed (im_shape col_shape kernel_shape stride dilation pad : List Int)
    (N : Nat) (kernel_size : Int) (fuel : Nat) (c : Nat) (rest : List Nat)
    (d_offset d_iter : List Int) (visited : List (List Int)) (d_final : List Int)
    (h : positionTrace col_shape N fuel d_iter = Outcome.enforceFailed (visited, d_final)) :
    indexTrace im_shape col_shape kernel_shape stride dilation pad N kernel_size fuel
        (c :: rest) d_offset d_iter
      = Outcome.enforceFailed (visited.map (computeIndices im_shape col_shape stride dilation
          pad N (c : Int) kernel_size (computeDOffset kernel_shape N (c : Int) d_offset))) := by
  unfold indexTrace
  rw [h]

/-- C34, counterexample: `col_shape = [4, 0, 2]`, two spatial axes with the zero extent on
the first one and extent 2 on the last one (a 2 x 2 kernel, unit strides and dilations, no
padding).  The loop body is executed for the position `(0, 0)` and then for the position
`(0, 1)`, and `ORT_ENFORCE(d_iter[d_i] < d_max)` fails only afterwards, when the carry reaches
the first axis: two executions, with the triples `(index_col, index_im, is_padding)` equal to
`(0, 0, false)` and `(1, 1, false)`, so that in im2col mode `data_col[1]` has received
`data_img[1]` before the failure. -/
theorem Im2colNd_zero_extent_two_positions :
    1 ≤ at64 [4, 0, 2] 0 ∧ spatialExtent [4, 0, 2] 0 = 0
    ∧ (∃ d_final : List Int,
        positionTrace [4, 0, 2] 2 2 [0, 0] = Outcome.enforceFailed ([[0, 0], [0, 1]], d_final))
    ∧ Im2colNdIndices [1, 3, 3] [4, 0, 2] [2, 2] [1, 1] [1, 1] [0, 0] 2 2
      = Outcome.enforceFailed [(0, 0, false), (1, 1, false)]
    ∧ ∃ B : Int → Int,
        Im2colNd (fun i => i + 100) [1, 3, 3] [4, 0, 2] [2, 2] [1, 1] [1, 1] [0, 0] 2
            (fun _ => 0) false 0 2 = Outcome.enforceFailed B
        ∧ B 0 = 100 ∧ B 1 = 101 := by
  refine ⟨by decide, rfl, ⟨_, rfl⟩, rfl, ?_⟩
  have hlog : Im2colNdIndices [1, 3, 3] [4, 0, 2] [2, 2] [1, 1] [1, 1] [0, 0] 2 2
      = Outcome.enforceFailed [(0, 0, false), (1, 1, false)] := rfl
  rw [Im2colNd_eq_indices, hlog]
  refine ⟨_, rfl, ?_, ?_⟩
  · simp [writeElement, Function.update]
  · simp [writeElement, Function.update]

/-- C34, amended: an empty output is an error in `Im2colNd`.  If `col_shape[0] ≥ 1`, every
kernel extent is at least 1 (the divisions of the loop body are then defined: `kernel_size ≥ 1`)
and some spatial output extent `col_shape[d + 1]` is 0 (so `N ≥ 1`), then no call returns
normally, whatever the buffers and the fuel; and with `j` the last axis whose extent is not
positive and `n ≥ 1` the product of the extents of the axes after `j` (1 when `j` is the last
axis), every call with fuel at least `n` executes the loop body `n` times for `c_col = 0`,
first at the position `(0, ..., 0)` and then at each further position of the axes after `j` in
row-major order (execution `k` at the position that is 0 on the axes up to `j` and has rank `k`
on the axes after `j`), and then fails `ORT_ENFORCE(d_iter[d_i] < d_max)`; the buffer at the
failure holds the accesses of these executions. -/
theorem Im2colNd_empty_output_fails
    (im_shape col_shape kernel_shape stride dilation pad : List Int) (N : Nat)
    (hc : 1 ≤ at64 col_shape 0) (hks : ∀ i, i < N → 1 ≤ at64 kernel_shape i)
    (d : Nat) (hd : d < N) (hzero : spatialExtent col_shape d = 0) :
    1 ≤ kernelSize kernel_shape N
    ∧ (∀ {α : Type} [Add α] (data_img : Int → α) (data_col : Int → α)
        (accumulate_output : Bool) (padding_value : α) (fuel : Nat) (out : Int → α),
        Im2colNd data_img im_shape col_shape kernel_shape stride dilation pad N data_col
          accumulate_output padding_value fuel ≠ Outcome.done out)
    ∧ ∃ j n : Nat, d ≤ j ∧ j < N ∧ spatialExtent col_shape j ≤ 0
        ∧ (∀ i, j < i → i < N → 1 ≤ spatialExtent col_shape i)
        ∧ (n : Int) = ∏ i ∈ Finset.Ico (j + 1) N, spatialExtent col_shape i ∧ 1 ≤ n
        ∧ ∀ fuel : Nat, n ≤ fuel →
          ∃ visited : List (List Int),
            visited.length = n
            ∧ visited.head? = some (List.replicate N 0)
            ∧ (∀ k : Nat, k < n →
                ∃ dk : List Int, visited[k]? = some dk
                  ∧ (∀ i, i ≤ j → at64 dk i = 0)
                  ∧ (∀ i, j < i → i < N →
                      0 ≤ at64 dk i ∧ at64 dk i < spatialExtent col_shape i)
                  ∧ flatIndex (fun i => spatialExtent col_shape (j + 1 + i))
                      (fun i => at64 dk (j + 1 + i)) 0 (N - (j + 1)) = (k : Int))
            ∧ Im2colNdIndices im_shape col_shape kernel_shape stride dilation pad N fuel
              = Outcome.enforceFailed (visited.map
                  (computeIndices im_shape col_shape stride dilation pad N 0
                    (kernelSize kernel_shape N)
                    (computeDOffset kernel_shape N 0 (List.replicate N 0))))
            ∧ ∀ {α : Type} [Add α] (data_img : Int → α) (data_col : Int → α)
                (accumulate_output : Bool) (padding_value : α),
                Im2colNd data_img im_shape col_shape kernel_shape stride dilation pad N
                    data_col accumulate_output padding_value fuel
                  = Outcome.enforceFailed ((visited.map
                      (computeIndices im_shape col_shape stride dilation pad N 0
                        (kernelSize kernel_shape N)
                        (computeDOffset kernel_shape N 0 (List.replicate N 0)))).foldl
                      (fun (B : Int → α) (t : Int × Int × Bool) =>
                        writeElement accumulate_output padding_value data_img t.1 t.2.1 t.2.2
                          B) data_col) := by
  have hksize : 1 ≤ kernelSize kernel_shape N := by
    rw [kernelSize_eq]
    exact extentProd_pos _ N hks
  obtain ⟨j, hdj, hjN, hj, hafter⟩ :=
    exists_last_nonpos (spatialExtent col_shape) N d hd (by omega)
  obtain ⟨m, rfl⟩ : ∃ m, N = j + 1 + m := ⟨N - (j + 1), by omega⟩
  obtain ⟨M, hM⟩ : ∃ M, (at64 col_shape 0).toNat = M + 1 :=
    ⟨(at64 col_shape 0).toNat - 1, by omega⟩
  have hrange : List.range (at64 col_shape 0).toNat
      = 0 :: List.map Nat.succ (List.range M) := by
    rw [hM, List.range_succ_eq_map]
  have hz : at64 (List.replicate (j + 1 + m) 0) j = 0 := at64_replicate_zero _ _
  have hv : inExtents (fun i => spatialExtent col_shape (j + 1 + i))
      (fun i => at64 (List.replicate (j + 1 + m) 0) (j + 1 + i)) m := by
    intro i hi
    dsimp only
    rw [at64_replicate_zero]
    have := hafter (j + 1 + i) (by omega) (by omega)
    omega
  have hrank : flatIndex (fun i => spatialExtent col_shape (j + 1 + i))
      (fun i => at64 (List.replicate (j + 1 + m) 0) (j + 1 + i)) 0 m = 0 :=
    flatIndex_zero _ _ m (fun i _ => at64_replicate_zero _ _)
  have hP : 1 ≤ extentProd (fun i => spatialExtent col_shape (j + 1 + i)) m :=
    extentProd_pos _ m (fun i hi => hafter (j + 1 + i) (by omega) (by omega))
  have hblocked := fun fuel => positionTrace_blocked col_shape j hj m fuel
    (List.replicate (j + 1 + m) 0) (by rw [List.length_replicate]) hz hv
  have hnot : ∀ fuel log,
      Im2colNdIndices im_shape col_shape kernel_shape stride dilation pad (j + 1 + m) fuel
        ≠ Outcome.done log := by
    intro fuel log
    unfold Im2colNdIndices
    rw [hrange]
    exact indexTrace_cons_not_done _ _ _ _ _ _ _ _ _ _ _ _ _ (hblocked fuel).1 log
  refine ⟨hksize, ?_, ?_⟩
  · intro α _ data_img data_col accumulate_output padding_value fuel out
    rw [Im2colNd_eq_indices]
    cases htr : Im2colNdIndices im_shape col_shape kernel_shape stride dilation pad
        (j + 1 + m) fuel with
    | done log => exact absurd htr (hnot fuel log)
    | enforceFailed log =>
      intro h
      exact Outcome.noConfusion h
    | outOfFuel =>
      intro h
      exact Outcome.noConfusion h
  · refine ⟨j, (extentProd (fun i => spatialExtent col_shape (j + 1 + i)) m).toNat, hdj, hjN,
      hj, hafter, ?_, by omega, ?_⟩
    · rw [Int.toNat_of_nonneg (by omega), extentProd_eq_prod, Finset.prod_Ico_eq_prod_range,
        Nat.add_sub_cancel_left]
    · intro fuel hfuel
      obtain ⟨visited, d_final, htr, hl, hhead, hpos⟩ :=
        (hblocked fuel).2 (by rw [hrank]; omega)
      rw [hrank, sub_zero] at hl
      have hlog : Im2colNdIndices im_shape col_shape kernel_shape stride dilation pad
          (j + 1 + m) fuel
          = Outcome.enforceFailed (visited.map (computeIndices im_shape col_shape stride
              dilation pad (j + 1 + m) ((0 : Nat) : Int) (kernelSize kernel_shape (j + 1 + m))
              (computeDOffset kernel_shape (j + 1 + m) ((0 : Nat) : Int)
                (List.replicate (j + 1 + m) 0)))) := by
        unfold Im2colNdIndices
        rw [hrange]
        exact indexTrace_cons_failed _ _ _ _ _ _ _ _ _ _ _ _ _ _ _ htr
      have hlen : visited.length
          = (extentProd (fun i => spatialExtent col_shape (j + 1 + i)) m).toNat := by
        omega
      refine ⟨visited, hlen, hhead, ?_, hlog, ?_⟩
      · intro k hk
        obtain ⟨dk, e1, e2, e3, e4⟩ := hpos k (by omega)
        refine ⟨dk, e1, ?_, ?_, ?_⟩
        · intro i hi
          rw [e2 i hi]
          exact at64_replicate_zero _ _
        · intro i hi1 hi2
          have := e3 (i - (j + 1)) (by omega)
          dsimp only at this
          rw [show j + 1 + (i - (j + 1)) = i by omega] at this
          exact this
        · rw [Nat.add_sub_cancel_left, e4, hrank, zero_add]
      · intro α _ data_img data_col accumulate_output padding_value
        rw [Im2colNd_eq_indices, hlog]
        rfl

/-- Witness of C34 (amended) at `col_shape = [4, 0, 2]` with a 2 x 2 kernel: the zero extent is
on the first spatial axis and the last axis has extent 2. -/
theorem Im2colNd_empty_output_fails_witness :
    1 ≤ kernelSize [2, 2] 2
    ∧ (∀ {α : Type} [Add α] (data_img : Int → α) (data_col : Int → α)
        (accumulate_output : Bool) (padding_value : α) (fuel : Nat) (out : Int → α),
        Im2colNd data_img [1, 3, 3] [4, 0, 2] [2, 2] [1, 1] [1, 1] [0, 0] 2 data_col
          accumulate_output padding_value fuel ≠ Outcome.done out)
    ∧ ∃ j n : Nat, 0 ≤ j ∧ j < 2 ∧ spatialExtent [4, 0, 2] j ≤ 0
        ∧ (∀ i, j < i → i < 2 → 1 ≤ spatialExtent [4, 0, 2] i)
        ∧ (n : Int) = ∏ i ∈ Finset.Ico (j + 1) 2, spatialExtent [4, 0, 2] i ∧ 1 ≤ n
        ∧ ∀ fuel : Nat, n ≤ fuel →
          ∃ visited : List (List Int),
            visited.length = n
            ∧ visited.head? = some (List.replicate 2 0)
            ∧ (∀ k : Nat, k < n →
                ∃ dk : List Int, visited[k]? = some dk
                  ∧ (∀ i, i ≤ j → at64 dk i = 0)
                  ∧ (∀ i, j < i → i < 2 →
                      0 ≤ at64 dk i ∧ at64 dk i < spatialExtent [4, 0, 2] i)
                  ∧ flatIndex (fun i => spatialExtent [4, 0, 2] (j + 1 + i))
                      (fun i => at64 dk (j + 1 + i)) 0 (2 - (j + 1)) = (k : Int))
            ∧ Im2colNdIndices [1, 3, 3] [4, 0, 2] [2, 2] [1, 1] [1, 1] [0, 0] 2 fuel
              = Outcome.enforceFailed (visited.map
                  (computeIndices [1, 3, 3] [4, 0, 2] [1, 1] [1, 1] [0, 0] 2 0
                    (kernelSize [2, 2] 2)
                    (computeDOffset [2, 2] 2 0 (List.replicate 2 0))))
            ∧ ∀ {α : Type} [Add α] (data_img : Int → α) (data_col : Int → α)
                (accumulate_output : Bool) (padding_value : α),
                Im2colNd data_img [1, 3, 3] [4, 0, 2] [2, 2] [1, 1] [1, 1] [0, 0] 2
                    data_col accumulate_output padding_value fuel
                  = Outcome.enforceFailed ((visited.map
                      (computeIndices [1, 3, 3] [4, 0, 2] [1, 1] [1, 1] [0, 0] 2 0
                        (kernelSize [2, 2] 2)
                        (computeDOffset [2, 2] 2 0 (List.replicate 2 0)))).foldl
                      (fun (B : Int → α) (t : Int × Int × Bool) =>
                        writeElement accumulate_output padding_value data_img t.1 t.2.1 t.2.2
                          B) data_col) :=
  Im2colNd_empty_output_fails [1, 3, 3] [4, 0, 2] [2, 2] [1, 1] [1, 1] [0, 0] 2
    (by decide) (by decide) 0 (by decide) (by decide)

/-- With the zero extent on the last spatial axis the body is executed for `(0, 0)` alone
before `ORT_ENFORCE` fails. -/
theorem Im2colNdIndices_zero_extent_last_axis :
    Im2colNdIndices [1, 3, 3] [4, 2, 0] [2, 2] [1, 1] [1, 1] [0, 0] 2 2
      = Outcome.enforceFailed [(0, 0, false)] := by
  rfl
/-! ## `Im2colNd` in im2col mode overwrites the column buffer -/

theorem flatMap_range_index (M Pn : Nat) (P : Int) (hP : (Pn : Int) = P) :
    (List.range M).flatMap (fun (c : Nat) =>
        (List.range Pn).map (fun (r : Nat) => (c : Int) * P + (r : Int)))
      = (List.range (M * Pn)).map (fun (k : Nat) => (k : Int)) := by
  induction M with
  | zero => simp
  | succ M ih =>
    rw [List.range_succ, List.flatMap_append, ih, Nat.succ_mul, List.range_add,
      List.map_append, List.map_map]
    simp only [List.flatMap_cons, List.flatMap_nil, List.append_nil]
    congr 1
    apply List.map_congr_left
    intro r _
    simp only [Function.comp]
    rw [← hP]
    push_cast
    ring

theorem toNat_mul_toNat (a b : Int) (hb : 1 ≤ b) : (a * b).toNat = a.toNat * b.toNat := by
  have h := toNat_mul_three a b 1 hb (le_refl 1)
  rw [mul_one] at h
  rw [h]
  simp

/-- The writes of im2col mode: the element at `index_col` is replaced by a value that does not
depend on the buffer. -/
theorem writeElement_false {α : Type} [Add α] (padding_value : α) (data_img : Int → α)
    (t : Int × Int × Bool) (B : Int → α) :
    writeElement false padding_value data_img t.1 t.2.1 t.2.2 B
      = Function.update B t.1 (if t.2.2 = true then padding_value else data_img t.2.1) := by
  unfold writeElement
  cases t.2.2 <;> rfl

/-- Claim C36. `Im2colNd` in im2col mode (`accumulate_output = false`), for kernel and output
extents at least 1 (fuel for every output position): the call returns; the indices its loop
bodies write are `0, 1, ..., product(col_shape) - 1`, each exactly once (in this order); each
write replaces an element by a value that does not depend on the buffer; hence the buffers
returned for two initial buffers agree on `[0, product(col_shape))`, the elements outside this
range are unchanged, and running the transform on its own result returns the same buffer. -/
theorem Im2colNd_im2col_overwrites {α : Type} [Add α] (data_img : Int → α)
    (im_shape col_shape kernel_shape stride dilation pad : List Int) (N : Nat)
    (padding_value : α)
    (hks : ∀ i, i < N → 1 ≤ at64 kernel_shape i)
    (hcol : ∀ i, i < N → 1 ≤ spatialExtent col_shape i)
    (fuel : Nat) (hfuel : (∏ i ∈ Finset.range N, spatialExtent col_shape i) ≤ (fuel : Int)) :
    ∃ log : List (Int × Int × Bool),
      Im2colNdIndices im_shape col_shape kernel_shape stride dilation pad N fuel
        = Outcome.done log
      ∧ log.map (fun t => t.1)
        = (List.range (∏ i ∈ Finset.range (N + 1), at64 col_shape i).toNat).map
            (fun (k : Nat) => (k : Int))
      ∧ ∀ B1 B2 : Int → α, ∃ R1 R2 : Int → α,
          Im2colNd data_img im_shape col_shape kernel_shape stride dilation pad N B1 false
            padding_value fuel = Outcome.done R1
          ∧ Im2colNd data_img im_shape col_shape kernel_shape stride dilation pad N B2 false
            padding_value fuel = Outcome.done R2
          ∧ R1 = log.foldl
              (fun (B : Int → α) (t : Int × Int × Bool) =>
                Function.update B t.1 (if t.2.2 = true then padding_value else data_img t.2.1))
              B1
          ∧ (∀ j : Int, 0 ≤ j → j < ∏ i ∈ Finset.range (N + 1), at64 col_shape i →
              R1 j = R2 j)
          ∧ (∀ j : Int, ¬ (0 ≤ j ∧ j < ∏ i ∈ Finset.range (N + 1), at64 col_shape i) →
              R1 j = B1 j)
          ∧ Im2colNd data_img im_shape col_shape kernel_shape stride dilation pad N R1 false
            padding_value fuel = Outcome.done R1 := by
  rw [← extentProd_eq_prod] at hfuel
  have hP := extentProd_pos (spatialExtent col_shape) N hcol
  have hPn : (((extentProd (spatialExtent col_shape) N).toNat : Nat) : Int)
      = extentProd (spatialExtent col_shape) N := Int.toNat_of_nonneg (by omega)
  have hlog := Im2colNdIndices_eq im_shape col_shape kernel_shape stride dilation pad N hks hcol
    fuel hfuel
  have hall := fun B => Im2colNd_eq_allWrites data_img im_shape col_shape kernel_shape stride
    dilation pad N B false padding_value hks hcol fuel hfuel
  have hval := fun B j => im2colAllWrites_false_apply data_img im_shape col_shape kernel_shape
    stride dilation pad N padding_value hP (at64 col_shape 0).toNat B j
  have hrange : ∀ j : Int,
      (0 ≤ j ∧ j < (((at64 col_shape 0).toNat : Nat) : Int)
        * extentProd (spatialExtent col_shape) N)
      ↔ (0 ≤ j ∧ j < ∏ i ∈ Finset.range (N + 1), at64 col_shape i) := by
    intro j
    rw [prod_shape_eq]
    by_cases h0 : 0 ≤ at64 col_shape 0
    · rw [Int.toNat_of_nonneg h0]
    · have h1 : (at64 col_shape 0).toNat = 0 := Int.toNat_of_nonpos (by omega)
      have h2 : at64 col_shape 0 * extentProd (spatialExtent col_shape) N ≤ 0 :=
        mul_nonpos_of_nonpos_of_nonneg (by omega) (by omega)
      rw [h1]
      constructor
      · intro h
        simp only [Nat.cast_zero, zero_mul] at h
        omega
      · intro h
        omega
  refine ⟨_, hlog, ?_, ?_⟩
  · rw [List.map_flatMap, prod_shape_eq, toNat_mul_toNat _ _ hP]
    have : ∀ c : Nat, List.map (fun (t : Int × Int × Bool) => t.1)
        ((List.range (extentProd (spatialExtent col_shape) N).toNat).map (fun (r : Nat) =>
          im2colIndices im_shape col_shape kernel_shape stride dilation pad N (c : Int)
            (r : Int)))
        = (List.range (extentProd (spatialExtent col_shape) N).toNat).map
            (fun (r : Nat) => (c : Int) * extentProd (spatialExtent col_shape) N + (r : Int)) := by
      intro c
      rw [List.map_map]
      rfl
    simp only [this]
    exact flatMap_range_index _ _ _ hPn
  · intro B1 B2
    refine ⟨_, _, hall B1, hall B2, ?_, ?_, ?_, ?_⟩
    · have h1 := Im2colNd_eq_indices data_img im_shape col_shape kernel_shape stride dilation
        pad N B1 false padding_value fuel
      rw [hlog, hall B1] at h1
      dsimp only at h1
      rw [Outcome.done.injEq] at h1
      rw [h1]
      congr 1
      funext B t
      exact writeElement_false padding_value data_img t B
    · intro j hj0 hj1
      rw [hval B1 j, hval B2 j, if_pos ((hrange j).mpr ⟨hj0, hj1⟩),
        if_pos ((hrange j).mpr ⟨hj0, hj1⟩)]
    · intro j hj
      rw [hval B1 j, if_neg (fun h => hj ((hrange j).mp h))]
    · rw [hall]
      congr 1
      funext j
      rw [hval, hval B1 j]
      by_cases h : 0 ≤ j ∧ j < (((at64 col_shape 0).toNat : Nat) : Int)
          * extentProd (spatialExtent col_shape) N
      · rw [if_pos h, if_pos h]
      · rw [if_neg h, if_neg h]

/-- Claim C36 on a 2 x 2 image with one channel, a 2 x 2 kernel, pads 1 and 3 x 3 output
positions. -/
theorem Im2colNd_im2col_overwrites_witness :
    ∃ log : List (Int × Int × Bool),
      Im2colNdIndices [1, 2, 2] [4, 3, 3] [2, 2] [1, 1] [1, 1] [1, 1] 2 9 = Outcome.done log
      ∧ log.map (fun t => t.1)
        = (List.range (∏ i ∈ Finset.range (2 + 1), at64 [4, 3, 3] i).toNat).map
            (fun (k : Nat) => (k : Int))
      ∧ ∀ B1 B2 : Int → Int, ∃ R1 R2 : Int → Int,
          Im2colNd (fun p => p + 1) [1, 2, 2] [4, 3, 3] [2, 2] [1, 1] [1, 1] [1, 1] 2 B1 false
            7 9 = Outcome.done R1
          ∧ Im2colNd (fun p => p + 1) [1, 2, 2] [4, 3, 3] [2, 2] [1, 1] [1, 1] [1, 1] 2 B2 false
            7 9 = Outcome.done R2
          ∧ R1 = log.foldl
              (fun (B : Int → Int) (t : Int × Int × Bool) =>
                Function.update B t.1 (if t.2.2 = true then 7 else (fun p => p + 1) t.2.1))
              B1
          ∧ (∀ j : Int, 0 ≤ j → j < ∏ i ∈ Finset.range (2 + 1), at64 [4, 3, 3] i →
              R1 j = R2 j)
          ∧ (∀ j : Int, ¬ (0 ≤ j ∧ j < ∏ i ∈ Finset.range (2 + 1), at64 [4, 3, 3] i) →
              R1 j = B1 j)
          ∧ Im2colNd (fun p => p + 1) [1, 2, 2] [4, 3, 3] [2, 2] [1, 1] [1, 1] [1, 1] 2 R1 false
            7 9 = Outcome.done R1 :=
  Im2colNd_im2col_overwrites (fun p => p + 1) [1, 2, 2] [4, 3, 3] [2, 2] [1, 1] [1, 1] [1, 1] 2
    7 (by decide) (by decide) 9 (by decide)
/-! ## col2im is the adjoint of im2col -/

theorem pairImageIndex_eq (im_shape col_shape kernel_shape stride dilation pad : List Int)
    (N : Nat) (hks : ∀ i, i < N → 1 ≤ at64 kernel_shape i) (c_col r : Int) :
    flatIndex (spatialExtent im_shape)
      (inputCoord stride dilation pad (mixedRadixDigit (spatialExtent col_shape) N r)
        (mixedRadixDigit (at64 kernel_shape) N c_col))
      (c_col / extentProd (at64 kernel_shape) N) N
      = pairImageIndex im_shape col_shape kernel_shape stride dilation pad N c_col r := by
  unfold pairImageIndex
  rw [flatIndex_congr (spatialExtent im_shape) _ _ _ N
    (pairCoord_eq col_shape kernel_shape stride dilation pad N hks c_col r),
    extentProd_eq_prod]

/-- The element im2col mode stores for a pair: the image element the pair addresses when its
input coordinates are in range, the padding value otherwise. -/
theorem im2colValue_eq_pair {α : Type} (data_img : Int → α)
    (im_shape col_shape kernel_shape stride dilation pad : List Int) (N : Nat)
    (hks : ∀ i, i < N → 1 ≤ at64 kernel_shape i) (padding_value : α) (c_col r : Int) :
    im2colValue data_img im_shape col_shape kernel_shape stride dilation pad N padding_value
        c_col r
      = if pairInRange im_shape col_shape kernel_shape stride dilation pad N c_col r then
          data_img (pairImageIndex im_shape col_shape kernel_shape stride dilation pad N
            c_col r)
        else padding_value := by
  unfold im2colValue
  rw [pairImageIndex_eq im_shape col_shape kernel_shape stride dilation pad N hks]
  by_cases hin : pairInRange im_shape col_shape kernel_shape stride dilation pad N c_col r
  · rw [(isPadding_eq_false_iff im_shape col_shape kernel_shape stride dilation pad N hks
      c_col r).mpr hin, if_pos hin, if_neg Bool.false_ne_true]
  · have hpad : isPadding im_shape
        (inputCoord stride dilation pad (mixedRadixDigit (spatialExtent col_shape) N r)
          (mixedRadixDigit (at64 kernel_shape) N c_col)) N = true := by
      by_contra h
      exact hin ((isPadding_eq_false_iff im_shape col_shape kernel_shape stride dilation pad N
        hks c_col r).mp (Bool.eq_false_iff.mpr h))
    rw [hpad, if_pos rfl, if_neg hin]

/-- The image index of a pair in range lies inside the image. -/
theorem pairImageIndex_bounds (im_shape col_shape kernel_shape stride dilation pad : List Int)
    (N : Nat) (hks : ∀ i, i < N → 1 ≤ at64 kernel_shape i)
    (hcol : ∀ i, i < N → 1 ≤ spatialExtent col_shape i)
    (hshape : at64 col_shape 0 = at64 im_shape 0 * kernelSize kernel_shape N)
    (c r : Nat) (hc : (c : Int) < at64 col_shape 0)
    (hr : (r : Int) < extentProd (spatialExtent col_shape) N)
    (hin : pairInRange im_shape col_shape kernel_shape stride dilation pad N (c : Int)
      (r : Int)) :
    0 ≤ pairImageIndex im_shape col_shape kernel_shape stride dilation pad N (c : Int) (r : Int)
    ∧ pairImageIndex im_shape col_shape kernel_shape stride dilation pad N (c : Int) (r : Int)
      < ∏ i ∈ Finset.range (N + 1), at64 im_shape i := by
  have h := (im2colIndices_bounds im_shape col_shape kernel_shape stride dilation pad N hks hcol
    hshape c r hc hr).2
  unfold im2colIndices at h
  dsimp only at h
  rw [pairImageIndex_eq im_shape col_shape kernel_shape stride dilation pad N hks] at h
  exact h ((isPadding_eq_false_iff im_shape col_shape kernel_shape stride dilation pad N hks
    (c : Int) (r : Int)).mpr hin)

theorem sum_range_ite_eq (n : Nat) (a : Int) (f : Nat → Int) (v : Int) (h0 : 0 ≤ a)
    (h1 : a < (n : Int)) :
    ∑ p ∈ Finset.range n, f p * (if a = (p : Int) then v else 0) = f a.toNat * v := by
  have hmem : a.toNat ∈ Finset.range n := by
    rw [Finset.mem_range]
    omega
  rw [Finset.sum_eq_single_of_mem a.toNat hmem]
  · rw [if_pos (Int.toNat_of_nonneg h0).symm]
  · intro p _ hp
    rw [if_neg, mul_zero]
    intro h
    apply hp
    omega

/-- Claim C35. col2im is the adjoint of im2col.  For every image `x` and column buffer `y` of
integers and every geometry with kernel and output extents at least 1 and
`col_shape[0] = im_shape[0] * kernel_size`: with `im2col(x)` the buffer `Im2colNd` returns with
`accumulate_output = false` and `padding_value = 0`, and `col2im(y)` the buffer it returns with
`accumulate_output = true` from a zero image,
`sum_j im2col(x)[j] * y[j] = sum_p x[p] * col2im(y)[p]`, `j` over the indices of the column
buffer and `p` over the indices of the image. -/
theorem Im2colNd_adjoint (x y : Int → Int)
    (im_shape col_shape kernel_shape stride dilation pad : List Int) (N : Nat)
    (data_col : Int → Int) (padding_value : Int)
    (hks : ∀ i, i < N → 1 ≤ at64 kernel_shape i)
    (hcol : ∀ i, i < N → 1 ≤ spatialExtent col_shape i)
    (hshape : at64 col_shape 0 = at64 im_shape 0 * kernelSize kernel_shape N)
    (fuel : Nat) (hfuel : (∏ i ∈ Finset.range N, spatialExtent col_shape i) ≤ (fuel : Int)) :
    ∃ colbuf imbuf : Int → Int,
      Im2colNd x im_shape col_shape kernel_shape stride dilation pad N data_col false 0 fuel
        = Outcome.done colbuf
      ∧ Im2colNd y im_shape col_shape kernel_shape stride dilation pad N (fun _ => 0) true
          padding_value fuel = Outcome.done imbuf
      ∧ ∑ j ∈ Finset.range (∏ i ∈ Finset.range (N + 1), at64 col_shape i).toNat,
          colbuf (j : Int) * y (j : Int)
        = ∑ p ∈ Finset.range (∏ i ∈ Finset.range (N + 1), at64 im_shape i).toNat,
            x (p : Int) * imbuf (p : Int) := by
  rw [← extentProd_eq_prod] at hfuel
  have hP := extentProd_pos (spatialExtent col_shape) N hcol
  have hPn : (((extentProd (spatialExtent col_shape) N).toNat : Nat) : Int)
      = extentProd (spatialExtent col_shape) N := Int.toNat_of_nonneg (by omega)
  refine ⟨_, _, Im2colNd_eq_allWrites x im_shape col_shape kernel_shape stride dilation pad N
      data_col false 0 hks hcol fuel hfuel,
    Im2colNd_eq_allWrites y im_shape col_shape kernel_shape stride dilation pad N (fun _ => 0)
      true padding_value hks hcol fuel hfuel, ?_⟩
  have hL : ∑ j ∈ Finset.range (∏ i ∈ Finset.range (N + 1), at64 col_shape i).toNat,
      im2colAllWrites x im_shape col_shape kernel_shape stride dilation pad N false 0
        (at64 col_shape 0).toNat data_col (j : Int) * y (j : Int)
      = ∑ c ∈ Finset.range (at64 col_shape 0).toNat,
          ∑ r ∈ Finset.range (extentProd (spatialExtent col_shape) N).toNat,
            (if pairInRange im_shape col_shape kernel_shape stride dilation pad N (c : Int)
                (r : Int) then
              x (pairImageIndex im_shape col_shape kernel_shape stride dilation pad N (c : Int)
                (r : Int)) * y (pairColIndex col_shape N (c : Int) (r : Int))
            else 0) := by
    rw [prod_shape_eq, toNat_mul_toNat _ _ hP, sum_range_mul_reindex]
    apply Finset.sum_congr rfl
    intro c hc
    apply Finset.sum_congr rfl
    intro r hr
    have hc2 := Finset.mem_range.mp hc
    have hr2 := Finset.mem_range.mp hr
    have hcast : ((c * (extentProd (spatialExtent col_shape) N).toNat + r : Nat) : Int)
        = (c : Int) * extentProd (spatialExtent col_shape) N + (r : Int) := by
      push_cast
      rw [hPn]
    obtain ⟨hdiv, hmod⟩ := int_digit (c : Int) (r : Int)
      (extentProd (spatialExtent col_shape) N) (by omega) (by omega)
    have hlt : (c : Int) * extentProd (spatialExtent col_shape) N + (r : Int)
        < (((at64 col_shape 0).toNat : Nat) : Int) * extentProd (spatialExtent col_shape) N := by
      have : ((c : Int) + 1) * extentProd (spatialExtent col_shape) N
          ≤ (((at64 col_shape 0).toNat : Nat) : Int)
            * extentProd (spatialExtent col_shape) N :=
        mul_le_mul_of_nonneg_right (by omega) (by omega)
      linarith
    have hge : 0 ≤ (c : Int) * extentProd (spatialExtent col_shape) N + (r : Int) := by
      have : 0 ≤ (c : Int) * extentProd (spatialExtent col_shape) N :=
        mul_nonneg (by omega) (by omega)
      omega
    rw [hcast, im2colAllWrites_false_apply _ _ _ _ _ _ _ _ _ hP, if_pos ⟨hge, hlt⟩, hdiv, hmod,
      im2colValue_eq_pair _ _ _ _ _ _ _ _ hks]
    by_cases hin : pairInRange im_shape col_shape kernel_shape stride dilation pad N (c : Int)
        (r : Int)
    · rw [if_pos hin, if_pos hin]
      unfold pairColIndex
      rw [extentProd_eq_prod]
    · rw [if_neg hin, if_neg hin, zero_mul]
  have hR : ∑ p ∈ Finset.range (∏ i ∈ Finset.range (N + 1), at64 im_shape i).toNat,
      x (p : Int) * im2colAllWrites y im_shape col_shape kernel_shape stride dilation pad N true
        padding_value (at64 col_shape 0).toNat (fun _ => 0) (p : Int)
      = ∑ c ∈ Finset.range (at64 col_shape 0).toNat,
          ∑ r ∈ Finset.range (extentProd (spatialExtent col_shape) N).toNat,
            (if pairInRange im_shape col_shape kernel_shape stride dilation pad N (c : Int)
                (r : Int) then
              x (pairImageIndex im_shape col_shape kernel_shape stride dilation pad N (c : Int)
                (r : Int)) * y (pairColIndex col_shape N (c : Int) (r : Int))
            else 0) := by
    have h1 : ∀ p : Nat,
        x (p : Int) * im2colAllWrites y im_shape col_shape kernel_shape stride dilation pad N
          true padding_value (at64 col_shape 0).toNat (fun _ => 0) (p : Int)
        = ∑ c ∈ Finset.range (at64 col_shape 0).toNat,
            ∑ r ∈ Finset.range (extentProd (spatialExtent col_shape) N).toNat,
              x (p : Int) * (if pairInRange im_shape col_shape kernel_shape stride dilation pad
                    N (c : Int) (r : Int)
                  ∧ pairImageIndex im_shape col_shape kernel_shape stride dilation pad N
                    (c : Int) (r : Int) = (p : Int)
                then y (pairColIndex col_shape N (c : Int) (r : Int)) else 0) := by
      intro p
      rw [im2colAllWrites_true_apply _ _ _ _ _ _ _ _ hks, zero_add, ← extentProd_eq_prod,
        Finset.mul_sum]
      apply Finset.sum_congr rfl
      intro c _
      rw [Finset.mul_sum]
    rw [Finset.sum_congr rfl (fun p _ => h1 p), Finset.sum_comm]
    apply Finset.sum_congr rfl
    intro c hc
    rw [Finset.sum_comm]
    apply Finset.sum_congr rfl
    intro r hr
    have hc2 := Finset.mem_range.mp hc
    have hr2 := Finset.mem_range.mp hr
    by_cases hin : pairInRange im_shape col_shape kernel_shape stride dilation pad N (c : Int)
        (r : Int)
    · obtain ⟨hb0, hb1⟩ := pairImageIndex_bounds im_shape col_shape kernel_shape stride
        dilation pad N hks hcol hshape c r (by omega) (by omega) hin
      have h2 : ∀ p : Nat,
          x (p : Int) * (if pairInRange im_shape col_shape kernel_shape stride dilation pad
                N (c : Int) (r : Int)
              ∧ pairImageIndex im_shape col_shape kernel_shape stride dilation pad N
                (c : Int) (r : Int) = (p : Int)
            then y (pairColIndex col_shape N (c : Int) (r : Int)) else 0)
          = x (p : Int) * (if pairImageIndex im_shape col_shape kernel_shape stride dilation
                pad N (c : Int) (r : Int) = (p : Int)
            then y (pairColIndex col_shape N (c : Int) (r : Int)) else 0) := by
        intro p
        by_cases hp : pairImageIndex im_shape col_shape kernel_shape stride dilation pad N
            (c : Int) (r : Int) = (p : Int)
        · rw [if_pos ⟨hin, hp⟩, if_pos hp]
        · rw [if_neg (fun h => hp h.2), if_neg hp]
      rw [Finset.sum_congr rfl (fun p _ => h2 p),
        sum_range_ite_eq _ _ (fun p => x (p : Int)) _ hb0
          (by rw [Int.toNat_of_nonneg (by omega)]; exact hb1),
        if_pos hin, Int.toNat_of_nonneg hb0]
    · rw [if_neg hin]
      apply Finset.sum_eq_zero
      intro p _
      rw [if_neg (fun h => hin h.1), mul_zero]
  rw [hL, hR]

/-- Claim C35 on a 2 x 2 image with one channel, a 2 x 2 kernel, pads 1 and 3 x 3 output
positions, for `x[p] = p + 1` and `y[j] = 2 * j + 1`. -/
theorem Im2colNd_adjoint_witness :
    ∃ colbuf imbuf : Int → Int,
      Im2colNd (fun p => p + 1) [1, 2, 2] [4, 3, 3] [2, 2] [1, 1] [1, 1] [1, 1] 2 (fun _ => 0)
        false 0 9 = Outcome.done colbuf
      ∧ Im2colNd (fun j => 2 * j + 1) [1, 2, 2] [4, 3, 3] [2, 2] [1, 1] [1, 1] [1, 1] 2
          (fun _ => 0) true 0 9 = Outcome.done imbuf
      ∧ ∑ j ∈ Finset.range (∏ i ∈ Finset.range (2 + 1), at64 [4, 3, 3] i).toNat,
          colbuf (j : Int) * (fun j => 2 * j + 1) (j : Int)
        = ∑ p ∈ Finset.range (∏ i ∈ Finset.range (2 + 1), at64 [1, 2, 2] i).toNat,
            (fun p => p + 1) (p : Int) * imbuf (p : Int) :=
  Im2colNd_adjoint (fun p => p + 1) (fun j => 2 * j + 1) [1, 2, 2] [4, 3, 3] [2, 2] [1, 1]
    [1, 1] [1, 1] 2 (fun _ => 0) 0 (by decide) (by decide) (by decide) 9 (by decide)
/-! ## Shape validation of the quantized convolution -/

/-- For a stride of at least 1 the inferred output extent of an axis is not positive exactly
when the dilated kernel, of extent `dilation * (kernelExtent - 1) + 1`, exceeds the padded
input. -/
theorem inferredOutputExtent_nonpos_iff (a : ConvAxisConfig) (hs : 1 ≤ a.stride) :
    inferredOutputExtent a ≤ 0
      ↔ a.inputExtent + a.padBefore + a.padAfter < a.dilation * (a.kernelExtent - 1) + 1 := by
  unfold inferredOutputExtent
  rw [Int.fdiv_eq_ediv _ (by omega)]
  generalize hx :
    a.inputExtent + a.padBefore + a.padAfter - (a.dilation * (a.kernelExtent - 1) + 1) = x
  have h1 := Int.ediv_add_emod x a.stride
  have h2 := Int.emod_nonneg x (show a.stride ≠ 0 by omega)
  have h3 := Int.emod_lt_of_pos x (show 0 < a.stride by omega)
  constructor
  · intro h
    have h4 : a.stride * (x / a.stride) ≤ a.stride * (-1) :=
      Int.mul_le_mul_of_nonneg_left (by omega) (by omega)
    omega
  · intro h
    by_contra hc
    have h4 : 0 ≤ a.stride * (x / a.stride) := mul_nonneg (by omega) (by omega)
    omega

/-- Claim C16. A convolution configuration whose inferred output extent is not positive on some
spatial axis is rejected before any output is computed: the quantized convolution returns no
output shape and no data, whatever the compute step is, and for a stride of at least 1 the
extent of an axis is not positive exactly when the dilated kernel exceeds the padded input.  A
configuration whose inferred extents are all positive is not rejected: it returns the inferred
extents and the data computed for them. -/
theorem quantizedConvolution_rejects_nonpositive_extent (axes : List ConvAxisConfig) :
    (∀ a : ConvAxisConfig, 1 ≤ a.stride →
        (inferredOutputExtent a ≤ 0
          ↔ a.inputExtent + a.padBefore + a.padAfter
              < a.dilation * (a.kernelExtent - 1) + 1))
    ∧ ((∃ a, a ∈ axes ∧ inferredOutputExtent a ≤ 0) →
        ∀ {β : Type} (compute : List Int → β), quantizedConvolution axes compute = none)
    ∧ ((∀ a, a ∈ axes → 1 ≤ inferredOutputExtent a) →
        ∀ {β : Type} (compute : List Int → β),
          quantizedConvolution axes compute
            = some (axes.map inferredOutputExtent, compute (axes.map inferredOutputExtent))) := by
  refine ⟨inferredOutputExtent_nonpos_iff, ?_, ?_⟩
  · rintro ⟨a, ha, hext⟩ β compute
    unfold quantizedConvolution
    rw [if_neg]
    intro hall
    rw [List.all_eq_true] at hall
    have := hall (inferredOutputExtent a) (List.mem_map_of_mem _ ha)
    rw [decide_eq_true_eq] at this
    omega
  · intro hpos β compute
    unfold quantizedConvolution
    rw [if_pos]
    rw [List.all_eq_true]
    intro e he
    obtain ⟨a, ha, rfl⟩ := List.mem_map.mp he
    rw [decide_eq_true_eq]
    exact hpos a ha

/-- A 5 x 2 input with a 3 x 3 kernel, no padding, unit strides and dilations: the inferred
extents are 3 and 0 and the configuration is rejected; with a padding of 1 on both sides of the
second axis the extents are 3 and 2 and the configuration is accepted. -/
theorem quantizedConvolution_examples :
    inferredOutputExtent ⟨5, 3, 0, 0, 1, 1⟩ = 3
    ∧ inferredOutputExtent ⟨2, 3, 0, 0, 1, 1⟩ = 0
    ∧ quantizedConvolution [⟨5, 3, 0, 0, 1, 1⟩, ⟨2, 3, 0, 0, 1, 1⟩]
        (fun (shape : List Int) => shape.length) = none
    ∧ quantizedConvolution [⟨5, 3, 0, 0, 1, 1⟩, ⟨2, 3, 1, 1, 1, 1⟩]
        (fun (shape : List Int) => shape.length) = some ([3, 2], 2) := by
  refine ⟨by decide, by decide, by decide, by decide⟩

end OnnxRuntime
